import Mathlib

/-!
# Maya → OGRE exporter: blend-shape collector, animation sampler, export command

Shallow embedding of `src/src/blendshape.cpp` (with the data types of
`animation.h`, `vertex.h`, `blendshape.h` and `paramlist.h`), of the command of
`src/src/ogreExporter.cpp` (`doIt`, `translateNode`, `writeOgreData`,
`writeClipLengths`, `exit`, and the curve written by `writeAnim`), of
`ParamList::parseArgs` (`src/src/paramlist.cpp`), of the key tracks of
`src/include/particles.h`, and of the insert into the vertex table, whose code
(`mesh.cpp`) is not among the sources.

Conventions of the embedding

* `float` / `double` are exact rationals (`ℚ`); `int` / `long` are unbounded
  integers (no index or key time of the modelled code comes near the machine
  range). Where the rounding of a `float` operation matters (the sample times
  and the keyframe times of `loadTrack`), the model takes the rounding as a
  parameter `fl`: `loadTrackF roundF32` is the binary32 arithmetic of the
  program, `loadTrackF id` is `loadTrack`, the exact arithmetic.
* The authoring tool is the record `Scene`: the values the Maya API calls made by
  the blend-shape code read and write. The export command runs in a `World`, and
  the code it calls outside `ogreExporter.cpp` answers through an `Oracle`. The
  command line is a list of `MArg`, read in an `ArgEnv`.
* `Exec α` is the outcome of running a piece of code: `.ok a`, or a `Fault`
  when the run has no defined result (a loop still running when the fuel is
  spent, an unchecked container access outside its bounds, a division by zero).
* Output to `std::cout` is not modelled.
-/

namespace OgreMayaExporter

/-! ## Execution outcomes -/

/-- Reasons for which a run of the code has no defined result. -/
inductive Fault where
  /-- a `for`/`while` loop without static bound was still running when the fuel ran out -/
  | outOfFuel
  /-- unchecked access outside a container (`vector[]`, `MIntArray[]`, `find(k)->second` at
  `end()`), or a division by zero -/
  | undefinedBehaviour
  deriving DecidableEq, Repr

/-- Outcome of a run: a value or a fault. -/
abbrev Exec (α : Type) := Except Fault α

/-- Unchecked `std::vector::operator[]`: defined only inside the bounds. -/
def vecGet {α : Type} (xs : List α) (i : Int) : Exec α :=
  if 0 ≤ i then
    match xs[i.toNat]? with
    | some a => .ok a
    | none => .error .undefinedBehaviour
  else .error .undefinedBehaviour

/-! ## MIntArray (Maya API)

As documented by the Maya API: `clear()` sets the length to 0 and does not change the
memory allocated to the array; `setLength(n)` changes the length, and the elements by
which the array grows are uninitialised, that is, they hold whatever the store holds
(after `clear()`, the values written before); `operator[]` is unchecked. -/

/-- Maya integer array: a length over a backing store. -/
structure MIntArray where
  length : Nat
  store : Nat → Int

namespace MIntArray

/-- Array holding the elements of a list. -/
def ofList (l : List Int) : MIntArray :=
  { length := l.length, store := fun i => l.getD i 0 }

/-- Model of `MIntArray::clear()`. -/
def clear (a : MIntArray) : MIntArray := { a with length := 0 }

/-- Model of `MIntArray::setLength(n)`. -/
def setLength (a : MIntArray) (n : Nat) : MIntArray := { a with length := n }

/-- Read `a[i]`. -/
def get (a : MIntArray) (i : Int) : Exec Int :=
  if 0 ≤ i ∧ i.toNat < a.length then .ok (a.store i.toNat) else .error .undefinedBehaviour

/-- Write `a[i] = v`. -/
def set (a : MIntArray) (i : Nat) (v : Int) : Exec MIntArray :=
  if i < a.length then .ok { a with store := Function.update a.store i v }
  else .error .undefinedBehaviour

end MIntArray

/-! ## animation.h -/

/-- Track type. -/
inductive trackType where
  | TT_SKELETON
  | TT_MORPH
  | TT_POSE
  deriving DecidableEq, Repr

/-- Target of a pose or of a track. -/
inductive target where
  | T_MESH
  | T_SUBMESH
  deriving DecidableEq, Repr

/-- Vertex position. -/
structure vertexPosition where
  x : ℚ
  y : ℚ
  z : ℚ
  deriving DecidableEq

/-- Vertex pose reference. -/
structure vertexPoseRef where
  poseIndex : Int
  poseWeight : ℚ
  deriving DecidableEq

/-- Vertex animation keyframe. -/
structure vertexKeyframe where
  time : ℚ
  positions : List vertexPosition
  poserefs : List vertexPoseRef
  deriving DecidableEq

/-- Skeleton animation keyframe. -/
structure skeletonKeyframe where
  time : ℚ
  tx : ℚ
  ty : ℚ
  tz : ℚ
  angle : ℚ
  axis_x : ℚ
  axis_y : ℚ
  axis_z : ℚ
  sx : ℚ
  sy : ℚ
  sz : ℚ
  deriving DecidableEq

/-- Blend shape data: offset of one vertex. -/
structure vertexOffset where
  index : Int
  x : ℚ
  y : ℚ
  z : ℚ
  deriving DecidableEq

/-- Blend shape pose. -/
structure pose where
  poseTarget : target
  index : Int
  blendShapeIndex : Int
  name : String
  offsets : List vertexOffset
  deriving DecidableEq

/-- Animation track: skeleton, morph or pose animation. -/
structure Track where
  m_type : trackType
  m_target : target
  m_index : Int
  m_bone : String
  m_vertexKeyframes : List vertexKeyframe
  m_skeletonKeyframes : List skeletonKeyframe
  deriving DecidableEq

/-- Result of `Track::clear()`, the state of a freshly constructed track. -/
def Track.clear : Track :=
  { m_type := .TT_SKELETON, m_target := .T_MESH, m_index := 0, m_bone := "",
    m_vertexKeyframes := [], m_skeletonKeyframes := [] }

/-- Model of `Track::addVertexKeyframe`. -/
def Track.addVertexKeyframe (t : Track) (k : vertexKeyframe) : Track :=
  { t with m_vertexKeyframes := t.m_vertexKeyframes ++ [k] }

/-! ## vertex.h -/

/-- Texture coordinates. -/
structure texcoord where
  u : ℚ
  v : ℚ
  w : ℚ
  deriving DecidableEq

/-- Vertex bone assignment. -/
structure vba where
  weight : ℚ
  jointIdx : Int
  deriving DecidableEq

/-- Vertex data; `index` is the vertex index in the Maya mesh to which this vertex refers. -/
structure vertex where
  x : ℚ
  y : ℚ
  z : ℚ
  n : ℚ × ℚ × ℚ
  r : ℚ
  g : ℚ
  b : ℚ
  a : ℚ
  texcoords : List texcoord
  vbas : List vba
  index : Int
  deriving DecidableEq

/-! ## paramlist.h -/

/-- One animation clip (`clipInfo`, paramlist.h 75-82). -/
structure clipInfo where
  start : ℚ
  stop : ℚ
  rate : ℚ
  name : String := ""
  offsetAnimation : Bool := false
  deriving DecidableEq

/-- What is sent to the stream `outAnim`: a piece of text, a float, or the float
`num / den * 100` (kept unevaluated, `den` may be 0). -/
inductive AnimItem where
  | text (s : String)
  | number (x : ℚ)
  | percent (num den : ℚ)
  deriving DecidableEq

/-- The enumeration `NeutralPoseType` (paramlist.h 84-88). -/
inductive NeutralPoseType where
  | NPT_CURFRAME
  | NPT_BINDPOSE
  deriving DecidableEq

/-- The enumeration `TangentSemantic` (paramlist.h 90-94). -/
inductive TangentSemantic where
  | TS_TEXCOORD
  | TS_TANGENT
  deriving DecidableEq

/-- The enumerators of `Ogre::MeshVersion` named by `parseArgs` (paramlist.cpp 480-500). -/
inductive MeshVersion where
  | MESH_VERSION_LATEST
  | MESH_VERSION_1_10
  | MESH_VERSION_1_8
  | MESH_VERSION_1_7
  | MESH_VERSION_1_4
  | MESH_VERSION_1_0
  deriving DecidableEq

/-- Export parameters; the defaults are those of the `ParamList` constructor. -/
structure ParamList where
  exportWorldCoords : Bool := false
  optimizePoseAnimation : Bool := false
  bsBB : Bool := false
  lum : ℚ := 1
  exportMesh : Bool := false
  exportMaterial : Bool := false
  exportSkeleton : Bool := false
  exportSkelAnims : Bool := false
  exportVertAnims : Bool := false
  exportBlendShapes : Bool := false
  exportAnimCurves : Bool := false
  exportAnimCurvesXML : Bool := false
  exportCameras : Bool := false
  exportParticles : Bool := false
  exportAll : Bool := false
  vertClipList : List clipInfo := []
  outAnim : List AnimItem := []
  outAnimXML : List AnimItem := []
  animSkipZeroValues : Bool := false
  exportVBA : Bool := false
  exportVertNorm : Bool := false
  exportVertCol : Bool := false
  exportTexCoord : Bool := false
  exportCamerasAnim : Bool := false
  exportCamerasAnimXML : Bool := false
  exportBSAnims : Bool := false
  useSharedGeom : Bool := false
  lightingOff : Bool := false
  copyTextures : Bool := false
  buildTangents : Bool := false
  preventZeroTangent : Bool := false
  buildEdges : Bool := false
  skelBB : Bool := false
  vertBB : Bool := false
  tangentsSplitMirrored : Bool := false
  tangentsSplitRotated : Bool := false
  tangentsUseParity : Bool := false
  uvScale : ℚ := 10
  meshFilename : String := ""
  skeletonFilename : String := ""
  materialFilename : String := ""
  animFilename : String := ""
  camerasFilename : String := ""
  matPrefix : String := ""
  texOutputDir : String := ""
  particlesFilename : String := ""
  animFilenameXML : String := ""
  camerasFilenameXML : String := ""
  skelClipList : List clipInfo := []
  BSClipList : List clipInfo := []
  neutralPoseType : NeutralPoseType := .NPT_CURFRAME
  tangentSemantic : TangentSemantic := .TS_TANGENT
  /-- assigned by `parseArgs` (paramlist.cpp 480-500); the member is not declared in
  `paramlist.h` and the constructor does not set it, so no statement relies on the value
  written here -/
  targetMeshVersion : MeshVersion := .MESH_VERSION_LATEST

/-! ## The authoring tool -/

/-- Identity of a dependency-graph plug. -/
abbrev Plug := Nat

/-- Point of a Maya mesh. -/
structure MFloatPoint where
  x : ℚ
  y : ℚ
  z : ℚ
  deriving DecidableEq

/-- State of the Maya scene seen through the API calls of `blendshape.cpp`, for one
blend-shape deformer (`m_pBlendShapeFn`) and the mesh it deforms.

* `envelope`, `weight`: current values of the deformer envelope and of the weight
  with a given logical index; `weightIndexList`: the logical indices, in physical order.
* `weightSettable i`: whether `setWeight(i, _)` succeeds.
* `aliasAttr`: the answer to `aliasAttr -q <deformer>`.
* `getPoints world envelope weight`: the points `MFnMesh::getPoints` returns (in world
  or object space) when the deformer has that envelope and those weights.
* `envelopeAt t`, `weightAt t`: the envelope and weights of the scene evaluated at time `t`.
* `weightPlugs`: the elements of the `weight` plug in physical order;
  `connections`: the connections `(source, destination)` of the dependency graph.
* `strayString i`: the C string the process image holds `i` bytes after the start of the
  string literal `"pose"`, for `i` beyond the literal (see `defaultPoseName`). -/
structure Scene where
  currentTime : ℚ
  envelope : ℚ
  weightIndexList : List Int
  weight : Int → ℚ
  weightSettable : Int → Bool
  aliasAttr : List String
  getPoints : Bool → ℚ → (Int → ℚ) → List MFloatPoint
  envelopeAt : ℚ → ℚ
  weightAt : ℚ → Int → ℚ
  weightPlugs : List Plug
  connections : List (Plug × Plug)
  strayString : Nat → String

namespace Scene

/-- Model of `MAnimControl::setCurrentTime`: the scene is re-evaluated at the new time. -/
def setCurrentTime (s : Scene) (t : ℚ) : Scene :=
  { s with currentTime := t, envelope := s.envelopeAt t, weight := s.weightAt t }

/-- Model of `MFnBlendShapeDeformer::setEnvelope`. -/
def setEnvelope (s : Scene) (e : ℚ) : Scene := { s with envelope := e }

/-- Model of `MFnBlendShapeDeformer::setWeight`: the new scene and whether the call succeeded. -/
def setWeight (s : Scene) (i : Int) (w : ℚ) : Scene × Bool :=
  if s.weightSettable i then
    ({ s with weight := fun j => if j = i then w else s.weight j }, true)
  else (s, false)

/-- Model of `MDagModifier::disconnect(src, dst)` followed by `doIt()`. -/
def disconnect (s : Scene) (src dst : Plug) : Scene :=
  { s with connections := s.connections.filter (fun c => !(c.1 == src && c.2 == dst)) }

/-- Model of `MDagModifier::connect(src, dst)` followed by `doIt()`. -/
def connect (s : Scene) (src dst : Plug) : Scene :=
  if (src, dst) ∈ s.connections then s
  else { s with connections := s.connections ++ [(src, dst)] }

/-- Plugs fed by `p` (`p.connectedTo(_, false, true)`). -/
def destinationsOf (s : Scene) (p : Plug) : List Plug :=
  (s.connections.filter (fun c => c.1 == p)).map Prod.snd

/-- Plugs feeding `p` (`p.connectedTo(_, true, false)`). -/
def sourcesOf (s : Scene) (p : Plug) : List Plug :=
  (s.connections.filter (fun c => c.2 == p)).map Prod.fst

end Scene

/-! ## blendshape.h -/

/-- Connections of one weight element, as saved by `breakConnections`. -/
structure weightConnections where
  srcConnections : List Plug
  dstConnections : List Plug
  deriving DecidableEq

/-- Poses of one target. -/
structure poseGroup where
  targetIndex : Int
  poses : List pose
  deriving DecidableEq

/-- Members of `class BlendShape`. `m_poseGroups` is the `unordered_map<int, poseGroup>`, as
the partial map from keys to values; `m_pBlendShapeFn` is the `Scene` passed alongside. -/
structure BlendShape where
  m_origEnvelope : ℚ
  m_origWeights : List ℚ
  m_poseGroups : Int → Option poseGroup
  m_target : target
  m_weightConnections : List weightConnections
  poseOptArray : MIntArray

namespace BlendShape

/-- Model of `m_poseGroups.find(k)->second`: undefined when the key is absent. -/
def findGroup (bs : BlendShape) (k : Int) : Exec poseGroup :=
  match bs.m_poseGroups k with
  | some pg => .ok pg
  | none => .error .undefinedBehaviour

/-- Model of `m_poseGroups.insert(pair(k, pg))`: no effect when the key is present. -/
def insertGroup (bs : BlendShape) (k : Int) (pg : poseGroup) : BlendShape :=
  match bs.m_poseGroups k with
  | some _ => bs
  | none => { bs with m_poseGroups := fun j => if j = k then some pg else bs.m_poseGroups j }

/-- Write through the reference `poseGroup& pg = m_poseGroups.find(k)->second`. -/
def setGroup (bs : BlendShape) (k : Int) (pg : poseGroup) : BlendShape :=
  { bs with m_poseGroups := fun j => if j = k then some pg else bs.m_poseGroups j }

/-- Model of `BlendShape::clear()` (blendshape.cpp 77-90). -/
def clear (bs : BlendShape) : BlendShape :=
  { bs with
    m_origEnvelope := 0
    m_origWeights := []
    m_poseGroups := fun j => if j = 0 then some { targetIndex := 0, poses := [] } else none
    m_target := .T_MESH
    m_weightConnections := [] }

end BlendShape


/-! ## Pose names (blendshape.cpp 134-155, 218-243) -/

/-- Whitespace of the C locale, skipped by the `%d` directive. -/
def isCSpace (c : Char) : Bool :=
  c = ' ' || c = '\t' || c = '\n' || c = '\r' || c.toNat = 11 || c.toNat = 12

/-- Value of a run of decimal digits read left to right, and whether a digit was read. -/
def scanDigits : List Char → Nat → Bool → Nat × Bool
  | [], acc, seen => (acc, seen)
  | c :: cs, acc, seen =>
    if c.isDigit then scanDigits cs (10 * acc + (c.toNat - '0'.toNat)) true else (acc, seen)

/-- The `%d` directive: skip white space, read an optional sign and a non-empty run of digits. -/
def scanInt : List Char → Option Int
  | [] => none
  | c :: cs =>
    if isCSpace c then scanInt cs
    else
      let (neg, ds) :=
        if c = '-' then (true, cs) else if c = '+' then (false, cs) else (false, c :: cs)
      match scanDigits ds 0 false with
      | (n, true) => some (if neg then -(n : Int) else (n : Int))
      | (_, false) => none

/-- Model of `int idx = -1; sscanf(s, "weight[%d]", &idx);` giving the value of `idx`. -/
def sscanfWeight (s : String) : Int :=
  match ("weight[".toList).isPrefixOf s.toList with
  | true => (scanInt (s.toList.drop 7)).getD (-1)
  | false => -1

/-- The alias lookup loop `for (j=1; j<poseNames.length() && !foundName; j+=2)`: the list is
read as pairs `(poseNames[j-1], poseNames[j])` and the first pair whose second member parses
to `weight[i]` gives the name. -/
def findPoseName (i : Int) : List String → Option String
  | a :: b :: rest => if sscanfWeight b = i then some a else findPoseName i rest
  | _ => none

/-- Model of `MString poseName = "pose" + i;`: the addition is on the `const char*`, so the
name is the literal with its first `i` characters dropped; past the terminator (`i > 4`)
the read leaves the literal and gives whatever string the process image holds there. -/
def defaultPoseName (maya : Scene) (i : Nat) : String :=
  if i ≤ 4 then String.mk ("pose".toList.drop i) else maya.strayString i

/-- Name of the pose of channel position `i` in `loadPosesShared`. -/
def poseNameShared (maya : Scene) (poseNames : List String) (i : Nat) : String :=
  match findPoseName i poseNames with
  | some a => a
  | none => defaultPoseName maya i

/-- Name of the pose of channel position `i` in `loadPosesSubmesh`: a found alias gets the
decimal target index appended (`poseName += targetIndex`). -/
def poseNameSubmesh (maya : Scene) (poseNames : List String) (targetIndex : Int) (i : Nat) :
    String :=
  match findPoseName i poseNames with
  | some a => a ++ toString targetIndex
  | none => defaultPoseName maya i

namespace BlendShape

/-- The constructor `BlendShape::BlendShape()` (blendshape.cpp 63-68). -/
def new : BlendShape :=
  clear
    { m_origEnvelope := 0, m_origWeights := [], m_poseGroups := fun _ => none,
      m_target := .T_MESH, m_weightConnections := [],
      poseOptArray := MIntArray.clear { length := 0, store := fun _ => 0 } }

/-- Model of `BlendShape::load` (blendshape.cpp 93-108): save the envelope and the weights. -/
def load (bs : BlendShape) (maya : Scene) : BlendShape :=
  { bs with
    m_origEnvelope := maya.envelope
    m_origWeights := maya.weightIndexList.map maya.weight }

/-- Model of `BlendShape::setEnvelope` (blendshape.cpp 529-532). -/
def setEnvelope (_bs : BlendShape) (maya : Scene) (envelope : ℚ) : Scene :=
  maya.setEnvelope envelope

/-- Model of `BlendShape::restoreEnvelope` (blendshape.cpp 534-537). -/
def restoreEnvelope (bs : BlendShape) (maya : Scene) : Scene :=
  maya.setEnvelope bs.m_origEnvelope

/-- Loop over the weight elements in `breakConnections` (blendshape.cpp 547-580). -/
def breakConnectionsLoop : List Plug → BlendShape × Scene → BlendShape × Scene
  | [], st => st
  | wPlug :: rest, (bs, maya) =>
    let srcConnections := maya.destinationsOf wPlug
    let dstConnections := maya.sourcesOf wPlug
    let maya1 := srcConnections.foldl (fun s d => s.disconnect wPlug d) maya
    let maya2 := dstConnections.foldl (fun s d => s.disconnect d wPlug) maya1
    let wcon : weightConnections :=
      { srcConnections := srcConnections, dstConnections := dstConnections }
    breakConnectionsLoop rest
      ({ bs with m_weightConnections := bs.m_weightConnections ++ [wcon] }, maya2)

/-- Model of `BlendShape::breakConnections` (blendshape.cpp 539-581). -/
def breakConnections (bs : BlendShape) (maya : Scene) : BlendShape × Scene :=
  breakConnectionsLoop maya.weightPlugs ({ bs with m_weightConnections := [] }, maya)

/-- Loop over the weight elements in `restoreConnections` (blendshape.cpp 590-604);
`i` is the physical index of the head of the list. -/
def restoreConnectionsLoop (bs : BlendShape) : List Plug → Nat → Scene → Exec Scene
  | [], _, maya => .ok maya
  | wPlug :: rest, i, maya => do
    let wcon ← vecGet bs.m_weightConnections i
    let maya1 := wcon.srcConnections.foldl (fun s d => s.connect wPlug d) maya
    let maya2 := wcon.dstConnections.foldl (fun s d => s.connect d wPlug) maya1
    restoreConnectionsLoop bs rest (i + 1) maya2

/-- Model of `BlendShape::restoreConnections` (blendshape.cpp 585-605). -/
def restoreConnections (bs : BlendShape) (maya : Scene) : Exec Scene :=
  restoreConnectionsLoop bs maya.weightPlugs 0 maya

/-! ### Loading one pose (blendshape.cpp 282-404)

`PRECISION` is a macro of `mayaExportLayer.h`; it is a parameter here. The update of the
bounding boxes under `params.bsBB` writes only `m_boundingBox` of the loaded submeshes,
which is no part of this state, and is left out. -/

/-- Snap of one component: `if (fabs(c) < PRECISION) c = 0;`. -/
def snap (PRECISION c : ℚ) : ℚ := if |c| < PRECISION then 0 else c

/-- Offset computed for vertex `v` (blendshape.cpp 304-315, 367-378); `index` is the value
stored in `vo.index`. -/
def computeOffset (PRECISION : ℚ) (params : ParamList) (points : List MFloatPoint)
    (v : vertex) (index : Int) : Exec vertexOffset := do
  let pt ← vecGet points v.index
  .ok { index := index
        x := snap PRECISION (pt.x * params.lum - v.x)
        y := snap PRECISION (pt.y * params.lum - v.y)
        z := snap PRECISION (pt.z * params.lum - v.z) }

/-- Test `(vo.x!=0) || (vo.y!=0) || (vo.z!=0)`. -/
def offsetNonZero (vo : vertexOffset) : Bool :=
  vo.x != 0 || vo.y != 0 || vo.z != 0

/-- Loop `for (int i=0; i<numVertices; i++)` of `loadPoseShared` (blendshape.cpp 302-318):
`n` iterations remain, `i` is the loop counter, `acc` is `p.offsets`. -/
def offsetsShared (PRECISION : ℚ) (params : ParamList) (vertices : List vertex)
    (points : List MFloatPoint) (offset : Int) :
    Nat → Int → List vertexOffset → Exec (List vertexOffset)
  | 0, _, acc => .ok acc
  | n + 1, i, acc => do
    let v ← vecGet vertices (offset + i)
    let vo ← computeOffset PRECISION params points v (offset + i)
    offsetsShared PRECISION params vertices points offset n (i + 1)
      (if offsetNonZero vo then acc ++ [vo] else acc)

/-- Model of `BlendShape::loadPoseShared` (blendshape.cpp 282-341). -/
def loadPoseShared (PRECISION : ℚ) (bs : BlendShape) (maya : Scene) (params : ParamList)
    (vertices : List vertex) (numVertices offset : Int) (poseName : String)
    (blendShapeIndex : Int) : Exec BlendShape := do
  let pg ← bs.findGroup 0
  let points := maya.getPoints params.exportWorldCoords maya.envelope maya.weight
  let offsets ← offsetsShared PRECISION params vertices points offset numVertices.toNat 0 []
  let p : pose :=
    { poseTarget := bs.m_target, index := 0, blendShapeIndex := blendShapeIndex,
      name := poseName, offsets := offsets }
  if p.offsets.length > 0 then
    .ok (bs.setGroup 0 { pg with poses := pg.poses ++ [p] })
  else .ok bs

/-- Loop `for (int i=0; i<vertices.size(); i++)` of `loadPoseSubmesh` (blendshape.cpp
364-381): `n` iterations remain, `i` is the loop counter, `acc` is `p.offsets`. -/
def offsetsSubmesh (PRECISION : ℚ) (params : ParamList) (vertices : List vertex)
    (indices : List Int) (points : List MFloatPoint) :
    Nat → Int → List vertexOffset → Exec (List vertexOffset)
  | 0, _, acc => .ok acc
  | n + 1, i, acc => do
    let _vertexIdx ← vecGet indices i
    let v ← vecGet vertices i
    let vo ← computeOffset PRECISION params points v i
    offsetsSubmesh PRECISION params vertices indices points n (i + 1)
      (if offsetNonZero vo then acc ++ [vo] else acc)

/-- Model of `BlendShape::loadPoseSubmesh` (blendshape.cpp 344-404). -/
def loadPoseSubmesh (PRECISION : ℚ) (bs : BlendShape) (maya : Scene) (params : ParamList)
    (vertices : List vertex) (indices : List Int) (poseName : String)
    (targetIndex blendShapeIndex : Int) : Exec BlendShape := do
  let pg ← bs.findGroup targetIndex
  let points := maya.getPoints params.exportWorldCoords maya.envelope maya.weight
  let offsets ← offsetsSubmesh PRECISION params vertices indices points vertices.length 0 []
  let p : pose :=
    { poseTarget := bs.m_target, index := targetIndex, blendShapeIndex := blendShapeIndex,
      name := poseName, offsets := offsets }
  if p.offsets.length > 0 then
    .ok (bs.setGroup targetIndex { pg with poses := pg.poses ++ [p] })
  else .ok bs

/-! ### Loading all the poses of a deformer (blendshape.cpp 111-279) -/

/-- Loop `for (i) setWeight(indexList[i], 0)` (blendshape.cpp 124-133, 207-216); a failed
call is reported and the loop goes on. -/
def zeroWeights : List Int → Scene → Scene
  | [], maya => maya
  | w :: rest, maya => zeroWeights rest (maya.setWeight w 0).1

/-- Loop `for (i) setWeight(indexList[i], m_origWeights[i])` (blendshape.cpp 184-187,
272-275); `i` is the position of the head of the list. -/
def restoreWeights (bs : BlendShape) : List Int → Nat → Scene → Exec Scene
  | [], _, maya => .ok maya
  | w :: rest, i, maya => do
    let orig ← vecGet bs.m_origWeights i
    restoreWeights bs rest (i + 1) (maya.setWeight w orig).1

/-- Capture loop of `loadPosesShared` (blendshape.cpp 139-180); `i` is the position of the
head of the list in the weight index list. -/
def posesSharedLoop (PRECISION : ℚ) (params : ParamList) (vertices : List vertex)
    (numVertices offset : Int) (poseNames : List String) :
    List Int → Nat → BlendShape × Scene → Exec (BlendShape × Scene)
  | [], _, st => .ok st
  | w :: rest, i, (bs, maya) => do
    let poseName := poseNameShared maya poseNames i
    let maya1 := (maya.setWeight w 1).1
    let bs1 ← loadPoseShared PRECISION bs maya1 params vertices numVertices offset poseName i
    let maya2 := (maya1.setWeight w 0).1
    posesSharedLoop PRECISION params vertices numVertices offset poseNames rest (i + 1)
      (bs1, maya2)

/-- Model of `BlendShape::loadPosesShared` (blendshape.cpp 111-191). -/
def loadPosesShared (PRECISION : ℚ) (bs : BlendShape) (maya : Scene) (params : ParamList)
    (vertices : List vertex) (numVertices offset : Int) : Exec (BlendShape × Scene) := do
  let bs1 : BlendShape := { bs with m_target := .T_MESH }
  let maya1 := maya.setEnvelope 1
  let (bs2, maya2) := bs1.breakConnections maya1
  let indexList := maya2.weightIndexList
  let maya3 := zeroWeights indexList maya2
  let poseNames := maya3.aliasAttr
  let (bs3, maya4) ←
    posesSharedLoop PRECISION params vertices numVertices offset poseNames indexList 0
      (bs2, maya3)
  let maya5 := maya4.setEnvelope 0
  let maya6 ← restoreWeights bs3 indexList 0 maya5
  let maya7 ← bs3.restoreConnections maya6
  .ok (bs3, maya7)

/-- Capture loop of `loadPosesSubmesh` (blendshape.cpp 226-268); `i` is the position of the
head of the list in the weight index list. -/
def posesSubmeshLoop (PRECISION : ℚ) (params : ParamList) (vertices : List vertex)
    (indices : List Int) (targetIndex : Int) (poseNames : List String) :
    List Int → Nat → BlendShape × Scene → Exec (BlendShape × Scene)
  | [], _, st => .ok st
  | w :: rest, i, (bs, maya) => do
    let poseName := poseNameSubmesh maya poseNames targetIndex i
    let maya1 := (maya.setWeight w 1).1
    let bs1 ←
      loadPoseSubmesh PRECISION bs maya1 params vertices indices poseName targetIndex i
    let maya2 := (maya1.setWeight w 0).1
    posesSubmeshLoop PRECISION params vertices indices targetIndex poseNames rest (i + 1)
      (bs1, maya2)

/-- Model of `BlendShape::loadPosesSubmesh` (blendshape.cpp 194-279). -/
def loadPosesSubmesh (PRECISION : ℚ) (bs : BlendShape) (maya : Scene) (params : ParamList)
    (vertices : List vertex) (indices : List Int) (targetIndex : Int) :
    Exec (BlendShape × Scene) := do
  let bs1 : BlendShape := { bs with m_target := .T_SUBMESH }
  let maya1 := maya.setEnvelope 1
  let (bs2, maya2) := bs1.breakConnections maya1
  let indexList := maya2.weightIndexList
  let maya3 := zeroWeights indexList maya2
  let poseNames := maya3.aliasAttr
  let bs3 := bs2.insertGroup targetIndex { targetIndex := targetIndex, poses := [] }
  let (bs4, maya4) ←
    posesSubmeshLoop PRECISION params vertices indices targetIndex poseNames indexList 0
      (bs3, maya3)
  let maya5 := maya4.setEnvelope 0
  let maya6 ← restoreWeights bs4 indexList 0 maya5
  let maya7 ← bs4.restoreConnections maya6
  .ok (bs4, maya7)

/-! ### Animation sampling (blendshape.cpp 409-514) -/

/-- Loop of `loadKeyframe` over the poses of the group (blendshape.cpp 500-512); `i` is the
position of the head of the list in the group, `key` the keyframe built so far. -/
def keyframeLoop (bs : BlendShape) (maya : Scene) (indexList : MIntArray) (envelope : ℚ)
    (startPoseId : Int) : List pose → Nat → vertexKeyframe → Exec vertexKeyframe
  | [], _, key => .ok key
  | p :: rest, i, key => do
    let w ← indexList.get p.blendShapeIndex
    let poseref : vertexPoseRef :=
      { poseIndex := startPoseId + i, poseWeight := envelope * maya.weight w }
    if bs.poseOptArray.length = 0 then
      keyframeLoop bs maya indexList envelope startPoseId rest (i + 1)
        { key with poserefs := key.poserefs ++ [poseref] }
    else do
      let flag ← bs.poseOptArray.get i
      if flag = 1 then
        keyframeLoop bs maya indexList envelope startPoseId rest (i + 1)
          { key with poserefs := key.poserefs ++ [poseref] }
      else
        keyframeLoop bs maya indexList envelope startPoseId rest (i + 1) key

/-- Model of `BlendShape::loadKeyframe` (blendshape.cpp 487-514). -/
def loadKeyframe (bs : BlendShape) (maya : Scene) (time : ℚ) (_params : ParamList)
    (targetIndex startPoseId : Int) : Exec vertexKeyframe := do
  let pg ← bs.findGroup targetIndex
  let key : vertexKeyframe := { time := time, positions := [], poserefs := [] }
  let envelope := maya.envelope
  let indexList := MIntArray.ofList maya.weightIndexList
  keyframeLoop bs maya indexList envelope startPoseId pg.poses 0 key

/-- Loop `for (float time=start; time<stop; time+=rate) times.push_back(time);`
(blendshape.cpp 428-429) in exact arithmetic (`sampleTimesLoopF` rounds the sum); one unit
of fuel per iteration. -/
def sampleTimesLoop (stop rate : ℚ) : Nat → ℚ → List ℚ → Exec (List ℚ)
  | 0, time, times => if time < stop then .error .outOfFuel else .ok times
  | fuel + 1, time, times =>
    if time < stop then sampleTimesLoop stop rate fuel (time + rate) (times ++ [time])
    else .ok times

/-- The sample times of a clip (blendshape.cpp 421, 428-430). -/
def sampleTimes (fuel : Nat) (start stop rate : ℚ) : Exec (List ℚ) := do
  let times ← sampleTimesLoop stop rate fuel start []
  .ok (times ++ [stop])

/-- Loop `for (j<size) { poseOptArray[j] = 0; k = 1; }` (blendshape.cpp 454-457): `n`
iterations remain, `j` is the loop counter. -/
def zeroFlags : Nat → Nat → MIntArray × Int → Exec (MIntArray × Int)
  | 0, _, st => .ok st
  | n + 1, j, (arr, _) => do
    let arr1 ← arr.set j 0
    zeroFlags n (j + 1) (arr1, 1)

/-- Loop `while (k==0) { for ... }` (blendshape.cpp 453-458); one unit of fuel per
iteration of the `while`. -/
def initFlags (size : Nat) : Nat → MIntArray × Int → Exec (MIntArray × Int)
  | 0, (arr, k) => if k = 0 then .error .outOfFuel else .ok (arr, k)
  | fuel + 1, (arr, k) =>
    if k = 0 then do
      let st ← zeroFlags size 0 (arr, k)
      initFlags size fuel st
    else .ok (arr, k)

/-- Loop marking the poses whose weight is outside the dead band (blendshape.cpp 459-461):
`n` iterations remain, `j` is the loop counter. -/
def markFlags (poserefs : List vertexPoseRef) : Nat → Nat → MIntArray → Exec MIntArray
  | 0, _, arr => .ok arr
  | n + 1, j, arr => do
    let r ← vecGet poserefs j
    if r.poseWeight < -(1 / 1000) ∨ r.poseWeight > 1 / 1000 then do
      let arr1 ← arr.set j 1
      markFlags poserefs n (j + 1) arr1
    else markFlags poserefs n (j + 1) arr

/-- Optimisation pass over the sample times (blendshape.cpp 444-462); `times0` is
`times[0]`, the state holds the `BlendShape`, the scene and the local `k`. -/
def optimizeLoop (fuel : Nat) (params : ParamList) (targetIndex startPoseId : Int)
    (times0 : ℚ) : List ℚ → BlendShape × Scene × Int → Exec (BlendShape × Scene × Int)
  | [], st => .ok st
  | time :: rest, (bs, maya, k) => do
    let maya1 := maya.setCurrentTime time
    let bs1 : BlendShape := { bs with poseOptArray := bs.poseOptArray.clear }
    let key ← loadKeyframe bs1 maya1 (time - times0) params targetIndex startPoseId
    let size := key.poserefs.length
    let arr1 := bs1.poseOptArray.setLength size
    let (arr2, k2) ← initFlags size fuel (arr1, k)
    let arr3 ← markFlags key.poserefs size 0 arr2
    optimizeLoop fuel params targetIndex startPoseId times0 rest
      ({ bs1 with poseOptArray := arr3 }, maya1, k2)

/-- Loop evaluating the animation at the sample times (blendshape.cpp 471-480), the time of
a keyframe being the exact difference `times[i]-times[0]` (`evaluateLoopF` rounds it). -/
def evaluateLoop (bs : BlendShape) (params : ParamList) (targetIndex startPoseId : Int)
    (times0 : ℚ) : List ℚ → Track × Scene → Exec (Track × Scene)
  | [], st => .ok st
  | time :: rest, (t, maya) => do
    let maya1 := maya.setCurrentTime time
    let key ← loadKeyframe bs maya1 (time - times0) params targetIndex startPoseId
    evaluateLoop bs params targetIndex startPoseId times0 rest
      (if key.poserefs.length > 0 then t.addVertexKeyframe key else t, maya1)

/-- Model of `BlendShape::loadTrack` (blendshape.cpp 409-483) in exact arithmetic
(`loadTrackF` rounds the floats): the track, the `BlendShape`
(its `poseOptArray` is written by the optimisation pass) and the scene (its time cursor is
moved). `fuel` bounds the iterations of each loop that has no static bound. -/
def loadTrack (fuel : Nat) (bs : BlendShape) (maya : Scene) (start stop rate : ℚ)
    (params : ParamList) (targetIndex startPoseId : Int) :
    Exec (Track × BlendShape × Scene) := do
  let t : Track :=
    { Track.clear with
      m_type := .TT_POSE, m_target := bs.m_target, m_index := targetIndex,
      m_vertexKeyframes := [] }
  if rate ≤ 0 then .ok (t, bs, maya)
  else do
    let times ← sampleTimes fuel start stop rate
    let last ← vecGet times ((times.length : Int) - 1)
    let first ← vecGet times 0
    let length := last - first
    if length < 0 then .ok (t, bs, maya)
    else do
      let (bs1, maya1) ←
        if params.optimizePoseAnimation then do
          let (b, m, _) ←
            optimizeLoop fuel params targetIndex startPoseId first times (bs, maya, 0)
          pure (b, m)
        else pure (bs, maya)
      let (t1, maya2) ← evaluateLoop bs1 params targetIndex startPoseId first times (t, maya1)
      .ok (t1, bs1, maya2)

end BlendShape

/-! ## binary32

The `float` of the target platform is the IEEE 754 binary32 format: 24 significant bits,
the smallest spacing 2^-149, rounding to the nearest number and to the even one at a
tie. The overflow to infinity is not modelled. -/

/-- The integer nearest to `q`, the even one at a tie. -/
def roundHalfEven (q : ℚ) : Int :=
  if q - ⌊q⌋ < 1 / 2 then ⌊q⌋
  else if 1 / 2 < q - ⌊q⌋ then ⌊q⌋ + 1
  else if ⌊q⌋ % 2 = 0 then ⌊q⌋ else ⌊q⌋ + 1

/-- The spacing of the binary32 numbers at the magnitude `a`: `2^(e-23)` when
`2^e ≤ a < 2^(e+1)`, and never less than `2^-149`. -/
def ulp32 (a : ℚ) : ℚ := (2 : ℚ) ^ (max (Int.log 2 a - 23) (-149))

/-- The binary32 number nearest to the magnitude `a ≥ 0`. -/
def roundMag32 (a : ℚ) : ℚ := roundHalfEven (a / ulp32 a) * ulp32 a

/-- The binary32 number nearest to `x`: the rounding of a `float` operation. -/
def roundF32 (x : ℚ) : ℚ := if 0 ≤ x then roundMag32 x else -roundMag32 (-x)

namespace BlendShape

/-! ### `loadTrack` with the rounding of its floats

The operations of `loadTrack` on `float` are `time += rate`, `times[...] - times[0]` for the
length and `times[i]-times[0]` for the time of a keyframe; here their results are rounded
by `fl`. With `fl = id` these are `sampleTimesLoop`, `evaluateLoop` and `loadTrack`, the
exact arithmetic; with `fl = roundF32` they are the arithmetic of the program. -/

/-- Loop `for (float time=start; time<stop; time+=rate) times.push_back(time);`
(blendshape.cpp 428-429), the sum being rounded by `fl`; one unit of fuel per iteration. -/
def sampleTimesLoopF (fl : ℚ → ℚ) (stop rate : ℚ) : Nat → ℚ → List ℚ → Exec (List ℚ)
  | 0, time, times => if time < stop then .error .outOfFuel else .ok times
  | fuel + 1, time, times =>
    if time < stop then
      sampleTimesLoopF fl stop rate fuel (fl (time + rate)) (times ++ [time])
    else .ok times

/-- The sample times of a clip (blendshape.cpp 421, 428-430), with rounding. -/
def sampleTimesF (fl : ℚ → ℚ) (fuel : Nat) (start stop rate : ℚ) : Exec (List ℚ) := do
  let times ← sampleTimesLoopF fl stop rate fuel start []
  .ok (times ++ [stop])

/-- Loop evaluating the animation at the sample times (blendshape.cpp 471-480), the time of
a keyframe being the rounded difference `times[i]-times[0]`. -/
def evaluateLoopF (fl : ℚ → ℚ) (bs : BlendShape) (params : ParamList)
    (targetIndex startPoseId : Int) (times0 : ℚ) :
    List ℚ → Track × Scene → Exec (Track × Scene)
  | [], st => .ok st
  | time :: rest, (t, maya) => do
    let maya1 := maya.setCurrentTime time
    let key ← loadKeyframe bs maya1 (fl (time - times0)) params targetIndex startPoseId
    evaluateLoopF fl bs params targetIndex startPoseId times0 rest
      (if key.poserefs.length > 0 then t.addVertexKeyframe key else t, maya1)

/-- Model of `BlendShape::loadTrack` (blendshape.cpp 409-483) with the rounding `fl` of its
float operations. The keyframe of the optimisation pass is read for its pose references
only, whatever its time, so the pass is `optimizeLoop`. -/
def loadTrackF (fl : ℚ → ℚ) (fuel : Nat) (bs : BlendShape) (maya : Scene)
    (start stop rate : ℚ) (params : ParamList) (targetIndex startPoseId : Int) :
    Exec (Track × BlendShape × Scene) := do
  let t : Track :=
    { Track.clear with
      m_type := .TT_POSE, m_target := bs.m_target, m_index := targetIndex,
      m_vertexKeyframes := [] }
  if rate ≤ 0 then .ok (t, bs, maya)
  else do
    let times ← sampleTimesF fl fuel start stop rate
    let last ← vecGet times ((times.length : Int) - 1)
    let first ← vecGet times 0
    let length := fl (last - first)
    if length < 0 then .ok (t, bs, maya)
    else do
      let (bs1, maya1) ←
        if params.optimizePoseAnimation then do
          let (b, m, _) ←
            optimizeLoop fuel params targetIndex startPoseId first times (bs, maya, 0)
          pure (b, m)
        else pure (bs, maya)
      let (t1, maya2) ←
        evaluateLoopF fl bs1 params targetIndex startPoseId first times (t, maya1)
      .ok (t1, bs1, maya2)

end BlendShape

/-! ## ogreExporter.cpp

The command works on Maya and on the `Mesh`, `MaterialSet`, `Particles` and file objects,
whose code is outside `ogreExporter.cpp`. They are the `World`; what a call into them does
and answers is given by an `Oracle`, and the statements hold for every oracle. The members
`writeAnim` and `writeCamera` are taken the same way here: a status, and for `writeAnim`
what it leaves in `outAnim`, `_firstStart` and `_lastStop`. -/

/-- The two values of `MStatus` the exporter tells apart. -/
inductive MStatus where
  | kSuccess
  | kFailure
  deriving DecidableEq

/-- What `translateNode` reads of the node at the end of a DAG path: `name` identifies the
path, `animIterStatus` is the status left by the constructor of the `MItDependencyGraph`
and `animCurves` are the animation curves it visits. -/
structure NodeInfo where
  name : Nat
  hasMesh : Bool := false
  hasCamera : Bool := false
  hasTransform : Bool := false
  isParticle : Bool := false
  isIntermediateObject : Bool := false
  animIterStatus : Bool := true
  animCurves : List Nat := []
  deriving DecidableEq

/-- A node of the DAG with its children in the order of `child(i)`; the flag of a child
tells whether `childPath.push(child)` succeeds. -/
inductive DagNode where
  | mk (info : NodeInfo) (children : List (Bool × DagNode)) : DagNode

/-- The calls made by `ogreExporter.cpp` into the code kept abstract. -/
inductive Call where
  | openFiles
  | closeFiles
  | writeAnim (curve : Nat)
  | meshLoad (node : Nat)
  | writeCamera (node : Nat)
  | particlesWriteToXML (node : Nat)
  | loadAnims
  | loadBlendShapes
  | restorePose
  | skeletonLoadAnims
  | meshWriteOgreBinary
  | skeletonWriteOgreBinary
  | writeOgreScript
  deriving DecidableEq

/-- State outside the exporter: the current time and the active selection list of Maya,
the root of the DAG, and `data` for everything else the calls read and write (the rest of
the scene, the loaded mesh and materials, the files). -/
structure World where
  currentTime : ℚ
  activeSelection : List DagNode
  root : DagNode
  data : Nat

/-- Behaviour of the code kept abstract: the world after a call, whether the call
succeeds, whether `m_pMesh->getSkeleton()` is non-null, whether
`MGlobal::getActiveSelectionList` succeeds, and what `writeAnim` leaves in
`(outAnim, _firstStart, _lastStop)`. -/
structure Oracle where
  after : Call → World → World
  succeeds : Call → World → Bool
  hasSkeleton : World → Bool
  selectionListStatus : World → Bool
  animOutput : Nat → World → List AnimItem × ℚ × ℚ → List AnimItem × ℚ × ℚ

/-- Members of `class OgreExporter` (ogreExporter.h 99-113), with the world the command
runs in and the calls made so far, each with its status. -/
structure OgreExporter where
  stat : MStatus
  m_params : ParamList
  m_selList : List DagNode
  m_curTime : ℚ
  firstStart : ℚ
  lastStop : ℚ
  world : World
  calls : List (Call × MStatus)

namespace OgreExporter

/-- Status answered by the call `c` in the world `w`. -/
def statusOf (o : Oracle) (c : Call) (w : World) : MStatus :=
  if o.succeeds c w then .kSuccess else .kFailure

/-- A call into the abstract code: the world moves on and the call is recorded. -/
def invoke (o : Oracle) (c : Call) (e : OgreExporter) : OgreExporter × MStatus :=
  ({ e with world := o.after c e.world, calls := e.calls ++ [(c, statusOf o c e.world)] },
   statusOf o c e.world)

/-- A call that works on the files only (`ParamList::openFiles`): the call is recorded
and the world stays as it is. -/
def fileCall (o : Oracle) (c : Call) (e : OgreExporter) : OgreExporter :=
  { e with calls := e.calls ++ [(c, statusOf o c e.world)] }

/-- Model of `OgreExporter::exit` (ogreExporter.cpp 64-79). -/
def exit (e : OgreExporter) : OgreExporter :=
  let w1 : World := { e.world with activeSelection := e.m_selList }
  let w2 : World := { w1 with currentTime := e.m_curTime }
  { e with world := w2, calls := e.calls ++ [(.closeFiles, .kSuccess)] }

/-- Model of `OgreExporter::writeAnim` as a call (ogreExporter.cpp 296-420). -/
def writeAnim (o : Oracle) (curve : Nat) (e : OgreExporter) : OgreExporter × MStatus :=
  let r := o.animOutput curve e.world (e.m_params.outAnim, e.firstStart, e.lastStop)
  invoke o (.writeAnim curve)
    { e with m_params := { e.m_params with outAnim := r.1 }, firstStart := r.2.1,
             lastStop := r.2.2 }

/-- Loop over the animation curves upstream of a node (ogreExporter.cpp 181-201). -/
def writeAnimCurves (o : Oracle) : List Nat → OgreExporter → OgreExporter × MStatus
  | [], e => (e, .kSuccess)
  | c :: rest, e =>
    match writeAnim o c e with
    | (e1, .kSuccess) => writeAnimCurves o rest { e1 with stat := .kSuccess }
    | (e1, .kFailure) => ({ e1 with stat := .kFailure }, .kFailure)

/-- First part of `translateNode` (ogreExporter.cpp 171-203): the animation curves. -/
def translateCurves (o : Oracle) (info : NodeInfo) (e : OgreExporter) :
    OgreExporter × MStatus :=
  if e.m_params.exportAnimCurves || e.m_params.exportAnimCurvesXML then
    if info.animIterStatus then writeAnimCurves o info.animCurves { e with stat := .kSuccess }
    else ({ e with stat := .kFailure }, .kSuccess)
  else (e, .kSuccess)

/-- Second part of `translateNode` (ogreExporter.cpp 204-272): the mesh, camera or
particles held by the node; `childCount` is `dagPath.childCount()`. -/
def translateShape (o : Oracle) (info : NodeInfo) (childCount : Nat) (e : OgreExporter) :
    OgreExporter × MStatus :=
  if info.hasMesh &&
      (e.m_params.exportMesh || e.m_params.exportMaterial || e.m_params.exportSkeleton) &&
      childCount == 0 then
    if !info.isIntermediateObject then
      let (e1, st) := invoke o (.meshLoad info.name) e
      ({ e1 with stat := st }, .kSuccess)
    else (e, .kSuccess)
  else if info.hasCamera && e.m_params.exportCameras && !info.hasTransform then
    if !info.isIntermediateObject then
      let (e1, st) := invoke o (.writeCamera info.name) e
      ({ e1 with stat := st }, st)
    else (e, .kSuccess)
  else if info.isParticle && e.m_params.exportParticles then
    if !info.isIntermediateObject then
      let (e1, st) := invoke o (.particlesWriteToXML info.name) e
      ({ e1 with stat := st }, st)
    else (e, .kSuccess)
  else (e, .kSuccess)

mutual
/-- Model of `OgreExporter::translateNode` (ogreExporter.cpp 169-293). -/
def translateNode (o : Oracle) : DagNode → OgreExporter → OgreExporter × MStatus
  | .mk info children, e =>
    match translateCurves o info e with
    | (e1, .kFailure) => (e1, .kFailure)
    | (e1, .kSuccess) =>
      match translateShape o info children.length e1 with
      | (e2, .kFailure) => (e2, .kFailure)
      | (e2, .kSuccess) => translateChildren o children e2
/-- Loop over the children in `translateNode` (ogreExporter.cpp 274-291). -/
def translateChildren (o : Oracle) :
    List (Bool × DagNode) → OgreExporter → OgreExporter × MStatus
  | [], e => (e, .kSuccess)
  | (pushed, child) :: rest, e =>
    if pushed then
      match translateNode o child { e with stat := .kSuccess } with
      | (e1, .kSuccess) => translateChildren o rest { e1 with stat := .kSuccess }
      | (e1, .kFailure) => ({ e1 with stat := .kFailure }, .kFailure)
    else ({ e with stat := .kFailure }, .kFailure)
end

/-- Model of `OgreExporter::writeOgreData` (ogreExporter.cpp 995-1049): the three writes
are reported when they fail, and the status returned is `kSuccess`. -/
def writeOgreData (o : Oracle) (e : OgreExporter) : OgreExporter × MStatus :=
  let e1 :=
    if e.m_params.exportMesh then
      let (a, st) := invoke o .meshWriteOgreBinary e
      { a with stat := st }
    else e
  let e2 :=
    if e1.m_params.exportSkeleton then
      if o.hasSkeleton e1.world then
        let (a, st) := invoke o .skeletonWriteOgreBinary e1
        { a with stat := st }
      else e1
    else e1
  let e3 :=
    if e2.m_params.exportMaterial then
      let (a, st) := invoke o .writeOgreScript e2
      { a with stat := st }
    else e2
  (e3, .kSuccess)

/-- Loop `for (float t=start; t<stop; t+=rate) times.push_back(t);` of `writeClipLengths`
(ogreExporter.cpp 1072-1073); one unit of fuel per iteration. -/
def timesLoop (stop rate : ℚ) : Nat → ℚ → List ℚ → Exec (List ℚ)
  | 0, t, times => if t < stop then .error .outOfFuel else .ok times
  | fuel + 1, t, times =>
    if t < stop then timesLoop stop rate fuel (t + rate) (times ++ [t])
    else .ok times

/-- What `writeClipLengths` sends to `outAnim` for the first clip (ogreExporter.cpp
1081-1102). -/
def clipItems (start stop length : ℚ) (times : List ℚ) (first : ℚ) : List AnimItem :=
  [.text "anim Clip_Length\n", .text "\x7b\n", .text "\t", .number length, .text " 0 \n",
   .text "\x7d\n\n",
   .text "anim Clip_Start\n", .text "\x7b\n", .text "\t", .number start, .text " 0 \n",
   .text "\x7d\n\n",
   .text "anim Clip_Stop\n", .text "\x7b\n", .text "\t", .number stop, .text " 0 \n",
   .text "\x7d\n\n",
   .text "anim Clip_Values\n", .text "\x7b\n", .text "\t//Time   /    Value\n"] ++
  (times.map fun t => [AnimItem.text "\t", .number t, .text "\t", .percent (t - first) length,
    .text "\n"]).flatten ++
  [.text "\x7d\n\n"]

/-- Loop over the clips in `writeClipLengths` (ogreExporter.cpp 1062-1104); `i` is the
position of the head of the list, `out` what has been sent to `outAnim`. -/
def clipLoop (fuel : Nat) : List clipInfo → Nat → List AnimItem → Exec (List AnimItem)
  | [], _, out => .ok out
  | c :: rest, i, out => do
    let looped ← timesLoop c.stop c.rate fuel c.start []
    let times := looped ++ [c.stop]
    let last ← vecGet times ((times.length : Int) - 1)
    let first ← vecGet times 0
    let length := last - first
    let out1 := if i = 0 then out ++ clipItems c.start c.stop length times first else out
    clipLoop fuel rest (i + 1) out1

/-- Model of `OgreExporter::writeClipLengths` (ogreExporter.cpp 1051-1131), called with
`m_params`; `fuel` bounds the iterations of each loop over the sample times. -/
def writeClipLengths (fuel : Nat) (e : OgreExporter) : Exec (OgreExporter × MStatus) :=
  if e.m_params.exportMesh && e.m_params.exportVertAnims then do
    let e1 := if e.m_params.vertClipList.length = 0 then { e with stat := .kFailure } else e
    let out ← clipLoop fuel e1.m_params.vertClipList 0 e1.m_params.outAnim
    let e2 := { e1 with m_params := { e1.m_params with outAnim := out } }
    if e2.stat ≠ .kSuccess then .ok (e2, .kFailure) else .ok (e2, .kSuccess)
  else if e.m_params.exportAnimCurves then
    .ok ({ e with m_params := { e.m_params with outAnim := e.m_params.outAnim ++
        [.text "anim Clip_Length\n", .text "\x7b\n", .text "\t",
         .number (e.lastStop - e.firstStart), .text " 0 \n", .text "\x7d\n\n",
         .text "anim Clip_Start\n", .text "\x7b\n", .text "\t", .number e.firstStart,
         .text " 0 \n", .text "\x7d\n\n",
         .text "anim Clip_Stop\n", .text "\x7b\n", .text "\t", .number e.lastStop,
         .text " 0 \n", .text "\x7d\n\n"] } }, .kSuccess)
  else .ok (e, .kSuccess)

/-- Loop over the selected paths in `doIt` (ogreExporter.cpp 120-125): the status of
`translateNode` is stored in `stat` and not tested. -/
def translateSelection (o : Oracle) : List DagNode → OgreExporter → OgreExporter
  | [], e => e
  | n :: rest, e =>
    let (e1, st) := translateNode o n e
    translateSelection o rest { e1 with stat := st }

/-- The part of `doIt` after the traversal (ogreExporter.cpp 127-165): load the
animations, write the data and the clip lengths, `exit()`, return `kSuccess`. -/
def finishExport (fuel : Nat) (o : Oracle) (e : OgreExporter) :
    Exec (OgreExporter × MStatus) := do
  let e1 := if e.m_params.exportVertAnims then (invoke o .loadAnims e).1 else e
  let e2 := if e1.m_params.exportBlendShapes then (invoke o .loadBlendShapes e1).1 else e1
  let e3 := if o.hasSkeleton e2.world then (invoke o .restorePose e2).1 else e2
  let e4 :=
    if o.hasSkeleton e3.world && e3.m_params.exportSkelAnims then
      (invoke o .skeletonLoadAnims e3).1
    else e3
  let (e5, st5) := writeOgreData o e4
  let e6 := { e5 with stat := st5 }
  let (e7, st7) ← writeClipLengths fuel e6
  let e8 := { e7 with stat := st7 }
  .ok (exit e8, .kSuccess)

/-- Model of `OgreExporter::doIt` (ogreExporter.cpp 81-166); `params` is `m_params` as
`parseArgs` leaves it, every item of the selection is taken to be a DAG path, and the
creation of the empty `Mesh` and `MaterialSet` leaves the world as it is. -/
def doIt (fuel : Nat) (o : Oracle) (params : ParamList) (e : OgreExporter) :
    Exec (OgreExporter × MStatus) :=
  let e1 := { e with firstStart := 1000000000000, lastStop := -1, m_params := params }
  let e2 := fileCall o .openFiles e1
  let e3 := { e2 with m_curTime := e2.world.currentTime }
  let e4 :=
    if o.selectionListStatus e3.world then { e3 with m_selList := e3.world.activeSelection }
    else e3
  if e4.m_params.exportAll then
    let (e5, st) := translateNode o e4.world.root e4
    finishExport fuel o { e5 with stat := st }
  else
    if o.selectionListStatus e4.world then
      finishExport fuel o
        (translateSelection o e4.world.activeSelection { e4 with stat := .kSuccess })
    else .ok (exit { e4 with stat := .kFailure }, .kFailure)

end OgreExporter

/-! ## The vertex table (vertex.h 89-100, mesh.h 160)

`Mesh::getVertices` and `Mesh::getFaces`, which fill `newvertices`, are in `mesh.cpp`; the
insert below follows the specification of the vertex table. -/

/-- Indices and attributes of one vertex (`vertexInfo`, vertex.h 89-100); `next` is the
index of the next vertex with the same position, -1 at the end of the chain. -/
structure vertexInfo where
  pointIdx : Int
  normalIdx : Int
  r : ℚ
  g : ℚ
  b : ℚ
  a : ℚ
  u : List ℚ
  v : List ℚ
  vba : List ℚ
  jointIds : List Int
  next : Int
  deriving DecidableEq

namespace VertexTable

/-- Modelled from the spec: two floats are taken as equal when they differ by less than
the epsilon. -/
def closeTo (eps x y : ℚ) : Bool := decide (|x - y| < eps)

/-- Modelled from the spec: two sequences of floats of the same length, equal up to the
epsilon at every position. -/
def closeList (eps : ℚ) : List ℚ → List ℚ → Bool
  | [], [] => true
  | x :: xs, y :: ys => closeTo eps x y && closeList eps xs ys
  | _, _ => false

/-- Modelled from the spec: the comparison of a candidate with an entry, on the position
(the source point), the normal, the colour, the UV coordinates and the bone weights. -/
def sameAttributes (eps : ℚ) (entry cand : vertexInfo) : Bool :=
  entry.pointIdx == cand.pointIdx && entry.normalIdx == cand.normalIdx &&
  closeTo eps entry.r cand.r && closeTo eps entry.g cand.g && closeTo eps entry.b cand.b &&
  closeTo eps entry.a cand.a && closeList eps entry.u cand.u && closeList eps entry.v cand.v &&
  closeList eps entry.vba cand.vba && entry.jointIds == cand.jointIds

/-- Modelled from the spec: the first entry of the table tied to the source point `p`,
the head of the chain of that point; `i` is the index of the head of the list. -/
def firstOf (p : Int) : List vertexInfo → Nat → Option Nat
  | [], _ => none
  | e :: rest, i => if e.pointIdx = p then some i else firstOf p rest (i + 1)

/-- Modelled from the spec: the walk along the `next` chain from the entry `k`, comparing
the candidate with each entry: the index of the first entry equal to the candidate
(`inl`), or the index of the last entry of the chain when none is (`inr`); one unit of
fuel per entry. -/
def findInChain (eps : ℚ) (table : List vertexInfo) (cand : vertexInfo) :
    Nat → Int → Exec (Nat ⊕ Nat)
  | 0, _ => .error .outOfFuel
  | fuel + 1, k => do
    let entry ← vecGet table k
    if sameAttributes eps entry cand then .ok (.inl k.toNat)
    else if entry.next = -1 then .ok (.inr k.toNat)
    else findInChain eps table cand fuel entry.next

/-- Modelled from the spec: `addOrReuse(candidateVertex) -> canonicalIndex`. The candidate
is compared with the entries of the chain of its source point; an equal entry gives its
index and the table is unchanged; otherwise the candidate is appended, linked after the
last entry of the chain, and its index is returned. -/
def addOrReuse (eps : ℚ) (table : List vertexInfo) (cand : vertexInfo) :
    Exec (List vertexInfo × Nat) :=
  match firstOf cand.pointIdx table 0 with
  | none => .ok (table ++ [{ cand with next := -1 }], table.length)
  | some head => do
    let found ← findInChain eps table cand table.length head
    match found with
    | .inl k => .ok (table, k)
    | .inr last => do
      let entry ← vecGet table last
      .ok (table.set last { entry with next := table.length } ++ [{ cand with next := -1 }],
           table.length)

end VertexTable

/-! ## paramlist.cpp: `ParamList::parseArgs` (paramlist.cpp 64-516) -/

/-- One argument of an `MArgList`, as the calls `asString`, `asDouble` and `asInt` answer
for its index; `isString` is whether `asString` reports `MS::kSuccess`. -/
structure MArg where
  asString : String
  isString : Bool := true
  asDouble : ℚ := 0
  asInt : Int := 0

/-- What `parseArgs` reads outside the argument list.

* `beyond`: the answers of `asString`, `asDouble`, `asInt` for an index past the end of
  the list (a value read by `++i` after the last argument);
* `currentUnit`: the result of the command `currentUnit -q -l`;
* `secondsOf x`: `MTime(x, MTime::uiUnit()).as(MTime::kSeconds)`;
* `minTime`, `maxTime`: the ends of the time slider, in seconds;
* `strayFlag`: the value of the member `offsetAnimation` of a `clipInfo` that is declared
  and never assigned (paramlist.cpp 306-311). -/
structure ArgEnv where
  beyond : MArg
  currentUnit : String
  secondsOf : ℚ → ℚ
  minTime : ℚ
  maxTime : ℚ
  strayFlag : Bool

/-- The argument of index `i`. -/
def argAt (env : ArgEnv) (args : List MArg) (i : Nat) : MArg := args.getD i env.beyond

/-- The test `(MString(name) == args.asString(i,&stat)) && (MS::kSuccess == stat)`. -/
def isOption (env : ArgEnv) (args : List MArg) (i : Nat) (name : String) : Bool :=
  name == (argAt env args i).asString && (argAt env args i).isString

/-- The multiplier assigned to `lum` for a length unit (paramlist.cpp 85-96, with the
macros `CM2MM` .. `CM2YD` of paramlist.h 62-67); `none` for any other unit, for which
no branch of the chain is taken. -/
def unitMultiplier (lengthUnit : String) : Option ℚ :=
  if "mm" == lengthUnit then some 10
  else if "cm" == lengthUnit then some 1
  else if "m" == lengthUnit then some (1 / 100)
  else if "in" == lengthUnit then some (393701 / 1000000)
  else if "ft" == lengthUnit then some (328084 / 10000000)
  else if "yd" == lengthUnit then some (109361 / 10000000)
  else none

/-- The length unit read by `-lu` (paramlist.cpp 80-84): the next argument, replaced by
the unit of the preferences when it is `pref`. -/
def lengthUnitAt (env : ArgEnv) (args : List MArg) (i : Nat) : String :=
  if "pref" == (argAt env args (i + 1)).asString then env.currentUnit
  else (argAt env args (i + 1)).asString

/-- The version assigned to `targetMeshVersion` for a version name (paramlist.cpp 478-501);
`none` for any other name, for which only a warning is printed. -/
def versionNamed (versionName : String) : Option MeshVersion :=
  if versionName == "latest" then some .MESH_VERSION_LATEST
  else if versionName == "1.10" then some .MESH_VERSION_1_10
  else if versionName == "1.8" then some .MESH_VERSION_1_8
  else if versionName == "1.7" then some .MESH_VERSION_1_7
  else if versionName == "1.4" then some .MESH_VERSION_1_4
  else if versionName == "1.0" then some .MESH_VERSION_1_0
  else none

/-- The body of the options `-skeletonClip`, `-BSClip` and `-vertexClip` (paramlist.cpp
254-324, 328-398, 402-472: three copies of the same code, each on its own list): `i` is
the index of the option, `list` the clip list of the option; the result is the value of
`i` at the end of the body and the list. The loop `for (k<size && uniqueName)` leaves
`uniqueName` true when no clip of the list has the name. -/
def parseClip (env : ArgEnv) (args : List MArg) (i : Nat) (list : List clipInfo) :
    Nat × List clipInfo :=
  let clipName := (argAt env args (i + 1)).asString
  let uniqueName := list.all (fun c => !(clipName == c.name))
  if uniqueName then
    let clipRangeType := (argAt env args (i + 2)).asString
    let range : Nat × ℚ × ℚ :=
      if clipRangeType == "startEnd" then
        let startTime := (argAt env args (i + 3)).asDouble
        let stopTime := (argAt env args (i + 4)).asDouble
        let rangeUnits := (argAt env args (i + 5)).asString
        if rangeUnits == "frames" then
          (i + 5, env.secondsOf startTime, env.secondsOf stopTime)
        else (i + 5, startTime, stopTime)
      else (i + 2, env.minTime, env.maxTime)
    let j := range.1
    let sampleRateType := (argAt env args (j + 1)).asString
    let rate : ℚ :=
      if sampleRateType == "sampleByFrames" then
        env.secondsOf ((argAt env args (j + 2)).asInt : ℚ)
      else (argAt env args (j + 2)).asDouble
    (j + 2, list ++ [{ name := clipName, start := range.2.1, stop := range.2.2, rate := rate,
                       offsetAnimation := env.strayFlag }])
  else (i + 1, list)

/-- The body of one branch of the chain of `parseArgs`, entered with the index `i` of the
option: the value of `i` at the end of the body (before the `i++` of the loop) and the
parameters. -/
abbrev OptionBody := ArgEnv → List MArg → Nat → ParamList → Nat × ParamList

/-- The chain `if (MString("-all") == ...) ... else if (MString("-world") == ...) ...` of
`parseArgs` (paramlist.cpp 71-512): the name each branch tests and its body, in the order
of the source. A value read by `args.asString(++i,&stat)`, `asDouble` or `asInt` is that
of the next index. -/
def optionTable : List (String × OptionBody) :=
  [("-all", fun _ _ i p => (i, { p with exportAll := true })),
   ("-world", fun _ _ i p => (i, { p with exportWorldCoords := true })),
   ("-lu", fun env args i p =>
      match unitMultiplier (lengthUnitAt env args i) with
      | some m => (i + 1, { p with lum := m })
      | none => (i + 1, p)),
   ("-scale", fun env args i p =>
      (i + 1, { p with lum := p.lum * (argAt env args (i + 1)).asDouble })),
   ("-mesh", fun env args i p =>
      (i + 1, { p with exportMesh := true, meshFilename := (argAt env args (i + 1)).asString })),
   ("-mat", fun env args i p =>
      (i + 1, { p with exportMaterial := true,
                       materialFilename := (argAt env args (i + 1)).asString })),
   ("-matPrefix", fun env args i p =>
      (i + 1, { p with matPrefix := (argAt env args (i + 1)).asString })),
   ("-copyTex", fun env args i p =>
      (i + 1, { p with copyTextures := true,
                       texOutputDir := (argAt env args (i + 1)).asString })),
   ("-lightOff", fun _ _ i p => (i, { p with lightingOff := true })),
   ("-skel", fun env args i p =>
      (i + 1, { p with exportSkeleton := true,
                       skeletonFilename := (argAt env args (i + 1)).asString })),
   ("-skeletonAnims", fun _ _ i p => (i, { p with exportSkelAnims := true })),
   ("-vertexAnims", fun _ _ i p => (i, { p with exportVertAnims := true })),
   ("-blendShapes", fun _ _ i p => (i, { p with exportBlendShapes := true })),
   ("-BSAnims", fun _ _ i p => (i, { p with exportBSAnims := true })),
   ("-optimizePoseAnimation", fun _ _ i p => (i, { p with optimizePoseAnimation := true })),
   ("-skelBB", fun _ _ i p => (i, { p with skelBB := true })),
   ("-bsBB", fun _ _ i p => (i, { p with bsBB := true })),
   ("-vertBB", fun _ _ i p => (i, { p with vertBB := true })),
   ("-animCur", fun env args i p =>
      (i + 1, { p with exportAnimCurves := true,
                       animFilename := (argAt env args (i + 1)).asString })),
   ("-animCurXML", fun env args i p =>
      (i + 1, { p with exportAnimCurvesXML := true,
                       animFilenameXML := (argAt env args (i + 1)).asString })),
   ("-animSkipZeroValues", fun _ _ i p => (i, { p with animSkipZeroValues := true })),
   ("-cam", fun env args i p =>
      (i + 1, { p with exportCameras := true,
                       camerasFilename := (argAt env args (i + 1)).asString })),
   ("-v", fun _ _ i p => (i, { p with exportVBA := true })),
   ("-n", fun _ _ i p => (i, { p with exportVertNorm := true })),
   ("-c", fun _ _ i p => (i, { p with exportVertCol := true })),
   ("-t", fun _ _ i p => (i, { p with exportTexCoord := true })),
   ("-edges", fun _ _ i p => (i, { p with buildEdges := true })),
   ("-tangents", fun env args i p =>
      (i + 1,
        if (argAt env args (i + 1)).asString == "TEXCOORD" then
          { p with buildTangents := true, tangentSemantic := .TS_TEXCOORD }
        else if (argAt env args (i + 1)).asString == "TANGENT" then
          { p with buildTangents := true, tangentSemantic := .TS_TANGENT }
        else { p with buildTangents := true })),
   ("-preventZeroTangent", fun env args i p =>
      (i + 1,
        if (argAt env args (i + 1)).asDouble ≠ 0 then
          { p with preventZeroTangent := true, uvScale := (argAt env args (i + 1)).asDouble }
        else { p with preventZeroTangent := true })),
   ("-tangentsplitmirrored", fun _ _ i p => (i, { p with tangentsSplitMirrored := true })),
   ("-tangentsplitrotated", fun _ _ i p => (i, { p with tangentsSplitRotated := true })),
   ("-tangentuseparity", fun _ _ i p => (i, { p with tangentsUseParity := true })),
   ("-camAnim", fun _ _ i p => (i, { p with exportCamerasAnim := true })),
   ("-camAnimXML", fun env args i p =>
      (i + 1, { p with exportCamerasAnimXML := true,
                       camerasFilenameXML := (argAt env args (i + 1)).asString })),
   ("-particles", fun env args i p =>
      (i + 1, { p with exportParticles := true,
                       particlesFilename := (argAt env args (i + 1)).asString })),
   ("-shared", fun _ _ i p => (i, { p with useSharedGeom := true })),
   ("-np", fun env args i p =>
      (i + 1,
        if (argAt env args (i + 1)).asString == "curFrame" then
          { p with neutralPoseType := .NPT_CURFRAME }
        else if (argAt env args (i + 1)).asString == "bindPose" then
          { p with neutralPoseType := .NPT_BINDPOSE }
        else p)),
   ("-skeletonClip", fun env args i p =>
      ((parseClip env args i p.skelClipList).1,
        { p with skelClipList := (parseClip env args i p.skelClipList).2 })),
   ("-BSClip", fun env args i p =>
      ((parseClip env args i p.BSClipList).1,
        { p with BSClipList := (parseClip env args i p.BSClipList).2 })),
   ("-vertexClip", fun env args i p =>
      ((parseClip env args i p.vertClipList).1,
        { p with vertClipList := (parseClip env args i p.vertClipList).2 })),
   ("-version", fun env args i p =>
      match versionNamed (argAt env args (i + 1)).asString with
      | some v => (i + 1, { p with targetMeshVersion := v })
      | none => (i + 1, p))]

/-- The chain of `else if`: the body of the first branch whose test holds is run, and
nothing is done when no test holds. -/
def runChain (env : ArgEnv) (args : List MArg) (i : Nat) (p : ParamList) :
    List (String × OptionBody) → Nat × ParamList
  | [] => (i, p)
  | (name, body) :: rest =>
    if isOption env args i name then body env args i p else runChain env args i p rest

/-- One pass of the body of the loop of `parseArgs` (paramlist.cpp 71-513), entered with
the index `i`: the value of `i` at the end of the body (before the `i++` of the loop) and
the parameters. -/
def parseOption (env : ArgEnv) (args : List MArg) (i : Nat) (p : ParamList) :
    Nat × ParamList :=
  runChain env args i p optionTable

/-- The loop `for (uint i=0; i < args.length(); i++)` of `parseArgs`; one unit of fuel per
pass. -/
def parseLoop (env : ArgEnv) (args : List MArg) : Nat → Nat → ParamList → Exec ParamList
  | 0, i, p => if i < args.length then .error .outOfFuel else .ok p
  | fuel + 1, i, p =>
    if i < args.length then
      parseLoop env args fuel ((parseOption env args i p).1 + 1) (parseOption env args i p).2
    else .ok p

/-- Model of `ParamList::parseArgs` (paramlist.cpp 64-516); every pass moves `i` forward,
so that a fuel of `args.length` is never spent. -/
def parseArgs (env : ArgEnv) (args : List MArg) (p : ParamList) : Exec ParamList :=
  parseLoop env args args.length 0 p

/-! ## ogreExporter.cpp: the curve written by `writeAnim` (ogreExporter.cpp 296-421) -/

/-- An animation curve as `writeAnim` reads it through `MFnAnimCurve`: `numKeys()`, and
`time(i).as(MTime::kSeconds)` and `value(i)` for an index `i`. -/
structure MFnAnimCurve where
  numKeys : Nat
  time : Nat → ℚ
  value : Nat → ℚ

/-- What the first part of `writeAnim` (ogreExporter.cpp 298-352) derives from the name of
the curve: the name written to the files, and whether the curve is a focal length; and
`fovyBlock`, what the last part (ogreExporter.cpp 386-419) sends to `outAnim` for a focal
length from the map `_vA_map`, which is not modelled. -/
structure CurveName where
  outString : String
  is_focalLength : Bool
  fovyBlock : List AnimItem

namespace OgreExporter

/-- The loop of the pretest (ogreExporter.cpp 356-358): `n` keys remain, `i` is the loop
counter, the last argument is `zeroValue`. -/
def zeroPretest (anim : MFnAnimCurve) : Nat → Nat → Bool → Bool
  | 0, _, zeroValue => zeroValue
  | n + 1, i, zeroValue =>
    zeroPretest anim n (i + 1) (if anim.value i > 0 then true else zeroValue)

/-- The loop over the keys (ogreExporter.cpp 373-383): `n` keys remain, `i` is the loop
counter. -/
def writeKeys (anim : MFnAnimCurve) : Nat → Nat → OgreExporter → OgreExporter
  | 0, _, e => e
  | n + 1, i, e =>
    let e1 := if anim.time i < e.firstStart then { e with firstStart := anim.time i } else e
    let e2 := if anim.time i > e1.lastStop then { e1 with lastStop := anim.time i } else e1
    let outAnim := e2.m_params.outAnim ++
      [.text "\t", .number (anim.time i), .text "\t", .number (anim.value i), .text "\n"]
    let outAnimXML := e2.m_params.outAnimXML ++
      [.text "\t\t<keyframe time=\"", .number (anim.time i), .text "\" value=\"",
       .number (anim.value i), .text "\"/>\n"]
    writeKeys anim n (i + 1)
      { e2 with m_params := { e2.m_params with outAnim := outAnim, outAnimXML := outAnimXML } }

/-- Model of `OgreExporter::writeAnim` from the pretest on (ogreExporter.cpp 353-421), on
the streams `outAnim` and `outAnimXML` and the members `_firstStart` and `_lastStop`; the
index `numKeys()-1` is computed on `unsigned int`. -/
def writeAnimCurve (nm : CurveName) (anim : MFnAnimCurve) (e : OgreExporter) :
    OgreExporter × MStatus :=
  let zeroValue :=
    if e.m_params.animSkipZeroValues then zeroPretest anim anim.numKeys 0 false else false
  if !zeroValue && e.m_params.animSkipZeroValues then (e, .kSuccess)
  else
    let animStart := anim.time 0
    let animStop := anim.time ((anim.numKeys + 4294967295) % 4294967296)
    let e1 : OgreExporter :=
      { e with m_params := { e.m_params with
          outAnim := e.m_params.outAnim ++
            [.text "anim ", .text nm.outString, .text "\n", .text "\x7b\n",
             .text "\t//Time   /    Value\n"],
          outAnimXML := e.m_params.outAnimXML ++
            [.text "\t<animation name=\"", .text nm.outString,
             .text "\" type=\"float\" start=\"", .number animStart, .text "\" end=\"",
             .number animStop, .text "\">\n"] } }
    let e2 := writeKeys anim anim.numKeys 0 e1
    let e3 : OgreExporter :=
      { e2 with m_params := { e2.m_params with
          outAnim := e2.m_params.outAnim ++ [.text "\x7d\n\n"],
          outAnimXML := e2.m_params.outAnimXML ++ [.text "\t</animation>\n"] } }
    let e4 : OgreExporter :=
      if nm.is_focalLength then
        { e3 with m_params := { e3.m_params with
            outAnim := e3.m_params.outAnim ++ nm.fovyBlock } }
      else e3
    (e4, .kSuccess)

end OgreExporter

/-! ## particles.h: `TKeyTrack<float>` (particles.h 156-224) -/

/-- A key of a track of floats (`TKey<float>`, particles.h 182-188). -/
structure TKey where
  value : ℚ
  nTime : Int
  deriving DecidableEq

/-- Model of `Interpolate( const float &v1, const float &v2, float fCoeff, float *pRes )`
(particles.h 156-159). -/
def Interpolate (v1 v2 fCoeff : ℚ) : ℚ := (1 - fCoeff) * v1 + fCoeff * v2

/-- The conversion `int( x )` of a float: the fractional part is dropped. -/
def truncToInt (x : ℚ) : Int := if 0 ≤ x then ⌊x⌋ else ⌈x⌉

namespace TKeyTrack

/-- The loop `while( nLeft - nRight > 1 )` of `GetValueBinSearch` (particles.h 198-205);
one unit of fuel per pass, the state is `(nLeft, nRight)` and `/` on `int` rounds towards
zero. -/
def searchLoop (keys : List TKey) (nTime : Int) : Nat → Int × Int → Exec (Int × Int)
  | 0, (nLeft, nRight) =>
    if nLeft - nRight > 1 then .error .outOfFuel else .ok (nLeft, nRight)
  | fuel + 1, (nLeft, nRight) =>
    if nLeft - nRight > 1 then do
      let nTemp := Int.tdiv (nLeft + nRight) 2
      let k ← vecGet keys nTemp
      if k.nTime ≤ nTime then searchLoop keys nTime fuel (nTemp, nRight)
      else searchLoop keys nTime fuel (nLeft, nTemp)
    else .ok (nLeft, nRight)

/-- Model of `TKeyTrack<float>::GetValueBinSearch` (particles.h 194-211). A division by
zero has no defined result. -/
def GetValueBinSearch (fuel : Nat) (keys : List TKey) (fTime : ℚ) : Exec ℚ := do
  let nLeft : Int := 0
  let nRight : Int := (keys.length : Int) - 1
  let nTime := truncToInt (fTime - 1 / 2)
  let (nLeft, nRight) ← searchLoop keys nTime fuel (nLeft, nRight)
  let last ← vecGet keys nRight
  let start ← vecGet keys nLeft
  if last.nTime - start.nTime = 0 then .error .undefinedBehaviour
  else
    let fCoeff := (fTime - start.nTime) / ((last.nTime - start.nTime : Int) : ℚ)
    .ok (Interpolate start.value last.value fCoeff)

/-- Model of `TKeyTrack<float>::GetValue` (particles.h 214-220). -/
def GetValue (fuel : Nat) (keys : List TKey) (fTime : ℚ) : Exec ℚ :=
  if keys.length = 1 then vecGet keys 0 >>= fun k => .ok k.value
  else GetValueBinSearch fuel keys fTime

end TKeyTrack

/-! ## Vocabulary of the statements -/

/-- Whether `loadKeyframe` stores the reference of the pose at position `i` (blendshape.cpp
508-511): the optimisation array is empty, or it holds 1 at `i`. -/
def keeps (bs : BlendShape) (i : Nat) : Bool :=
  bs.poseOptArray.length == 0 || bs.poseOptArray.store i == 1

/-- Pose references of the poses `poses`, the first of which has position `i`, when the
weight read for pose `p` is `weightOf p`. -/
def refsFrom (bs : BlendShape) (weightOf : pose → ℚ) (startPoseId : Int) :
    List pose → Nat → List vertexPoseRef
  | [], _ => []
  | p :: rest, i =>
    if keeps bs i then
      { poseIndex := startPoseId + i, poseWeight := weightOf p } ::
        refsFrom bs weightOf startPoseId rest (i + 1)
    else refsFrom bs weightOf startPoseId rest (i + 1)

/-- Weight of pose `p` sampled at `time`: the envelope times the weight of the channel
`indexList[p.blendShapeIndex]`, in the scene evaluated at that time. -/
def sampledWeight (maya : Scene) (p : pose) (time : ℚ) : ℚ :=
  maya.envelopeAt time * maya.weightAt time (maya.weightIndexList.getD p.blendShapeIndex.toNat 0)

/-- Positions below `n` whose pose reference is stored. -/
def keptPositions (bs : BlendShape) (n : Nat) : List Nat := (List.range n).filter (keeps bs)

/-- Keyframe of the sample time `time` of a clip whose first sample time is `t0`. -/
def keyAt (bs : BlendShape) (maya : Scene) (sp : Int) (t0 : ℚ) (poses : List pose) (time : ℚ) :
    vertexKeyframe :=
  { time := time - t0, positions := [],
    poserefs := refsFrom bs (fun p => sampledWeight maya p time) sp poses 0 }

/-- Every pose names a channel of the weight index list: `indexList[p.blendShapeIndex]` is
a read inside the list. -/
def channelsInRange (maya : Scene) (poses : List pose) : Prop :=
  ∀ p ∈ poses, 0 ≤ p.blendShapeIndex ∧ p.blendShapeIndex.toNat < maya.weightIndexList.length

/-- The dead-band test of the optimisation pass (blendshape.cpp 460):
`w < -0.001 || w > 0.001`. -/
def outsideDeadBand (w : ℚ) : Prop := w < -(1 / 1000) ∨ w > 1 / 1000

/-- The pose track of target `tgt` and index `ti` with the keyframes `keys`: the value of
the local `t` of `loadTrack` (blendshape.cpp 415-419) once `keys` have been added. -/
def poseTrack (tgt : target) (ti : Int) (keys : List vertexKeyframe) : Track :=
  { m_type := .TT_POSE, m_target := tgt, m_index := ti, m_bone := "",
    m_vertexKeyframes := keys, m_skeletonKeyframes := [] }

/-- Displacement of the vertex `v`: the deformed point `points[v.index]` times `lum`, minus
the stored position. -/
def displacement (params : ParamList) (points : List MFloatPoint) (v : vertex) : ℚ × ℚ × ℚ :=
  match points[v.index.toNat]? with
  | some pt => (pt.x * params.lum - v.x, pt.y * params.lum - v.y, pt.z * params.lum - v.z)
  | none => (0, 0, 0)

/-- The offset computed for the vertex `v` when its entry gets the index `idx`: the
displacement with every component below `PRECISION` set to 0. -/
def entryOf (PRECISION : ℚ) (params : ParamList) (points : List MFloatPoint) (v : vertex)
    (idx : Int) : vertexOffset :=
  { index := idx
    x := BlendShape.snap PRECISION (displacement params points v).1
    y := BlendShape.snap PRECISION (displacement params points v).2.1
    z := BlendShape.snap PRECISION (displacement params points v).2.2 }

/-- The entries of the vertices of `block`, the first of which gets the index `idx`. -/
def entriesFrom (PRECISION : ℚ) (params : ParamList) (points : List MFloatPoint) :
    List vertex → Int → List vertexOffset
  | [], _ => []
  | v :: rest, idx =>
    if BlendShape.offsetNonZero (entryOf PRECISION params points v idx) then
      entryOf PRECISION params points v idx ::
        entriesFrom PRECISION params points rest (idx + 1)
    else entriesFrom PRECISION params points rest (idx + 1)

/-- The vertices of `block` that are displaced, each with its index (the first vertex of
the block has the index `idx`) and its displacement, in the order of the block. -/
def displacedEntries (params : ParamList) (points : List MFloatPoint) :
    List vertex → Int → List vertexOffset
  | [], _ => []
  | v :: rest, idx =>
    if displacement params points v = (0, 0, 0) then
      displacedEntries params points rest (idx + 1)
    else
      { index := idx, x := (displacement params points v).1,
        y := (displacement params points v).2.1, z := (displacement params points v).2.2 } ::
        displacedEntries params points rest (idx + 1)

/-- Every vertex of the block reads a point inside the point array. -/
def pointsInRange (points : List MFloatPoint) (block : List vertex) : Prop :=
  ∀ v ∈ block, 0 ≤ v.index ∧ v.index.toNat < points.length

/-- Result of `if (p.offsets.size() > 0) pg.poses.push_back(p);` on the group keyed `k`. -/
def storePose (bs : BlendShape) (k : Int) (pg : poseGroup) (p : pose) : BlendShape :=
  if p.offsets.length > 0 then bs.setGroup k { pg with poses := pg.poses ++ [p] } else bs

/-- The poses held by the group keyed `k`, none when the group is absent. -/
def posesOf (bs : BlendShape) (k : Int) : List pose :=
  match bs.m_poseGroups k with
  | some pg => pg.poses
  | none => []

/-- `bs'` is `bs` with poses of target `tgt` and index `k` appended to the group keyed `k`
(if that group exists), every other member and every other group being the same. -/
def GroupExtends (k : Int) (tgt : target) (bs bs' : BlendShape) : Prop :=
  bs'.m_target = bs.m_target ∧ bs'.m_origEnvelope = bs.m_origEnvelope ∧
  bs'.m_origWeights = bs.m_origWeights ∧
  bs'.m_weightConnections = bs.m_weightConnections ∧
  (∀ j, j ≠ k → bs'.m_poseGroups j = bs.m_poseGroups j) ∧
  (bs.m_poseGroups k = none → bs'.m_poseGroups k = none) ∧
  ∀ pg, bs.m_poseGroups k = some pg →
    ∃ added, bs'.m_poseGroups k = some { pg with poses := pg.poses ++ added } ∧
      ∀ p ∈ added, p.poseTarget = tgt ∧ p.index = k

/-- The scenes `m` and `m'` show the same deformer and mesh: they differ at most by the
time, the envelope, the weights and the connections. -/
def SameDeformer (m m' : Scene) : Prop :=
  m'.weightIndexList = m.weightIndexList ∧ m'.weightSettable = m.weightSettable ∧
  m'.aliasAttr = m.aliasAttr ∧ m'.getPoints = m.getPoints ∧
  m'.envelopeAt = m.envelopeAt ∧ m'.weightAt = m.weightAt ∧
  m'.weightPlugs = m.weightPlugs ∧ m'.strayString = m.strayString

/-- The scenes in which the capture loops of `loadPosesShared` and `loadPosesSubmesh`
(blendshape.cpp 139-180, 226-268) call `loadPoseShared` and `loadPoseSubmesh`, channel
after channel: each capture is made after `setWeight(w, 1)`, and the loop goes on after
`setWeight(w, 0)`. -/
def captureScenes : List Int → Scene → List Scene
  | [], _ => []
  | w :: rest, maya =>
    (maya.setWeight w 1).1 :: captureScenes rest ((maya.setWeight w 1).1.setWeight w 0).1

/-- The scene left by the capture loops of `loadPosesShared` and `loadPosesSubmesh`. -/
def afterCapture : List Int → Scene → Scene
  | [], maya => maya
  | w :: rest, maya => afterCapture rest ((maya.setWeight w 1).1.setWeight w 0).1

/-- The calls of `loadPoseShared` made by the capture loop of `loadPosesShared`, one per
scene of the list; `i` is the channel position of the first. -/
def captureShared (PRECISION : ℚ) (params : ParamList) (vertices : List vertex)
    (numVertices offset : Int) (poseNames : List String) :
    List Scene → Nat → BlendShape → Exec BlendShape
  | [], _, bs => .ok bs
  | m :: rest, i, bs => do
    let bs1 ← BlendShape.loadPoseShared PRECISION bs m params vertices numVertices offset
      (poseNameShared m poseNames i) i
    captureShared PRECISION params vertices numVertices offset poseNames rest (i + 1) bs1

/-- The calls of `loadPoseSubmesh` made by the capture loop of `loadPosesSubmesh`, one per
scene of the list; `i` is the channel position of the first. -/
def captureSubmesh (PRECISION : ℚ) (params : ParamList) (vertices : List vertex)
    (indices : List Int) (targetIndex : Int) (poseNames : List String) :
    List Scene → Nat → BlendShape → Exec BlendShape
  | [], _, bs => .ok bs
  | m :: rest, i, bs => do
    let bs1 ← BlendShape.loadPoseSubmesh PRECISION bs m params vertices indices
      (poseNameSubmesh m poseNames targetIndex i) targetIndex i
    captureSubmesh PRECISION params vertices indices targetIndex poseNames rest (i + 1) bs1

/-- The scene on entry of the capture loop of `loadPosesShared` and `loadPosesSubmesh`
(blendshape.cpp 116-133, 199-216): envelope set to 1, connections of the weights broken,
every channel of the weight index list set to 0. -/
def captureEntry (bs : BlendShape) (maya : Scene) : Scene :=
  BlendShape.zeroWeights (bs.breakConnections (maya.setEnvelope 1)).2.weightIndexList
    (bs.breakConnections (maya.setEnvelope 1)).2

/-- The exporter `e'` is a later state of `e` in the same run of the command: the saved
time and selection are the same, the parameters are the same up to what was sent to
`outAnim`, and the calls of `e` are followed by further calls. -/
def Follows (e e' : OgreExporter) : Prop :=
  e'.m_selList = e.m_selList ∧ e'.m_curTime = e.m_curTime ∧
  (∃ out, e'.m_params = { e.m_params with outAnim := out }) ∧
  ∃ more, e'.calls = e.calls ++ more

/-- The test `exportMesh || exportMaterial || exportSkeleton` of `translateNode`. -/
def meshWanted (params : ParamList) : Bool :=
  params.exportMesh || params.exportMaterial || params.exportSkeleton

/-- Whether `translateNode` calls `Mesh::load` on a node: a mesh without children that is
no intermediate object, when the export wants meshes. -/
def loadsMesh (wanted : Bool) (info : NodeInfo) (childCount : Nat) : Bool :=
  info.hasMesh && wanted && childCount == 0 && !info.isIntermediateObject

mutual
/-- The names of the mesh nodes of a tree on which `translateNode` calls `Mesh::load`, in
the order of the traversal (a node before its children, the children in order). -/
def meshLeaves (wanted : Bool) : DagNode → List Nat
  | .mk info children =>
    (if loadsMesh wanted info children.length then [info.name] else []) ++
      meshLeavesOfChildren wanted children
/-- The mesh nodes of the trees of a list of children, in order. -/
def meshLeavesOfChildren (wanted : Bool) : List (Bool × DagNode) → List Nat
  | [] => []
  | (_, child) :: rest => meshLeaves wanted child ++ meshLeavesOfChildren wanted rest
end

mutual
/-- Whether the path to some child cannot be built somewhere in the tree. -/
def pushFails : DagNode → Bool
  | .mk _ children => pushFailsIn children
/-- Whether the path to some child cannot be built somewhere in the trees of the list. -/
def pushFailsIn : List (Bool × DagNode) → Bool
  | [] => false
  | (pushed, child) :: rest => !pushed || pushFails child || pushFailsIn rest
end

/-- The calls that write an animation curve, a camera or particles. -/
def isWrite : Call → Bool
  | .writeAnim _ => true
  | .writeCamera _ => true
  | .particlesWriteToXML _ => true
  | _ => false

/-- The node of a recorded call of `Mesh::load`. -/
def loadOf : Call × MStatus → Option Nat
  | (.meshLoad n, _) => some n
  | _ => none

/-- Some write of an animation curve, a camera or particles is recorded as failed. -/
def failedWrite (calls : List (Call × MStatus)) : Prop :=
  ∃ c, isWrite c = true ∧ (c, MStatus.kFailure) ∈ calls

/-- Every write of an animation curve, a camera or particles succeeds. -/
def writesSucceed (o : Oracle) : Prop :=
  ∀ c w, isWrite c = true → o.succeeds c w = true

/-- A part of the traversal went from `e` to the result `r`: it returned `kFailure` only
if a child path could not be built (`broken`) or a write failed, and when no child path is
broken and the writes succeed it returned `kSuccess` after calling `Mesh::load` on exactly
the nodes `loads`, in order. -/
def Traversed (o : Oracle) (e : OgreExporter) (r : OgreExporter × MStatus) (loads : List Nat)
    (broken : Bool) : Prop :=
  ∃ more, r.1.calls = e.calls ++ more ∧
    (r.2 = .kFailure → broken = true ∨ failedWrite more) ∧
    (writesSucceed o → broken = false → r.2 = .kSuccess ∧ more.filterMap loadOf = loads)

/-- Every `next` of the table is -1 or the index of a later entry of the table: the
chains run forward and end. -/
def WellLinked (table : List vertexInfo) : Prop :=
  ∀ (k : Nat) (e : vertexInfo), table[k]? = some e →
    e.next = -1 ∨ ((k : Int) < e.next ∧ e.next < (table.length : Int))

/-- The offsets `loadPoseShared` computes in the scene `s` (blendshape.cpp 295-318). -/
def sharedOffsets (PRECISION : ℚ) (params : ParamList) (vertices : List vertex)
    (numVertices offset : Int) (s : Scene) : Exec (List vertexOffset) :=
  BlendShape.offsetsShared PRECISION params vertices
    (s.getPoints params.exportWorldCoords s.envelope s.weight) offset numVertices.toNat 0 []

/-- The offsets `loadPoseSubmesh` computes in the scene `s` (blendshape.cpp 357-381). -/
def submeshOffsets (PRECISION : ℚ) (params : ParamList) (vertices : List vertex)
    (indices : List Int) (s : Scene) : Exec (List vertexOffset) :=
  BlendShape.offsetsSubmesh PRECISION params vertices indices
    (s.getPoints params.exportWorldCoords s.envelope s.weight) vertices.length 0 []

/-- The poses stored by the captures made in the scenes of the list, the first of which is
the capture of the channel position `i`: the capture in the scene `s` of the position `j`
stores the pose of target `tgt`, index `k`, `blendShapeIndex = j`, name `nameOf s j` and
the offsets `offsetsOf s`, when these are not empty. -/
def capturedPoses (tgt : target) (k : Int) (nameOf : Scene → Nat → String)
    (offsetsOf : Scene → Exec (List vertexOffset)) : List Scene → Nat → Exec (List pose)
  | [], _ => .ok []
  | s :: rest, i => do
    let offsets ← offsetsOf s
    let more ← capturedPoses tgt k nameOf offsetsOf rest (i + 1)
    .ok ((if offsets.length > 0 then
        [{ poseTarget := tgt, index := k, blendShapeIndex := i, name := nameOf s i,
           offsets := offsets }]
      else []) ++ more)

/-- A component of a stored offset is 0 or of magnitude at least `PRECISION`. -/
def snapped (PRECISION c : ℚ) : Prop := c = 0 ∨ PRECISION ≤ |c|

/-- The offset is one that `loadPoseShared` and `loadPoseSubmesh` store: some component is
not 0 and every component is 0 or of magnitude at least `PRECISION`. -/
def storedOffset (PRECISION : ℚ) (vo : vertexOffset) : Prop :=
  BlendShape.offsetNonZero vo = true ∧
  snapped PRECISION vo.x ∧ snapped PRECISION vo.y ∧ snapped PRECISION vo.z

/-- Every pose of every pose group has at least one offset, and only stored offsets. -/
def posesWellFormed (PRECISION : ℚ) (bs : BlendShape) : Prop :=
  ∀ (k : Int) (pg : poseGroup), bs.m_poseGroups k = some pg →
    ∀ p ∈ pg.poses, p.offsets ≠ [] ∧ ∀ vo ∈ p.offsets, storedOffset PRECISION vo

/-- The pose `p` was captured from the channel position `p.blendShapeIndex` of the weight
index list of `maya`, the capture loop being entered in the scene `entry`: in the scene of
that capture the envelope is 1, the channel `indexList[p.blendShapeIndex]` has the weight 1
and every other channel of the list the weight 0, and the offsets of `p` are those
`offsetsOf` computes in that scene. -/
def CapturedAt (maya entry : Scene) (offsetsOf : Scene → Exec (List vertexOffset))
    (p : pose) : Prop :=
  ∃ (w : Int) (s : Scene), 0 ≤ p.blendShapeIndex ∧
    maya.weightIndexList[p.blendShapeIndex.toNat]? = some w ∧
    (captureScenes maya.weightIndexList entry)[p.blendShapeIndex.toNat]? = some s ∧
    s.envelope = 1 ∧ s.weight w = 1 ∧
    (∀ c ∈ maya.weightIndexList, c ≠ w → s.weight c = 0) ∧
    offsetsOf s = .ok p.offsets

/-- The value the words *linear interpolation between the keys `k_j` and `k_(j+1)`* give at
`fTime`: the value of `k_j` at the time of `k_j`, that of `k_(j+1)` at the time of
`k_(j+1)`, and a straight line between them; `none` when the track has no such keys. -/
def bracketInterpolation (keys : List TKey) (j : Nat) (fTime : ℚ) : Option ℚ :=
  match keys[j]?, keys[j + 1]? with
  | some a, some b =>
    some (a.value + (b.value - a.value) * ((fTime - a.nTime) / ((b.nTime : ℚ) - a.nTime)))
  | _, _ => none

/-- The names of the clips of a list. -/
def clipNames (list : List clipInfo) : List String := list.map (fun c => c.name)

/-- The clip list `list'` is a later state of `list` in a run of `parseArgs`: the clips of
`list` are still there, unchanged and at the same places, and if their names were
different from one another, so are the names of `list'`. -/
def ClipsKept (list list' : List clipInfo) : Prop :=
  list <+: list' ∧ ((clipNames list).Nodup → (clipNames list').Nodup)

/-- The indices with which the loop of `parseArgs` enters its body, in order: the places
of the arguments read as options (the others are read as the values of an option). -/
def optionPositions (env : ArgEnv) (args : List MArg) : Nat → Nat → ParamList → List Nat
  | 0, _, _ => []
  | fuel + 1, i, p =>
    if i < args.length then
      i :: optionPositions env args fuel ((parseOption env args i p).1 + 1)
        (parseOption env args i p).2
    else []

/-- An option about the length unit multiplier: a recognised `-lu`, with the multiplier of
its unit, or a `-scale`, with its factor. -/
inductive LumOption where
  | unit (m : ℚ)
  | scale (s : ℚ)

/-- The option about the length unit multiplier at the index `i`, if there is one there:
a `-lu` whose unit is not recognised is none. -/
def lumOptionAt (env : ArgEnv) (args : List MArg) (i : Nat) : Option LumOption :=
  if isOption env args i "-lu" then
    (unitMultiplier (lengthUnitAt env args i)).map LumOption.unit
  else if isOption env args i "-scale" then
    some (.scale (argAt env args (i + 1)).asDouble)
  else none

/-- The recognised `-lu` and the `-scale` options of a run of `parseArgs`, in order. -/
def lumOptions (env : ArgEnv) (args : List MArg) (p : ParamList) : List LumOption :=
  (optionPositions env args args.length 0 p).filterMap (lumOptionAt env args)

/-- The multiplier of the last recognised `-lu` of a list of options, if there is one. -/
def lastUnit : List LumOption → Option ℚ
  | [] => none
  | .unit m :: rest =>
    match lastUnit rest with
    | some m' => some m'
    | none => some m
  | .scale _ :: rest => lastUnit rest

/-- The factors of the `-scale` options that come after the last recognised `-lu` of a
list of options (all of them when there is no recognised `-lu`). -/
def scalesAfterLastUnit : List LumOption → List ℚ
  | [] => []
  | .unit _ :: rest => scalesAfterLastUnit rest
  | .scale s :: rest =>
    match lastUnit rest with
    | some _ => scalesAfterLastUnit rest
    | none => s :: scalesAfterLastUnit rest

/-- The length unit multiplier in the words of the specification: `m` times the product of
the `-scale` factors after the last recognised `-lu`, where `m` is the multiplier of that
`-lu`, or the initial multiplier `lum0` when there is none. -/
def lumBySpec (lum0 : ℚ) (opts : List LumOption) : ℚ :=
  (lastUnit opts).getD lum0 * (scalesAfterLastUnit opts).prod

/-- The inserts of the candidates of a list into a table, one after another: the table
they leave. -/
def VertexTable.addAll (eps : ℚ) : List vertexInfo → List vertexInfo → Exec (List vertexInfo)
  | [], table => .ok table
  | c :: rest, table => do
    let r ← VertexTable.addOrReuse eps table c
    VertexTable.addAll eps rest r.1

/-- The table `t'` is a later state of the table `t`: every entry of `t` is still at its
index, with the same attributes, and with the same `next` unless it was the end of its
chain. -/
def TableGrows (t t' : List vertexInfo) : Prop :=
  ∀ (j : Nat) (e : vertexInfo), t[j]? = some e →
    ∃ m : Int, t'[j]? = some { e with next := m } ∧ (e.next ≠ -1 → m = e.next)

/-- The indices of the entries reached from the entry `k` along `next`, in order; one unit
of fuel per entry. -/
def chainFrom (table : List vertexInfo) : Nat → Int → List Nat
  | 0, _ => []
  | fuel + 1, k =>
    match vecGet table k with
    | .ok entry =>
      k.toNat :: (if entry.next = -1 then [] else chainFrom table fuel entry.next)
    | .error _ => []

/-- The chain of the source point `p`: the indices reached along `next` from the first
entry of the table tied to `p`; empty when no entry is tied to `p`. -/
def chainOf (table : List vertexInfo) (p : Int) : List Nat :=
  match VertexTable.firstOf p table 0 with
  | none => []
  | some head => chainFrom table table.length head

/-- Whether the entry of index `j` is equal to the candidate. -/
def matchesAt (eps : ℚ) (table : List vertexInfo) (cand : vertexInfo) (j : Nat) : Bool :=
  match table[j]? with
  | some e => VertexTable.sameAttributes eps e cand
  | none => false

/-- The properties of a rounding used by the statements on `loadTrackF`: it keeps the
order, it leaves 0 as it is, and it leaves its own results as they are. -/
def IsRounding (fl : ℚ → ℚ) : Prop :=
  (∀ x y, x ≤ y → fl x ≤ fl y) ∧ fl 0 = 0 ∧ ∀ x, fl (fl x) = fl x

/-- The track `t` with the time of every keyframe rounded by `fl`. -/
def retimeTrack (fl : ℚ → ℚ) (t : Track) : Track :=
  { t with m_vertexKeyframes := t.m_vertexKeyframes.map (fun k => { k with time := fl k.time }) }

/-! ## Test doubles -/

/-- A scene with one deformer of the given weight index list, no animation, no alias,
no connection, every weight settable and the mesh points given by `pts`. -/
def Scene.still (indexList : List Int) (pts : ℚ → (Int → ℚ) → List MFloatPoint) : Scene :=
  { currentTime := 0, envelope := 1, weightIndexList := indexList, weight := fun _ => 0,
    weightSettable := fun _ => true, aliasAttr := [], getPoints := fun _ => pts,
    envelopeAt := fun _ => 1, weightAt := fun _ _ => 0, weightPlugs := [],
    connections := [], strayString := fun _ => "" }

/-- A scene whose deformer has the single channel 0, with envelope 1 and the weight of the
channel equal to the time (0 at time 0, 1 at time 1). -/
def Scene.ramp : Scene :=
  { Scene.still [0] (fun _ _ => []) with weightAt := fun t _ => t }

/-- A pose of the shared geometry captured from channel position `channel`, moving vertex 0
by one unit in x. -/
def demoPose (channel : Int) : pose :=
  { poseTarget := .T_MESH, index := 0, blendShapeIndex := channel, name := "demo",
    offsets := [{ index := 0, x := 1, y := 0, z := 0 }] }

/-- A freshly constructed `BlendShape` whose group 0 holds the given poses. -/
def BlendShape.withPoses (poses : List pose) : BlendShape :=
  BlendShape.new.setGroup 0 { targetIndex := 0, poses := poses }

/-- Four poses in group 0, one per channel, with the optimisation array marking all but
the third. -/
def BlendShape.demoFlagged : BlendShape :=
  { BlendShape.withPoses [demoPose 0, demoPose 1, demoPose 2, demoPose 3] with
    poseOptArray := MIntArray.ofList [1, 1, 0, 1] }

/-- A scene whose deformer has the channels 0, 1, 2 and 3, with envelope 1: the weight of
channel 0 equals the time, the weight of channel 1 stays at 1, the weight of channel 2
stays at 0.0005 and the weight of channel 3 stays at -1. -/
def Scene.fourChannels : Scene :=
  { Scene.still [0, 1, 2, 3] (fun _ _ => []) with
    weightAt := fun t i => if i = 0 then t else if i = 1 then 1 else if i = 2 then 1 / 2000 else -1 }

/-- A vertex at `(x, y, z)` that refers to the point `i` of the Maya mesh. -/
def demoVertex (i : Int) (x y z : ℚ) : vertex :=
  { x := x, y := y, z := z, n := (0, 0, 1), r := 1, g := 1, b := 1, a := 1,
    texcoords := [], vbas := [], index := i }

/-- Ten vertices on the x axis, vertex `i` at `(i, 0, 0)`. -/
def demoVertices : List vertex :=
  [demoVertex 0 0 0 0, demoVertex 1 1 0 0, demoVertex 2 2 0 0, demoVertex 3 3 0 0,
   demoVertex 4 4 0 0, demoVertex 5 5 0 0, demoVertex 6 6 0 0, demoVertex 7 7 0 0,
   demoVertex 8 8 0 0, demoVertex 9 9 0 0]

/-- The points of `demoVertices`, undeformed. -/
def demoNeutral : List MFloatPoint :=
  [⟨0, 0, 0⟩, ⟨1, 0, 0⟩, ⟨2, 0, 0⟩, ⟨3, 0, 0⟩, ⟨4, 0, 0⟩, ⟨5, 0, 0⟩, ⟨6, 0, 0⟩, ⟨7, 0, 0⟩,
   ⟨8, 0, 0⟩, ⟨9, 0, 0⟩]

/-- The points of `demoVertices` with the points 2, 5 and 7 moved by +1 in x. -/
def demoDeformed : List MFloatPoint :=
  [⟨0, 0, 0⟩, ⟨1, 0, 0⟩, ⟨3, 0, 0⟩, ⟨3, 0, 0⟩, ⟨4, 0, 0⟩, ⟨6, 0, 0⟩, ⟨6, 0, 0⟩, ⟨8, 0, 0⟩,
   ⟨8, 0, 0⟩, ⟨9, 0, 0⟩]

/-- One point at 0.00009 from the origin along each axis: each component of the
displacement from the origin is below 0.0001, its magnitude is above. -/
def demoDiagonal : List MFloatPoint := [⟨9 / 100000, 9 / 100000, 9 / 100000⟩]

/-- One point at exactly 0.0001 from the origin along x. -/
def demoThreshold : List MFloatPoint := [⟨1 / 10000, 0, 0⟩]

/-- The index list of a submesh made of the ten vertices of `demoVertices`. -/
def demoIndices : List Int := [0, 1, 2, 3, 4, 5, 6, 7, 8, 9]

/-- A scene whose deformer has the channels 0 and 1: with channel 0 at weight 1 the mesh
shows `demoDeformed`, otherwise it shows `demoNeutral` (channel 1 moves nothing). -/
def Scene.twoTargets : Scene :=
  Scene.still [0, 1] (fun _ w => if w 0 = 1 then demoDeformed else demoNeutral)

/-- A scene whose deformer has the weight plugs 1 and 2: plug 1 is driven by plug 10 and
drives plug 20, plug 2 drives plug 1, and plugs 30 and 40 are connected aside. -/
def Scene.wired : Scene :=
  { Scene.still [0, 1] (fun _ _ => []) with
    weightPlugs := [1, 2], connections := [(10, 1), (1, 20), (2, 1), (30, 40)] }

/-- The scene `Scene.twoTargets` posed by the artist: envelope 1/2, channel 0 at weight 1/4
and channel 1 at weight 3/4. -/
def Scene.posed : Scene :=
  { Scene.twoTargets with envelope := 1 / 2, weight := fun i => if i = 0 then 1 / 4 else 3 / 4 }

/-- A scene whose deformer has the single channel 0, locked at weight 1 (no `setWeight`
succeeds); the mesh shows `demoDeformed` when the weight of the channel is 1 and
`demoNeutral` otherwise. -/
def Scene.locked : Scene :=
  { Scene.still [0] (fun _ w => if w 0 = 1 then demoDeformed else demoNeutral) with
    weightSettable := fun _ => false, weight := fun _ => 1 }

/-- The pose of channel position 0 that moves the vertices 2, 5 and 7 of `demoVertices` by
one unit in x. -/
def demoCaptured : pose :=
  { poseTarget := .T_MESH, index := 0, blendShapeIndex := 0, name := "pose",
    offsets := [⟨2, 1, 0, 0⟩, ⟨5, 1, 0, 0⟩, ⟨7, 1, 0, 0⟩] }

/-- A DAG node without children, mesh, camera or particles. -/
def DagNode.leaf (name : Nat) : DagNode := .mk { name := name } []

/-- A world at time `t` with the active selection `sel` and the DAG root `root`. -/
def World.demo (t : ℚ) (sel : List DagNode) (root : DagNode) : World :=
  { currentTime := t, activeSelection := sel, root := root, data := 0 }

/-- An exporter that has made no call yet, with the parameters `params`, in the world `w`. -/
def OgreExporter.fresh (params : ParamList) (w : World) : OgreExporter :=
  { stat := .kSuccess, m_params := params, m_selList := [], m_curTime := 0,
    firstStart := 0, lastStop := 0, world := w, calls := [] }

/-- The oracle of a world in which every call succeeds and changes nothing, and the mesh
has no skeleton. -/
def Oracle.quiet : Oracle :=
  { after := fun _ w => w, succeeds := fun _ _ => true, hasSkeleton := fun _ => false,
    selectionListStatus := fun _ => true, animOutput := fun _ _ r => r }

/-- Parameters of a vertex-animation export with the clip `idle` from 0 to 1 sampled at
rate 0, followed by the clip `walk` from 0 to 1 sampled at rate 1/2. -/
def demoZeroRate : ParamList :=
  { exportMesh := true, exportVertAnims := true,
    vertClipList := [{ start := 0, stop := 1, rate := 0, name := "idle" },
                     { start := 0, stop := 1, rate := 1 / 2, name := "walk" }] }

/-- A DAG whose root has one child, the path to which cannot be built
(`childPath.push(child)` fails). -/
def DagNode.brokenChild : DagNode := .mk { name := 0 } [(false, DagNode.leaf 1)]

/-- The oracle `Oracle.quiet` with a skeleton on the mesh. -/
def Oracle.withSkeleton : Oracle := { Oracle.quiet with hasSkeleton := fun _ => true }

/-- Parameters of an export of the whole scene with vertex, blend-shape and skeleton
animations, the materials and the animation curves. -/
def demoExportAll : ParamList :=
  { exportAll := true, exportVertAnims := true, exportBlendShapes := true,
    exportSkelAnims := true, exportMaterial := true, exportAnimCurves := true }

/-- An oracle whose calls all succeed and each move the time to 99 and empty the
selection. -/
def Oracle.scrubbing : Oracle :=
  { Oracle.quiet with
    after := fun _ w => { w with currentTime := 99, activeSelection := [] } }

/-- A mesh shape node without children. -/
def DagNode.mesh (name : Nat) : DagNode := .mk { name := name, hasMesh := true } []

/-- A transform with the two mesh shapes 1 and 2 under it. -/
def DagNode.twoMeshes : DagNode :=
  .mk { name := 0, hasTransform := true } [(true, DagNode.mesh 1), (true, DagNode.mesh 2)]

/-- The oracle `Oracle.quiet` in which `Mesh::load` fails on the node 1. -/
def Oracle.firstMeshFails : Oracle :=
  { Oracle.quiet with succeeds := fun c _ => decide (c ≠ Call.meshLoad 1) }

/-- A vertex of the source point 4 with normal 2, white, one UV pair and one bone weight. -/
def demoCorner : vertexInfo :=
  { pointIdx := 4, normalIdx := 2, r := 1, g := 1, b := 1, a := 1, u := [1 / 2], v := [1 / 4],
    vba := [1], jointIds := [0], next := -1 }

/-- A scene whose deformer has the channels 0 and 1: with channel 1 at weight 1 the mesh
shows `demoDeformed`, otherwise it shows `demoNeutral` (channel 0 moves nothing). -/
def Scene.secondTarget : Scene :=
  Scene.still [0, 1] (fun _ w => if w 1 = 1 then demoDeformed else demoNeutral)

/-- A scene whose deformer has the sparse weight index list [0, 2], with the alias `smile`
on `weight[0]` and the alias `frown` on `weight[2]`: with channel 2 at weight 1 the mesh
shows `demoDeformed`, otherwise it shows `demoNeutral`. -/
def Scene.sparse : Scene :=
  { Scene.still [0, 2] (fun _ w => if w 2 = 1 then demoDeformed else demoNeutral) with
    aliasAttr := ["smile", "weight[0]", "frown", "weight[2]"] }

/-- A track of three keys: the value rises from 0 at the time 0 to 10 at the time 10 and
falls back to 0 at the time 20. -/
def demoTrack : List TKey :=
  [{ value := 0, nTime := 0 }, { value := 10, nTime := 10 }, { value := 0, nTime := 20 }]

/-- A curve of two keys, at the times 0 and 1, whose values are -1 and -2. -/
def MFnAnimCurve.falling : MFnAnimCurve :=
  { numKeys := 2, time := fun i => i, value := fun i => -1 - i }

/-- The name of a curve that is not a focal length. -/
def CurveName.plain : CurveName :=
  { outString := "translateX", is_focalLength := false, fovyBlock := [] }

/-- An exporter that has made no call yet, with `animSkipZeroValues` set. -/
def OgreExporter.skipping : OgreExporter :=
  OgreExporter.fresh { animSkipZeroValues := true } (World.demo 0 [] (DagNode.leaf 0))

/-- An environment of `parseArgs`: centimetres, 24 frames per second, a time slider from 0
to 10 seconds. -/
def ArgEnv.demo : ArgEnv :=
  { beyond := { asString := "" }, currentUnit := "cm", secondsOf := fun x => x / 24,
    minTime := 0, maxTime := 10, strayFlag := false }

/-- The arguments of the words `words`, each read as a string. -/
def argsOf (words : List String) : List MArg := words.map (fun w => { asString := w })

/-- The arguments of two definitions of the skeleton clip `walk` over the time slider, the
first sampled every second and the second every two seconds. -/
def demoClipArgs : List MArg :=
  argsOf ["-skeletonClip", "walk", "timeSlider", "sampleBySec"] ++
    [{ asString := "1", asDouble := 1 }] ++
  argsOf ["-skeletonClip", "walk", "timeSlider", "sampleBySec"] ++
    [{ asString := "2", asDouble := 2 }]

/-- The arguments `-scale 3 -lu mm -scale 2 -lu furlong`. -/
def demoUnitArgs : List MArg :=
  [{ asString := "-scale" }, { asString := "3", asDouble := 3 },
   { asString := "-lu" }, { asString := "mm" },
   { asString := "-scale" }, { asString := "2", asDouble := 2 },
   { asString := "-lu" }, { asString := "furlong" }]

/-- The oracle of a world in which every call succeeds and changes nothing, except that
the selection list cannot be read. -/
def Oracle.unreadable : Oracle :=
  { Oracle.quiet with selectionListStatus := fun _ => false }

/-- The vertex `demoCorner` with another normal: the same source point, split. -/
def demoSplit : vertexInfo := { demoCorner with normalIdx := 3 }

/-- A vertex with the attributes of `demoCorner` at another source point. -/
def demoFar : vertexInfo := { demoCorner with pointIdx := 9 }
/-! # Theorems -/

open BlendShape

/-! ## Sample times -/

theorem sampleTimesLoop_closed (stop rate : ℚ) :
    ∀ (m : ℕ) (time : ℚ) (acc : List ℚ), stop - time ≤ m * rate →
      ∃ n : ℕ, n ≤ m ∧
        (∀ fuel, n ≤ fuel → sampleTimesLoop stop rate fuel time acc
          = .ok (acc ++ (List.range n).map (fun k : ℕ => time + k * rate))) ∧
        (∀ k : ℕ, k < n → time + k * rate < stop) ∧ stop ≤ time + n * rate := by
  intro m
  induction m with
  | zero =>
    intro time acc h
    have hle : stop ≤ time := by simpa using h
    refine ⟨0, le_refl _, ?_, ?_, ?_⟩
    · intro fuel _
      cases fuel <;> simp [sampleTimesLoop, not_lt.mpr hle]
    · intro k hk; omega
    · simpa using hle
  | succ m ih =>
    intro time acc h
    by_cases hlt : time < stop
    · have h' : stop - (time + rate) ≤ m * rate := by
        push_cast at h; linarith
      obtain ⟨n, hn, hrun, hlow, hup⟩ := ih (time + rate) (acc ++ [time]) h'
      refine ⟨n + 1, by omega, ?_, ?_, ?_⟩
      · intro fuel hfuel
        obtain ⟨f, rfl⟩ : ∃ f, fuel = f + 1 := ⟨fuel - 1, by omega⟩
        simp only [sampleTimesLoop, hlt, if_true]
        rw [hrun f (by omega), List.range_succ_eq_map]
        simp only [List.map_cons, List.map_map, List.append_assoc, List.singleton_append,
          Nat.cast_zero, zero_mul, add_zero]
        congr 3
        apply List.map_congr_left
        intro k _
        simp only [Function.comp, Nat.cast_succ]
        ring
      · intro k hk
        cases k with
        | zero => simpa using hlt
        | succ k =>
          have := hlow k (by omega)
          push_cast
          linarith
      · push_cast; linarith
    · have hle : stop ≤ time := not_lt.mp hlt
      refine ⟨0, by omega, ?_, ?_, ?_⟩
      · intro fuel _
        cases fuel <;> simp [sampleTimesLoop, hlt]
      · intro k hk; omega
      · simpa using hle

theorem sampleTimesLoop_mono (stop rate : ℚ) :
    ∀ (fuel : ℕ) (time : ℚ) (acc r : List ℚ),
      sampleTimesLoop stop rate fuel time acc = .ok r →
      ∀ extra, sampleTimesLoop stop rate (fuel + extra) time acc = .ok r := by
  intro fuel
  induction fuel with
  | zero =>
    intro time acc r h extra
    by_cases hlt : time < stop
    · simp [sampleTimesLoop, hlt] at h
    · cases extra <;> simpa [sampleTimesLoop, hlt] using h
  | succ f ih =>
    intro time acc r h extra
    by_cases hlt : time < stop
    · simp only [sampleTimesLoop, hlt, if_true] at h
      have := ih _ _ _ h extra
      rw [Nat.add_right_comm]
      simpa [sampleTimesLoop, hlt] using this
    · rw [Nat.add_right_comm]
      simpa [sampleTimesLoop, hlt] using h



/-! ## Keyframes: closed form of `loadKeyframe` -/

theorem bind_ok_eq {α β : Type} (a : α) (f : α → Exec β) :
    (Except.ok a >>= f) = f a := rfl

theorem bind_error_eq {α β : Type} (e : Fault) (f : α → Exec β) :
    ((Except.error e : Exec α) >>= f) = Except.error e := rfl

theorem MIntArray.get_ok {a : MIntArray} {i : Int} {v : Int} (h : a.get i = .ok v) :
    0 ≤ i ∧ i.toNat < a.length ∧ v = a.store i.toNat := by
  unfold MIntArray.get at h
  split at h
  · rename_i hc
    simp only [Except.ok.injEq] at h
    exact ⟨hc.1, hc.2, h.symm⟩
  · simp at h

theorem MIntArray.get_of_lt (a : MIntArray) (i : Nat) (h : i < a.length) :
    a.get (i : Int) = .ok (a.store i) := by
  simp [MIntArray.get, h]

theorem keyframeLoop_ok (bs : BlendShape) (maya : Scene) (il : MIntArray) (env : ℚ)
    (sp : Int) :
    ∀ (poses : List pose) (i : Nat) (key key' : vertexKeyframe),
      keyframeLoop bs maya il env sp poses i key = .ok key' →
      key' = { key with
        poserefs := key.poserefs ++
          (refsFrom bs (fun p => env * maya.weight (il.store p.blendShapeIndex.toNat)) sp
            poses i) } := by
  intro poses
  induction poses with
  | nil =>
    intro i key key' h
    simp only [keyframeLoop, Except.ok.injEq] at h
    simp [refsFrom, ← h]
  | cons p rest ih =>
    intro i key key' h
    simp only [keyframeLoop] at h
    cases hg : il.get p.blendShapeIndex with
    | error e => rw [hg] at h; simp [bind_error_eq] at h
    | ok w =>
      rw [hg, bind_ok_eq] at h
      obtain ⟨_, _, hw⟩ := MIntArray.get_ok hg
      by_cases hlen : bs.poseOptArray.length = 0
      · simp only [hlen, if_true] at h
        have := ih _ _ _ h
        rw [this]
        simp [refsFrom, keeps, hlen, hw]
      · simp only [hlen, if_false] at h
        cases hf : bs.poseOptArray.get (i : Int) with
        | error e => rw [hf] at h; simp [bind_error_eq] at h
        | ok flag =>
          rw [hf, bind_ok_eq] at h
          obtain ⟨_, _, hflag⟩ := MIntArray.get_ok hf
          simp only [Int.toNat_ofNat] at hflag
          by_cases h1 : flag = 1
          · simp only [h1, if_true] at h
            have := ih _ _ _ h
            rw [this]
            have hk : keeps bs i = true := by simp [keeps, ← hflag, h1]
            simp [refsFrom, hk, hw]
          · simp only [h1, if_false] at h
            have := ih _ _ _ h
            rw [this]
            have hk : keeps bs i = false := by
              simp [keeps, hlen, ← hflag, h1]
            simp [refsFrom, hk]


theorem keyframeLoop_total (bs : BlendShape) (maya : Scene) (il : MIntArray) (env : ℚ)
    (sp : Int) :
    ∀ (poses : List pose) (i : Nat) (key : vertexKeyframe),
      (∀ p ∈ poses, 0 ≤ p.blendShapeIndex ∧ p.blendShapeIndex.toNat < il.length) →
      (bs.poseOptArray.length = 0 ∨ i + poses.length ≤ bs.poseOptArray.length) →
      keyframeLoop bs maya il env sp poses i key = .ok { key with
        poserefs := key.poserefs ++
          (refsFrom bs (fun p => env * maya.weight (il.store p.blendShapeIndex.toNat)) sp
            poses i) } := by
  intro poses
  induction poses with
  | nil => intro i key _ _; simp [keyframeLoop, refsFrom]
  | cons p rest ih =>
    intro i key hin hlen
    have hp := hin p (List.mem_cons_self _ _)
    have hrest : ∀ q ∈ rest, 0 ≤ q.blendShapeIndex ∧ q.blendShapeIndex.toNat < il.length :=
      fun q hq => hin q (List.mem_cons_of_mem _ hq)
    have hlen' : bs.poseOptArray.length = 0 ∨ (i + 1) + rest.length ≤ bs.poseOptArray.length := by
      rcases hlen with h | h
      · exact Or.inl h
      · right; simp only [List.length_cons] at h; omega
    have hg : il.get p.blendShapeIndex = .ok (il.store p.blendShapeIndex.toNat) := by
      simp [MIntArray.get, hp.1, hp.2]
    simp only [keyframeLoop, hg, bind_ok_eq]
    by_cases h0 : bs.poseOptArray.length = 0
    · simp only [h0, if_true]
      rw [ih _ _ hrest hlen']
      simp [refsFrom, keeps, h0]
    · have hi : i < bs.poseOptArray.length := by
        rcases hlen with h | h
        · exact absurd h h0
        · simp only [List.length_cons] at h; omega
      simp only [h0, if_false, MIntArray.get_of_lt _ _ hi, bind_ok_eq]
      by_cases h1 : bs.poseOptArray.store i = 1
      · simp only [h1, if_true]
        rw [ih _ _ hrest hlen']
        simp [refsFrom, keeps, h1]
      · simp only [h1, if_false]
        rw [ih _ _ hrest hlen']
        simp [refsFrom, keeps, h0, h1]

theorem refsFrom_length (bs : BlendShape) (w w' : pose → ℚ) (sp sp' : Int) :
    ∀ (poses : List pose) (i : Nat),
      (refsFrom bs w sp poses i).length = (refsFrom bs w' sp' poses i).length := by
  intro poses
  induction poses with
  | nil => intro i; rfl
  | cons p rest ih =>
    intro i
    by_cases hk : keeps bs i = true
    · simp [refsFrom, hk, ih (i + 1)]
    · simp [refsFrom, hk, ih (i + 1)]

theorem mem_refsFrom (bs : BlendShape) (w : pose → ℚ) (sp : Int) :
    ∀ (poses : List pose) (i : Nat) (r : vertexPoseRef),
      r ∈ refsFrom bs w sp poses i ↔
        ∃ (j : Nat) (p : pose), poses[j]? = some p ∧ keeps bs (i + j) = true ∧
          r = { poseIndex := sp + ((i + j : Nat) : Int), poseWeight := w p } := by
  intro poses
  induction poses with
  | nil => intro i r; simp [refsFrom]
  | cons p rest ih =>
    intro i r
    have hstep : (r ∈ refsFrom bs w sp rest (i + 1)) ↔
        ∃ (j : Nat) (q : pose), (p :: rest)[j + 1]? = some q ∧ keeps bs (i + (j + 1)) = true ∧
          r = { poseIndex := sp + ((i + (j + 1) : Nat) : Int), poseWeight := w q } := by
      rw [ih]
      constructor
      · rintro ⟨j, q, h1, h2, h3⟩
        exact ⟨j, q, by simpa using h1, by rw [← Nat.add_assoc, Nat.add_right_comm]; exact h2,
          by rw [h3, ← Nat.add_assoc, Nat.add_right_comm]⟩
      · rintro ⟨j, q, h1, h2, h3⟩
        exact ⟨j, q, by simpa using h1, by rw [Nat.add_right_comm, Nat.add_assoc]; exact h2,
          by rw [h3, Nat.add_right_comm, Nat.add_assoc]⟩
    by_cases hk : keeps bs i = true
    · simp only [refsFrom, hk, if_true, List.mem_cons, hstep]
      constructor
      · rintro (h | ⟨j, q, h1, h2, h3⟩)
        · exact ⟨0, p, by simp, by simpa using hk, by simpa using h⟩
        · exact ⟨j + 1, q, h1, h2, h3⟩
      · rintro ⟨j, q, h1, h2, h3⟩
        cases j with
        | zero =>
          left
          simp only [List.getElem?_cons_zero, Option.some.injEq] at h1
          subst h1
          simpa using h3
        | succ j => exact Or.inr ⟨j, q, h1, h2, h3⟩
    · have hk' : keeps bs i = false := by simpa using hk
      simp only [refsFrom, hk', Bool.false_eq_true, if_false, hstep]
      constructor
      · rintro ⟨j, q, h1, h2, h3⟩
        exact ⟨j + 1, q, h1, h2, h3⟩
      · rintro ⟨j, q, h1, h2, h3⟩
        cases j with
        | zero => simp only [Nat.add_zero] at h2; rw [hk'] at h2; exact absurd h2 (by simp)
        | succ j => exact ⟨j, q, h1, h2, h3⟩

theorem refsFrom_indices (bs : BlendShape) (w : pose → ℚ) (sp : Int) :
    ∀ (poses : List pose) (i : Nat),
      (refsFrom bs w sp poses i).map (fun r => r.poseIndex) =
        ((List.range' i poses.length).filter (keeps bs)).map (fun j : Nat => sp + (j : Int)) := by
  intro poses
  induction poses with
  | nil => intro i; simp [refsFrom]
  | cons p rest ih =>
    intro i
    by_cases hk : keeps bs i = true
    · simp [refsFrom, hk, ih (i + 1), List.range'_succ, List.filter_cons]
    · simp [refsFrom, hk, ih (i + 1), List.range'_succ, List.filter_cons]


theorem refsFrom_length_kept (bs : BlendShape) (w : pose → ℚ) (sp : Int) (poses : List pose) :
    (refsFrom bs w sp poses 0).length = (keptPositions bs poses.length).length := by
  have := congrArg List.length (refsFrom_indices bs w sp poses 0)
  simpa [keptPositions, List.range_eq_range'] using this

theorem findGroup_ok {bs : BlendShape} {k : Int} {pg : poseGroup}
    (h : bs.findGroup k = .ok pg) : bs.m_poseGroups k = some pg := by
  unfold BlendShape.findGroup at h
  split at h
  · rename_i pg' hpg
    simp only [Except.ok.injEq] at h
    rw [hpg, h]
  · simp at h

theorem findGroup_of_some {bs : BlendShape} {k : Int} {pg : poseGroup}
    (h : bs.m_poseGroups k = some pg) : bs.findGroup k = .ok pg := by
  simp [BlendShape.findGroup, h]

theorem findGroup_error_or (bs : BlendShape) (k : Int) :
    (∃ pg, bs.m_poseGroups k = some pg ∧ bs.findGroup k = .ok pg) ∨
      (bs.m_poseGroups k = none ∧ bs.findGroup k = .error .undefinedBehaviour) := by
  cases h : bs.m_poseGroups k with
  | none => right; simp [BlendShape.findGroup, h]
  | some pg => left; exact ⟨pg, rfl, by simp [BlendShape.findGroup, h]⟩

theorem loadKeyframe_ok {bs : BlendShape} {maya : Scene} {time : ℚ} {params : ParamList}
    {ti sp : Int} {key : vertexKeyframe}
    (h : loadKeyframe bs maya time params ti sp = .ok key) :
    ∃ pg, bs.m_poseGroups ti = some pg ∧
      key = { time := time, positions := [],
              poserefs := refsFrom bs (fun p => maya.envelope *
                maya.weight (maya.weightIndexList.getD p.blendShapeIndex.toNat 0)) sp pg.poses 0 } := by
  unfold loadKeyframe at h
  rcases findGroup_error_or bs ti with ⟨pg, hpg, hf⟩ | ⟨_, hf⟩
  · rw [hf, bind_ok_eq] at h
    refine ⟨pg, hpg, ?_⟩
    have := keyframeLoop_ok _ _ _ _ _ _ _ _ _ h
    simpa [MIntArray.ofList] using this
  · rw [hf] at h; simp [bind_error_eq] at h

theorem loadKeyframe_total (bs : BlendShape) (maya : Scene) (time : ℚ) (params : ParamList)
    {ti : Int} (sp : Int) {pg : poseGroup}
    (hpg : bs.m_poseGroups ti = some pg) (hin : channelsInRange maya pg.poses)
    (hlen : bs.poseOptArray.length = 0 ∨ pg.poses.length ≤ bs.poseOptArray.length) :
    loadKeyframe bs maya time params ti sp =
      .ok { time := time, positions := [],
            poserefs := refsFrom bs (fun p => maya.envelope *
              maya.weight (maya.weightIndexList.getD p.blendShapeIndex.toNat 0)) sp pg.poses 0 } := by
  unfold loadKeyframe
  rw [findGroup_of_some hpg, bind_ok_eq]
  rw [keyframeLoop_total _ _ _ _ _ _ _ _ (by simpa [MIntArray.ofList] using hin)
    (by simpa using hlen)]
  simp [MIntArray.ofList]

theorem evaluateLoop_ok (bs : BlendShape) (params : ParamList) (ti sp : Int) (t0 : ℚ)
    {pg : poseGroup} (hpg : bs.m_poseGroups ti = some pg) :
    ∀ (times : List ℚ) (t : Track) (maya : Scene) (t' : Track) (maya' : Scene),
      evaluateLoop bs params ti sp t0 times (t, maya) = .ok (t', maya') →
      t' = { t with m_vertexKeyframes := t.m_vertexKeyframes ++
              (if keptPositions bs pg.poses.length = [] then []
               else times.map (keyAt bs maya sp t0 pg.poses)) } ∧
      maya' = times.foldl Scene.setCurrentTime maya := by
  intro times
  induction times with
  | nil =>
    intro t maya t' maya' h
    simp only [evaluateLoop, Except.ok.injEq, Prod.mk.injEq] at h
    obtain ⟨rfl, rfl⟩ := h
    simp
  | cons time rest ih =>
    intro t maya t' maya' h
    simp only [evaluateLoop] at h
    cases hk : loadKeyframe bs (maya.setCurrentTime time) (time - t0) params ti sp with
    | error e => rw [hk] at h; simp [bind_error_eq] at h
    | ok key =>
      rw [hk, bind_ok_eq] at h
      obtain ⟨pg', hpg', hkey⟩ := loadKeyframe_ok hk
      rw [hpg] at hpg'
      cases hpg'
      have hkeyAt : key = keyAt bs maya sp t0 pg.poses time := by
        rw [hkey]; rfl
      have hlenk : key.poserefs.length = (keptPositions bs pg.poses.length).length := by
        rw [hkey]; exact refsFrom_length_kept _ _ _ _
      have hsame : keyAt bs (maya.setCurrentTime time) sp t0 pg.poses
          = keyAt bs maya sp t0 pg.poses := rfl
      by_cases hnil : keptPositions bs pg.poses.length = []
      · have hc : ¬ key.poserefs.length > 0 := by rw [hlenk, hnil]; simp
        rw [if_neg hc] at h
        obtain ⟨ht, hm⟩ := ih _ _ _ _ h
        refine ⟨?_, by simpa using hm⟩
        rw [ht]; simp [hnil]
      · have hc : key.poserefs.length > 0 := by
          rw [hlenk]; exact List.length_pos.mpr hnil
        rw [if_pos hc] at h
        obtain ⟨ht, hm⟩ := ih _ _ _ _ h
        refine ⟨?_, by simpa using hm⟩
        rw [ht, hsame, hkeyAt]
        simp [hnil, Track.addVertexKeyframe]



theorem sampleTimes_closed (start stop rate : ℚ) (hrate : 0 < rate) :
    ∃ n : ℕ,
      (∀ fuel, n ≤ fuel → sampleTimes fuel start stop rate
        = .ok ((List.range n).map (fun k : ℕ => start + k * rate) ++ [stop])) ∧
      (∀ k : ℕ, k < n → start + k * rate < stop) ∧ stop ≤ start + n * rate := by
  obtain ⟨m, hm⟩ := exists_nat_ge ((stop - start) / rate)
  have hm' : stop - start ≤ m * rate := by
    rwa [div_le_iff₀ hrate] at hm
  obtain ⟨n, _, hrun, hlow, hup⟩ := sampleTimesLoop_closed stop rate m start [] hm'
  refine ⟨n, ?_, hlow, hup⟩
  intro fuel hfuel
  simp [sampleTimes, hrun fuel hfuel, bind_ok_eq]

theorem sampleTimes_ok_form {fuel : ℕ} {start stop rate : ℚ} {ts : List ℚ} (hrate : 0 < rate)
    (h : sampleTimes fuel start stop rate = .ok ts) :
    ∃ n : ℕ, ts = (List.range n).map (fun k : ℕ => start + k * rate) ++ [stop] ∧
      (∀ k : ℕ, k < n → start + k * rate < stop) ∧ stop ≤ start + n * rate := by
  obtain ⟨n, hrun, hlow, hup⟩ := sampleTimes_closed start stop rate hrate
  refine ⟨n, ?_, hlow, hup⟩
  have h1 := hrun (fuel + n) (by omega)
  unfold sampleTimes at h h1
  cases hl : sampleTimesLoop stop rate fuel start [] with
  | error e => rw [hl] at h; simp [bind_error_eq] at h
  | ok r =>
    rw [hl, bind_ok_eq] at h
    rw [sampleTimesLoop_mono stop rate fuel start [] r hl n, bind_ok_eq] at h1
    simp only [Except.ok.injEq] at h h1
    rw [← h, h1]

theorem times_pairwise {start stop rate : ℚ} (hrate : 0 < rate) (n : ℕ)
    (hlow : ∀ k : ℕ, k < n → start + k * rate < stop) :
    ((List.range n).map (fun k : ℕ => start + k * rate) ++ [stop]).Pairwise (· < ·) := by
  rw [List.pairwise_append]
  refine ⟨?_, by simp, ?_⟩
  · rw [List.pairwise_map]
    refine List.Pairwise.imp ?_ (List.pairwise_lt_range n)
    intro a b hab
    have : (a : ℚ) < b := by exact_mod_cast hab
    nlinarith
  · intro a ha b hb
    simp only [List.mem_map, List.mem_range] at ha
    obtain ⟨k, hk, rfl⟩ := ha
    simp only [List.mem_singleton] at hb
    subst hb
    exact hlow k hk

theorem vecGet_zero_cons {α : Type} (a : α) (l : List α) : vecGet (a :: l) 0 = .ok a := by
  simp [vecGet]

theorem vecGet_last_concat {α : Type} (l : List α) (a : α) :
    vecGet (l ++ [a]) (((l ++ [a]).length : Int) - 1) = .ok a := by
  simp [vecGet]

/-! ## The optimisation pass -/

theorem MIntArray.set_of_lt (a : MIntArray) (i : Nat) (v : Int) (h : i < a.length) :
    a.set i v = .ok { a with store := Function.update a.store i v } := by
  simp [MIntArray.set, h]

theorem zeroFlags_spec :
    ∀ (n j : Nat) (arr : MIntArray) (k : Int), j + n ≤ arr.length →
      ∃ arr', zeroFlags n j (arr, k) = .ok (arr', if n = 0 then k else 1) ∧
        arr'.length = arr.length ∧
        (∀ x, j ≤ x → x < j + n → arr'.store x = 0) ∧
        (∀ x, ¬ (j ≤ x ∧ x < j + n) → arr'.store x = arr.store x) := by
  intro n
  induction n with
  | zero =>
    intro j arr k _
    exact ⟨arr, by simp [zeroFlags], rfl, fun x h1 h2 => by omega, fun _ _ => rfl⟩
  | succ n ih =>
    intro j arr k h
    have hj : j < arr.length := by omega
    obtain ⟨arr', hrun, hlen, hz, hother⟩ :=
      ih (j + 1) { arr with store := Function.update arr.store j 0 } 1 (by simpa using by omega)
    refine ⟨arr', ?_, by simpa using hlen, ?_, ?_⟩
    · simp only [zeroFlags, MIntArray.set_of_lt _ _ _ hj, bind_ok_eq, hrun]
      by_cases hn : n = 0 <;> simp [hn]
    · intro x h1 h2
      by_cases hx : x = j
      · subst hx
        rw [hother x (by omega)]
        simp
      · exact hz x (by omega) (by omega)
    · intro x hx
      rw [hother x (by omega)]
      have : x ≠ j := by omega
      simp [Function.update, this]

theorem initFlags_nonzero (size fuel : Nat) (arr : MIntArray) (k : Int) (hk : k ≠ 0) :
    initFlags size fuel (arr, k) = .ok (arr, k) := by
  cases fuel <;> simp [initFlags, hk]

theorem initFlags_zero (size fuel : Nat) (arr : MIntArray) (hsize : 0 < size)
    (hlen : size ≤ arr.length) (hfuel : 1 ≤ fuel) :
    ∃ arr', initFlags size fuel (arr, 0) = .ok (arr', 1) ∧ arr'.length = arr.length ∧
      (∀ x, x < size → arr'.store x = 0) := by
  obtain ⟨f, rfl⟩ : ∃ f, fuel = f + 1 := ⟨fuel - 1, by omega⟩
  obtain ⟨arr', hrun, hl, hz, _⟩ := zeroFlags_spec size 0 arr 0 (by simpa using hlen)
  have hne : size ≠ 0 := by omega
  simp only [hne, if_false] at hrun
  refine ⟨arr', ?_, hl, fun x hx => hz x (Nat.zero_le _) (by simpa using hx)⟩
  simp only [initFlags, if_true, hrun, bind_ok_eq]
  exact initFlags_nonzero size f arr' 1 (by decide)

theorem initFlags_empty_diverges (fuel : Nat) (arr : MIntArray) :
    initFlags 0 fuel (arr, 0) = .error .outOfFuel := by
  induction fuel with
  | zero => simp [initFlags]
  | succ f ih => simp [initFlags, zeroFlags, bind_ok_eq, ih]

theorem vecGet_of_getElem? {α : Type} {xs : List α} {j : Nat} {a : α} (h : xs[j]? = some a) :
    vecGet xs (j : Int) = .ok a := by
  simp [vecGet, h]

theorem markFlags_spec (poserefs : List vertexPoseRef) :
    ∀ (n j : Nat) (arr : MIntArray), j + n ≤ arr.length → j + n ≤ poserefs.length →
      ∃ arr', markFlags poserefs n j arr = .ok arr' ∧ arr'.length = arr.length ∧
        ∀ x, (arr'.store x = 1 ↔ arr.store x = 1 ∨
          (j ≤ x ∧ x < j + n ∧ ∃ r, poserefs[x]? = some r ∧ outsideDeadBand r.poseWeight)) := by
  intro n
  induction n with
  | zero =>
    intro j arr _ _
    refine ⟨arr, by simp [markFlags], rfl, ?_⟩
    intro x
    constructor
    · exact fun h => Or.inl h
    · rintro (h | ⟨h1, h2, _⟩)
      · exact h
      · omega
  | succ n ih =>
    intro j arr hlen hrefs
    have hj : j < arr.length := by omega
    have hjr : j < poserefs.length := by omega
    obtain ⟨r, hr⟩ : ∃ r, poserefs[j]? = some r := ⟨poserefs[j], List.getElem?_eq_getElem hjr⟩
    simp only [markFlags, vecGet_of_getElem? hr, bind_ok_eq]
    by_cases hw : r.poseWeight < -(1 / 1000) ∨ r.poseWeight > 1 / 1000
    · obtain ⟨arr', hrun, hl, hiff⟩ :=
        ih (j + 1) { arr with store := Function.update arr.store j 1 }
          (by simpa using by omega) (by omega)
      refine ⟨arr', ?_, by simpa using hl, ?_⟩
      · simp only [hw, if_true, MIntArray.set_of_lt _ _ _ hj, bind_ok_eq, hrun]
      · intro x
        rw [hiff x]
        by_cases hx : x = j
        · subst hx
          simp only [Function.update_same, true_or, true_iff]
          right
          exact ⟨le_refl _, by omega, r, hr, hw⟩
        · simp only [Function.update, hx, dif_neg, not_false_eq_true]
          constructor
          · rintro (h | ⟨h1, h2, h3⟩)
            · exact Or.inl h
            · exact Or.inr ⟨by omega, by omega, h3⟩
          · rintro (h | ⟨h1, h2, h3⟩)
            · exact Or.inl h
            · exact Or.inr ⟨by omega, by omega, h3⟩
    · obtain ⟨arr', hrun, hl, hiff⟩ := ih (j + 1) arr (by omega) (by omega)
      refine ⟨arr', ?_, hl, ?_⟩
      · simp only [hw, if_false, hrun]
      · intro x
        rw [hiff x]
        constructor
        · rintro (h | ⟨h1, h2, h3⟩)
          · exact Or.inl h
          · exact Or.inr ⟨by omega, by omega, h3⟩
        · rintro (h | ⟨h1, h2, r', hr', hw'⟩)
          · exact Or.inl h
          · by_cases hx : x = j
            · subst hx
              rw [hr] at hr'
              cases hr'
              exact absurd hw' hw
            · exact Or.inr ⟨by omega, by omega, r', hr', hw'⟩

theorem refsFrom_all_kept (bs : BlendShape) (w : pose → ℚ) (sp : Int)
    (hall : bs.poseOptArray.length = 0) :
    ∀ (poses : List pose) (i : Nat),
      refsFrom bs w sp poses i =
        (poses.enumFrom i).map (fun ip =>
          ({ poseIndex := sp + (ip.1 : Int), poseWeight := w ip.2 } : vertexPoseRef)) := by
  intro poses
  induction poses with
  | nil => intro i; simp [refsFrom]
  | cons p rest ih =>
    intro i
    simp [refsFrom, keeps, hall, ih (i + 1), List.enumFrom]

theorem optimizeLoop_frame (fuel : Nat) (params : ParamList) (ti sp : Int) (t0 : ℚ) :
    ∀ (times : List ℚ) (bs : BlendShape) (maya : Scene) (k : Int)
      (bs' : BlendShape) (maya' : Scene) (k' : Int),
      optimizeLoop fuel params ti sp t0 times (bs, maya, k) = .ok (bs', maya', k') →
      bs'.m_poseGroups = bs.m_poseGroups ∧ bs'.m_target = bs.m_target ∧
        maya' = times.foldl Scene.setCurrentTime maya := by
  intro times
  induction times with
  | nil =>
    intro bs maya k bs' maya' k' h
    simp only [optimizeLoop, Except.ok.injEq, Prod.mk.injEq] at h
    obtain ⟨rfl, rfl, rfl⟩ := h
    simp
  | cons time rest ih =>
    intro bs maya k bs' maya' k' h
    simp only [optimizeLoop] at h
    cases hk : loadKeyframe { bs with poseOptArray := bs.poseOptArray.clear }
        (maya.setCurrentTime time) (time - t0) params ti sp with
    | error e => rw [hk] at h; simp [bind_error_eq] at h
    | ok key =>
      rw [hk, bind_ok_eq] at h
      cases hi : initFlags key.poserefs.length fuel
          (bs.poseOptArray.clear.setLength key.poserefs.length, k) with
      | error e => rw [hi] at h; simp [bind_error_eq] at h
      | ok st =>
        obtain ⟨arr2, k2⟩ := st
        rw [hi, bind_ok_eq] at h
        cases hm : markFlags key.poserefs key.poserefs.length 0 arr2 with
        | error e => simp only [hm, bind_error_eq] at h; simp at h
        | ok arr3 =>
          simp only [hm, bind_ok_eq] at h
          obtain ⟨h1, h2, h3⟩ := ih _ _ _ _ _ _ h
          exact ⟨h1, h2, by simpa using h3⟩

theorem refsFrom_all_getElem? (bs : BlendShape) (w : pose → ℚ) (sp : Int)
    (hall : bs.poseOptArray.length = 0) (poses : List pose) :
    (refsFrom bs w sp poses 0).length = poses.length ∧
      ∀ x : Nat, (refsFrom bs w sp poses 0)[x]? =
        (poses[x]?).map (fun p => ({ poseIndex := sp + (x : Int), poseWeight := w p } : vertexPoseRef)) := by
  rw [refsFrom_all_kept bs w sp hall]
  refine ⟨by simp, ?_⟩
  intro x
  simp only [List.getElem?_map, List.getElem?_enumFrom, Option.map_map]
  cases poses[x]? <;> simp

theorem optimizeLoop_total (fuel : Nat) (params : ParamList) (ti sp : Int) (t0 : ℚ)
    (pg : poseGroup) (hpos : 0 < pg.poses.length) (hfuel : 1 ≤ fuel) :
    ∀ (times : List ℚ) (bs : BlendShape) (maya : Scene) (k : Int) (seen : List ℚ),
      bs.m_poseGroups ti = some pg → channelsInRange maya pg.poses →
      (k = 0 ∨ k = 1) → (k = 0 → seen = []) →
      (k = 1 → bs.poseOptArray.length = pg.poses.length ∧ ∀ j p, pg.poses[j]? = some p →
        (bs.poseOptArray.store j = 1 ↔
          ∃ time ∈ seen, outsideDeadBand (sampledWeight maya p time))) →
      ∃ bs' maya' k', optimizeLoop fuel params ti sp t0 times (bs, maya, k) = .ok (bs', maya', k') ∧
        (k' = 0 ∨ k' = 1) ∧ (k' = 0 → seen ++ times = []) ∧
        (k' = 1 → bs'.poseOptArray.length = pg.poses.length ∧ ∀ j p, pg.poses[j]? = some p →
          (bs'.poseOptArray.store j = 1 ↔
            ∃ time ∈ seen ++ times, outsideDeadBand (sampledWeight maya p time))) := by
  intro times
  induction times with
  | nil =>
    intro bs maya k seen _ _ hk h0 h1
    refine ⟨bs, maya, k, by simp [optimizeLoop], hk, ?_, ?_⟩
    · simpa using h0
    · simpa using h1
  | cons time rest ih =>
    intro bs maya k seen hpg hin hk h0 h1
    -- the keyframe of the pass: every pose is read
    have hpg1 : ({ bs with poseOptArray := bs.poseOptArray.clear } : BlendShape).m_poseGroups ti
        = some pg := hpg
    have hkey := loadKeyframe_total { bs with poseOptArray := bs.poseOptArray.clear }
      (maya.setCurrentTime time) (time - t0) params sp hpg1 hin (Or.inl rfl)
    obtain ⟨hlen, hget⟩ := refsFrom_all_getElem?
      ({ bs with poseOptArray := bs.poseOptArray.clear } : BlendShape)
      (fun p => (maya.setCurrentTime time).envelope *
        (maya.setCurrentTime time).weight
          ((maya.setCurrentTime time).weightIndexList.getD p.blendShapeIndex.toNat 0))
      sp rfl pg.poses
    simp only [optimizeLoop, hkey, bind_ok_eq, hlen]
    -- the flags after the initialisation
    have hinit : ∃ arr2, initFlags pg.poses.length fuel
          (MIntArray.setLength (MIntArray.clear bs.poseOptArray) pg.poses.length, k) = .ok (arr2, 1) ∧
        arr2.length = pg.poses.length ∧
        ∀ j p, pg.poses[j]? = some p →
          (arr2.store j = 1 ↔ ∃ t ∈ seen, outsideDeadBand (sampledWeight maya p t)) := by
      rcases hk with hk | hk
      · subst hk
        obtain ⟨arr2, hrun, hl, hz⟩ := initFlags_zero pg.poses.length fuel
          (MIntArray.setLength (MIntArray.clear bs.poseOptArray) pg.poses.length) hpos
          (le_refl _) hfuel
        refine ⟨arr2, hrun, hl, ?_⟩
        intro j p hj
        have hjlt : j < pg.poses.length := by
          by_contra hcon
          rw [List.getElem?_eq_none (by omega)] at hj
          cases hj
        rw [hz j hjlt, h0 rfl]
        simp
      · subst hk
        refine ⟨_, initFlags_nonzero _ _ _ _ (by decide), rfl, ?_⟩
        exact (h1 rfl).2
    obtain ⟨arr2, hrun2, hl2, hflag2⟩ := hinit
    simp only [hrun2, bind_ok_eq]
    obtain ⟨arr3, hrun3, hl3, hflag3⟩ := markFlags_spec
      (refsFrom ({ bs with poseOptArray := bs.poseOptArray.clear } : BlendShape)
        (fun p => (maya.setCurrentTime time).envelope *
          (maya.setCurrentTime time).weight
            ((maya.setCurrentTime time).weightIndexList.getD p.blendShapeIndex.toNat 0))
        sp pg.poses 0)
      pg.poses.length 0 arr2 (by omega) (by omega)
    simp only [hrun3, bind_ok_eq]
    have hinv : (arr3.length = pg.poses.length) ∧ ∀ j p, pg.poses[j]? = some p →
        (arr3.store j = 1 ↔
          ∃ t ∈ seen ++ [time], outsideDeadBand (sampledWeight (maya.setCurrentTime time) p t)) := by
      refine ⟨by omega, ?_⟩
      intro j p hj
      have hjlt : j < pg.poses.length := by
        by_contra hcon
        rw [List.getElem?_eq_none (by omega)] at hj
        cases hj
      rw [hflag3 j, hflag2 j p hj, hget j, hj]
      simp only [Option.map_some', Option.some.injEq, exists_eq_left', List.mem_append,
        List.mem_singleton, zero_le, zero_add, hjlt, true_and]
      constructor
      · rintro (⟨t, ht, hw⟩ | hw)
        · exact ⟨t, Or.inl ht, hw⟩
        · exact ⟨time, Or.inr rfl, hw⟩
      · rintro ⟨t, ht | ht, hw⟩
        · exact Or.inl ⟨t, ht, hw⟩
        · subst ht; exact Or.inr hw
    obtain ⟨bs', maya', k', hrun, hk', h0', h1'⟩ :=
      ih ({ bs with poseOptArray := arr3 } : BlendShape) (maya.setCurrentTime time) 1
        (seen ++ [time]) hpg hin (Or.inr rfl) (by intro h; cases h) (fun _ => hinv)
    refine ⟨bs', maya', k', hrun, hk', ?_, ?_⟩
    · intro hz
      have := h0' hz
      simp at this
    · intro hone
      have := h1' hone
      simpa [List.append_assoc] using this

/-! ## Tracks: closed form of `loadTrack` -/

theorem keyAt_foldl (bs : BlendShape) (sp : Int) (t0 : ℚ) (poses : List pose) :
    ∀ (ts : List ℚ) (maya : Scene),
      keyAt bs (ts.foldl Scene.setCurrentTime maya) sp t0 poses = keyAt bs maya sp t0 poses := by
  intro ts
  induction ts with
  | nil => intro maya; rfl
  | cons a rest ih => intro maya; rw [List.foldl_cons, ih]; rfl

theorem channelsInRange_foldl (poses : List pose) :
    ∀ (ts : List ℚ) (maya : Scene),
      channelsInRange (ts.foldl Scene.setCurrentTime maya) poses ↔ channelsInRange maya poses := by
  intro ts
  induction ts with
  | nil => intro maya; rfl
  | cons a rest ih => intro maya; rw [List.foldl_cons, ih]; rfl

theorem sampledWeight_foldl (p : pose) (time : ℚ) :
    ∀ (ts : List ℚ) (maya : Scene),
      sampledWeight (ts.foldl Scene.setCurrentTime maya) p time = sampledWeight maya p time := by
  intro ts
  induction ts with
  | nil => intro maya; rfl
  | cons a rest ih => intro maya; rw [List.foldl_cons, ih]; rfl

/-- Shape of the sample times: the head, and the reads of `times[size-1]` and `times[0]`. -/
theorem times_reads {start stop rate : ℚ} {ts : List ℚ} (n : ℕ)
    (hts : ts = (List.range n).map (fun k : ℕ => start + k * rate) ++ [stop])
    (hlow : ∀ k : ℕ, k < n → start + k * rate < stop) :
    vecGet ts ((ts.length : Int) - 1) = .ok stop ∧
      vecGet ts 0 = .ok (ts.headD 0) ∧ ts.headD 0 ≤ stop := by
  subst hts
  refine ⟨vecGet_last_concat _ _, ?_, ?_⟩
  · cases n with
    | zero => simp [vecGet]
    | succ n => simp [vecGet, List.range_succ_eq_map]
  · cases n with
    | zero => simp
    | succ n =>
      have := hlow 0 (by omega)
      simp only [Nat.cast_zero, zero_mul, add_zero] at this
      simp [List.range_succ_eq_map, le_of_lt this]

theorem loadTrack_ok_form {fuel : Nat} {bs : BlendShape} {maya : Scene} {start stop rate : ℚ}
    {params : ParamList} {ti sp : Int} {t : Track} {bs' : BlendShape} {maya' : Scene}
    (hrate : 0 < rate)
    (h : loadTrack fuel bs maya start stop rate params ti sp = .ok (t, bs', maya')) :
    ∃ times pg, sampleTimes fuel start stop rate = .ok times ∧
      bs.m_poseGroups ti = some pg ∧ bs'.m_poseGroups = bs.m_poseGroups ∧
      bs'.m_target = bs.m_target ∧ (params.optimizePoseAnimation = false → bs' = bs) ∧
      t = poseTrack bs.m_target ti
        (if keptPositions bs' pg.poses.length = [] then []
         else times.map (keyAt bs' maya sp (times.headD 0) pg.poses)) := by
  unfold loadTrack at h
  simp only [not_le.mpr hrate, if_false] at h
  cases hts : sampleTimes fuel start stop rate with
  | error e => rw [hts] at h; simp [bind_error_eq] at h
  | ok times =>
    rw [hts, bind_ok_eq] at h
    obtain ⟨n, hform, hlow, _⟩ := sampleTimes_ok_form hrate hts
    obtain ⟨hlast, hfirst, hle⟩ := times_reads n hform hlow
    rw [hlast, bind_ok_eq, hfirst, bind_ok_eq] at h
    have hnot : ¬ (stop - times.headD 0 < 0) := by linarith
    simp only [hnot, if_false] at h
    have hne : times ≠ [] := by rw [hform]; simp
    cases hopt : params.optimizePoseAnimation with
    | false =>
      simp only [hopt, Bool.false_eq_true, if_false, pure, Except.pure, bind_ok_eq] at h
      cases hev : evaluateLoop bs params ti sp (times.headD 0) times
          (({ m_type := trackType.TT_POSE, m_target := bs.m_target, m_index := ti,
              m_bone := Track.clear.m_bone, m_vertexKeyframes := [],
              m_skeletonKeyframes := Track.clear.m_skeletonKeyframes } : Track), maya) with
      | error e => rw [hev] at h; simp [bind_error_eq] at h
      | ok r =>
        obtain ⟨t1, maya2⟩ := r
        rw [hev, bind_ok_eq] at h
        simp only [Except.ok.injEq, Prod.mk.injEq] at h
        obtain ⟨rfl, rfl, rfl⟩ := h
        -- the group exists, since the first keyframe was loaded
        obtain ⟨a, rest, rfl⟩ : ∃ a rest, times = a :: rest := by
          cases times with
          | nil => exact absurd rfl hne
          | cons a rest => exact ⟨a, rest, rfl⟩
        have hpg : ∃ pg, bs.m_poseGroups ti = some pg := by
          simp only [evaluateLoop] at hev
          cases hk : loadKeyframe bs (maya.setCurrentTime a) (a - (a :: rest).headD 0) params ti sp with
          | error e => rw [hk] at hev; simp [bind_error_eq] at hev
          | ok key =>
            obtain ⟨pg, hpg, _⟩ := loadKeyframe_ok hk
            exact ⟨pg, hpg⟩
        obtain ⟨pg, hpg⟩ := hpg
        obtain ⟨ht, _⟩ := evaluateLoop_ok bs params ti sp _ hpg _ _ _ _ _ hev
        refine ⟨a :: rest, pg, rfl, hpg, rfl, rfl, fun _ => rfl, ?_⟩
        rw [ht]
        simp [poseTrack, Track.clear]
    | true =>
      simp only [hopt, if_true] at h
      cases hop : optimizeLoop fuel params ti sp (times.headD 0) times (bs, maya, 0) with
      | error e => rw [hop] at h; simp [bind_error_eq] at h
      | ok r =>
        obtain ⟨b, m, k⟩ := r
        simp only [hop, bind_ok_eq, pure, Except.pure] at h
        obtain ⟨hgroups, htarget, hm⟩ := optimizeLoop_frame _ _ _ _ _ _ _ _ _ _ _ _ hop
        cases hev : evaluateLoop b params ti sp (times.headD 0) times
            (({ m_type := trackType.TT_POSE, m_target := bs.m_target, m_index := ti,
                m_bone := Track.clear.m_bone, m_vertexKeyframes := [],
                m_skeletonKeyframes := Track.clear.m_skeletonKeyframes } : Track), m) with
        | error e => rw [hev] at h; simp [bind_error_eq] at h
        | ok r =>
          obtain ⟨t1, maya2⟩ := r
          rw [hev, bind_ok_eq] at h
          simp only [Except.ok.injEq, Prod.mk.injEq] at h
          obtain ⟨rfl, rfl, rfl⟩ := h
          obtain ⟨a, rest, rfl⟩ : ∃ a rest, times = a :: rest := by
            cases times with
            | nil => exact absurd rfl hne
            | cons a rest => exact ⟨a, rest, rfl⟩
          have hpg : ∃ pg, b.m_poseGroups ti = some pg := by
            simp only [evaluateLoop] at hev
            cases hk : loadKeyframe b (m.setCurrentTime a) (a - (a :: rest).headD 0) params ti sp with
            | error e => rw [hk] at hev; simp [bind_error_eq] at hev
            | ok key =>
              obtain ⟨pg, hpg, _⟩ := loadKeyframe_ok hk
              exact ⟨pg, hpg⟩
          obtain ⟨pg, hpg⟩ := hpg
          obtain ⟨ht, _⟩ := evaluateLoop_ok b params ti sp _ hpg _ _ _ _ _ hev
          refine ⟨a :: rest, pg, rfl, by rw [← hgroups]; exact hpg, hgroups, htarget,
            (fun hc => by cases hc), ?_⟩
          rw [ht, hm, keyAt_foldl]
          simp [poseTrack, Track.clear]

theorem evaluateLoop_total (bs : BlendShape) (params : ParamList) (ti sp : Int) (t0 : ℚ)
    {pg : poseGroup} (hpg : bs.m_poseGroups ti = some pg)
    (hlen : bs.poseOptArray.length = 0 ∨ pg.poses.length ≤ bs.poseOptArray.length) :
    ∀ (times : List ℚ) (t : Track) (maya : Scene), channelsInRange maya pg.poses →
      ∃ t' maya', evaluateLoop bs params ti sp t0 times (t, maya) = .ok (t', maya') := by
  intro times
  induction times with
  | nil => intro t maya _; exact ⟨t, maya, by simp [evaluateLoop]⟩
  | cons time rest ih =>
    intro t maya hin
    have hkey := loadKeyframe_total bs (maya.setCurrentTime time) (time - t0) params sp hpg hin hlen
    simp only [evaluateLoop, hkey, bind_ok_eq]
    exact ih _ _ hin

theorem loadTrack_total (bs : BlendShape) (maya : Scene) (start stop rate : ℚ)
    (params : ParamList) (ti sp : Int) {pg : poseGroup} (hrate : 0 < rate)
    (hpg : bs.m_poseGroups ti = some pg) (hin : channelsInRange maya pg.poses)
    (hopt : params.optimizePoseAnimation = true → 0 < pg.poses.length)
    (hnon : params.optimizePoseAnimation = false →
      bs.poseOptArray.length = 0 ∨ pg.poses.length ≤ bs.poseOptArray.length) :
    ∃ (n0 : Nat) (times : List ℚ), sampleTimes n0 start stop rate = .ok times ∧
      ∀ fuel, n0 ≤ fuel → ∃ t bs' maya',
        loadTrack fuel bs maya start stop rate params ti sp = .ok (t, bs', maya') ∧
        (params.optimizePoseAnimation = true →
          bs'.poseOptArray.length = pg.poses.length ∧ ∀ j p, pg.poses[j]? = some p →
            (bs'.poseOptArray.store j = 1 ↔
              ∃ time ∈ times, outsideDeadBand (sampledWeight maya p time))) := by
  obtain ⟨n, hrun, hlow, _⟩ := sampleTimes_closed start stop rate hrate
  refine ⟨max n 1, _, hrun _ (le_max_left _ _), ?_⟩
  intro fuel hfuel
  have hts := hrun fuel (le_trans (le_max_left _ _) hfuel)
  obtain ⟨hlast, hfirst, hle⟩ := times_reads n rfl hlow
  have hnot : ¬ (stop - ((List.range n).map (fun k : ℕ => start + k * rate) ++ [stop]).headD 0 < 0) := by
    linarith
  unfold loadTrack
  simp only [not_le.mpr hrate, if_false, hts, bind_ok_eq, hlast, hfirst, hnot]
  cases hop : params.optimizePoseAnimation with
  | false =>
    simp only [Bool.false_eq_true, if_false, pure, Except.pure, bind_ok_eq]
    obtain ⟨t', maya', hev⟩ := evaluateLoop_total bs params ti sp
      (((List.range n).map (fun k : ℕ => start + k * rate) ++ [stop]).headD 0) hpg (hnon hop)
      ((List.range n).map (fun k : ℕ => start + k * rate) ++ [stop])
      ({ m_type := trackType.TT_POSE, m_target := bs.m_target, m_index := ti,
         m_bone := Track.clear.m_bone, m_vertexKeyframes := [],
         m_skeletonKeyframes := Track.clear.m_skeletonKeyframes } : Track) maya hin
    rw [hev]
    exact ⟨t', bs, maya', rfl, fun hc => by cases hc⟩
  | true =>
    simp only [if_true]
    obtain ⟨b, m, k, hrunop, hk, hk0, hk1⟩ := optimizeLoop_total fuel params ti sp
      (((List.range n).map (fun k : ℕ => start + k * rate) ++ [stop]).headD 0) pg (hopt hop)
      (le_trans (le_max_right _ _) hfuel)
      ((List.range n).map (fun k : ℕ => start + k * rate) ++ [stop]) bs maya 0 [] hpg hin
      (Or.inl rfl) (fun _ => rfl) (fun hc => by cases hc)
    have hkone : k = 1 := by
      rcases hk with h | h
      · have := hk0 h
        simp at this
      · exact h
    obtain ⟨hlenb, hflags⟩ := hk1 hkone
    obtain ⟨hgroups, _, hm⟩ := optimizeLoop_frame _ _ _ _ _ _ _ _ _ _ _ _ hrunop
    have hpgb : b.m_poseGroups ti = some pg := by rw [hgroups]; exact hpg
    have hinm : channelsInRange m pg.poses := by
      rw [hm, channelsInRange_foldl]; exact hin
    obtain ⟨t', maya', hev⟩ := evaluateLoop_total b params ti sp
      (((List.range n).map (fun k : ℕ => start + k * rate) ++ [stop]).headD 0) hpgb
      (Or.inr (le_of_eq hlenb.symm))
      ((List.range n).map (fun k : ℕ => start + k * rate) ++ [stop])
      ({ m_type := trackType.TT_POSE, m_target := bs.m_target, m_index := ti,
         m_bone := Track.clear.m_bone, m_vertexKeyframes := [],
         m_skeletonKeyframes := Track.clear.m_skeletonKeyframes } : Track) m hinm
    simp only [hrunop, bind_ok_eq, pure, Except.pure, hev]
    refine ⟨t', b, maya', rfl, fun _ => ⟨hlenb, ?_⟩⟩
    simpa using hflags

/-! ## Claims on `loadTrack` and `loadKeyframe` (C1-C7) -/

theorem sampleTimes_mono {n0 fuel : Nat} {start stop rate : ℚ} {ts : List ℚ}
    (h : sampleTimes n0 start stop rate = .ok ts) (hle : n0 ≤ fuel) :
    sampleTimes fuel start stop rate = .ok ts := by
  unfold sampleTimes at h ⊢
  cases hl : sampleTimesLoop stop rate n0 start [] with
  | error e => rw [hl] at h; simp [bind_error_eq] at h
  | ok r =>
    rw [hl, bind_ok_eq] at h
    obtain ⟨extra, rfl⟩ : ∃ extra, fuel = n0 + extra := ⟨fuel - n0, by omega⟩
    rw [sampleTimesLoop_mono stop rate n0 start [] r hl extra, bind_ok_eq]
    exact h

theorem outsideDeadBand_iff_abs (w : ℚ) : outsideDeadBand w ↔ 1 / 1000 < |w| := by
  unfold outsideDeadBand
  rw [lt_abs]
  constructor
  · rintro (h | h)
    · right; linarith
    · left; exact h
  · rintro (h | h)
    · right; exact h
    · left; linarith

theorem keptPositions_eq_nil (bs : BlendShape) (n : Nat) :
    keptPositions bs n = [] ↔ ∀ j, j < n → keeps bs j = false := by
  simp [keptPositions, List.filter_eq_nil_iff]

/-- C1: `loadTrack` called with `rate <= 0` returns at once, with any amount of fuel (no
sample time is generated): it returns the pose track of the target (type `TT_POSE`,
`m_index = targetIndex`) without vertex keyframe and without skeleton keyframe, and it
returns the `BlendShape` and the scene as they were: the time cursor is not advanced and the
result depends on no weight of the scene. -/
theorem loadTrack_nonpositive_rate (fuel : Nat) (bs : BlendShape) (maya : Scene)
    (start stop rate : ℚ) (params : ParamList) (targetIndex startPoseId : Int)
    (h : rate ≤ 0) :
    loadTrack fuel bs maya start stop rate params targetIndex startPoseId =
      .ok ({ m_type := .TT_POSE, m_target := bs.m_target, m_index := targetIndex, m_bone := "",
             m_vertexKeyframes := [], m_skeletonKeyframes := [] }, bs, maya) := by
  simp [loadTrack, h, Track.clear]

/-- Witness of C1: a clip sampled at rate -1, with no fuel at all. -/
theorem loadTrack_nonpositive_rate_witness :
    (-1 : ℚ) ≤ 0 ∧
    loadTrack 0 (BlendShape.withPoses [demoPose 0]) Scene.ramp 0 1 (-1) {} 0 7 =
      .ok ({ m_type := .TT_POSE, m_target := (BlendShape.withPoses [demoPose 0]).m_target,
             m_index := 0, m_bone := "",
             m_vertexKeyframes := [], m_skeletonKeyframes := [] },
           BlendShape.withPoses [demoPose 0], Scene.ramp) :=
  ⟨by norm_num,
   loadTrack_nonpositive_rate 0 (BlendShape.withPoses [demoPose 0]) Scene.ramp 0 1 (-1) {} 0 7
     (by norm_num)⟩

/-- C2: for every `start`, `stop` and `rate > 0` there is a number `n` of steps such that,
with at least `n` units of fuel, the sample times built by `loadTrack` are the values
`start + k*rate` for `k < n`, followed by `stop`: the sequence is not empty, its last
element is `stop`, every earlier element is strictly less than `stop` (so none equals it),
and `n` is the first `k` for which `start + k*rate` is not below `stop`. Nothing is assumed
on `(stop - start) / rate`. -/
theorem sampleTimes_ends_with_stop (start stop rate : ℚ) (hrate : 0 < rate) :
    ∃ (n : ℕ) (earlier : List ℚ),
      earlier = (List.range n).map (fun k : ℕ => start + k * rate) ∧
      (∀ fuel, n ≤ fuel → sampleTimes fuel start stop rate = .ok (earlier ++ [stop])) ∧
      earlier ++ [stop] ≠ [] ∧
      (earlier ++ [stop]).getLast? = some stop ∧
      (∀ x ∈ earlier, x < stop) ∧
      (∀ k : ℕ, k < n → start + k * rate < stop) ∧
      ¬ (start + n * rate < stop) := by
  obtain ⟨n, hrun, hlow, hup⟩ := sampleTimes_closed start stop rate hrate
  refine ⟨n, _, rfl, hrun, by simp, by simp, ?_, hlow, not_lt.mpr hup⟩
  intro x hx
  simp only [List.mem_map, List.mem_range] at hx
  obtain ⟨k, hk, rfl⟩ := hx
  exact hlow k hk

/-- Witness of C2: the clip [0, 1] sampled every 2/5, whose length is no multiple of the
rate. -/
theorem sampleTimes_ends_with_stop_witness :
    (0 : ℚ) < 2 / 5 ∧
    ∃ (n : ℕ) (earlier : List ℚ),
      earlier = (List.range n).map (fun k : ℕ => (0 : ℚ) + k * (2 / 5)) ∧
      (∀ fuel, n ≤ fuel → sampleTimes fuel 0 1 (2 / 5) = .ok (earlier ++ [1])) ∧
      earlier ++ [1] ≠ [] ∧
      (earlier ++ [1]).getLast? = some 1 ∧
      (∀ x ∈ earlier, x < 1) ∧
      (∀ k : ℕ, k < n → (0 : ℚ) + k * (2 / 5) < 1) ∧
      ¬ ((0 : ℚ) + n * (2 / 5) < 1) :=
  ⟨by norm_num, sampleTimes_ends_with_stop 0 1 (2 / 5) (by norm_num)⟩

/-- C3 (the code at the failing input): the clip from 1 to 0 has negative length and rate 1,
and `loadTrack` does not reject it; with any amount of fuel it samples the clip once, at
time 0, and returns a track with one keyframe. -/
theorem loadTrack_negative_length_sampled (fuel : Nat) :
    loadTrack fuel (BlendShape.withPoses [demoPose 0]) Scene.ramp 1 0 1 {} 0 7 =
      .ok (poseTrack .T_MESH 0
        [{ time := 0, positions := [], poserefs := [{ poseIndex := 7, poseWeight := 0 }] }],
        BlendShape.withPoses [demoPose 0], Scene.ramp.setCurrentTime 0) := by
  cases fuel <;>
    norm_num [loadTrack, sampleTimes, sampleTimesLoop, bind_ok_eq, vecGet, evaluateLoop,
      loadKeyframe, BlendShape.findGroup, BlendShape.withPoses, BlendShape.setGroup,
      keyframeLoop, demoPose, MIntArray.get, MIntArray.ofList, Scene.ramp, Scene.still,
      Scene.setCurrentTime, BlendShape.new, BlendShape.clear, MIntArray.clear,
      Track.addVertexKeyframe, Track.clear, poseTrack, pure, Except.pure]

theorem keyAt_time (bs : BlendShape) (maya : Scene) (sp : Int) (t0 : ℚ) (poses : List pose) :
    (fun k : vertexKeyframe => k.time) ∘ keyAt bs maya sp t0 poses = fun time => time - t0 := by
  funext time; rfl

/-- Keyframe times of a returned track: none, or the sample times minus the first one. -/
theorem loadTrack_times_form {fuel : Nat} {bs : BlendShape} {maya : Scene}
    {start stop rate : ℚ} {params : ParamList} {ti sp : Int} {t : Track} {bs' : BlendShape}
    {maya' : Scene} (hrate : 0 < rate)
    (h : loadTrack fuel bs maya start stop rate params ti sp = .ok (t, bs', maya')) :
    ∃ times, sampleTimes fuel start stop rate = .ok times ∧ times.Pairwise (· < ·) ∧
      times ≠ [] ∧
      (t.m_vertexKeyframes = [] ∨
        t.m_vertexKeyframes.map (fun k => k.time) = times.map (fun time => time - times.headD 0)) := by
  obtain ⟨times, pg, hts, _, _, _, _, ht⟩ := loadTrack_ok_form hrate h
  obtain ⟨n, hform, hlow, _⟩ := sampleTimes_ok_form hrate hts
  refine ⟨times, hts, by rw [hform]; exact times_pairwise hrate n hlow, by rw [hform]; simp, ?_⟩
  by_cases hnil : keptPositions bs' pg.poses.length = []
  · left; rw [ht]; simp [poseTrack, hnil]
  · right; rw [ht]; simp [poseTrack, hnil, keyAt_time]

/-- In exact arithmetic (no rounding of the floats): for every `start`, `stop` and
`rate > 0`, in every track returned by `loadTrack` the keyframe times are strictly increasing and the first keyframe, if there is one, has
time 0: the keyframe times are the sample times of the clip minus the first sample time (or
there is no keyframe). The track is indeed returned, with enough fuel, as soon as the pose
group of the target exists, its poses name channels of the deformer, the optimisation array
is empty or covers the group when the optimisation is disabled, and the group is not empty
when it is enabled. -/
theorem loadTrack_keyframe_times (bs : BlendShape) (maya : Scene) (start stop rate : ℚ)
    (params : ParamList) (targetIndex startPoseId : Int) (hrate : 0 < rate) :
    (∀ fuel t bs' maya',
      loadTrack fuel bs maya start stop rate params targetIndex startPoseId = .ok (t, bs', maya') →
        (t.m_vertexKeyframes.map (fun k => k.time)).Pairwise (· < ·) ∧
        (∀ key rest, t.m_vertexKeyframes = key :: rest → key.time = 0) ∧
        ∃ times, sampleTimes fuel start stop rate = .ok times ∧
          (t.m_vertexKeyframes = [] ∨
            t.m_vertexKeyframes.map (fun k => k.time)
              = times.map (fun time => time - times.headD 0))) ∧
    (∀ pg, bs.m_poseGroups targetIndex = some pg → channelsInRange maya pg.poses →
      (params.optimizePoseAnimation = true → pg.poses ≠ []) →
      (params.optimizePoseAnimation = false →
        bs.poseOptArray.length = 0 ∨ pg.poses.length ≤ bs.poseOptArray.length) →
      ∃ n0, ∀ fuel, n0 ≤ fuel → ∃ t bs' maya',
        loadTrack fuel bs maya start stop rate params targetIndex startPoseId
          = .ok (t, bs', maya')) := by
  constructor
  · intro fuel t bs' maya' h
    obtain ⟨times, hts, hpw, hne, hform⟩ := loadTrack_times_form hrate h
    have hmap : (times.map (fun time => time - times.headD 0)).Pairwise (· < ·) := by
      rw [List.pairwise_map]
      exact hpw.imp (fun hab => by linarith)
    refine ⟨?_, ?_, times, hts, hform⟩
    · rcases hform with h0 | h1
      · rw [h0]; simp
      · rw [h1]; exact hmap
    · intro key rest hk
      rcases hform with h0 | h1
      · rw [h0] at hk; cases hk
      · rw [hk] at h1
        cases times with
        | nil => exact absurd rfl hne
        | cons a as =>
          simp only [List.map_cons, List.headD_cons, sub_self, List.cons.injEq] at h1
          exact h1.1
  · intro pg hpg hin hopt hnon
    obtain ⟨n0, times, _, hrun⟩ := loadTrack_total bs maya start stop rate params targetIndex
      startPoseId hrate hpg hin (fun h => List.length_pos.mpr (hopt h)) hnon
    refine ⟨n0, fun fuel hfuel => ?_⟩
    obtain ⟨t, bs', maya', h, _⟩ := hrun fuel hfuel
    exact ⟨t, bs', maya', h⟩

/-- The demo deformer sampled on [0, 1] every 2/5, in exact arithmetic. -/
theorem loadTrack_keyframe_times_witness :
    (0 : ℚ) < 2 / 5 ∧
    (∀ fuel t bs' maya',
      loadTrack fuel (BlendShape.withPoses [demoPose 0]) Scene.ramp 0 1 (2 / 5) {} 0 7
          = .ok (t, bs', maya') →
        (t.m_vertexKeyframes.map (fun k => k.time)).Pairwise (· < ·) ∧
        (∀ key rest, t.m_vertexKeyframes = key :: rest → key.time = 0) ∧
        ∃ times, sampleTimes fuel 0 1 (2 / 5) = .ok times ∧
          (t.m_vertexKeyframes = [] ∨
            t.m_vertexKeyframes.map (fun k => k.time)
              = times.map (fun time => time - times.headD 0))) ∧
    (∃ n0, ∀ fuel, n0 ≤ fuel → ∃ t bs' maya',
      loadTrack fuel (BlendShape.withPoses [demoPose 0]) Scene.ramp 0 1 (2 / 5) {} 0 7
        = .ok (t, bs', maya')) :=
  ⟨by norm_num,
   (loadTrack_keyframe_times (BlendShape.withPoses [demoPose 0]) Scene.ramp 0 1 (2 / 5) {} 0 7
      (by norm_num)).1,
   (loadTrack_keyframe_times (BlendShape.withPoses [demoPose 0]) Scene.ramp 0 1 (2 / 5) {} 0 7
      (by norm_num)).2 { targetIndex := 0, poses := [demoPose 0] }
      (by simp [BlendShape.withPoses, BlendShape.setGroup])
      (by simp [channelsInRange, demoPose, Scene.ramp, Scene.still])
      (by simp)
      (by intro _; left; rfl)⟩

theorem refsFrom_indices_sublist (bs : BlendShape) (w : pose → ℚ) (sp : Int)
    (poses : List pose) :
    (refsFrom bs w sp poses 0).map (fun r => r.poseIndex) =
      (keptPositions bs poses.length).map (fun i : Nat => sp + (i : Int)) := by
  rw [refsFrom_indices, keptPositions, List.range_eq_range']

/-- C5: in every keyframe that `loadKeyframe` produces for a target whose pose group holds
the poses `pg.poses`, the pose indices are `startPoseId + i` for an increasing selection
`is` of positions `i` of the group (whatever the optimisation array holds): each lies in
`[startPoseId, startPoseId + n)`, they are strictly increasing, and the reference with
index `startPoseId + i` carries the weight read for the pose at position `i`. The keyframe
is indeed produced as soon as the poses name channels of the deformer and the optimisation
array is empty or covers the group. -/
theorem loadKeyframe_pose_indices (bs : BlendShape) (maya : Scene) (time : ℚ)
    (params : ParamList) (targetIndex startPoseId : Int) (pg : poseGroup)
    (hpg : bs.m_poseGroups targetIndex = some pg) :
    (∀ key, loadKeyframe bs maya time params targetIndex startPoseId = .ok key →
      (∃ is : List Nat, is.Sublist (List.range pg.poses.length) ∧
        key.poserefs.map (fun r => r.poseIndex) = is.map (fun i : Nat => startPoseId + (i : Int))) ∧
      (∀ r ∈ key.poserefs,
        startPoseId ≤ r.poseIndex ∧ r.poseIndex < startPoseId + (pg.poses.length : Int)) ∧
      (key.poserefs.map (fun r => r.poseIndex)).Pairwise (· < ·) ∧
      (∀ r ∈ key.poserefs, ∃ (i : Nat) (p : pose), pg.poses[i]? = some p ∧
        r.poseIndex = startPoseId + (i : Int) ∧
        r.poseWeight = maya.envelope *
          maya.weight (maya.weightIndexList.getD p.blendShapeIndex.toNat 0))) ∧
    (channelsInRange maya pg.poses →
      (bs.poseOptArray.length = 0 ∨ pg.poses.length ≤ bs.poseOptArray.length) →
      ∃ key, loadKeyframe bs maya time params targetIndex startPoseId = .ok key) := by
  constructor
  · intro key hkey
    obtain ⟨pg', hpg', hform⟩ := loadKeyframe_ok hkey
    rw [hpg] at hpg'
    cases hpg'
    have hidx : key.poserefs.map (fun r => r.poseIndex) =
        (keptPositions bs pg.poses.length).map (fun i : Nat => startPoseId + (i : Int)) := by
      rw [hform]; exact refsFrom_indices_sublist _ _ _ _
    have hmem : ∀ r ∈ key.poserefs, ∃ (i : Nat) (p : pose), pg.poses[i]? = some p ∧
        r.poseIndex = startPoseId + (i : Int) ∧
        r.poseWeight = maya.envelope *
          maya.weight (maya.weightIndexList.getD p.blendShapeIndex.toNat 0) := by
      intro r hr
      rw [hform] at hr
      obtain ⟨j, p, hj, _, hrj⟩ := (mem_refsFrom _ _ _ _ _ _).mp hr
      refine ⟨j, p, hj, ?_, ?_⟩
      · rw [hrj]; simp
      · rw [hrj]
    refine ⟨⟨keptPositions bs pg.poses.length, List.filter_sublist _, hidx⟩, ?_, ?_, hmem⟩
    · intro r hr
      obtain ⟨i, p, hi, hri, _⟩ := hmem r hr
      have hlt : i < pg.poses.length := by
        by_contra hcon
        rw [List.getElem?_eq_none (by omega)] at hi
        cases hi
      rw [hri]
      constructor
      · omega
      · omega
    · rw [hidx, List.pairwise_map]
      have hsorted : (keptPositions bs pg.poses.length).Pairwise (· < ·) :=
        (List.pairwise_lt_range _).sublist (List.filter_sublist _)
      exact hsorted.imp (fun hab => by omega)
  · intro hin hlen
    exact ⟨_, loadKeyframe_total bs maya time params startPoseId hpg hin hlen⟩

/-- Witness of C5: four poses, the third one omitted by the optimisation array. -/
theorem loadKeyframe_pose_indices_witness :
    BlendShape.demoFlagged.m_poseGroups 0
      = some { targetIndex := 0, poses := [demoPose 0, demoPose 1, demoPose 2, demoPose 3] } ∧
    (∀ key, loadKeyframe BlendShape.demoFlagged Scene.fourChannels 0 {} 0 7 = .ok key →
      (∃ is : List Nat, is.Sublist (List.range [demoPose 0, demoPose 1, demoPose 2, demoPose 3].length) ∧
        key.poserefs.map (fun r => r.poseIndex) = is.map (fun i : Nat => (7 : Int) + (i : Int))) ∧
      (∀ r ∈ key.poserefs,
        7 ≤ r.poseIndex ∧
          r.poseIndex < 7 + ([demoPose 0, demoPose 1, demoPose 2, demoPose 3].length : Int)) ∧
      (key.poserefs.map (fun r => r.poseIndex)).Pairwise (· < ·) ∧
      (∀ r ∈ key.poserefs, ∃ (i : Nat) (p : pose),
        [demoPose 0, demoPose 1, demoPose 2, demoPose 3][i]? = some p ∧
        r.poseIndex = 7 + (i : Int) ∧
        r.poseWeight = Scene.fourChannels.envelope *
          Scene.fourChannels.weight
            (Scene.fourChannels.weightIndexList.getD p.blendShapeIndex.toNat 0))) ∧
    (∃ key, loadKeyframe BlendShape.demoFlagged Scene.fourChannels 0 {} 0 7 = .ok key) :=
  ⟨by simp [BlendShape.demoFlagged, BlendShape.withPoses, BlendShape.setGroup],
   (loadKeyframe_pose_indices BlendShape.demoFlagged Scene.fourChannels 0 {} 0 7
      { targetIndex := 0, poses := [demoPose 0, demoPose 1, demoPose 2, demoPose 3] }
      (by simp [BlendShape.demoFlagged, BlendShape.withPoses, BlendShape.setGroup])).1,
   (loadKeyframe_pose_indices BlendShape.demoFlagged Scene.fourChannels 0 {} 0 7
      { targetIndex := 0, poses := [demoPose 0, demoPose 1, demoPose 2, demoPose 3] }
      (by simp [BlendShape.demoFlagged, BlendShape.withPoses, BlendShape.setGroup])).2
      (by simp [channelsInRange, demoPose, Scene.fourChannels, Scene.still])
      (by right; simp [BlendShape.demoFlagged, MIntArray.ofList])⟩

theorem loadTrack_optimized_form (bs : BlendShape) (maya : Scene) (start stop rate : ℚ)
    (params : ParamList) (ti sp : Int) {pg : poseGroup}
    (hopt : params.optimizePoseAnimation = true) (hrate : 0 < rate)
    (hpg : bs.m_poseGroups ti = some pg) (hne : pg.poses ≠ [])
    (hin : channelsInRange maya pg.poses) :
    ∃ (n0 : Nat) (times : List ℚ), sampleTimes n0 start stop rate = .ok times ∧ times ≠ [] ∧
      ∀ fuel, n0 ≤ fuel → ∃ t bs' maya',
        loadTrack fuel bs maya start stop rate params ti sp = .ok (t, bs', maya') ∧
        (∀ j p, pg.poses[j]? = some p →
          (keeps bs' j = true ↔ ∃ time ∈ times, outsideDeadBand (sampledWeight maya p time))) ∧
        t = poseTrack bs.m_target ti
          (if keptPositions bs' pg.poses.length = [] then []
           else times.map (keyAt bs' maya sp (times.headD 0) pg.poses)) := by
  obtain ⟨n0, times, hts, hrun⟩ := loadTrack_total bs maya start stop rate params ti sp hrate
    hpg hin (fun _ => List.length_pos.mpr hne) (fun h => by rw [hopt] at h; cases h)
  obtain ⟨n, hform, _, _⟩ := sampleTimes_ok_form hrate hts
  refine ⟨n0, times, hts, by rw [hform]; simp, ?_⟩
  intro fuel hfuel
  obtain ⟨t, bs', maya', hload, hflags⟩ := hrun fuel hfuel
  obtain ⟨hlen, hmark⟩ := hflags hopt
  obtain ⟨times', pg', hts', hpg', _, _, _, ht⟩ := loadTrack_ok_form hrate hload
  rw [hpg] at hpg'
  cases hpg'
  have htimes : times' = times := by
    have := sampleTimes_mono hts hfuel
    rw [hts'] at this
    simpa using this
  subst htimes
  refine ⟨t, bs', maya', hload, ?_, ht⟩
  intro j p hj
  rw [← hmark j p hj]
  have hpos : 0 < pg.poses.length := List.length_pos.mpr hne
  have hlen0 : bs'.poseOptArray.length ≠ 0 := by omega
  simp [keeps, hlen0]

theorem getElem?_lt_length {α : Type} {l : List α} {i : Nat} {a : α} (h : l[i]? = some a) :
    i < l.length := by
  by_contra hcon
  rw [List.getElem?_eq_none (by omega)] at h
  cases h

/-- References to the pose at position `i` in a track of the form computed by `loadTrack`. -/
theorem track_refs (bs' : BlendShape) (maya : Scene) (tgt : target) (ti sp : Int) (t0 : ℚ)
    (poses : List pose) (times : List ℚ) (t : Track)
    (ht : t = poseTrack tgt ti
      (if keptPositions bs' poses.length = [] then []
       else times.map (keyAt bs' maya sp t0 poses)))
    (i : Nat) (p : pose) (hp : poses[i]? = some p) :
    (keeps bs' i = true → t.m_vertexKeyframes.length = times.length ∧
      ∀ key ∈ t.m_vertexKeyframes, ∃ r ∈ key.poserefs, r.poseIndex = sp + (i : Int)) ∧
    (∀ key ∈ t.m_vertexKeyframes, ∀ r ∈ key.poserefs,
      r.poseIndex = sp + (i : Int) → keeps bs' i = true) := by
  have hi := getElem?_lt_length hp
  constructor
  · intro hk
    have hne : keptPositions bs' poses.length ≠ [] := by
      intro hnil
      have := (keptPositions_eq_nil bs' poses.length).mp hnil i hi
      rw [hk] at this
      cases this
    rw [ht]
    simp only [poseTrack, hne, if_false, List.length_map, List.mem_map, true_and]
    rintro key ⟨time, _, rfl⟩
    refine ⟨{ poseIndex := sp + (i : Int), poseWeight := sampledWeight maya p time }, ?_, rfl⟩
    simp only [keyAt]
    rw [mem_refsFrom]
    exact ⟨i, p, hp, by simpa using hk, by simp⟩
  · intro key hkey r hr hidx
    rw [ht] at hkey
    by_cases hnil : keptPositions bs' poses.length = []
    · simp [poseTrack, hnil] at hkey
    · simp only [poseTrack, hnil, if_false, List.mem_map] at hkey
      obtain ⟨time, _, rfl⟩ := hkey
      simp only [keyAt] at hr
      rw [mem_refsFrom] at hr
      obtain ⟨j, q, _, hkj, hrj⟩ := hr
      rw [hrj] at hidx
      simp only [Nat.zero_add] at hidx hkj
      have : j = i := by omega
      subst this
      exact hkj

/-- C6: with `optimizePoseAnimation` enabled, `rate > 0` and a pose group that is not
empty (its poses naming channels of the deformer), `loadTrack` returns, with enough fuel, a
track in which the pose at position `i` is referenced (by the index `startPoseId + i`) in
some keyframe if and only if its sampled weight, envelope times channel weight, has a
magnitude above 0.001 at some sample time of the clip. A pose whose weight stays within the
dead band at every sample time is referenced in no keyframe; a pose whose weight leaves it
at some sample time is referenced in every keyframe, and the track then has one keyframe
per sample time. -/
theorem loadTrack_optimized_references (bs : BlendShape) (maya : Scene) (start stop rate : ℚ)
    (params : ParamList) (targetIndex startPoseId : Int) (pg : poseGroup)
    (hopt : params.optimizePoseAnimation = true) (hrate : 0 < rate)
    (hpg : bs.m_poseGroups targetIndex = some pg) (hne : pg.poses ≠ [])
    (hin : channelsInRange maya pg.poses) :
    ∃ (n0 : Nat) (times : List ℚ), sampleTimes n0 start stop rate = .ok times ∧
      ∀ fuel, n0 ≤ fuel → ∃ t bs' maya',
        loadTrack fuel bs maya start stop rate params targetIndex startPoseId
          = .ok (t, bs', maya') ∧
        ∀ (i : Nat) (p : pose), pg.poses[i]? = some p →
          ((∃ key ∈ t.m_vertexKeyframes, ∃ r ∈ key.poserefs,
              r.poseIndex = startPoseId + (i : Int)) ↔
            ∃ time ∈ times, 1 / 1000 < |sampledWeight maya p time|) ∧
          ((∀ time ∈ times, |sampledWeight maya p time| ≤ 1 / 1000) →
            ∀ key ∈ t.m_vertexKeyframes, ∀ r ∈ key.poserefs,
              r.poseIndex ≠ startPoseId + (i : Int)) ∧
          ((∃ time ∈ times, 1 / 1000 < |sampledWeight maya p time|) →
            t.m_vertexKeyframes.length = times.length ∧
            ∀ key ∈ t.m_vertexKeyframes, ∃ r ∈ key.poserefs,
              r.poseIndex = startPoseId + (i : Int)) := by
  obtain ⟨n0, times, hts, htne, hrun⟩ := loadTrack_optimized_form bs maya start stop rate
    params targetIndex startPoseId hopt hrate hpg hne hin
  refine ⟨n0, times, hts, ?_⟩
  intro fuel hfuel
  obtain ⟨t, bs', maya', hload, hflags, ht⟩ := hrun fuel hfuel
  refine ⟨t, bs', maya', hload, ?_⟩
  intro i p hp
  obtain ⟨hall, hback⟩ := track_refs bs' maya bs.m_target targetIndex startPoseId
    (times.headD 0) pg.poses times t ht i p hp
  have hmark : keeps bs' i = true ↔ ∃ time ∈ times, 1 / 1000 < |sampledWeight maya p time| := by
    rw [hflags i p hp]
    constructor
    · rintro ⟨time, h1, h2⟩; exact ⟨time, h1, (outsideDeadBand_iff_abs _).mp h2⟩
    · rintro ⟨time, h1, h2⟩; exact ⟨time, h1, (outsideDeadBand_iff_abs _).mpr h2⟩
  refine ⟨⟨?_, ?_⟩, ?_, ?_⟩
  · rintro ⟨key, hkey, r, hr, hidx⟩
    exact hmark.mp (hback key hkey r hr hidx)
  · intro hex
    obtain ⟨hlen, hevery⟩ := hall (hmark.mpr hex)
    have hpos : 0 < t.m_vertexKeyframes.length := by
      rw [hlen]; exact List.length_pos.mpr htne
    obtain ⟨key, hkey⟩ := List.exists_mem_of_length_pos hpos
    obtain ⟨r, hr, hidx⟩ := hevery key hkey
    exact ⟨key, hkey, r, hr, hidx⟩
  · intro hnever key hkey r hr hidx
    obtain ⟨time, h1, h2⟩ := hmark.mp (hback key hkey r hr hidx)
    exact absurd (hnever time h1) (not_le.mpr h2)
  · intro hex
    exact hall (hmark.mpr hex)

/-- Witness of C6: the deformer with four channels, sampled on [0, 1] every 1/2. -/
theorem loadTrack_optimized_references_witness :
    ({ optimizePoseAnimation := true } : ParamList).optimizePoseAnimation = true ∧
    (0 : ℚ) < 1 / 2 ∧
    (BlendShape.withPoses [demoPose 0, demoPose 1, demoPose 2, demoPose 3]).m_poseGroups 0
      = some { targetIndex := 0, poses := [demoPose 0, demoPose 1, demoPose 2, demoPose 3] } ∧
    [demoPose 0, demoPose 1, demoPose 2, demoPose 3] ≠ [] ∧
    channelsInRange Scene.fourChannels [demoPose 0, demoPose 1, demoPose 2, demoPose 3] ∧
    ∃ (n0 : Nat) (times : List ℚ), sampleTimes n0 0 1 (1 / 2) = .ok times ∧
      ∀ fuel, n0 ≤ fuel → ∃ t bs' maya',
        loadTrack fuel (BlendShape.withPoses [demoPose 0, demoPose 1, demoPose 2, demoPose 3])
          Scene.fourChannels 0 1 (1 / 2) { optimizePoseAnimation := true } 0 7
          = .ok (t, bs', maya') ∧
        ∀ (i : Nat) (p : pose), [demoPose 0, demoPose 1, demoPose 2, demoPose 3][i]? = some p →
          ((∃ key ∈ t.m_vertexKeyframes, ∃ r ∈ key.poserefs,
              r.poseIndex = (7 : Int) + (i : Int)) ↔
            ∃ time ∈ times, 1 / 1000 < |sampledWeight Scene.fourChannels p time|) ∧
          ((∀ time ∈ times, |sampledWeight Scene.fourChannels p time| ≤ 1 / 1000) →
            ∀ key ∈ t.m_vertexKeyframes, ∀ r ∈ key.poserefs,
              r.poseIndex ≠ (7 : Int) + (i : Int)) ∧
          ((∃ time ∈ times, 1 / 1000 < |sampledWeight Scene.fourChannels p time|) →
            t.m_vertexKeyframes.length = times.length ∧
            ∀ key ∈ t.m_vertexKeyframes, ∃ r ∈ key.poserefs,
              r.poseIndex = (7 : Int) + (i : Int)) :=
  ⟨rfl, by norm_num,
   by simp [BlendShape.withPoses, BlendShape.setGroup],
   by simp,
   by simp [channelsInRange, demoPose, Scene.fourChannels, Scene.still],
   loadTrack_optimized_references
     (BlendShape.withPoses [demoPose 0, demoPose 1, demoPose 2, demoPose 3])
     Scene.fourChannels 0 1 (1 / 2) { optimizePoseAnimation := true } 0 7
     { targetIndex := 0, poses := [demoPose 0, demoPose 1, demoPose 2, demoPose 3] }
     rfl (by norm_num)
     (by simp [BlendShape.withPoses, BlendShape.setGroup])
     (by simp)
     (by simp [channelsInRange, demoPose, Scene.fourChannels, Scene.still])⟩

/-- C7, counterexample: pose references of weight 0 are stored in keyframes. With the
optimisation disabled, `loadKeyframe` stores the reference of a pose whose weight is 0; with
the optimisation enabled, the track of the clip [0, 1] sampled at rate 1 for a weight equal
to the time holds, in its first keyframe, the reference of the pose with weight 0. -/
theorem loadKeyframe_stores_zero_weight :
    loadKeyframe (BlendShape.withPoses [demoPose 0]) (Scene.still [0] (fun _ _ => [])) 0 {} 0 7
      = .ok { time := 0, positions := [], poserefs := [{ poseIndex := 7, poseWeight := 0 }] } ∧
    Except.map Prod.fst
        (loadTrack 1 (BlendShape.withPoses [demoPose 0]) Scene.ramp 0 1 1
          { optimizePoseAnimation := true } 0 7)
      = .ok (poseTrack .T_MESH 0
          [{ time := 0, positions := [], poserefs := [{ poseIndex := 7, poseWeight := 0 }] },
           { time := 1, positions := [], poserefs := [{ poseIndex := 7, poseWeight := 1 }] }]) := by
  constructor
  · norm_num [loadKeyframe, BlendShape.findGroup, BlendShape.withPoses, BlendShape.setGroup,
      keyframeLoop, demoPose, MIntArray.get, MIntArray.ofList, Scene.still, bind_ok_eq,
      BlendShape.new, BlendShape.clear, MIntArray.clear]
  · norm_num [Except.map, Function.update, loadTrack, sampleTimes, sampleTimesLoop, bind_ok_eq, vecGet, evaluateLoop,
      optimizeLoop, initFlags, zeroFlags, markFlags, MIntArray.set, MIntArray.setLength,
      loadKeyframe, BlendShape.findGroup, BlendShape.withPoses, BlendShape.setGroup,
      keyframeLoop, demoPose, MIntArray.get, MIntArray.ofList, Scene.ramp, Scene.still,
      Scene.setCurrentTime, BlendShape.new, BlendShape.clear, MIntArray.clear,
      Track.addVertexKeyframe, Track.clear, poseTrack, pure, Except.pure]

/-- Origin of the references stored in a track of the form computed by `loadTrack`. -/
theorem track_refs_origin (bs' : BlendShape) (maya : Scene) (tgt : target) (ti sp : Int)
    (t0 : ℚ) (poses : List pose) (times : List ℚ) (t : Track)
    (ht : t = poseTrack tgt ti
      (if keptPositions bs' poses.length = [] then []
       else times.map (keyAt bs' maya sp t0 poses))) :
    ∀ key ∈ t.m_vertexKeyframes, ∀ r ∈ key.poserefs, ∃ (i : Nat) (p : pose),
      poses[i]? = some p ∧ keeps bs' i = true ∧ r.poseIndex = sp + (i : Int) ∧
      r.poseWeight = sampledWeight maya p (key.time + t0) := by
  intro key hkey r hr
  rw [ht] at hkey
  by_cases hnil : keptPositions bs' poses.length = []
  · simp [poseTrack, hnil] at hkey
  · simp only [poseTrack, hnil, if_false, List.mem_map] at hkey
    obtain ⟨time, _, rfl⟩ := hkey
    simp only [keyAt] at hr ⊢
    rw [mem_refsFrom] at hr
    obtain ⟨j, q, hq, hkj, hrj⟩ := hr
    simp only [Nat.zero_add] at hrj hkj
    refine ⟨j, q, hq, hkj, by rw [hrj], ?_⟩
    rw [hrj]
    simp

theorem keptPositions_all (bs : BlendShape) (n : Nat) (h : bs.poseOptArray.length = 0) :
    keptPositions bs n = List.range n := by
  simp [keptPositions, keeps, h]

/-- C7, amended: `loadKeyframe` filters no weight, the only filter is the optimisation pass
of `loadTrack`, which works per pose over the whole clip. With the optimisation enabled
(and a pose group that is not empty), every pose reference stored in a keyframe of the
returned track carries the weight sampled at the time of that keyframe, and belongs to a
pose whose sampled weight has a magnitude above 0.001 at some sample time of the clip, not
necessarily at the time of that keyframe. With the optimisation disabled and the
optimisation array empty, every keyframe holds the references of all the poses of the
group, each with its sampled weight, whatever that weight is. -/
theorem loadTrack_stored_references (bs : BlendShape) (maya : Scene) (start stop rate : ℚ)
    (params : ParamList) (targetIndex startPoseId : Int) (pg : poseGroup)
    (hrate : 0 < rate) (hpg : bs.m_poseGroups targetIndex = some pg)
    (hin : channelsInRange maya pg.poses) :
    (params.optimizePoseAnimation = true → pg.poses ≠ [] →
      ∃ (n0 : Nat) (times : List ℚ), sampleTimes n0 start stop rate = .ok times ∧
        ∀ fuel, n0 ≤ fuel → ∃ t bs' maya',
          loadTrack fuel bs maya start stop rate params targetIndex startPoseId
            = .ok (t, bs', maya') ∧
          ∀ key ∈ t.m_vertexKeyframes, ∀ r ∈ key.poserefs, ∃ (i : Nat) (p : pose),
            pg.poses[i]? = some p ∧ r.poseIndex = startPoseId + (i : Int) ∧
            r.poseWeight = sampledWeight maya p (key.time + times.headD 0) ∧
            ∃ time ∈ times, 1 / 1000 < |sampledWeight maya p time|) ∧
    (params.optimizePoseAnimation = false → bs.poseOptArray.length = 0 →
      ∃ (n0 : Nat) (times : List ℚ), sampleTimes n0 start stop rate = .ok times ∧
        ∀ fuel, n0 ≤ fuel → ∃ t bs' maya',
          loadTrack fuel bs maya start stop rate params targetIndex startPoseId
            = .ok (t, bs', maya') ∧
          (pg.poses ≠ [] → t.m_vertexKeyframes.length = times.length) ∧
          ∀ key ∈ t.m_vertexKeyframes,
            key.poserefs = pg.poses.enum.map (fun ip =>
              ({ poseIndex := startPoseId + (ip.1 : Int),
                 poseWeight := sampledWeight maya ip.2 (key.time + times.headD 0) }
                : vertexPoseRef))) := by
  constructor
  · intro hopt hne
    obtain ⟨n0, times, hts, _, hrun⟩ := loadTrack_optimized_form bs maya start stop rate
      params targetIndex startPoseId hopt hrate hpg hne hin
    refine ⟨n0, times, hts, ?_⟩
    intro fuel hfuel
    obtain ⟨t, bs', maya', hload, hflags, ht⟩ := hrun fuel hfuel
    refine ⟨t, bs', maya', hload, ?_⟩
    intro key hkey r hr
    obtain ⟨i, p, hp, hk, hidx, hw⟩ := track_refs_origin bs' maya bs.m_target targetIndex
      startPoseId (times.headD 0) pg.poses times t ht key hkey r hr
    obtain ⟨time, h1, h2⟩ := (hflags i p hp).mp hk
    exact ⟨i, p, hp, hidx, hw, time, h1, (outsideDeadBand_iff_abs _).mp h2⟩
  · intro hopt hlen
    obtain ⟨n0, times, hts, hrun⟩ := loadTrack_total bs maya start stop rate params
      targetIndex startPoseId hrate hpg hin (fun h => by rw [hopt] at h; cases h)
      (fun _ => Or.inl hlen)
    refine ⟨n0, times, hts, ?_⟩
    intro fuel hfuel
    obtain ⟨t, bs', maya', hload, _⟩ := hrun fuel hfuel
    obtain ⟨times', pg', hts', hpg', _, _, hsame, ht⟩ := loadTrack_ok_form hrate hload
    rw [hpg] at hpg'
    cases hpg'
    have hbs : bs' = bs := hsame hopt
    subst hbs
    have htimes : times' = times := by
      have := sampleTimes_mono hts hfuel
      rw [hts'] at this
      simpa using this
    subst htimes
    refine ⟨t, bs', maya', hload, ?_, ?_⟩
    · intro hne
      have : List.range pg.poses.length ≠ [] := by
        simpa using hne
      rw [ht]
      simp [poseTrack, keptPositions_all bs' _ hlen, this]
    · intro key hkey
      rw [ht] at hkey
      by_cases hnil : keptPositions bs' pg.poses.length = []
      · simp [poseTrack, hnil] at hkey
      · simp only [poseTrack, hnil, if_false, List.mem_map] at hkey
        obtain ⟨time, _, rfl⟩ := hkey
        simp only [keyAt, refsFrom_all_kept bs' _ _ hlen, List.enum]
        simp

/-- Witness of C7: the deformer with four channels, sampled on [0, 1] every 1/2 with the
optimisation enabled. -/
theorem loadTrack_stored_references_witness :
    (0 : ℚ) < 1 / 2 ∧
    (BlendShape.withPoses [demoPose 0, demoPose 1, demoPose 2, demoPose 3]).m_poseGroups 0
      = some { targetIndex := 0, poses := [demoPose 0, demoPose 1, demoPose 2, demoPose 3] } ∧
    channelsInRange Scene.fourChannels [demoPose 0, demoPose 1, demoPose 2, demoPose 3] ∧
    ∃ (n0 : Nat) (times : List ℚ), sampleTimes n0 0 1 (1 / 2) = .ok times ∧
      ∀ fuel, n0 ≤ fuel → ∃ t bs' maya',
        loadTrack fuel (BlendShape.withPoses [demoPose 0, demoPose 1, demoPose 2, demoPose 3])
          Scene.fourChannels 0 1 (1 / 2) { optimizePoseAnimation := true } 0 7
          = .ok (t, bs', maya') ∧
        ∀ key ∈ t.m_vertexKeyframes, ∀ r ∈ key.poserefs, ∃ (i : Nat) (p : pose),
          [demoPose 0, demoPose 1, demoPose 2, demoPose 3][i]? = some p ∧
          r.poseIndex = (7 : Int) + (i : Int) ∧
          r.poseWeight = sampledWeight Scene.fourChannels p (key.time + times.headD 0) ∧
          ∃ time ∈ times, 1 / 1000 < |sampledWeight Scene.fourChannels p time| :=
  ⟨by norm_num,
   by simp [BlendShape.withPoses, BlendShape.setGroup],
   by simp [channelsInRange, demoPose, Scene.fourChannels, Scene.still],
   (loadTrack_stored_references
     (BlendShape.withPoses [demoPose 0, demoPose 1, demoPose 2, demoPose 3])
     Scene.fourChannels 0 1 (1 / 2) { optimizePoseAnimation := true } 0 7
     { targetIndex := 0, poses := [demoPose 0, demoPose 1, demoPose 2, demoPose 3] }
     (by norm_num)
     (by simp [BlendShape.withPoses, BlendShape.setGroup])
     (by simp [channelsInRange, demoPose, Scene.fourChannels, Scene.still])).1 rfl (by simp)⟩

/-! ## Poses: closed form of `loadPoseShared` and `loadPoseSubmesh` -/

theorem computeOffset_eq (PRECISION : ℚ) (params : ParamList) (points : List MFloatPoint)
    (v : vertex) (idx : Int) (h : 0 ≤ v.index ∧ v.index.toNat < points.length) :
    computeOffset PRECISION params points v idx = .ok (entryOf PRECISION params points v idx) := by
  obtain ⟨h0, h1⟩ := h
  have hget : points[v.index.toNat]? = some (points[v.index.toNat]) :=
    List.getElem?_eq_getElem h1
  simp [computeOffset, vecGet, h0, hget, entryOf, displacement, bind_ok_eq]

theorem vecGet_drop {α : Type} (xs : List α) (k : Nat) (a : α) (rest : List α)
    (h : xs.drop k = a :: rest) : vecGet xs (k : Int) = .ok a ∧ xs.drop (k + 1) = rest := by
  have hlt : k < xs.length := by
    by_contra hcon
    rw [List.drop_eq_nil_of_le (by omega)] at h
    cases h
  rw [List.drop_eq_getElem_cons hlt] at h
  simp only [List.cons.injEq] at h
  refine ⟨?_, h.2⟩
  simp [vecGet, List.getElem?_eq_getElem hlt, h.1]

/-- The loop of `loadPoseShared` computes the entries of the block it runs over. -/
theorem offsetsShared_eq (PRECISION : ℚ) (params : ParamList) (vertices : List vertex)
    (points : List MFloatPoint) (offset : Int) :
    ∀ (n : Nat) (i : Int) (acc : List vertexOffset) (k : Nat),
      offset + i = (k : Int) → k + n ≤ vertices.length →
      pointsInRange points ((vertices.drop k).take n) →
      offsetsShared PRECISION params vertices points offset n i acc =
        .ok (acc ++ entriesFrom PRECISION params points ((vertices.drop k).take n) (offset + i)) := by
  intro n
  induction n with
  | zero => intro i acc k _ _ _; simp [offsetsShared, entriesFrom]
  | succ n ih =>
    intro i acc k hk hlen hin
    have hklt : k < vertices.length := by omega
    have hdrop : vertices.drop k = vertices[k] :: vertices.drop (k + 1) :=
      List.drop_eq_getElem_cons hklt
    obtain ⟨hget, _⟩ := vecGet_drop vertices k _ _ hdrop
    have hblock : (vertices.drop k).take (n + 1) = vertices[k] :: (vertices.drop (k + 1)).take n := by
      rw [hdrop]; rfl
    rw [hblock] at hin ⊢
    have hv := hin vertices[k] (List.mem_cons_self _ _)
    have hrest : pointsInRange points ((vertices.drop (k + 1)).take n) :=
      fun v hv => hin v (List.mem_cons_of_mem _ hv)
    simp only [offsetsShared, hk, hget, bind_ok_eq, computeOffset_eq _ _ _ _ _ hv]
    rw [ih (i + 1) _ (k + 1) (by push_cast; omega) (by omega) hrest]
    have hidx : offset + (i + 1) = (k : Int) + 1 := by omega
    rw [hidx]
    by_cases hnz : offsetNonZero (entryOf PRECISION params points vertices[k] (k : Int)) = true
    · simp [entriesFrom, hnz]
    · simp [entriesFrom, hnz]

/-- The loop of `loadPoseSubmesh` computes the entries of the vertices it runs over. -/
theorem offsetsSubmesh_eq (PRECISION : ℚ) (params : ParamList) (vertices : List vertex)
    (indices : List Int) (points : List MFloatPoint) (hind : vertices.length ≤ indices.length) :
    ∀ (n : Nat) (k : Nat) (acc : List vertexOffset),
      k + n = vertices.length →
      pointsInRange points (vertices.drop k) →
      offsetsSubmesh PRECISION params vertices indices points n (k : Int) acc =
        .ok (acc ++ entriesFrom PRECISION params points (vertices.drop k) (k : Int)) := by
  intro n
  induction n with
  | zero =>
    intro k acc hk _
    have : vertices.drop k = [] := List.drop_eq_nil_of_le (by omega)
    simp [offsetsSubmesh, entriesFrom, this]
  | succ n ih =>
    intro k acc hk hin
    have hklt : k < vertices.length := by omega
    have hdrop : vertices.drop k = vertices[k] :: vertices.drop (k + 1) :=
      List.drop_eq_getElem_cons hklt
    obtain ⟨hget, _⟩ := vecGet_drop vertices k _ _ hdrop
    have hki : k < indices.length := by omega
    have hgeti : vecGet indices (k : Int) = .ok indices[k] := by
      simp [vecGet, List.getElem?_eq_getElem hki]
    rw [hdrop] at hin ⊢
    have hv := hin vertices[k] (List.mem_cons_self _ _)
    have hrest : pointsInRange points (vertices.drop (k + 1)) :=
      fun v hv => hin v (List.mem_cons_of_mem _ hv)
    simp only [offsetsSubmesh, hget, hgeti, bind_ok_eq, computeOffset_eq _ _ _ _ _ hv]
    have hcast : ((k : Int) + 1) = ((k + 1 : Nat) : Int) := by push_cast; rfl
    rw [hcast, ih (k + 1) _ (by omega) hrest]
    by_cases hnz : offsetNonZero (entryOf PRECISION params points vertices[k] (k : Int)) = true
    · simp [entriesFrom, hnz]
    · simp [entriesFrom, hnz]

theorem loadPoseShared_eq (PRECISION : ℚ) (bs : BlendShape) (maya : Scene) (params : ParamList)
    (vertices : List vertex) (numVertices offset : Int) (poseName : String)
    (blendShapeIndex : Int) (pg : poseGroup) (hpg : bs.m_poseGroups 0 = some pg)
    (hoff : 0 ≤ offset) (hlen : offset.toNat + numVertices.toNat ≤ vertices.length)
    (hin : pointsInRange (maya.getPoints params.exportWorldCoords maya.envelope maya.weight)
      ((vertices.drop offset.toNat).take numVertices.toNat)) :
    loadPoseShared PRECISION bs maya params vertices numVertices offset poseName blendShapeIndex =
      .ok (storePose bs 0 pg
        { poseTarget := bs.m_target, index := 0, blendShapeIndex := blendShapeIndex,
          name := poseName,
          offsets := entriesFrom PRECISION params
            (maya.getPoints params.exportWorldCoords maya.envelope maya.weight)
            ((vertices.drop offset.toNat).take numVertices.toNat) offset }) := by
  unfold loadPoseShared
  rw [findGroup_of_some hpg, bind_ok_eq]
  dsimp only
  rw [offsetsShared_eq PRECISION params vertices _ offset numVertices.toNat 0 [] offset.toNat
      (by omega) hlen hin, bind_ok_eq]
  simp only [List.nil_append, add_zero, storePose]
  split <;> rfl

theorem loadPoseSubmesh_eq (PRECISION : ℚ) (bs : BlendShape) (maya : Scene)
    (params : ParamList) (vertices : List vertex) (indices : List Int) (poseName : String)
    (targetIndex blendShapeIndex : Int) (pg : poseGroup)
    (hpg : bs.m_poseGroups targetIndex = some pg)
    (hind : vertices.length ≤ indices.length)
    (hin : pointsInRange (maya.getPoints params.exportWorldCoords maya.envelope maya.weight)
      vertices) :
    loadPoseSubmesh PRECISION bs maya params vertices indices poseName targetIndex
        blendShapeIndex =
      .ok (storePose bs targetIndex pg
        { poseTarget := bs.m_target, index := targetIndex, blendShapeIndex := blendShapeIndex,
          name := poseName,
          offsets := entriesFrom PRECISION params
            (maya.getPoints params.exportWorldCoords maya.envelope maya.weight) vertices 0 }) := by
  unfold loadPoseSubmesh
  have h := offsetsSubmesh_eq PRECISION params vertices indices
    (maya.getPoints params.exportWorldCoords maya.envelope maya.weight) hind vertices.length 0 []
    (by omega) (by simpa using hin)
  simp only [Nat.cast_zero, List.drop_zero, List.nil_append] at h
  rw [findGroup_of_some hpg, bind_ok_eq]
  dsimp only
  rw [h, bind_ok_eq]
  simp only [storePose]
  split <;> rfl

theorem snap_eq_self (PRECISION c : ℚ) (h : c = 0 ∨ PRECISION ≤ |c|) : snap PRECISION c = c := by
  unfold snap
  rcases h with h | h
  · subst h; split <;> rfl
  · rw [if_neg (not_lt.mpr h)]

theorem snap_ne_zero_iff (PRECISION c : ℚ) (hP : 0 < PRECISION) :
    snap PRECISION c ≠ 0 ↔ PRECISION ≤ |c| := by
  unfold snap
  by_cases h : |c| < PRECISION
  · simp only [h, if_true, ne_eq, not_true_eq_false, false_iff, not_le]
  · rw [if_neg h]
    have hle : PRECISION ≤ |c| := not_lt.mp h
    constructor
    · intro _; exact hle
    · intro _ hc
      rw [hc, abs_zero] at hle
      linarith

theorem offsetNonZero_iff (vo : vertexOffset) :
    offsetNonZero vo = true ↔ vo.x ≠ 0 ∨ vo.y ≠ 0 ∨ vo.z ≠ 0 := by
  simp [offsetNonZero, or_assoc]

theorem offsetNonZero_mk (idx : Int) (d : ℚ × ℚ × ℚ) :
    offsetNonZero ⟨idx, d.1, d.2.1, d.2.2⟩ = true ↔ d ≠ (0, 0, 0) := by
  rw [offsetNonZero_iff]
  obtain ⟨a, b, c⟩ := d
  simp only [ne_eq, Prod.mk.injEq]
  tauto

theorem entriesFrom_eq_displaced (PRECISION : ℚ) (params : ParamList)
    (points : List MFloatPoint) :
    ∀ (block : List vertex) (idx : Int),
      (∀ v ∈ block,
        ((displacement params points v).1 = 0 ∨ PRECISION ≤ |(displacement params points v).1|) ∧
        ((displacement params points v).2.1 = 0 ∨
          PRECISION ≤ |(displacement params points v).2.1|) ∧
        ((displacement params points v).2.2 = 0 ∨
          PRECISION ≤ |(displacement params points v).2.2|)) →
      entriesFrom PRECISION params points block idx = displacedEntries params points block idx := by
  intro block
  induction block with
  | nil => intro idx _; rfl
  | cons v rest ih =>
    intro idx h
    obtain ⟨h1, h2, h3⟩ := h v (List.mem_cons_self _ _)
    have hrest := ih (idx + 1) (fun u hu => h u (List.mem_cons_of_mem _ hu))
    have hentry : entryOf PRECISION params points v idx =
        { index := idx, x := (displacement params points v).1,
          y := (displacement params points v).2.1, z := (displacement params points v).2.2 } := by
      simp [entryOf, snap_eq_self _ _ h1, snap_eq_self _ _ h2, snap_eq_self _ _ h3]
    simp only [entriesFrom, displacedEntries, hentry, hrest]
    have hiff := offsetNonZero_mk idx (displacement params points v)
    by_cases hz : displacement params points v = (0, 0, 0)
    · have hf : offsetNonZero ⟨idx, (displacement params points v).1,
          (displacement params points v).2.1, (displacement params points v).2.2⟩ = false := by
        by_contra hcon
        simp only [Bool.not_eq_false] at hcon
        exact (hiff.mp hcon) hz
      rw [hf, if_pos hz]
      simp
    · have ht : offsetNonZero ⟨idx, (displacement params points v).1,
          (displacement params points v).2.1, (displacement params points v).2.2⟩ = true :=
        hiff.mpr hz
      rw [ht, if_neg hz]
      simp

theorem displacedEntries_index_ge (params : ParamList) (points : List MFloatPoint) :
    ∀ (block : List vertex) (idx : Int),
      ∀ vo ∈ displacedEntries params points block idx, idx ≤ vo.index := by
  intro block
  induction block with
  | nil => intro idx vo h; simp [displacedEntries] at h
  | cons v rest ih =>
    intro idx vo h
    simp only [displacedEntries] at h
    split at h
    · have := ih (idx + 1) vo h; omega
    · rcases List.mem_cons.mp h with h | h
      · rw [h]
      · have := ih (idx + 1) vo h; omega

theorem displacedEntries_sorted (params : ParamList) (points : List MFloatPoint) :
    ∀ (block : List vertex) (idx : Int),
      ((displacedEntries params points block idx).map (fun vo => vo.index)).Pairwise (· < ·) := by
  intro block
  induction block with
  | nil => intro idx; simp [displacedEntries]
  | cons v rest ih =>
    intro idx
    simp only [displacedEntries]
    split
    · exact ih (idx + 1)
    · rw [List.map_cons, List.pairwise_cons]
      refine ⟨?_, ih (idx + 1)⟩
      intro a ha
      obtain ⟨vo, hvo, rfl⟩ := List.mem_map.mp ha
      have := displacedEntries_index_ge params points rest (idx + 1) vo hvo
      show idx < vo.index
      omega

theorem mem_displacedEntries (params : ParamList) (points : List MFloatPoint) :
    ∀ (block : List vertex) (idx : Int) (vo : vertexOffset),
      vo ∈ displacedEntries params points block idx ↔
        ∃ (i : Nat) (v : vertex), block[i]? = some v ∧
          displacement params points v ≠ (0, 0, 0) ∧
          vo = { index := idx + (i : Int), x := (displacement params points v).1,
                 y := (displacement params points v).2.1,
                 z := (displacement params points v).2.2 } := by
  intro block
  induction block with
  | nil => intro idx vo; simp [displacedEntries]
  | cons v rest ih =>
    intro idx vo
    have hstep : vo ∈ displacedEntries params points rest (idx + 1) ↔
        ∃ (i : Nat) (u : vertex), (v :: rest)[i + 1]? = some u ∧
          displacement params points u ≠ (0, 0, 0) ∧
          vo = { index := idx + ((i + 1 : Nat) : Int), x := (displacement params points u).1,
                 y := (displacement params points u).2.1,
                 z := (displacement params points u).2.2 } := by
      rw [ih]
      constructor
      · rintro ⟨i, u, h1, h2, h3⟩
        refine ⟨i, u, by simpa using h1, h2, ?_⟩
        rw [h3]; congr 1; push_cast; ring
      · rintro ⟨i, u, h1, h2, h3⟩
        refine ⟨i, u, by simpa using h1, h2, ?_⟩
        rw [h3]; congr 1; push_cast; ring
    simp only [displacedEntries]
    split
    · rename_i hz
      rw [hstep]
      constructor
      · rintro ⟨i, u, h1, h2, h3⟩; exact ⟨i + 1, u, h1, h2, h3⟩
      · rintro ⟨i, u, h1, h2, h3⟩
        cases i with
        | zero =>
          simp only [List.getElem?_cons_zero, Option.some.injEq] at h1
          subst h1
          exact absurd hz h2
        | succ i => exact ⟨i, u, h1, h2, h3⟩
    · rename_i hz
      rw [List.mem_cons, hstep]
      constructor
      · rintro (h | ⟨i, u, h1, h2, h3⟩)
        · exact ⟨0, v, by simp, hz, by simpa using h⟩
        · exact ⟨i + 1, u, h1, h2, h3⟩
      · rintro ⟨i, u, h1, h2, h3⟩
        cases i with
        | zero =>
          simp only [List.getElem?_cons_zero, Option.some.injEq] at h1
          subst h1
          left; simpa using h3
        | succ i => exact Or.inr ⟨i, u, h1, h2, h3⟩

/-! ## Claims on the offsets of a pose (C8, C9) -/

theorem toNat_digits :
    (2 : Int).toNat = 2 ∧ (3 : Int).toNat = 3 ∧ (4 : Int).toNat = 4 ∧ (5 : Int).toNat = 5 ∧
    (6 : Int).toNat = 6 ∧ (7 : Int).toNat = 7 ∧ (8 : Int).toNat = 8 ∧ (9 : Int).toNat = 9 :=
  ⟨rfl, rfl, rfl, rfl, rfl, rfl, rfl, rfl⟩

theorem demo_block :
    (demoVertices.drop (0 : Int).toNat).take (10 : Int).toNat = demoVertices := rfl

theorem demo_pointsInRange_neutral : pointsInRange demoNeutral demoVertices := by
  obtain ⟨h2, h3, h4, h5, h6, h7, h8, h9⟩ := toNat_digits
  intro v hv
  simp only [demoVertices, List.mem_cons, List.mem_singleton, List.not_mem_nil, or_false] at hv
  rcases hv with rfl | rfl | rfl | rfl | rfl | rfl | rfl | rfl | rfl | rfl <;>
    simp [demoVertex, demoNeutral, h2, h3, h4, h5, h6, h7, h8, h9]

theorem demo_pointsInRange_deformed : pointsInRange demoDeformed demoVertices := by
  obtain ⟨h2, h3, h4, h5, h6, h7, h8, h9⟩ := toNat_digits
  intro v hv
  simp only [demoVertices, List.mem_cons, List.mem_singleton, List.not_mem_nil, or_false] at hv
  rcases hv with rfl | rfl | rfl | rfl | rfl | rfl | rfl | rfl | rfl | rfl <;>
    simp [demoVertex, demoDeformed, h2, h3, h4, h5, h6, h7, h8, h9]

theorem demo_entries_neutral :
    entriesFrom (1 / 10000) {} demoNeutral demoVertices 0 = [] := by
  obtain ⟨h2, h3, h4, h5, h6, h7, h8, h9⟩ := toNat_digits
  norm_num [entriesFrom, entryOf, snap, offsetNonZero, demoVertices, demoVertex, demoNeutral,
    displacement, h2, h3, h4, h5, h6, h7, h8, h9]

theorem new_group_zero :
    BlendShape.new.m_poseGroups 0 = some { targetIndex := 0, poses := [] } := by
  simp [BlendShape.new, BlendShape.clear]

/-- C8, counterexample: when no vertex of the block is displaced (the deformed points are the
stored positions), every vertex satisfies the condition of the claim and yet
`loadPoseShared` stores no pose: group 0 is left without any pose. -/
theorem loadPoseShared_neutral_stores_nothing :
    Except.map (fun b : BlendShape => b.m_poseGroups 0)
        (loadPoseShared (1 / 10000) BlendShape.new (Scene.still [0] (fun _ _ => demoNeutral)) {}
          demoVertices 10 0 "pose" 0)
      = .ok (some { targetIndex := 0, poses := [] }) := by
  rw [loadPoseShared_eq (1 / 10000) BlendShape.new (Scene.still [0] (fun _ _ => demoNeutral))
    {} demoVertices 10 0 "pose" 0 { targetIndex := 0, poses := [] } new_group_zero
    (le_refl 0) (by simp [demoVertices]) demo_pointsInRange_neutral]
  have hD : entriesFrom (1 / 10000) {}
      ((Scene.still [0] (fun _ _ => demoNeutral)).getPoints
        ({} : ParamList).exportWorldCoords
        (Scene.still [0] (fun _ _ => demoNeutral)).envelope
        (Scene.still [0] (fun _ _ => demoNeutral)).weight)
      ((demoVertices.drop (0 : Int).toNat).take (10 : Int).toNat) 0 = [] :=
    demo_entries_neutral
  rw [hD]
  simp [Except.map, storePose, new_group_zero]

/-- C8, amended: for every vertex block `(offset, numVertices)` inside the vertex list and
every deformed point array in which each component of each displacement is 0 or of
magnitude at least `PRECISION`, `loadPoseShared` stores in group 0, when at least one
vertex of the block is displaced, one pose whose offsets are exactly the displaced vertices
of the block, once each and in ascending order, with `index = offset + i` and with the
exact displacement (deformed point times `lum` minus stored position); the vertices that
are not displaced get no entry. When no vertex of the block is displaced it stores no pose
and leaves the `BlendShape` as it was. -/
theorem loadPoseShared_displaced_block (PRECISION : ℚ) (bs : BlendShape) (maya : Scene)
    (params : ParamList) (vertices : List vertex) (numVertices offset : Int)
    (poseName : String) (blendShapeIndex : Int) (pg : poseGroup)
    (hpg : bs.m_poseGroups 0 = some pg) (hoff : 0 ≤ offset)
    (hlen : offset.toNat + numVertices.toNat ≤ vertices.length)
    (hin : pointsInRange (maya.getPoints params.exportWorldCoords maya.envelope maya.weight)
      ((vertices.drop offset.toNat).take numVertices.toNat))
    (hdisp : ∀ v ∈ (vertices.drop offset.toNat).take numVertices.toNat,
      ∀ d, d = displacement params
          (maya.getPoints params.exportWorldCoords maya.envelope maya.weight) v →
        (d.1 = 0 ∨ PRECISION ≤ |d.1|) ∧ (d.2.1 = 0 ∨ PRECISION ≤ |d.2.1|) ∧
          (d.2.2 = 0 ∨ PRECISION ≤ |d.2.2|)) :
    ∃ D : List vertexOffset,
      D = displacedEntries params
        (maya.getPoints params.exportWorldCoords maya.envelope maya.weight)
        ((vertices.drop offset.toNat).take numVertices.toNat) offset ∧
      loadPoseShared PRECISION bs maya params vertices numVertices offset poseName
          blendShapeIndex =
        .ok (if D = [] then bs
             else bs.setGroup 0 { pg with poses := pg.poses ++
               [{ poseTarget := bs.m_target, index := 0, blendShapeIndex := blendShapeIndex,
                  name := poseName, offsets := D }] }) ∧
      (D.map (fun vo => vo.index)).Pairwise (· < ·) ∧
      (∀ (i : Nat) (v : vertex),
        ((vertices.drop offset.toNat).take numVertices.toNat)[i]? = some v →
        ∀ d, d = displacement params
            (maya.getPoints params.exportWorldCoords maya.envelope maya.weight) v →
          (d ≠ (0, 0, 0) → (⟨offset + (i : Int), d.1, d.2.1, d.2.2⟩ : vertexOffset) ∈ D) ∧
          (d = (0, 0, 0) → ∀ vo ∈ D, vo.index ≠ offset + (i : Int))) ∧
      (∀ vo ∈ D, ∃ (i : Nat) (v : vertex),
        ((vertices.drop offset.toNat).take numVertices.toNat)[i]? = some v ∧
        displacement params
          (maya.getPoints params.exportWorldCoords maya.envelope maya.weight) v ≠ (0, 0, 0) ∧
        vo.index = offset + (i : Int) ∧
        (vo.x, vo.y, vo.z) = displacement params
          (maya.getPoints params.exportWorldCoords maya.envelope maya.weight) v) := by
  refine ⟨_, rfl, ?_, displacedEntries_sorted _ _ _ _, ?_, ?_⟩
  · rw [loadPoseShared_eq PRECISION bs maya params vertices numVertices offset poseName
      blendShapeIndex pg hpg hoff hlen hin,
      entriesFrom_eq_displaced PRECISION params _ _ offset (fun v hv => hdisp v hv _ rfl)]
    simp only [storePose]
    by_cases hD : displacedEntries params
        (maya.getPoints params.exportWorldCoords maya.envelope maya.weight)
        ((vertices.drop offset.toNat).take numVertices.toNat) offset = []
    · simp [hD]
    · have : 0 < (displacedEntries params
          (maya.getPoints params.exportWorldCoords maya.envelope maya.weight)
          ((vertices.drop offset.toNat).take numVertices.toNat) offset).length :=
        List.length_pos.mpr hD
      simp [hD, this]
  · intro i v hv d hd
    subst hd
    constructor
    · intro hne
      rw [mem_displacedEntries]
      exact ⟨i, v, hv, hne, rfl⟩
    · intro hz vo hvo hidx
      rw [mem_displacedEntries] at hvo
      obtain ⟨j, u, hu, hne, rfl⟩ := hvo
      simp only [add_right_inj, Nat.cast_inj] at hidx
      subst hidx
      rw [hv] at hu
      cases hu
      exact hne hz
  · intro vo hvo
    rw [mem_displacedEntries] at hvo
    obtain ⟨j, u, hu, hne, rfl⟩ := hvo
    exact ⟨j, u, hu, hne, rfl, rfl⟩

theorem demo_displacements_deformed :
    ∀ v ∈ demoVertices, ∀ d, d = displacement {} demoDeformed v →
      (d.1 = 0 ∨ (1 / 10000 : ℚ) ≤ |d.1|) ∧ (d.2.1 = 0 ∨ (1 / 10000 : ℚ) ≤ |d.2.1|) ∧
        (d.2.2 = 0 ∨ (1 / 10000 : ℚ) ≤ |d.2.2|) := by
  obtain ⟨h2, h3, h4, h5, h6, h7, h8, h9⟩ := toNat_digits
  intro v hv d hd
  subst hd
  simp only [demoVertices, List.mem_cons, List.mem_singleton, List.not_mem_nil, or_false] at hv
  rcases hv with rfl | rfl | rfl | rfl | rfl | rfl | rfl | rfl | rfl | rfl <;>
    norm_num [demoVertex, demoDeformed, displacement, h2, h3, h4, h5, h6, h7, h8, h9]

theorem demo_displaced_entries :
    displacedEntries {} demoDeformed demoVertices 0 =
      [⟨2, 1, 0, 0⟩, ⟨5, 1, 0, 0⟩, ⟨7, 1, 0, 0⟩] := by
  obtain ⟨h2, h3, h4, h5, h6, h7, h8, h9⟩ := toNat_digits
  norm_num [displacedEntries, demoVertices, demoVertex, demoDeformed, displacement,
    h2, h3, h4, h5, h6, h7, h8, h9]

/-- Witness of C8: ten vertices, three of which (2, 5 and 7) are moved by +1 in x, give a pose
with exactly the three entries (1, 0, 0) of indices 2, 5 and 7. -/
theorem loadPoseShared_displaced_block_witness :
    BlendShape.new.m_poseGroups 0 = some { targetIndex := 0, poses := [] } ∧
    (0 : Int) ≤ 0 ∧
    (0 : Int).toNat + (10 : Int).toNat ≤ demoVertices.length ∧
    pointsInRange demoDeformed demoVertices ∧
    displacedEntries {} demoDeformed demoVertices 0 =
      [⟨2, 1, 0, 0⟩, ⟨5, 1, 0, 0⟩, ⟨7, 1, 0, 0⟩] ∧
    ∃ D : List vertexOffset,
      D = displacedEntries {} demoDeformed demoVertices 0 ∧
      loadPoseShared (1 / 10000) BlendShape.new (Scene.still [0] (fun _ _ => demoDeformed)) {}
          demoVertices 10 0 "pose" 0 =
        .ok (if D = [] then BlendShape.new
             else BlendShape.new.setGroup 0
               { ({ targetIndex := 0, poses := [] } : poseGroup) with
                 poses := ([] : List pose) ++
                   [{ poseTarget := BlendShape.new.m_target, index := 0, blendShapeIndex := 0,
                      name := "pose", offsets := D }] }) ∧
      (D.map (fun vo => vo.index)).Pairwise (· < ·) ∧
      (∀ (i : Nat) (v : vertex), demoVertices[i]? = some v →
        ∀ d, d = displacement {} demoDeformed v →
          (d ≠ (0, 0, 0) → (⟨(0 : Int) + (i : Int), d.1, d.2.1, d.2.2⟩ : vertexOffset) ∈ D) ∧
          (d = (0, 0, 0) → ∀ vo ∈ D, vo.index ≠ (0 : Int) + (i : Int))) ∧
      (∀ vo ∈ D, ∃ (i : Nat) (v : vertex), demoVertices[i]? = some v ∧
        displacement {} demoDeformed v ≠ (0, 0, 0) ∧
        vo.index = (0 : Int) + (i : Int) ∧
        (vo.x, vo.y, vo.z) = displacement {} demoDeformed v) :=
  ⟨new_group_zero, le_refl 0, by simp [demoVertices], demo_pointsInRange_deformed,
   demo_displaced_entries,
   loadPoseShared_displaced_block (1 / 10000) BlendShape.new
     (Scene.still [0] (fun _ _ => demoDeformed)) {} demoVertices 10 0 "pose" 0
     { targetIndex := 0, poses := [] } new_group_zero (le_refl 0) (by simp [demoVertices])
     demo_pointsInRange_deformed demo_displacements_deformed⟩

theorem entryOf_index (PRECISION : ℚ) (params : ParamList) (points : List MFloatPoint)
    (v : vertex) (idx : Int) : (entryOf PRECISION params points v idx).index = idx := rfl

theorem mem_entriesFrom (PRECISION : ℚ) (params : ParamList) (points : List MFloatPoint) :
    ∀ (block : List vertex) (idx : Int) (vo : vertexOffset),
      vo ∈ entriesFrom PRECISION params points block idx ↔
        ∃ (i : Nat) (v : vertex), block[i]? = some v ∧
          offsetNonZero (entryOf PRECISION params points v (idx + (i : Int))) = true ∧
          vo = entryOf PRECISION params points v (idx + (i : Int)) := by
  intro block
  induction block with
  | nil => intro idx vo; simp [entriesFrom]
  | cons v rest ih =>
    intro idx vo
    have hstep : vo ∈ entriesFrom PRECISION params points rest (idx + 1) ↔
        ∃ (i : Nat) (u : vertex), (v :: rest)[i + 1]? = some u ∧
          offsetNonZero (entryOf PRECISION params points u (idx + ((i + 1 : Nat) : Int))) = true ∧
          vo = entryOf PRECISION params points u (idx + ((i + 1 : Nat) : Int)) := by
      rw [ih]
      have hcast : ∀ i : Nat, idx + 1 + (i : Int) = idx + ((i + 1 : Nat) : Int) := by
        intro i; push_cast; ring
      constructor
      · rintro ⟨i, u, h1, h2, h3⟩
        exact ⟨i, u, by simpa using h1, by rw [← hcast]; exact h2, by rw [← hcast]; exact h3⟩
      · rintro ⟨i, u, h1, h2, h3⟩
        exact ⟨i, u, by simpa using h1, by rw [hcast]; exact h2, by rw [hcast]; exact h3⟩
    simp only [entriesFrom]
    split
    · rename_i hnz
      rw [List.mem_cons, hstep]
      constructor
      · rintro (h | ⟨i, u, h1, h2, h3⟩)
        · exact ⟨0, v, by simp, by simpa using hnz, by simpa using h⟩
        · exact ⟨i + 1, u, h1, h2, h3⟩
      · rintro ⟨i, u, h1, h2, h3⟩
        cases i with
        | zero =>
          simp only [List.getElem?_cons_zero, Option.some.injEq] at h1
          subst h1
          left; simpa using h3
        | succ i => exact Or.inr ⟨i, u, h1, h2, h3⟩
    · rename_i hnz
      rw [hstep]
      constructor
      · rintro ⟨i, u, h1, h2, h3⟩; exact ⟨i + 1, u, h1, h2, h3⟩
      · rintro ⟨i, u, h1, h2, h3⟩
        cases i with
        | zero =>
          simp only [List.getElem?_cons_zero, Option.some.injEq] at h1
          subst h1
          simp only [Nat.cast_zero, add_zero] at h2
          exact absurd h2 hnz
        | succ i => exact ⟨i, u, h1, h2, h3⟩

theorem entryOf_nonZero_iff (PRECISION : ℚ) (hP : 0 < PRECISION) (params : ParamList)
    (points : List MFloatPoint) (v : vertex) (idx : Int) :
    offsetNonZero (entryOf PRECISION params points v idx) = true ↔
      (PRECISION ≤ |(displacement params points v).1| ∨
        PRECISION ≤ |(displacement params points v).2.1| ∨
        PRECISION ≤ |(displacement params points v).2.2|) := by
  rw [offsetNonZero_iff]
  simp only [entryOf, snap_ne_zero_iff _ _ hP]

/-- Entry of the vertex at position `i` of a block. -/
theorem entry_index_iff (PRECISION : ℚ) (hP : 0 < PRECISION) (params : ParamList)
    (points : List MFloatPoint) (block : List vertex) (idx : Int) (i : Nat) (v : vertex)
    (hv : block[i]? = some v) :
    (∃ vo ∈ entriesFrom PRECISION params points block idx, vo.index = idx + (i : Int)) ↔
      (PRECISION ≤ |(displacement params points v).1| ∨
        PRECISION ≤ |(displacement params points v).2.1| ∨
        PRECISION ≤ |(displacement params points v).2.2|) := by
  rw [← entryOf_nonZero_iff PRECISION hP params points v (idx + (i : Int))]
  constructor
  · rintro ⟨vo, hvo, hidx⟩
    rw [mem_entriesFrom] at hvo
    obtain ⟨j, u, hu, hnz, rfl⟩ := hvo
    rw [entryOf_index] at hidx
    have : j = i := by omega
    subst this
    rw [hv] at hu
    cases hu
    exact hnz
  · intro hnz
    exact ⟨_, (mem_entriesFrom _ _ _ _ _ _).mpr ⟨i, v, hv, hnz, rfl⟩, rfl⟩

theorem demo_single_inRange (pt : MFloatPoint) : pointsInRange [pt] [demoVertex 0 0 0 0] := by
  intro v hv
  simp only [List.mem_singleton] at hv
  subst hv
  simp [demoVertex]

/-- C9, counterexample (threshold 0.0001, one vertex at the origin). A displacement of
0.00009 along each axis has a Euclidean magnitude above the threshold (its square is above
the square of the threshold) and the vertex gets no entry: no pose is stored. A
displacement of exactly 0.0001 along x has a magnitude that does not exceed the threshold
and the vertex gets an entry. -/
theorem loadPoseShared_magnitude_mismatch :
    ((displacement {} demoDiagonal (demoVertex 0 0 0 0)).1 ^ 2 +
        (displacement {} demoDiagonal (demoVertex 0 0 0 0)).2.1 ^ 2 +
        (displacement {} demoDiagonal (demoVertex 0 0 0 0)).2.2 ^ 2 > (1 / 10000 : ℚ) ^ 2 ∧
      Except.map (fun b : BlendShape => b.m_poseGroups 0)
          (loadPoseShared (1 / 10000) BlendShape.new
            (Scene.still [0] (fun _ _ => demoDiagonal)) {} [demoVertex 0 0 0 0] 1 0 "pose" 0)
        = .ok (some { targetIndex := 0, poses := [] })) ∧
    (¬ ((displacement {} demoThreshold (demoVertex 0 0 0 0)).1 ^ 2 +
        (displacement {} demoThreshold (demoVertex 0 0 0 0)).2.1 ^ 2 +
        (displacement {} demoThreshold (demoVertex 0 0 0 0)).2.2 ^ 2 > (1 / 10000 : ℚ) ^ 2) ∧
      Except.map (fun b : BlendShape => b.m_poseGroups 0)
          (loadPoseShared (1 / 10000) BlendShape.new
            (Scene.still [0] (fun _ _ => demoThreshold)) {} [demoVertex 0 0 0 0] 1 0 "pose" 0)
        = .ok (some { targetIndex := 0, poses :=
            [{ poseTarget := .T_MESH, index := 0, blendShapeIndex := 0, name := "pose",
               offsets := [⟨0, 1 / 10000, 0, 0⟩] }] })) := by
  refine ⟨⟨?_, ?_⟩, ?_, ?_⟩
  · norm_num [displacement, demoDiagonal, demoVertex]
  · rw [loadPoseShared_eq (1 / 10000) BlendShape.new (Scene.still [0] (fun _ _ => demoDiagonal))
      {} [demoVertex 0 0 0 0] 1 0 "pose" 0 { targetIndex := 0, poses := [] } new_group_zero
      (le_refl 0) (by simp) (demo_single_inRange _)]
    have hD : entriesFrom (1 / 10000) {}
        ((Scene.still [0] (fun _ _ => demoDiagonal)).getPoints
          ({} : ParamList).exportWorldCoords
          (Scene.still [0] (fun _ _ => demoDiagonal)).envelope
          (Scene.still [0] (fun _ _ => demoDiagonal)).weight)
        (([demoVertex 0 0 0 0].drop (0 : Int).toNat).take (1 : Int).toNat) 0 = [] := by
      show entriesFrom (1 / 10000) {} demoDiagonal [demoVertex 0 0 0 0] 0 = []
      norm_num [entriesFrom, entryOf, snap, offsetNonZero, displacement, demoDiagonal,
        demoVertex, abs_lt]
    rw [hD]
    simp [Except.map, storePose, new_group_zero]
  · norm_num [displacement, demoThreshold, demoVertex]
  · rw [loadPoseShared_eq (1 / 10000) BlendShape.new
      (Scene.still [0] (fun _ _ => demoThreshold))
      {} [demoVertex 0 0 0 0] 1 0 "pose" 0 { targetIndex := 0, poses := [] } new_group_zero
      (le_refl 0) (by simp) (demo_single_inRange _)]
    have hD : entriesFrom (1 / 10000) {}
        ((Scene.still [0] (fun _ _ => demoThreshold)).getPoints
          ({} : ParamList).exportWorldCoords
          (Scene.still [0] (fun _ _ => demoThreshold)).envelope
          (Scene.still [0] (fun _ _ => demoThreshold)).weight)
        (([demoVertex 0 0 0 0].drop (0 : Int).toNat).take (1 : Int).toNat) 0
          = [⟨0, 1 / 10000, 0, 0⟩] := by
      show entriesFrom (1 / 10000) {} demoThreshold [demoVertex 0 0 0 0] 0 = _
      norm_num [entriesFrom, entryOf, snap, offsetNonZero, displacement, demoThreshold,
        demoVertex, abs_lt]
    rw [hD]
    simp [Except.map, storePose, BlendShape.setGroup, BlendShape.new, BlendShape.clear]

/-- C9, amended: with a threshold `PRECISION > 0`, in `loadPoseShared` and in
`loadPoseSubmesh` a vertex receives an offset entry in the pose if and only if at least
one component of its displacement has an absolute value of at least `PRECISION`: the
components are compared one by one, a component is kept when its absolute value is not
below `PRECISION`, and the Euclidean magnitude is not computed. -/
theorem loadPose_entry_iff_component (PRECISION : ℚ) (hP : 0 < PRECISION) (bs : BlendShape)
    (maya : Scene) (params : ParamList) (vertices : List vertex) (poseName : String)
    (blendShapeIndex : Int) :
    (∀ (numVertices offset : Int) (pg : poseGroup),
      bs.m_poseGroups 0 = some pg → 0 ≤ offset →
      offset.toNat + numVertices.toNat ≤ vertices.length →
      pointsInRange (maya.getPoints params.exportWorldCoords maya.envelope maya.weight)
        ((vertices.drop offset.toNat).take numVertices.toNat) →
      ∃ p : pose,
        loadPoseShared PRECISION bs maya params vertices numVertices offset poseName
          blendShapeIndex = .ok (storePose bs 0 pg p) ∧
        ∀ (i : Nat) (v : vertex),
          ((vertices.drop offset.toNat).take numVertices.toNat)[i]? = some v →
          ∀ d, d = displacement params
              (maya.getPoints params.exportWorldCoords maya.envelope maya.weight) v →
            ((∃ vo ∈ p.offsets, vo.index = offset + (i : Int)) ↔
              (PRECISION ≤ |d.1| ∨ PRECISION ≤ |d.2.1| ∨ PRECISION ≤ |d.2.2|))) ∧
    (∀ (indices : List Int) (targetIndex : Int) (pg : poseGroup),
      bs.m_poseGroups targetIndex = some pg → vertices.length ≤ indices.length →
      pointsInRange (maya.getPoints params.exportWorldCoords maya.envelope maya.weight)
        vertices →
      ∃ p : pose,
        loadPoseSubmesh PRECISION bs maya params vertices indices poseName targetIndex
          blendShapeIndex = .ok (storePose bs targetIndex pg p) ∧
        ∀ (i : Nat) (v : vertex), vertices[i]? = some v →
          ∀ d, d = displacement params
              (maya.getPoints params.exportWorldCoords maya.envelope maya.weight) v →
            ((∃ vo ∈ p.offsets, vo.index = (i : Int)) ↔
              (PRECISION ≤ |d.1| ∨ PRECISION ≤ |d.2.1| ∨ PRECISION ≤ |d.2.2|))) := by
  constructor
  · intro numVertices offset pg hpg hoff hlen hin
    refine ⟨_, loadPoseShared_eq PRECISION bs maya params vertices numVertices offset poseName
      blendShapeIndex pg hpg hoff hlen hin, ?_⟩
    intro i v hv d hd
    subst hd
    exact entry_index_iff PRECISION hP params _ _ offset i v hv
  · intro indices targetIndex pg hpg hind hin
    refine ⟨_, loadPoseSubmesh_eq PRECISION bs maya params vertices indices poseName
      targetIndex blendShapeIndex pg hpg hind hin, ?_⟩
    intro i v hv d hd
    subst hd
    have := entry_index_iff PRECISION hP params
      (maya.getPoints params.exportWorldCoords maya.envelope maya.weight) vertices 0 i v hv
    simpa using this

/-- Witness of C9: the ten demo vertices with three of them moved by +1 in x, threshold
0.0001, as a block of the shared geometry and as the vertices of a submesh. -/
theorem loadPose_entry_iff_component_witness :
    (0 : ℚ) < 1 / 10000 ∧
    (∃ p : pose,
      loadPoseShared (1 / 10000) BlendShape.new (Scene.still [0] (fun _ _ => demoDeformed)) {}
        demoVertices 10 0 "pose" 0
        = .ok (storePose BlendShape.new 0 { targetIndex := 0, poses := [] } p) ∧
      ∀ (i : Nat) (v : vertex), demoVertices[i]? = some v →
        ∀ d, d = displacement {} demoDeformed v →
          ((∃ vo ∈ p.offsets, vo.index = (0 : Int) + (i : Int)) ↔
            ((1 / 10000 : ℚ) ≤ |d.1| ∨ (1 / 10000 : ℚ) ≤ |d.2.1| ∨ (1 / 10000 : ℚ) ≤ |d.2.2|))) ∧
    (∃ p : pose,
      loadPoseSubmesh (1 / 10000) BlendShape.new (Scene.still [0] (fun _ _ => demoDeformed)) {}
        demoVertices demoIndices "pose" 0 0
        = .ok (storePose BlendShape.new 0 { targetIndex := 0, poses := [] } p) ∧
      ∀ (i : Nat) (v : vertex), demoVertices[i]? = some v →
        ∀ d, d = displacement {} demoDeformed v →
          ((∃ vo ∈ p.offsets, vo.index = (i : Int)) ↔
            ((1 / 10000 : ℚ) ≤ |d.1| ∨ (1 / 10000 : ℚ) ≤ |d.2.1| ∨ (1 / 10000 : ℚ) ≤ |d.2.2|))) :=
  ⟨by norm_num,
   (loadPose_entry_iff_component (1 / 10000) (by norm_num) BlendShape.new
      (Scene.still [0] (fun _ _ => demoDeformed)) {} demoVertices "pose" 0).1 10 0
      { targetIndex := 0, poses := [] } new_group_zero (le_refl 0) (by simp [demoVertices])
      demo_pointsInRange_deformed,
   (loadPose_entry_iff_component (1 / 10000) (by norm_num) BlendShape.new
      (Scene.still [0] (fun _ _ => demoDeformed)) {} demoVertices "pose" 0).2 demoIndices 0
      { targetIndex := 0, poses := [] } new_group_zero (by simp [demoVertices, demoIndices])
      demo_pointsInRange_deformed⟩

/-! ## Frame of the pose capture -/

theorem GroupExtends.groups_refl (k : Int) (tgt : target) (bs : BlendShape) :
    GroupExtends k tgt bs bs :=
  ⟨rfl, rfl, rfl, rfl, fun _ _ => rfl, fun h => h,
   fun pg h => ⟨[], by simp [h], fun p hp => by cases hp⟩⟩

theorem GroupExtends.groups_trans {k : Int} {tgt : target} {a b c : BlendShape}
    (h1 : GroupExtends k tgt a b) (h2 : GroupExtends k tgt b c) : GroupExtends k tgt a c := by
  obtain ⟨a1, a2, a3, a4, a5, a6, a7⟩ := h1
  obtain ⟨b1, b2, b3, b4, b5, b6, b7⟩ := h2
  refine ⟨b1.trans a1, b2.trans a2, b3.trans a3, b4.trans a4,
    fun j hj => (b5 j hj).trans (a5 j hj), fun h => b6 (a6 h), ?_⟩
  intro pg hpg
  obtain ⟨add1, hb, hp1⟩ := a7 pg hpg
  obtain ⟨add2, hc, hp2⟩ := b7 _ hb
  refine ⟨add1 ++ add2, by rw [hc]; simp, ?_⟩
  intro p hp
  rcases List.mem_append.mp hp with h | h
  · exact hp1 p h
  · exact hp2 p h

theorem storePose_extends (bs : BlendShape) (k : Int) (pg : poseGroup) (p : pose)
    (hpg : bs.m_poseGroups k = some pg) (hidx : p.index = k) :
    GroupExtends k p.poseTarget bs (storePose bs k pg p) := by
  unfold storePose
  split
  · refine ⟨rfl, rfl, rfl, rfl, ?_, ?_, ?_⟩
    · intro j hj; simp [BlendShape.setGroup, hj]
    · intro h; rw [hpg] at h; cases h
    · intro pg' hpg'
      rw [hpg] at hpg'
      cases hpg'
      refine ⟨[p], by simp [BlendShape.setGroup], ?_⟩
      intro q hq
      simp only [List.mem_singleton] at hq
      subst hq
      exact ⟨rfl, hidx⟩
  · exact GroupExtends.groups_refl _ _ _

theorem loadPoseShared_ok {PRECISION : ℚ} {bs : BlendShape} {maya : Scene} {params : ParamList}
    {vertices : List vertex} {numVertices offset : Int} {poseName : String}
    {blendShapeIndex : Int} {bs1 : BlendShape}
    (h : loadPoseShared PRECISION bs maya params vertices numVertices offset poseName
      blendShapeIndex = .ok bs1) :
    GroupExtends 0 bs.m_target bs bs1 := by
  unfold loadPoseShared at h
  rcases findGroup_error_or bs 0 with ⟨pg, hpg, hf⟩ | ⟨_, hf⟩
  · rw [hf, bind_ok_eq] at h
    dsimp only at h
    cases ho : offsetsShared PRECISION params vertices
        (maya.getPoints params.exportWorldCoords maya.envelope maya.weight) offset
        numVertices.toNat 0 [] with
    | error e => rw [ho] at h; simp [bind_error_eq] at h
    | ok offsets =>
      rw [ho, bind_ok_eq] at h
      have hs := storePose_extends bs 0 pg
        { poseTarget := bs.m_target, index := 0, blendShapeIndex := blendShapeIndex,
          name := poseName, offsets := offsets } hpg rfl
      unfold storePose at hs
      split at h
      · rename_i hc
        simp only [Except.ok.injEq] at h
        rw [← h]
        simpa [hc] using hs
      · simp only [Except.ok.injEq] at h
        rw [← h]
        exact GroupExtends.groups_refl _ _ _
  · rw [hf] at h; simp [bind_error_eq] at h

theorem loadPoseSubmesh_ok {PRECISION : ℚ} {bs : BlendShape} {maya : Scene}
    {params : ParamList} {vertices : List vertex} {indices : List Int} {poseName : String}
    {targetIndex blendShapeIndex : Int} {bs1 : BlendShape}
    (h : loadPoseSubmesh PRECISION bs maya params vertices indices poseName targetIndex
      blendShapeIndex = .ok bs1) :
    GroupExtends targetIndex bs.m_target bs bs1 := by
  unfold loadPoseSubmesh at h
  rcases findGroup_error_or bs targetIndex with ⟨pg, hpg, hf⟩ | ⟨_, hf⟩
  · rw [hf, bind_ok_eq] at h
    dsimp only at h
    cases ho : offsetsSubmesh PRECISION params vertices indices
        (maya.getPoints params.exportWorldCoords maya.envelope maya.weight)
        vertices.length 0 [] with
    | error e => rw [ho] at h; simp [bind_error_eq] at h
    | ok offsets =>
      rw [ho, bind_ok_eq] at h
      have hs := storePose_extends bs targetIndex pg
        { poseTarget := bs.m_target, index := targetIndex, blendShapeIndex := blendShapeIndex,
          name := poseName, offsets := offsets } hpg rfl
      unfold storePose at hs
      split at h
      · rename_i hc
        simp only [Except.ok.injEq] at h
        rw [← h]
        simpa [hc] using hs
      · simp only [Except.ok.injEq] at h
        rw [← h]
        exact GroupExtends.groups_refl _ _ _
  · rw [hf] at h; simp [bind_error_eq] at h

/-! ## Frame of the scene operations -/

theorem SameDeformer.scene_refl (m : Scene) : SameDeformer m m :=
  ⟨rfl, rfl, rfl, rfl, rfl, rfl, rfl, rfl⟩

theorem SameDeformer.scene_trans {a b c : Scene} (h1 : SameDeformer a b) (h2 : SameDeformer b c) :
    SameDeformer a c := by
  obtain ⟨a1, a2, a3, a4, a5, a6, a7, a8⟩ := h1
  obtain ⟨b1, b2, b3, b4, b5, b6, b7, b8⟩ := h2
  exact ⟨b1.trans a1, b2.trans a2, b3.trans a3, b4.trans a4, b5.trans a5, b6.trans a6,
    b7.trans a7, b8.trans a8⟩

theorem sameDeformer_setWeight (m : Scene) (i : Int) (w : ℚ) :
    SameDeformer m (m.setWeight i w).1 := by
  unfold Scene.setWeight
  split
  · exact ⟨rfl, rfl, rfl, rfl, rfl, rfl, rfl, rfl⟩
  · exact SameDeformer.scene_refl m

theorem sameDeformer_setEnvelope (m : Scene) (e : ℚ) : SameDeformer m (m.setEnvelope e) :=
  ⟨rfl, rfl, rfl, rfl, rfl, rfl, rfl, rfl⟩

theorem sameDeformer_disconnect (m : Scene) (a b : Plug) : SameDeformer m (m.disconnect a b) :=
  ⟨rfl, rfl, rfl, rfl, rfl, rfl, rfl, rfl⟩

theorem sameDeformer_connect (m : Scene) (a b : Plug) : SameDeformer m (m.connect a b) := by
  unfold Scene.connect
  split
  · exact SameDeformer.scene_refl m
  · exact ⟨rfl, rfl, rfl, rfl, rfl, rfl, rfl, rfl⟩

theorem sameDeformer_foldl {α : Type} (f : Scene → α → Scene)
    (hf : ∀ m a, SameDeformer m (f m a)) :
    ∀ (l : List α) (m : Scene), SameDeformer m (l.foldl f m) := by
  intro l
  induction l with
  | nil => intro m; exact SameDeformer.scene_refl m
  | cons a rest ih => intro m; exact (hf m a).scene_trans (ih (f m a))

theorem sameDeformer_zeroWeights :
    ∀ (l : List Int) (m : Scene), SameDeformer m (zeroWeights l m) := by
  intro l
  induction l with
  | nil => intro m; exact SameDeformer.scene_refl m
  | cons w rest ih =>
    intro m
    exact (sameDeformer_setWeight m w 0).scene_trans (ih _)

/-- Effect of `breakConnections` on the `BlendShape` and on the deformer. -/
theorem breakConnectionsLoop_frame :
    ∀ (plugs : List Plug) (bs : BlendShape) (maya : Scene),
      (breakConnectionsLoop plugs (bs, maya)).1.m_poseGroups = bs.m_poseGroups ∧
      (breakConnectionsLoop plugs (bs, maya)).1.m_target = bs.m_target ∧
      (breakConnectionsLoop plugs (bs, maya)).1.m_origWeights = bs.m_origWeights ∧
      (breakConnectionsLoop plugs (bs, maya)).1.m_weightConnections.length
        = bs.m_weightConnections.length + plugs.length ∧
      SameDeformer maya (breakConnectionsLoop plugs (bs, maya)).2 := by
  intro plugs
  induction plugs with
  | nil => intro bs maya; exact ⟨rfl, rfl, rfl, rfl, SameDeformer.scene_refl _⟩
  | cons p rest ih =>
    intro bs maya
    simp only [breakConnectionsLoop]
    obtain ⟨h1, h2, h3, h4, h5⟩ := ih
      { bs with m_weightConnections := bs.m_weightConnections ++
          [{ srcConnections := maya.destinationsOf p, dstConnections := maya.sourcesOf p }] }
      ((maya.sourcesOf p).foldl (fun s d => s.disconnect d p)
        ((maya.destinationsOf p).foldl (fun s d => s.disconnect p d) maya))
    refine ⟨h1, h2, h3, ?_, ?_⟩
    · rw [h4]; simp; omega
    · refine SameDeformer.scene_trans ?_ h5
      exact (sameDeformer_foldl _ (fun m a => sameDeformer_disconnect m p a) _ _).scene_trans
        (sameDeformer_foldl _ (fun m a => sameDeformer_disconnect m a p) _ _)

theorem breakConnections_frame (bs : BlendShape) (maya : Scene) :
    (bs.breakConnections maya).1.m_poseGroups = bs.m_poseGroups ∧
    (bs.breakConnections maya).1.m_target = bs.m_target ∧
    (bs.breakConnections maya).1.m_origWeights = bs.m_origWeights ∧
    (bs.breakConnections maya).1.m_weightConnections.length = maya.weightPlugs.length ∧
    SameDeformer maya (bs.breakConnections maya).2 := by
  obtain ⟨h1, h2, h3, h4, h5⟩ := breakConnectionsLoop_frame maya.weightPlugs
    { bs with m_weightConnections := [] } maya
  exact ⟨h1, h2, h3, by simpa [BlendShape.breakConnections] using h4, h5⟩

theorem restoreWeights_total (bs : BlendShape) :
    ∀ (l : List Int) (i : Nat) (maya : Scene), i + l.length ≤ bs.m_origWeights.length →
      ∃ maya', restoreWeights bs l i maya = .ok maya' ∧ SameDeformer maya maya' := by
  intro l
  induction l with
  | nil => intro i maya _; exact ⟨maya, rfl, SameDeformer.scene_refl _⟩
  | cons w rest ih =>
    intro i maya h
    simp only [List.length_cons] at h
    have hi : i < bs.m_origWeights.length := by omega
    have hget : vecGet bs.m_origWeights (i : Int) = .ok bs.m_origWeights[i] := by
      simp [vecGet, List.getElem?_eq_getElem hi]
    simp only [restoreWeights, hget, bind_ok_eq]
    obtain ⟨maya', hrun, hs⟩ := ih (i + 1) (maya.setWeight w bs.m_origWeights[i]).1 (by omega)
    exact ⟨maya', hrun, (sameDeformer_setWeight _ _ _).scene_trans hs⟩

theorem restoreConnectionsLoop_total (bs : BlendShape) :
    ∀ (plugs : List Plug) (i : Nat) (maya : Scene),
      i + plugs.length ≤ bs.m_weightConnections.length →
      ∃ maya', restoreConnectionsLoop bs plugs i maya = .ok maya' ∧ SameDeformer maya maya' := by
  intro plugs
  induction plugs with
  | nil => intro i maya _; exact ⟨maya, rfl, SameDeformer.scene_refl _⟩
  | cons p rest ih =>
    intro i maya h
    simp only [List.length_cons] at h
    have hi : i < bs.m_weightConnections.length := by omega
    have hget : vecGet bs.m_weightConnections (i : Int) = .ok bs.m_weightConnections[i] := by
      simp [vecGet, List.getElem?_eq_getElem hi]
    simp only [restoreConnectionsLoop, hget, bind_ok_eq]
    obtain ⟨maya', hrun, hs⟩ := ih (i + 1)
      ((bs.m_weightConnections[i]).dstConnections.foldl (fun s d => s.connect d p)
        ((bs.m_weightConnections[i]).srcConnections.foldl (fun s d => s.connect p d) maya))
      (by omega)
    refine ⟨maya', hrun, SameDeformer.scene_trans ?_ hs⟩
    exact (sameDeformer_foldl _ (fun m a => sameDeformer_connect m p a) _ _).scene_trans
      (sameDeformer_foldl _ (fun m a => sameDeformer_connect m a p) _ _)

/-! ## Capture loops and claim C10 -/

theorem posesSharedLoop_ok (PRECISION : ℚ) (params : ParamList) (vertices : List vertex)
    (numVertices offset : Int) (poseNames : List String) :
    ∀ (l : List Int) (i : Nat) (bs : BlendShape) (maya : Scene) (bs' : BlendShape)
      (maya' : Scene),
      posesSharedLoop PRECISION params vertices numVertices offset poseNames l i (bs, maya)
        = .ok (bs', maya') →
      GroupExtends 0 bs.m_target bs bs' := by
  intro l
  induction l with
  | nil =>
    intro i bs maya bs' maya' h
    simp only [posesSharedLoop, Except.ok.injEq, Prod.mk.injEq] at h
    rw [← h.1]
    exact GroupExtends.groups_refl _ _ _
  | cons w rest ih =>
    intro i bs maya bs' maya' h
    simp only [posesSharedLoop] at h
    cases hp : loadPoseShared PRECISION bs (maya.setWeight w 1).1 params vertices numVertices
        offset (poseNameShared maya poseNames i) (i : Int) with
    | error e => rw [hp] at h; simp [bind_error_eq] at h
    | ok bs1 =>
      rw [hp, bind_ok_eq] at h
      have h1 := loadPoseShared_ok hp
      have h2 := ih _ _ _ _ _ h
      rw [h1.1] at h2
      exact h1.groups_trans h2

theorem posesSubmeshLoop_ok (PRECISION : ℚ) (params : ParamList) (vertices : List vertex)
    (indices : List Int) (targetIndex : Int) (poseNames : List String) :
    ∀ (l : List Int) (i : Nat) (bs : BlendShape) (maya : Scene) (bs' : BlendShape)
      (maya' : Scene),
      posesSubmeshLoop PRECISION params vertices indices targetIndex poseNames l i (bs, maya)
        = .ok (bs', maya') →
      GroupExtends targetIndex bs.m_target bs bs' := by
  intro l
  induction l with
  | nil =>
    intro i bs maya bs' maya' h
    simp only [posesSubmeshLoop, Except.ok.injEq, Prod.mk.injEq] at h
    rw [← h.1]
    exact GroupExtends.groups_refl _ _ _
  | cons w rest ih =>
    intro i bs maya bs' maya' h
    simp only [posesSubmeshLoop] at h
    cases hp : loadPoseSubmesh PRECISION bs (maya.setWeight w 1).1 params vertices indices
        (poseNameSubmesh maya poseNames targetIndex i) targetIndex (i : Int) with
    | error e => rw [hp] at h; simp [bind_error_eq] at h
    | ok bs1 =>
      rw [hp, bind_ok_eq] at h
      have h1 := loadPoseSubmesh_ok hp
      have h2 := ih _ _ _ _ _ h
      rw [h1.1] at h2
      exact h1.groups_trans h2

theorem storePose_group (bs : BlendShape) (k : Int) (pg : poseGroup) (p : pose)
    (hpg : bs.m_poseGroups k = some pg) :
    ∃ pg', (storePose bs k pg p).m_poseGroups k = some pg' := by
  unfold storePose
  split
  · exact ⟨{ pg with poses := pg.poses ++ [p] }, by simp [BlendShape.setGroup]⟩
  · exact ⟨pg, hpg⟩

theorem posesSharedLoop_total (PRECISION : ℚ) (params : ParamList) (vertices : List vertex)
    (numVertices offset : Int) (poseNames : List String) (hoff : 0 ≤ offset)
    (hlen : offset.toNat + numVertices.toNat ≤ vertices.length)
    (getPoints : Bool → ℚ → (Int → ℚ) → List MFloatPoint)
    (hpts : ∀ world e w,
      pointsInRange (getPoints world e w) ((vertices.drop offset.toNat).take numVertices.toNat)) :
    ∀ (l : List Int) (i : Nat) (bs : BlendShape) (maya : Scene),
      (∃ pg, bs.m_poseGroups 0 = some pg) → maya.getPoints = getPoints →
      ∃ bs' maya',
        posesSharedLoop PRECISION params vertices numVertices offset poseNames l i (bs, maya)
          = .ok (bs', maya') ∧ SameDeformer maya maya' := by
  intro l
  induction l with
  | nil => intro i bs maya _ _; exact ⟨bs, maya, rfl, SameDeformer.scene_refl _⟩
  | cons w rest ih =>
    intro i bs maya hg hgp
    obtain ⟨pg, hpg⟩ := hg
    have hs1 := sameDeformer_setWeight maya w 1
    have hin : pointsInRange
        ((maya.setWeight w 1).1.getPoints params.exportWorldCoords
          (maya.setWeight w 1).1.envelope (maya.setWeight w 1).1.weight)
        ((vertices.drop offset.toNat).take numVertices.toNat) := by
      rw [hs1.2.2.2.1, hgp]; exact hpts _ _ _
    have hp := loadPoseShared_eq PRECISION bs (maya.setWeight w 1).1 params vertices
      numVertices offset (poseNameShared maya poseNames i) (i : Int) pg hpg hoff hlen hin
    simp only [posesSharedLoop, hp, bind_ok_eq]
    have hs2 := sameDeformer_setWeight (maya.setWeight w 1).1 w 0
    obtain ⟨bs', maya', hrun, hs⟩ := ih (i + 1) _ (((maya.setWeight w 1).1.setWeight w 0).1)
      (storePose_group bs 0 pg _ hpg) (by rw [hs2.2.2.2.1, hs1.2.2.2.1, hgp])
    exact ⟨bs', maya', hrun, (hs1.scene_trans hs2).scene_trans hs⟩

theorem posesSubmeshLoop_total (PRECISION : ℚ) (params : ParamList) (vertices : List vertex)
    (indices : List Int) (targetIndex : Int) (poseNames : List String)
    (hind : vertices.length ≤ indices.length)
    (getPoints : Bool → ℚ → (Int → ℚ) → List MFloatPoint)
    (hpts : ∀ world e w, pointsInRange (getPoints world e w) vertices) :
    ∀ (l : List Int) (i : Nat) (bs : BlendShape) (maya : Scene),
      (∃ pg, bs.m_poseGroups targetIndex = some pg) → maya.getPoints = getPoints →
      ∃ bs' maya',
        posesSubmeshLoop PRECISION params vertices indices targetIndex poseNames l i (bs, maya)
          = .ok (bs', maya') ∧ SameDeformer maya maya' := by
  intro l
  induction l with
  | nil => intro i bs maya _ _; exact ⟨bs, maya, rfl, SameDeformer.scene_refl _⟩
  | cons w rest ih =>
    intro i bs maya hg hgp
    obtain ⟨pg, hpg⟩ := hg
    have hs1 := sameDeformer_setWeight maya w 1
    have hin : pointsInRange
        ((maya.setWeight w 1).1.getPoints params.exportWorldCoords
          (maya.setWeight w 1).1.envelope (maya.setWeight w 1).1.weight) vertices := by
      rw [hs1.2.2.2.1, hgp]; exact hpts _ _ _
    have hp := loadPoseSubmesh_eq PRECISION bs (maya.setWeight w 1).1 params vertices indices
      (poseNameSubmesh maya poseNames targetIndex i) targetIndex (i : Int) pg hpg hind hin
    simp only [posesSubmeshLoop, hp, bind_ok_eq]
    have hs2 := sameDeformer_setWeight (maya.setWeight w 1).1 w 0
    obtain ⟨bs', maya', hrun, hs⟩ := ih (i + 1) _ (((maya.setWeight w 1).1.setWeight w 0).1)
      (storePose_group bs targetIndex pg _ hpg) (by rw [hs2.2.2.2.1, hs1.2.2.2.1, hgp])
    exact ⟨bs', maya', hrun, (hs1.scene_trans hs2).scene_trans hs⟩

theorem loadPosesShared_ok {PRECISION : ℚ} {bs : BlendShape} {maya : Scene} {params : ParamList}
    {vertices : List vertex} {numVertices offset : Int} {bs' : BlendShape} {maya' : Scene}
    (h : loadPosesShared PRECISION bs maya params vertices numVertices offset = .ok (bs', maya')) :
    (∀ k, k ≠ 0 → bs'.m_poseGroups k = bs.m_poseGroups k) ∧
    (bs.m_poseGroups 0 = none → bs'.m_poseGroups 0 = none) ∧
    ∀ pg, bs.m_poseGroups 0 = some pg →
      ∃ added, bs'.m_poseGroups 0 = some { pg with poses := pg.poses ++ added } ∧
        ∀ p ∈ added, p.poseTarget = .T_MESH ∧ p.index = 0 := by
  unfold loadPosesShared at h
  dsimp only at h
  obtain ⟨hb1, hb2, _, _, _⟩ := breakConnections_frame
    ({ bs with m_target := .T_MESH } : BlendShape) (maya.setEnvelope 1)
  generalize hbr : BlendShape.breakConnections
    ({ bs with m_target := .T_MESH } : BlendShape) (maya.setEnvelope 1) = br at h hb1 hb2
  obtain ⟨bs2, maya2⟩ := br
  dsimp only at h hb1 hb2
  cases hl : posesSharedLoop PRECISION params vertices numVertices offset
      (zeroWeights maya2.weightIndexList maya2).aliasAttr maya2.weightIndexList 0
      (bs2, zeroWeights maya2.weightIndexList maya2) with
  | error e => rw [hl] at h; simp [bind_error_eq] at h
  | ok r =>
    obtain ⟨bs3, maya4⟩ := r
    rw [hl, bind_ok_eq] at h
    dsimp only at h
    cases hw : restoreWeights bs3 maya2.weightIndexList 0 (maya4.setEnvelope 0) with
    | error e => rw [hw] at h; simp [bind_error_eq] at h
    | ok maya6 =>
      rw [hw, bind_ok_eq] at h
      cases hc : bs3.restoreConnections maya6 with
      | error e => rw [hc] at h; simp [bind_error_eq] at h
      | ok maya7 =>
        rw [hc, bind_ok_eq] at h
        simp only [Except.ok.injEq, Prod.mk.injEq] at h
        obtain ⟨rfl, _⟩ := h
        obtain ⟨_, _, _, _, e5, e6, e7⟩ := posesSharedLoop_ok _ _ _ _ _ _ _ _ _ _ _ _ hl
        rw [hb2] at e7
        rw [hb1] at e5 e6 e7
        exact ⟨e5, e6, e7⟩

theorem insertGroup_spec (bs : BlendShape) (k : Int) (pg0 : poseGroup) :
    (bs.insertGroup k pg0).m_target = bs.m_target ∧
    (∀ j, j ≠ k → (bs.insertGroup k pg0).m_poseGroups j = bs.m_poseGroups j) ∧
    (bs.m_poseGroups k = none → (bs.insertGroup k pg0).m_poseGroups k = some pg0) ∧
    (∀ pg, bs.m_poseGroups k = some pg → (bs.insertGroup k pg0).m_poseGroups k = some pg) ∧
    (bs.insertGroup k pg0).m_origWeights = bs.m_origWeights ∧
    (bs.insertGroup k pg0).m_weightConnections = bs.m_weightConnections := by
  unfold BlendShape.insertGroup
  cases hk : bs.m_poseGroups k with
  | none =>
    refine ⟨rfl, ?_, ?_, ?_, rfl, rfl⟩
    · intro j hj; simp [hj]
    · intro _; simp
    · intro pg h; cases h
  | some pg1 =>
    refine ⟨rfl, fun _ _ => rfl, ?_, ?_, rfl, rfl⟩
    · intro h; cases h
    · intro pg h; simp only [Option.some.injEq] at h; subst h; exact hk

theorem loadPosesSubmesh_ok {PRECISION : ℚ} {bs : BlendShape} {maya : Scene}
    {params : ParamList} {vertices : List vertex} {indices : List Int} {targetIndex : Int}
    {bs' : BlendShape} {maya' : Scene}
    (h : loadPosesSubmesh PRECISION bs maya params vertices indices targetIndex
      = .ok (bs', maya')) :
    (∀ k, k ≠ targetIndex → bs'.m_poseGroups k = bs.m_poseGroups k) ∧
    ∃ pg' added, bs'.m_poseGroups targetIndex = some pg' ∧
      pg'.poses = posesOf bs targetIndex ++ added ∧
      (bs.m_poseGroups targetIndex = none → pg'.targetIndex = targetIndex) ∧
      (∀ pg, bs.m_poseGroups targetIndex = some pg → pg'.targetIndex = pg.targetIndex) ∧
      ∀ p ∈ added, p.poseTarget = .T_SUBMESH ∧ p.index = targetIndex := by
  unfold loadPosesSubmesh at h
  dsimp only at h
  obtain ⟨hb1, hb2, _, _, _⟩ := breakConnections_frame
    ({ bs with m_target := .T_SUBMESH } : BlendShape) (maya.setEnvelope 1)
  generalize hbr : BlendShape.breakConnections
    ({ bs with m_target := .T_SUBMESH } : BlendShape) (maya.setEnvelope 1) = br at h hb1 hb2
  obtain ⟨bs2, maya2⟩ := br
  dsimp only at h hb1 hb2
  cases hl : posesSubmeshLoop PRECISION params vertices indices targetIndex
      (zeroWeights maya2.weightIndexList maya2).aliasAttr maya2.weightIndexList 0
      (bs2.insertGroup targetIndex { targetIndex := targetIndex, poses := [] },
        zeroWeights maya2.weightIndexList maya2) with
  | error e => rw [hl] at h; simp [bind_error_eq] at h
  | ok r =>
    obtain ⟨bs4, maya4⟩ := r
    rw [hl, bind_ok_eq] at h
    dsimp only at h
    cases hw : restoreWeights bs4 maya2.weightIndexList 0 (maya4.setEnvelope 0) with
    | error e => rw [hw] at h; simp [bind_error_eq] at h
    | ok maya6 =>
      rw [hw, bind_ok_eq] at h
      cases hc : bs4.restoreConnections maya6 with
      | error e => rw [hc] at h; simp [bind_error_eq] at h
      | ok maya7 =>
        rw [hc, bind_ok_eq] at h
        simp only [Except.ok.injEq, Prod.mk.injEq] at h
        obtain ⟨rfl, _⟩ := h
        obtain ⟨_, _, _, _, e5, _, e7⟩ := posesSubmeshLoop_ok _ _ _ _ _ _ _ _ _ _ _ _ hl
        obtain ⟨i1, i2, i3, i4, _, _⟩ := insertGroup_spec bs2 targetIndex
          { targetIndex := targetIndex, poses := [] }
        rw [i1, hb2] at e7
        refine ⟨fun k hk => by rw [e5 k hk, i2 k hk, hb1], ?_⟩
        cases hk : bs.m_poseGroups targetIndex with
        | none =>
          have hins := i3 (by rw [hb1]; exact hk)
          obtain ⟨added, hres, hp⟩ := e7 _ hins
          refine ⟨_, added, hres, by simp [posesOf, hk], fun _ => rfl, ?_, hp⟩
          intro pg hpg; cases hpg
        | some pg =>
          have hins := i4 pg (by rw [hb1]; exact hk)
          obtain ⟨added, hres, hp⟩ := e7 _ hins
          refine ⟨_, added, hres, by simp [posesOf, hk], ?_, ?_, hp⟩
          · intro hc'; cases hc'
          · intro pg2 hpg2
            simp only [Option.some.injEq] at hpg2
            subst hpg2
            rfl

theorem restoreConnections_total (bs : BlendShape) (maya : Scene)
    (h : maya.weightPlugs.length ≤ bs.m_weightConnections.length) :
    ∃ maya', bs.restoreConnections maya = .ok maya' := by
  obtain ⟨maya', hrun, _⟩ := restoreConnectionsLoop_total bs maya.weightPlugs 0 maya (by omega)
  exact ⟨maya', hrun⟩

theorem loadPosesShared_total (PRECISION : ℚ) (bs : BlendShape) (maya : Scene)
    (params : ParamList) (vertices : List vertex) (numVertices offset : Int)
    (hpg : ∃ pg, bs.m_poseGroups 0 = some pg) (hoff : 0 ≤ offset)
    (hlen : offset.toNat + numVertices.toNat ≤ vertices.length)
    (hpts : ∀ world e w, pointsInRange (maya.getPoints world e w)
      ((vertices.drop offset.toNat).take numVertices.toNat))
    (horig : maya.weightIndexList.length ≤ bs.m_origWeights.length) :
    ∃ r, loadPosesShared PRECISION bs maya params vertices numVertices offset = .ok r := by
  unfold loadPosesShared
  dsimp only
  obtain ⟨hb1, _, hb3, hb4, hb5⟩ := breakConnections_frame
    ({ bs with m_target := .T_MESH } : BlendShape) (maya.setEnvelope 1)
  generalize BlendShape.breakConnections
    ({ bs with m_target := .T_MESH } : BlendShape) (maya.setEnvelope 1) = br at hb1 hb3 hb4 hb5 ⊢
  obtain ⟨bs2, maya2⟩ := br
  dsimp only at hb1 hb3 hb4 hb5 ⊢
  have hz := sameDeformer_zeroWeights maya2.weightIndexList maya2
  have h03 : SameDeformer maya (zeroWeights maya2.weightIndexList maya2) :=
    ((sameDeformer_setEnvelope maya 1).scene_trans hb5).scene_trans hz
  obtain ⟨bs3, maya4, hl, hs4⟩ := posesSharedLoop_total PRECISION params vertices numVertices
    offset (zeroWeights maya2.weightIndexList maya2).aliasAttr hoff hlen maya.getPoints hpts
    maya2.weightIndexList 0 bs2 (zeroWeights maya2.weightIndexList maya2)
    (by rw [hb1]; exact hpg) h03.2.2.2.1
  obtain ⟨_, _, e3, e4, _, _, _⟩ := posesSharedLoop_ok _ _ _ _ _ _ _ _ _ _ _ _ hl
  rw [hl, bind_ok_eq]
  dsimp only
  have h02 : SameDeformer maya maya2 := (sameDeformer_setEnvelope maya 1).scene_trans hb5
  obtain ⟨maya6, hw, hs6⟩ := restoreWeights_total bs3 maya2.weightIndexList 0
    (maya4.setEnvelope 0) (by rw [e3, hb3, h02.1]; simpa using horig)
  rw [hw, bind_ok_eq]
  have h06 : SameDeformer maya maya6 :=
    ((h03.scene_trans hs4).scene_trans (sameDeformer_setEnvelope maya4 0)).scene_trans hs6
  obtain ⟨maya7, hc⟩ := restoreConnections_total bs3 maya6
    (by rw [e4, hb4, h06.2.2.2.2.2.2.1]; exact le_of_eq rfl)
  rw [hc, bind_ok_eq]
  exact ⟨_, rfl⟩

theorem loadPosesSubmesh_total (PRECISION : ℚ) (bs : BlendShape) (maya : Scene)
    (params : ParamList) (vertices : List vertex) (indices : List Int) (targetIndex : Int)
    (hind : vertices.length ≤ indices.length)
    (hpts : ∀ world e w, pointsInRange (maya.getPoints world e w) vertices)
    (horig : maya.weightIndexList.length ≤ bs.m_origWeights.length) :
    ∃ r, loadPosesSubmesh PRECISION bs maya params vertices indices targetIndex = .ok r := by
  unfold loadPosesSubmesh
  dsimp only
  obtain ⟨hb1, _, hb3, hb4, hb5⟩ := breakConnections_frame
    ({ bs with m_target := .T_SUBMESH } : BlendShape) (maya.setEnvelope 1)
  generalize BlendShape.breakConnections
    ({ bs with m_target := .T_SUBMESH } : BlendShape) (maya.setEnvelope 1) = br at hb1 hb3 hb4 hb5 ⊢
  obtain ⟨bs2, maya2⟩ := br
  dsimp only at hb1 hb3 hb4 hb5 ⊢
  have hz := sameDeformer_zeroWeights maya2.weightIndexList maya2
  have h03 : SameDeformer maya (zeroWeights maya2.weightIndexList maya2) :=
    ((sameDeformer_setEnvelope maya 1).scene_trans hb5).scene_trans hz
  obtain ⟨_, _, i3, i4, i5, i6⟩ := insertGroup_spec bs2 targetIndex
    { targetIndex := targetIndex, poses := [] }
  have hgroup : ∃ pg, (bs2.insertGroup targetIndex
      { targetIndex := targetIndex, poses := [] }).m_poseGroups targetIndex = some pg := by
    cases hk : bs2.m_poseGroups targetIndex with
    | none => exact ⟨_, i3 hk⟩
    | some pg => exact ⟨pg, i4 pg hk⟩
  obtain ⟨bs4, maya4, hl, hs4⟩ := posesSubmeshLoop_total PRECISION params vertices indices
    targetIndex (zeroWeights maya2.weightIndexList maya2).aliasAttr hind maya.getPoints hpts
    maya2.weightIndexList 0 _ (zeroWeights maya2.weightIndexList maya2) hgroup h03.2.2.2.1
  obtain ⟨_, _, e3, e4, _, _, _⟩ := posesSubmeshLoop_ok _ _ _ _ _ _ _ _ _ _ _ _ hl
  rw [hl, bind_ok_eq]
  dsimp only
  have h02 : SameDeformer maya maya2 := (sameDeformer_setEnvelope maya 1).scene_trans hb5
  obtain ⟨maya6, hw, hs6⟩ := restoreWeights_total bs4 maya2.weightIndexList 0
    (maya4.setEnvelope 0) (by rw [e3, i5, hb3, h02.1]; simpa using horig)
  rw [hw, bind_ok_eq]
  have h06 : SameDeformer maya maya6 :=
    ((h03.scene_trans hs4).scene_trans (sameDeformer_setEnvelope maya4 0)).scene_trans hs6
  obtain ⟨maya7, hc⟩ := restoreConnections_total bs4 maya6
    (by rw [e4, i6, hb4, h06.2.2.2.2.2.2.1]; exact le_of_eq rfl)
  rw [hc, bind_ok_eq]
  exact ⟨_, rfl⟩

/-- C10: `loadPosesSubmesh` called with the target index `t` changes the pose groups only
at the key `t`: after it the group keyed `t` exists (created with `targetIndex = t` when
it was absent, kept with its `targetIndex` when present), its poses are the poses it held
before followed by the appended ones, and every appended pose has `poseTarget = T_SUBMESH`
and `index = t`. `loadPosesShared` changes the pose groups only at the key 0, where it
appends poses with `poseTarget = T_MESH` and `index = 0` after the poses held before. In
both cases every other group is unchanged. Both calls do return when the vertices read
points of the mesh (and, for the shared geometry, the block lies inside the vertex list and
group 0 exists, as it does since `clear()`) and `load` has saved one weight per channel. -/
theorem loadPoses_append_only (PRECISION : ℚ) (bs : BlendShape) (maya : Scene)
    (params : ParamList) (vertices : List vertex) :
    (∀ (indices : List Int) (t : Int) (bs' : BlendShape) (maya' : Scene),
      loadPosesSubmesh PRECISION bs maya params vertices indices t = .ok (bs', maya') →
        (∀ k, k ≠ t → bs'.m_poseGroups k = bs.m_poseGroups k) ∧
        ∃ pg' added, bs'.m_poseGroups t = some pg' ∧
          pg'.poses = posesOf bs t ++ added ∧
          (bs.m_poseGroups t = none → pg'.targetIndex = t) ∧
          (∀ pg, bs.m_poseGroups t = some pg → pg'.targetIndex = pg.targetIndex) ∧
          ∀ p ∈ added, p.poseTarget = .T_SUBMESH ∧ p.index = t) ∧
    (∀ (numVertices offset : Int) (bs' : BlendShape) (maya' : Scene),
      loadPosesShared PRECISION bs maya params vertices numVertices offset = .ok (bs', maya') →
        (∀ k, k ≠ 0 → bs'.m_poseGroups k = bs.m_poseGroups k) ∧
        (bs.m_poseGroups 0 = none → bs'.m_poseGroups 0 = none) ∧
        ∀ pg, bs.m_poseGroups 0 = some pg →
          ∃ added, bs'.m_poseGroups 0 = some { pg with poses := pg.poses ++ added } ∧
            ∀ p ∈ added, p.poseTarget = .T_MESH ∧ p.index = 0) ∧
    (∀ (indices : List Int) (t : Int), vertices.length ≤ indices.length →
      (∀ world e w, pointsInRange (maya.getPoints world e w) vertices) →
      maya.weightIndexList.length ≤ bs.m_origWeights.length →
      ∃ r, loadPosesSubmesh PRECISION bs maya params vertices indices t = .ok r) ∧
    (∀ (numVertices offset : Int), (∃ pg, bs.m_poseGroups 0 = some pg) → 0 ≤ offset →
      offset.toNat + numVertices.toNat ≤ vertices.length →
      (∀ world e w, pointsInRange (maya.getPoints world e w)
        ((vertices.drop offset.toNat).take numVertices.toNat)) →
      maya.weightIndexList.length ≤ bs.m_origWeights.length →
      ∃ r, loadPosesShared PRECISION bs maya params vertices numVertices offset = .ok r) := by
  refine ⟨?_, ?_, ?_, ?_⟩
  · intro indices t bs' maya' h
    exact loadPosesSubmesh_ok h
  · intro numVertices offset bs' maya' h
    exact loadPosesShared_ok h
  · intro indices t hind hpts horig
    exact loadPosesSubmesh_total PRECISION bs maya params vertices indices t hind hpts horig
  · intro numVertices offset hpg hoff hlen hpts horig
    exact loadPosesShared_total PRECISION bs maya params vertices numVertices offset hpg hoff
      hlen hpts horig

theorem twoTargets_pointsInRange :
    ∀ (world : Bool) (e : ℚ) (w : Int → ℚ),
      pointsInRange (Scene.twoTargets.getPoints world e w) demoVertices := by
  intro world e w
  show pointsInRange (if w 0 = 1 then demoDeformed else demoNeutral) demoVertices
  split
  · exact demo_pointsInRange_deformed
  · exact demo_pointsInRange_neutral

/-- Witness of C10: a deformer with two channels captured for the submesh of target index
3, from a freshly loaded `BlendShape`: the call returns, group 3 is created and the other
groups (group 0 among them) are what they were. -/
theorem loadPoses_append_only_witness :
    ∃ bs' maya',
      loadPosesSubmesh (1 / 10000) (BlendShape.new.load Scene.twoTargets) Scene.twoTargets {}
          demoVertices demoIndices 3 = .ok (bs', maya') ∧
      (∀ k, k ≠ 3 → bs'.m_poseGroups k = (BlendShape.new.load Scene.twoTargets).m_poseGroups k) ∧
      ∃ pg' added, bs'.m_poseGroups 3 = some pg' ∧
        pg'.poses = posesOf (BlendShape.new.load Scene.twoTargets) 3 ++ added ∧
        ((BlendShape.new.load Scene.twoTargets).m_poseGroups 3 = none → pg'.targetIndex = 3) ∧
        (∀ pg, (BlendShape.new.load Scene.twoTargets).m_poseGroups 3 = some pg →
          pg'.targetIndex = pg.targetIndex) ∧
        ∀ p ∈ added, p.poseTarget = .T_SUBMESH ∧ p.index = 3 := by
  obtain ⟨⟨bs', maya'⟩, hr⟩ :=
    (loadPoses_append_only (1 / 10000) (BlendShape.new.load Scene.twoTargets) Scene.twoTargets
      {} demoVertices).2.2.1 demoIndices 3 (by simp [demoVertices, demoIndices])
      twoTargets_pointsInRange
      (by simp [BlendShape.load, Scene.twoTargets, Scene.still])
  exact ⟨bs', maya', hr,
    (loadPoses_append_only (1 / 10000) (BlendShape.new.load Scene.twoTargets) Scene.twoTargets
      {} demoVertices).1 demoIndices 3 bs' maya' hr⟩

/-! ## Connections of the weight plugs (C14) -/

theorem mem_disconnect (m : Scene) (a b : Plug) (c : Plug × Plug) :
    c ∈ (m.disconnect a b).connections ↔ c ∈ m.connections ∧ ¬(c.1 = a ∧ c.2 = b) := by
  simp only [Scene.disconnect, List.mem_filter, Bool.not_eq_true', Bool.and_eq_false_imp,
    beq_iff_eq, beq_eq_false_iff_ne, ne_eq, not_and]

theorem mem_connect (m : Scene) (a b : Plug) (c : Plug × Plug) :
    c ∈ (m.connect a b).connections ↔ c ∈ m.connections ∨ (c.1 = a ∧ c.2 = b) := by
  unfold Scene.connect
  split
  · rename_i h
    constructor
    · intro hc; exact Or.inl hc
    · rintro (hc | ⟨h1, h2⟩)
      · exact hc
      · have : c = (a, b) := Prod.ext h1 h2
        rw [this]; exact h
  · simp only [List.mem_append, List.mem_singleton]
    constructor
    · rintro (hc | hc)
      · exact Or.inl hc
      · right; rw [hc]; exact ⟨rfl, rfl⟩
    · rintro (hc | ⟨h1, h2⟩)
      · exact Or.inl hc
      · exact Or.inr (Prod.ext h1 h2)

theorem mem_destinationsOf (m : Scene) (p d : Plug) :
    d ∈ m.destinationsOf p ↔ (p, d) ∈ m.connections := by
  simp only [Scene.destinationsOf, List.mem_map, List.mem_filter, beq_iff_eq]
  constructor
  · rintro ⟨⟨a, b⟩, ⟨hc, h1⟩, h2⟩
    simp only at h1 h2
    subst h1; subst h2; exact hc
  · intro h; exact ⟨(p, d), ⟨h, rfl⟩, rfl⟩

theorem mem_sourcesOf (m : Scene) (p s : Plug) :
    s ∈ m.sourcesOf p ↔ (s, p) ∈ m.connections := by
  simp only [Scene.sourcesOf, List.mem_map, List.mem_filter, beq_iff_eq]
  constructor
  · rintro ⟨⟨a, b⟩, ⟨hc, h1⟩, h2⟩
    simp only at h1 h2
    subst h1; subst h2; exact hc
  · intro h; exact ⟨(s, p), ⟨h, rfl⟩, rfl⟩

theorem mem_foldl_disconnect_src (p : Plug) (c : Plug × Plug) :
    ∀ (ds : List Plug) (m : Scene),
      c ∈ (ds.foldl (fun s d => s.disconnect p d) m).connections ↔
        c ∈ m.connections ∧ ¬(c.1 = p ∧ c.2 ∈ ds) := by
  intro ds
  induction ds with
  | nil => intro m; simp
  | cons d rest ih =>
    intro m
    simp only [List.foldl_cons, ih, mem_disconnect, List.mem_cons]
    tauto

theorem mem_foldl_disconnect_dst (p : Plug) (c : Plug × Plug) :
    ∀ (ss : List Plug) (m : Scene),
      c ∈ (ss.foldl (fun s d => s.disconnect d p) m).connections ↔
        c ∈ m.connections ∧ ¬(c.2 = p ∧ c.1 ∈ ss) := by
  intro ss
  induction ss with
  | nil => intro m; simp
  | cons d rest ih =>
    intro m
    simp only [List.foldl_cons, ih, mem_disconnect, List.mem_cons]
    tauto

theorem mem_foldl_connect_src (p : Plug) (c : Plug × Plug) :
    ∀ (ds : List Plug) (m : Scene),
      c ∈ (ds.foldl (fun s d => s.connect p d) m).connections ↔
        c ∈ m.connections ∨ (c.1 = p ∧ c.2 ∈ ds) := by
  intro ds
  induction ds with
  | nil => intro m; simp
  | cons d rest ih =>
    intro m
    simp only [List.foldl_cons, ih, mem_connect, List.mem_cons]
    tauto

theorem mem_foldl_connect_dst (p : Plug) (c : Plug × Plug) :
    ∀ (ss : List Plug) (m : Scene),
      c ∈ (ss.foldl (fun s d => s.connect d p) m).connections ↔
        c ∈ m.connections ∨ (c.2 = p ∧ c.1 ∈ ss) := by
  intro ss
  induction ss with
  | nil => intro m; simp
  | cons d rest ih =>
    intro m
    simp only [List.foldl_cons, ih, mem_connect, List.mem_cons]
    tauto

/-- Connections left by one iteration of `breakConnections` on the plug `p`. -/
theorem mem_break_step (m : Scene) (p : Plug) (c : Plug × Plug) :
    c ∈ ((m.sourcesOf p).foldl (fun s d => s.disconnect d p)
        ((m.destinationsOf p).foldl (fun s d => s.disconnect p d) m)).connections ↔
      c ∈ m.connections ∧ c.1 ≠ p ∧ c.2 ≠ p := by
  rw [mem_foldl_disconnect_dst, mem_foldl_disconnect_src, mem_destinationsOf, mem_sourcesOf]
  obtain ⟨a, b⟩ := c
  simp only
  constructor
  · rintro ⟨⟨hc, h1⟩, h2⟩
    refine ⟨hc, ?_, ?_⟩
    · intro ha; subst ha; exact h1 ⟨rfl, hc⟩
    · intro hb; subst hb; exact h2 ⟨rfl, hc⟩
  · rintro ⟨hc, h1, h2⟩
    exact ⟨⟨hc, fun h => h1 h.1⟩, fun h => h2 h.1⟩

/-- Connections made by one iteration of `restoreConnections` on the plug `p`, from the
record that `breakConnections` took on the scene `m`. -/
theorem mem_restore_step (m t : Scene) (p : Plug) (c : Plug × Plug) :
    c ∈ ((m.sourcesOf p).foldl (fun s d => s.connect d p)
        ((m.destinationsOf p).foldl (fun s d => s.connect p d) t)).connections ↔
      c ∈ t.connections ∨ (c ∈ m.connections ∧ (c.1 = p ∨ c.2 = p)) := by
  rw [mem_foldl_connect_dst, mem_foldl_connect_src, mem_destinationsOf, mem_sourcesOf]
  obtain ⟨a, b⟩ := c
  simp only
  constructor
  · rintro ((hc | ⟨h1, h2⟩) | ⟨h1, h2⟩)
    · exact Or.inl hc
    · subst h1; exact Or.inr ⟨h2, Or.inl rfl⟩
    · subst h1; exact Or.inr ⟨h2, Or.inr rfl⟩
  · rintro (hc | ⟨hc, h1 | h1⟩)
    · exact Or.inl (Or.inl hc)
    · subst h1; exact Or.inl (Or.inr ⟨rfl, hc⟩)
    · subst h1; exact Or.inr ⟨rfl, hc⟩

/-- Breaking the connections of the plugs `plugs` and restoring them: `breakConnectionsLoop`
keeps the records it finds and appends one per plug, leaves the connections that touch no
plug of `plugs`, and `restoreConnectionsLoop`, run from the first new record on any scene
`t`, returns with the connections of `t` plus the connections that were broken. -/
theorem break_restore_loop :
    ∀ (plugs : List Plug) (bs : BlendShape) (maya : Scene),
      (∃ recs, (breakConnectionsLoop plugs (bs, maya)).1.m_weightConnections
          = bs.m_weightConnections ++ recs) ∧
      (∀ c, c ∈ (breakConnectionsLoop plugs (bs, maya)).2.connections ↔
          c ∈ maya.connections ∧ c.1 ∉ plugs ∧ c.2 ∉ plugs) ∧
      ∀ (final : BlendShape) (t : Scene),
        (∃ more, final.m_weightConnections
          = (breakConnectionsLoop plugs (bs, maya)).1.m_weightConnections ++ more) →
        ∃ t', restoreConnectionsLoop final plugs bs.m_weightConnections.length t = .ok t' ∧
          ∀ c, c ∈ t'.connections ↔
            c ∈ t.connections ∨ (c ∈ maya.connections ∧ (c.1 ∈ plugs ∨ c.2 ∈ plugs)) := by
  intro plugs
  induction plugs with
  | nil =>
    intro bs maya
    refine ⟨⟨[], by simp [breakConnectionsLoop]⟩, ?_, ?_⟩
    · intro c; simp [breakConnectionsLoop]
    · intro final t _
      exact ⟨t, rfl, by intro c; simp⟩
  | cons p rest ih =>
    intro bs maya
    simp only [breakConnectionsLoop]
    obtain ⟨⟨recs, hrecs⟩, hmem, hres⟩ := ih
      { bs with m_weightConnections := bs.m_weightConnections ++
          [{ srcConnections := maya.destinationsOf p, dstConnections := maya.sourcesOf p }] }
      ((maya.sourcesOf p).foldl (fun s d => s.disconnect d p)
        ((maya.destinationsOf p).foldl (fun s d => s.disconnect p d) maya))
    refine ⟨⟨{ srcConnections := maya.destinationsOf p,
                dstConnections := maya.sourcesOf p } :: recs, by rw [hrecs]; simp⟩, ?_, ?_⟩
    · intro c
      rw [hmem, mem_break_step]
      simp only [List.mem_cons, not_or]
      tauto
    · intro final t hfin
      obtain ⟨more, hmore⟩ := hfin
      have hget : vecGet final.m_weightConnections (bs.m_weightConnections.length : Int)
          = .ok { srcConnections := maya.destinationsOf p,
                  dstConnections := maya.sourcesOf p } := by
        apply vecGet_of_getElem?
        rw [hmore, hrecs]
        simp only [List.append_assoc]
        rw [List.getElem?_append_right (le_refl _)]
        simp
      simp only [restoreConnectionsLoop, hget, bind_ok_eq]
      obtain ⟨t', hrun, ht'⟩ := hres final
        ((maya.sourcesOf p).foldl (fun s d => s.connect d p)
          ((maya.destinationsOf p).foldl (fun s d => s.connect p d) t)) ⟨more, hmore⟩
      simp only [List.length_append, List.length_singleton] at hrun
      refine ⟨t', hrun, ?_⟩
      intro c
      rw [ht' c, mem_restore_step, mem_break_step]
      simp only [List.mem_cons]
      by_cases h1 : c.1 = p <;> by_cases h2 : c.2 = p <;> simp [h1, h2]

/-- C14: for every connection graph, `breakConnections` leaves no connection into or out of
a weight plug (the queries `connectedTo` of every weight plug come back empty), and
`restoreConnections` run after it returns with exactly the connections the scene had
before the break (as a set of source-destination pairs). -/
theorem breakConnections_restoreConnections_same_graph (bs : BlendShape) (maya : Scene) :
    (∀ p ∈ maya.weightPlugs,
      (bs.breakConnections maya).2.destinationsOf p = [] ∧
      (bs.breakConnections maya).2.sourcesOf p = []) ∧
    ∃ maya',
      (bs.breakConnections maya).1.restoreConnections (bs.breakConnections maya).2
        = .ok maya' ∧
      ∀ c, c ∈ maya'.connections ↔ c ∈ maya.connections := by
  obtain ⟨_, hmem, hres⟩ := break_restore_loop maya.weightPlugs
    { bs with m_weightConnections := [] } maya
  have hplugs : (bs.breakConnections maya).2.weightPlugs = maya.weightPlugs :=
    (breakConnections_frame bs maya).2.2.2.2.2.2.2.2.2.2.1
  refine ⟨?_, ?_⟩
  · intro p hp
    constructor
    · apply List.eq_nil_iff_forall_not_mem.mpr
      intro d hd
      rw [mem_destinationsOf] at hd
      exact ((hmem (p, d)).mp hd).2.1 hp
    · apply List.eq_nil_iff_forall_not_mem.mpr
      intro s hs
      rw [mem_sourcesOf] at hs
      exact ((hmem (s, p)).mp hs).2.2 hp
  · obtain ⟨t', hrun, ht'⟩ := hres (bs.breakConnections maya).1 (bs.breakConnections maya).2
      ⟨[], by simp [BlendShape.breakConnections]⟩
    refine ⟨t', ?_, ?_⟩
    · unfold BlendShape.restoreConnections
      rw [hplugs]
      exact hrun
    · intro c
      rw [ht' c]
      have hb := hmem c
      unfold BlendShape.breakConnections
      rw [hb]
      by_cases h1 : c.1 ∈ maya.weightPlugs <;> by_cases h2 : c.2 ∈ maya.weightPlugs <;>
        simp [h1, h2]

/-- Witness of C14: the scene `Scene.wired`, where three connections touch the weight
plugs 1 and 2 and one does not. -/
theorem breakConnections_restoreConnections_same_graph_witness :
    (∀ p ∈ Scene.wired.weightPlugs,
      (BlendShape.new.breakConnections Scene.wired).2.destinationsOf p = [] ∧
      (BlendShape.new.breakConnections Scene.wired).2.sourcesOf p = []) ∧
    ∃ maya',
      (BlendShape.new.breakConnections Scene.wired).1.restoreConnections
        (BlendShape.new.breakConnections Scene.wired).2 = .ok maya' ∧
      ∀ c, c ∈ maya'.connections ↔ c ∈ Scene.wired.connections :=
  breakConnections_restoreConnections_same_graph BlendShape.new Scene.wired

/-! ## Envelope and weights along the capture (C11, C12, C13) -/

theorem setWeight_envelope (m : Scene) (i : Int) (w : ℚ) :
    (m.setWeight i w).1.envelope = m.envelope := by
  unfold Scene.setWeight
  split <;> rfl

theorem setWeight_connections (m : Scene) (i : Int) (w : ℚ) :
    (m.setWeight i w).1.connections = m.connections := by
  unfold Scene.setWeight
  split <;> rfl

theorem setWeight_weight (m : Scene) (i : Int) (w : ℚ) (h : m.weightSettable i = true) :
    (m.setWeight i w).1.weight = fun j => if j = i then w else m.weight j := by
  unfold Scene.setWeight
  rw [if_pos h]

theorem setWeight_failed (m : Scene) (i : Int) (w : ℚ) (h : m.weightSettable i = false) :
    m.setWeight i w = (m, false) := by
  unfold Scene.setWeight
  simp [h]

theorem setWeight_other (m : Scene) (i : Int) (w : ℚ) (j : Int) (h : j ≠ i) :
    (m.setWeight i w).1.weight j = m.weight j := by
  unfold Scene.setWeight
  split
  · simp [h]
  · rfl

theorem connect_values (m : Scene) (a b : Plug) :
    (m.connect a b).envelope = m.envelope ∧ (m.connect a b).weight = m.weight := by
  unfold Scene.connect
  split <;> exact ⟨rfl, rfl⟩

theorem foldl_values {α : Type} (f : Scene → α → Scene)
    (hf : ∀ m a, (f m a).envelope = m.envelope ∧ (f m a).weight = m.weight) :
    ∀ (l : List α) (m : Scene),
      (l.foldl f m).envelope = m.envelope ∧ (l.foldl f m).weight = m.weight := by
  intro l
  induction l with
  | nil => intro m; exact ⟨rfl, rfl⟩
  | cons a rest ih =>
    intro m
    obtain ⟨h1, h2⟩ := ih (f m a)
    obtain ⟨h3, h4⟩ := hf m a
    exact ⟨h1.trans h3, h2.trans h4⟩

/-- `breakConnections` reads and writes connections only. -/
theorem breakConnectionsLoop_values :
    ∀ (plugs : List Plug) (bs : BlendShape) (maya : Scene),
      (breakConnectionsLoop plugs (bs, maya)).2.envelope = maya.envelope ∧
      (breakConnectionsLoop plugs (bs, maya)).2.weight = maya.weight ∧
      (breakConnectionsLoop plugs (bs, maya)).1.m_origEnvelope = bs.m_origEnvelope := by
  intro plugs
  induction plugs with
  | nil => intro bs maya; exact ⟨rfl, rfl, rfl⟩
  | cons p rest ih =>
    intro bs maya
    simp only [breakConnectionsLoop]
    obtain ⟨h1, h2, h3⟩ := ih
      { bs with m_weightConnections := bs.m_weightConnections ++
          [{ srcConnections := maya.destinationsOf p, dstConnections := maya.sourcesOf p }] }
      ((maya.sourcesOf p).foldl (fun s d => s.disconnect d p)
        ((maya.destinationsOf p).foldl (fun s d => s.disconnect p d) maya))
    obtain ⟨a1, a2⟩ := foldl_values (fun s d => s.disconnect p d)
      (fun _ _ => ⟨rfl, rfl⟩) (maya.destinationsOf p) maya
    obtain ⟨b1, b2⟩ := foldl_values (fun s d => s.disconnect d p)
      (fun _ _ => ⟨rfl, rfl⟩) (maya.sourcesOf p)
      ((maya.destinationsOf p).foldl (fun s d => s.disconnect p d) maya)
    exact ⟨h1.trans (b1.trans a1), h2.trans (b2.trans a2), h3⟩

theorem breakConnections_values (bs : BlendShape) (maya : Scene) :
    (bs.breakConnections maya).2.envelope = maya.envelope ∧
    (bs.breakConnections maya).2.weight = maya.weight ∧
    (bs.breakConnections maya).1.m_origEnvelope = bs.m_origEnvelope :=
  breakConnectionsLoop_values maya.weightPlugs { bs with m_weightConnections := [] } maya

/-- `restoreConnections` writes connections only. -/
theorem restoreConnectionsLoop_values (bs : BlendShape) :
    ∀ (plugs : List Plug) (i : Nat) (maya maya' : Scene),
      restoreConnectionsLoop bs plugs i maya = .ok maya' →
      maya'.envelope = maya.envelope ∧ maya'.weight = maya.weight := by
  intro plugs
  induction plugs with
  | nil =>
    intro i maya maya' h
    simp only [restoreConnectionsLoop, Except.ok.injEq] at h
    rw [← h]; exact ⟨rfl, rfl⟩
  | cons p rest ih =>
    intro i maya maya' h
    simp only [restoreConnectionsLoop] at h
    cases hg : vecGet bs.m_weightConnections (i : Int) with
    | error e => rw [hg] at h; simp [bind_error_eq] at h
    | ok wcon =>
      rw [hg, bind_ok_eq] at h
      obtain ⟨h1, h2⟩ := ih _ _ _ h
      obtain ⟨a1, a2⟩ := foldl_values (fun s d => s.connect p d)
        (fun m a => connect_values m p a) wcon.srcConnections maya
      obtain ⟨b1, b2⟩ := foldl_values (fun s d => s.connect d p)
        (fun m a => connect_values m a p) wcon.dstConnections
        (wcon.srcConnections.foldl (fun s d => s.connect p d) maya)
      exact ⟨h1.trans (b1.trans a1), h2.trans (b2.trans a2)⟩

/-- The weights after `zeroWeights`: 0 on the channels of the list that can be set. -/
theorem zeroWeights_values :
    ∀ (l : List Int) (m : Scene),
      (zeroWeights l m).envelope = m.envelope ∧
      (∀ c, c ∉ l → (zeroWeights l m).weight c = m.weight c) ∧
      ((∀ c ∈ l, m.weightSettable c = true) → ∀ c ∈ l, (zeroWeights l m).weight c = 0) := by
  intro l
  induction l with
  | nil => intro m; exact ⟨rfl, fun _ _ => rfl, fun _ c hc => by cases hc⟩
  | cons w rest ih =>
    intro m
    simp only [zeroWeights]
    obtain ⟨h1, h2, h3⟩ := ih (m.setWeight w 0).1
    refine ⟨h1.trans (setWeight_envelope m w 0), ?_, ?_⟩
    · intro c hc
      simp only [List.mem_cons, not_or] at hc
      rw [h2 c hc.2, setWeight_other m w 0 c hc.1]
    · intro hset c hc
      have hset' : ∀ c ∈ rest, (m.setWeight w 0).1.weightSettable c = true := by
        intro c hc
        rw [(sameDeformer_setWeight m w 0).2.1]
        exact hset c (List.mem_cons_of_mem _ hc)
      by_cases hr : c ∈ rest
      · exact h3 hset' c hr
      · have hcw : c = w := by
          rcases List.mem_cons.mp hc with h | h
          · exact h
          · exact absurd h hr
        rw [h2 c hr, hcw, setWeight_weight m w 0 (hset w (List.mem_cons_self _ _))]
        simp

/-- The weights after `restoreWeights`: the saved value on every channel of the list that
can be set, when `m_origWeights` holds `f w` at the position of the channel `w`. -/
theorem restoreWeights_values (bs : BlendShape) (f : Int → ℚ) :
    ∀ (l : List Int) (i : Nat) (maya maya' : Scene),
      restoreWeights bs l i maya = .ok maya' →
      maya'.envelope = maya.envelope ∧
      (∀ c, c ∉ l → maya'.weight c = maya.weight c) ∧
      ((∀ c ∈ l, maya.weightSettable c = true) →
        (∀ (k : Nat) (w : Int), l[k]? = some w → bs.m_origWeights[i + k]? = some (f w)) →
        ∀ c ∈ l, maya'.weight c = f c) := by
  intro l
  induction l with
  | nil =>
    intro i maya maya' h
    simp only [restoreWeights, Except.ok.injEq] at h
    rw [← h]
    exact ⟨rfl, fun _ _ => rfl, fun _ _ c hc => by cases hc⟩
  | cons w rest ih =>
    intro i maya maya' h
    simp only [restoreWeights] at h
    cases hg : vecGet bs.m_origWeights (i : Int) with
    | error e => rw [hg] at h; simp [bind_error_eq] at h
    | ok orig =>
      rw [hg, bind_ok_eq] at h
      obtain ⟨h1, h2, h3⟩ := ih _ _ _ h
      refine ⟨h1.trans (setWeight_envelope maya w orig), ?_, ?_⟩
      · intro c hc
        simp only [List.mem_cons, not_or] at hc
        rw [h2 c hc.2, setWeight_other maya w orig c hc.1]
      · intro hset horig c hc
        have hw : orig = f w := by
          have h0 := horig 0 w (by simp)
          simp only [Nat.add_zero] at h0
          rw [vecGet_of_getElem? h0] at hg
          simp only [Except.ok.injEq] at hg
          exact hg.symm
        have hset' : ∀ c ∈ rest, (maya.setWeight w orig).1.weightSettable c = true := by
          intro c hc
          rw [(sameDeformer_setWeight maya w orig).2.1]
          exact hset c (List.mem_cons_of_mem _ hc)
        have horig' : ∀ (k : Nat) (v : Int), rest[k]? = some v →
            bs.m_origWeights[i + 1 + k]? = some (f v) := by
          intro k v hk
          have := horig (k + 1) v (by simpa using hk)
          rw [show i + 1 + k = i + (k + 1) by omega]
          exact this
        by_cases hr : c ∈ rest
        · exact h3 hset' horig' c hr
        · have hcw : c = w := by
            rcases List.mem_cons.mp hc with h | h
            · exact h
            · exact absurd h hr
          rw [h2 c hr, hcw, setWeight_weight maya w orig (hset w (List.mem_cons_self _ _)), hw]
          simp

theorem poseName_setWeight (maya : Scene) (w : Int) (x : ℚ) (poseNames : List String)
    (t : Int) (i : Nat) :
    poseNameShared (maya.setWeight w x).1 poseNames i = poseNameShared maya poseNames i ∧
    poseNameSubmesh (maya.setWeight w x).1 poseNames t i
      = poseNameSubmesh maya poseNames t i := by
  have hs : (maya.setWeight w x).1.strayString = maya.strayString :=
    (sameDeformer_setWeight maya w x).2.2.2.2.2.2.2
  simp only [poseNameShared, poseNameSubmesh, defaultPoseName, hs]
  exact ⟨trivial, trivial⟩

/-- The capture loop of `loadPosesShared` makes its captures in the scenes
`captureScenes` and leaves the scene `afterCapture`. -/
theorem posesSharedLoop_scenes (PRECISION : ℚ) (params : ParamList) (vertices : List vertex)
    (numVertices offset : Int) (poseNames : List String) :
    ∀ (l : List Int) (i : Nat) (bs : BlendShape) (maya : Scene),
      posesSharedLoop PRECISION params vertices numVertices offset poseNames l i (bs, maya)
        = (captureShared PRECISION params vertices numVertices offset poseNames
            (captureScenes l maya) i bs) >>= fun bs' => .ok (bs', afterCapture l maya) := by
  intro l
  induction l with
  | nil => intro i bs maya; rfl
  | cons w rest ih =>
    intro i bs maya
    simp only [posesSharedLoop, captureScenes, captureShared, afterCapture,
      (poseName_setWeight maya w 1 poseNames 0 i).1]
    cases hp : loadPoseShared PRECISION bs (maya.setWeight w 1).1 params vertices numVertices
        offset (poseNameShared maya poseNames i) (i : Int) with
    | error e => simp [bind_error_eq]
    | ok bs1 => simp only [bind_ok_eq]; exact ih _ _ _

/-- The capture loop of `loadPosesSubmesh` makes its captures in the scenes
`captureScenes` and leaves the scene `afterCapture`. -/
theorem posesSubmeshLoop_scenes (PRECISION : ℚ) (params : ParamList)
    (vertices : List vertex) (indices : List Int) (targetIndex : Int)
    (poseNames : List String) :
    ∀ (l : List Int) (i : Nat) (bs : BlendShape) (maya : Scene),
      posesSubmeshLoop PRECISION params vertices indices targetIndex poseNames l i (bs, maya)
        = (captureSubmesh PRECISION params vertices indices targetIndex poseNames
            (captureScenes l maya) i bs) >>= fun bs' => .ok (bs', afterCapture l maya) := by
  intro l
  induction l with
  | nil => intro i bs maya; rfl
  | cons w rest ih =>
    intro i bs maya
    simp only [posesSubmeshLoop, captureScenes, captureSubmesh, afterCapture,
      (poseName_setWeight maya w 1 poseNames targetIndex i).2]
    cases hp : loadPoseSubmesh PRECISION bs (maya.setWeight w 1).1 params vertices indices
        (poseNameSubmesh maya poseNames targetIndex i) targetIndex (i : Int) with
    | error e => simp [bind_error_eq]
    | ok bs1 => simp only [bind_ok_eq]; exact ih _ _ _

theorem sameDeformer_afterCapture :
    ∀ (l : List Int) (m : Scene), SameDeformer m (afterCapture l m) := by
  intro l
  induction l with
  | nil => intro m; exact SameDeformer.scene_refl m
  | cons w rest ih =>
    intro m
    exact ((sameDeformer_setWeight m w 1).scene_trans
      (sameDeformer_setWeight _ w 0)).scene_trans (ih _)

theorem captureScenes_length :
    ∀ (l : List Int) (m : Scene), (captureScenes l m).length = l.length := by
  intro l
  induction l with
  | nil => intro m; rfl
  | cons w rest ih => intro m; simp [captureScenes, ih]

/-- Every capture is made with the envelope of the entry, the channel of the capture at 1
and the other channels at 0, when the channels of `all` (those of the loop among them) can
be set and are at 0 on entry. -/
theorem captureScenes_isolated (all : List Int) :
    ∀ (l : List Int) (m : Scene), (∀ c ∈ l, c ∈ all) →
      (∀ c ∈ all, m.weightSettable c = true) → (∀ c ∈ all, m.weight c = 0) →
      ∀ (i : Nat) (w : Int) (s : Scene), l[i]? = some w → (captureScenes l m)[i]? = some s →
        s.envelope = m.envelope ∧ s.weight w = 1 ∧ ∀ c ∈ all, c ≠ w → s.weight c = 0 := by
  intro l
  induction l with
  | nil => intro m _ _ _ i w s hw; simp at hw
  | cons v rest ih =>
    intro m hsub hset hzero i w s hw hs
    have hv : m.weightSettable v = true := hset v (hsub v (List.mem_cons_self _ _))
    cases i with
    | zero =>
      simp only [List.getElem?_cons_zero, Option.some.injEq] at hw
      simp only [captureScenes, List.getElem?_cons_zero, Option.some.injEq] at hs
      subst hw; subst hs
      refine ⟨setWeight_envelope m v 1, ?_, ?_⟩
      · rw [setWeight_weight m v 1 hv]; simp
      · intro c hc hne
        rw [setWeight_other m v 1 c hne]; exact hzero c hc
    | succ k =>
      simp only [List.getElem?_cons_succ] at hw
      simp only [captureScenes, List.getElem?_cons_succ] at hs
      have hs1 := sameDeformer_setWeight m v 1
      have hs2 := sameDeformer_setWeight (m.setWeight v 1).1 v 0
      have hv1 : (m.setWeight v 1).1.weightSettable v = true := by rw [hs1.2.1]; exact hv
      obtain ⟨e1, e2, e3⟩ := ih ((m.setWeight v 1).1.setWeight v 0).1
        (fun c hc => hsub c (List.mem_cons_of_mem _ hc))
        (by intro c hc; rw [hs2.2.1, hs1.2.1]; exact hset c hc)
        (by
          intro c hc
          by_cases hcv : c = v
          · rw [hcv, setWeight_weight _ v 0 hv1]; simp
          · rw [setWeight_other _ v 0 c hcv, setWeight_other m v 1 c hcv]; exact hzero c hc)
        k w s hw hs
      refine ⟨?_, e2, e3⟩
      rw [e1, setWeight_envelope, setWeight_envelope]

/-- The steps of a call of `loadPosesShared` that returns: the captures in the scenes
`captureScenes` from the entry scene, then envelope 0, the weights and the connections
restored; the saved envelope and weights are kept. -/
theorem loadPosesShared_steps {PRECISION : ℚ} {bs : BlendShape} {maya : Scene}
    {params : ParamList} {vertices : List vertex} {numVertices offset : Int}
    {bs' : BlendShape} {maya' : Scene}
    (h : loadPosesShared PRECISION bs maya params vertices numVertices offset
      = .ok (bs', maya')) :
    captureShared PRECISION params vertices numVertices offset maya.aliasAttr
      (captureScenes maya.weightIndexList (captureEntry { bs with m_target := .T_MESH } maya))
      0 (BlendShape.breakConnections { bs with m_target := .T_MESH } (maya.setEnvelope 1)).1
      = .ok bs' ∧
    bs'.m_origWeights = bs.m_origWeights ∧ bs'.m_origEnvelope = bs.m_origEnvelope ∧
    ∃ maya6,
      restoreWeights bs' maya.weightIndexList 0
        ((afterCapture maya.weightIndexList
          (captureEntry { bs with m_target := .T_MESH } maya)).setEnvelope 0) = .ok maya6 ∧
      bs'.restoreConnections maya6 = .ok maya' := by
  unfold loadPosesShared at h
  dsimp only at h
  unfold captureEntry
  obtain ⟨_, _, hb3, _, hb5⟩ := breakConnections_frame
    ({ bs with m_target := .T_MESH } : BlendShape) (maya.setEnvelope 1)
  obtain ⟨_, _, hbe⟩ := breakConnections_values
    ({ bs with m_target := .T_MESH } : BlendShape) (maya.setEnvelope 1)
  generalize hbr : BlendShape.breakConnections
    ({ bs with m_target := .T_MESH } : BlendShape) (maya.setEnvelope 1) = br at h hb3 hb5 hbe ⊢
  obtain ⟨bs2, maya2⟩ := br
  dsimp only at h hb3 hb5 hbe ⊢
  have h02 : SameDeformer maya maya2 := (sameDeformer_setEnvelope maya 1).scene_trans hb5
  have hz := sameDeformer_zeroWeights maya2.weightIndexList maya2
  have hil : maya2.weightIndexList = maya.weightIndexList := h02.1
  have hal : (zeroWeights maya2.weightIndexList maya2).aliasAttr = maya.aliasAttr :=
    (h02.scene_trans hz).2.2.1
  rw [hal, hil] at h
  rw [hil]
  rw [posesSharedLoop_scenes] at h
  cases hl : captureShared PRECISION params vertices numVertices offset maya.aliasAttr
      (captureScenes maya.weightIndexList (zeroWeights maya.weightIndexList maya2)) 0 bs2 with
  | error e => rw [hl] at h; simp [bind_error_eq] at h
  | ok bs3 =>
    rw [hl, bind_ok_eq, bind_ok_eq] at h
    dsimp only at h
    have hloop : posesSharedLoop PRECISION params vertices numVertices offset maya.aliasAttr
        maya.weightIndexList 0 (bs2, zeroWeights maya.weightIndexList maya2)
        = .ok (bs3, afterCapture maya.weightIndexList
            (zeroWeights maya.weightIndexList maya2)) := by
      rw [posesSharedLoop_scenes, hl, bind_ok_eq]
    obtain ⟨_, e2, e3, _, _, _, _⟩ := posesSharedLoop_ok _ _ _ _ _ _ _ _ _ _ _ _ hloop
    cases hw : restoreWeights bs3 maya.weightIndexList 0
        ((afterCapture maya.weightIndexList
          (zeroWeights maya.weightIndexList maya2)).setEnvelope 0) with
    | error e => rw [hw] at h; simp [bind_error_eq] at h
    | ok maya6 =>
      rw [hw, bind_ok_eq] at h
      cases hc : bs3.restoreConnections maya6 with
      | error e => rw [hc] at h; simp [bind_error_eq] at h
      | ok maya7 =>
        rw [hc, bind_ok_eq] at h
        simp only [Except.ok.injEq, Prod.mk.injEq] at h
        obtain ⟨rfl, rfl⟩ := h
        exact ⟨rfl, e3.trans hb3, e2.trans hbe, maya6, hw, hc⟩

theorem insertGroup_saved (bs : BlendShape) (k : Int) (pg0 : poseGroup) :
    (bs.insertGroup k pg0).m_origWeights = bs.m_origWeights ∧
    (bs.insertGroup k pg0).m_origEnvelope = bs.m_origEnvelope := by
  unfold BlendShape.insertGroup
  split <;> exact ⟨rfl, rfl⟩

/-- The steps of a call of `loadPosesSubmesh` that returns: the captures in the scenes
`captureScenes` from the entry scene, then envelope 0, the weights and the connections
restored; the saved envelope and weights are kept. -/
theorem loadPosesSubmesh_steps {PRECISION : ℚ} {bs : BlendShape} {maya : Scene}
    {params : ParamList} {vertices : List vertex} {indices : List Int} {targetIndex : Int}
    {bs' : BlendShape} {maya' : Scene}
    (h : loadPosesSubmesh PRECISION bs maya params vertices indices targetIndex
      = .ok (bs', maya')) :
    captureSubmesh PRECISION params vertices indices targetIndex maya.aliasAttr
      (captureScenes maya.weightIndexList
        (captureEntry { bs with m_target := .T_SUBMESH } maya))
      0 ((BlendShape.breakConnections { bs with m_target := .T_SUBMESH }
          (maya.setEnvelope 1)).1.insertGroup targetIndex
            { targetIndex := targetIndex, poses := [] })
      = .ok bs' ∧
    bs'.m_origWeights = bs.m_origWeights ∧ bs'.m_origEnvelope = bs.m_origEnvelope ∧
    ∃ maya6,
      restoreWeights bs' maya.weightIndexList 0
        ((afterCapture maya.weightIndexList
          (captureEntry { bs with m_target := .T_SUBMESH } maya)).setEnvelope 0)
        = .ok maya6 ∧
      bs'.restoreConnections maya6 = .ok maya' := by
  unfold loadPosesSubmesh at h
  dsimp only at h
  unfold captureEntry
  obtain ⟨_, _, hb3, _, hb5⟩ := breakConnections_frame
    ({ bs with m_target := .T_SUBMESH } : BlendShape) (maya.setEnvelope 1)
  obtain ⟨_, _, hbe⟩ := breakConnections_values
    ({ bs with m_target := .T_SUBMESH } : BlendShape) (maya.setEnvelope 1)
  generalize hbr : BlendShape.breakConnections
    ({ bs with m_target := .T_SUBMESH } : BlendShape) (maya.setEnvelope 1) = br
    at h hb3 hb5 hbe ⊢
  obtain ⟨bs2, maya2⟩ := br
  dsimp only at h hb3 hb5 hbe ⊢
  have h02 : SameDeformer maya maya2 := (sameDeformer_setEnvelope maya 1).scene_trans hb5
  have hz := sameDeformer_zeroWeights maya2.weightIndexList maya2
  have hil : maya2.weightIndexList = maya.weightIndexList := h02.1
  have hal : (zeroWeights maya2.weightIndexList maya2).aliasAttr = maya.aliasAttr :=
    (h02.scene_trans hz).2.2.1
  obtain ⟨hi1, hi2⟩ := insertGroup_saved bs2 targetIndex
    { targetIndex := targetIndex, poses := [] }
  rw [hal, hil] at h
  rw [hil]
  rw [posesSubmeshLoop_scenes] at h
  cases hl : captureSubmesh PRECISION params vertices indices targetIndex maya.aliasAttr
      (captureScenes maya.weightIndexList (zeroWeights maya.weightIndexList maya2)) 0
      (bs2.insertGroup targetIndex { targetIndex := targetIndex, poses := [] }) with
  | error e => rw [hl] at h; simp [bind_error_eq] at h
  | ok bs3 =>
    rw [hl, bind_ok_eq, bind_ok_eq] at h
    dsimp only at h
    have hloop : posesSubmeshLoop PRECISION params vertices indices targetIndex
        maya.aliasAttr maya.weightIndexList 0
        (bs2.insertGroup targetIndex { targetIndex := targetIndex, poses := [] },
          zeroWeights maya.weightIndexList maya2)
        = .ok (bs3, afterCapture maya.weightIndexList
            (zeroWeights maya.weightIndexList maya2)) := by
      rw [posesSubmeshLoop_scenes, hl, bind_ok_eq]
    obtain ⟨_, e2, e3, _, _, _, _⟩ := posesSubmeshLoop_ok _ _ _ _ _ _ _ _ _ _ _ _ hloop
    cases hw : restoreWeights bs3 maya.weightIndexList 0
        ((afterCapture maya.weightIndexList
          (zeroWeights maya.weightIndexList maya2)).setEnvelope 0) with
    | error e => rw [hw] at h; simp [bind_error_eq] at h
    | ok maya6 =>
      rw [hw, bind_ok_eq] at h
      cases hc : bs3.restoreConnections maya6 with
      | error e => rw [hc] at h; simp [bind_error_eq] at h
      | ok maya7 =>
        rw [hc, bind_ok_eq] at h
        simp only [Except.ok.injEq, Prod.mk.injEq] at h
        obtain ⟨rfl, rfl⟩ := h
        exact ⟨rfl, (e3.trans hi1).trans hb3, (e2.trans hi2).trans hbe, maya6, hw, hc⟩

/-- The entry scene of the capture loops: envelope 1, the channels of the weight index
list at 0 when they can be set, the same deformer. -/
theorem captureEntry_spec (bs : BlendShape) (maya : Scene) :
    (captureEntry bs maya).envelope = 1 ∧ SameDeformer maya (captureEntry bs maya) ∧
    ((∀ c ∈ maya.weightIndexList, maya.weightSettable c = true) →
      ∀ c ∈ maya.weightIndexList, (captureEntry bs maya).weight c = 0) := by
  unfold captureEntry
  obtain ⟨_, _, _, _, hb5⟩ := breakConnections_frame bs (maya.setEnvelope 1)
  obtain ⟨hbe, _, _⟩ := breakConnections_values bs (maya.setEnvelope 1)
  generalize BlendShape.breakConnections bs (maya.setEnvelope 1) = br at hb5 hbe ⊢
  obtain ⟨bs2, maya2⟩ := br
  dsimp only at hb5 hbe ⊢
  have h02 : SameDeformer maya maya2 := (sameDeformer_setEnvelope maya 1).scene_trans hb5
  obtain ⟨z1, _, z3⟩ := zeroWeights_values maya2.weightIndexList maya2
  refine ⟨?_, h02.scene_trans (sameDeformer_zeroWeights _ _), ?_⟩
  · rw [z1, hbe]; rfl
  · intro hset c hc
    have hil : maya2.weightIndexList = maya.weightIndexList := h02.1
    rw [hil] at z3 ⊢
    exact z3 (by intro c hc; rw [h02.2.1]; exact hset c hc) c hc

/-- The end of `loadPosesShared` and `loadPosesSubmesh` (blendshape.cpp 181-190, 269-278),
run on a scene `m` with the weight index list `il`: the envelope is left at 0, and every
channel of the list that can be set gets the weight saved for it. -/
theorem restore_tail_values (bs' : BlendShape) (f : Int → ℚ) (il : List Int)
    (m maya6 maya' : Scene)
    (hw : restoreWeights bs' il 0 (m.setEnvelope 0) = .ok maya6)
    (hc : bs'.restoreConnections maya6 = .ok maya') :
    maya'.envelope = 0 ∧
    ((∀ c ∈ il, m.weightSettable c = true) →
      (∀ (k : Nat) (w : Int), il[k]? = some w → bs'.m_origWeights[k]? = some (f w)) →
      ∀ c ∈ il, maya'.weight c = f c) := by
  obtain ⟨w1, _, w3⟩ := restoreWeights_values bs' f il 0 _ _ hw
  obtain ⟨c1, c2⟩ := restoreConnectionsLoop_values bs' _ _ _ _ hc
  refine ⟨by rw [c1, w1]; rfl, ?_⟩
  intro hset horig c hcl
  rw [c2]
  exact w3 hset (by intro k w hk; rw [Nat.zero_add]; exact horig k w hk) c hcl

theorem load_saved_weights (bs0 : BlendShape) (saved : Scene) :
    ∀ (k : Nat) (w : Int), saved.weightIndexList[k]? = some w →
      (bs0.load saved).m_origWeights[k]? = some (saved.weight w) := by
  intro k w hk
  simp [BlendShape.load, List.getElem?_map, hk]

/-- After `loadPosesShared` the envelope is 0 and the channels that can be set hold the
weights saved by `load`. -/
theorem loadPosesShared_restored {PRECISION : ℚ} {bs0 : BlendShape} {saved maya : Scene}
    {params : ParamList} {vertices : List vertex} {numVertices offset : Int}
    {bs' : BlendShape} {maya' : Scene}
    (h : loadPosesShared PRECISION (bs0.load saved) maya params vertices numVertices offset
      = .ok (bs', maya')) :
    maya'.envelope = 0 ∧ bs'.m_origEnvelope = saved.envelope ∧
    (maya.weightIndexList = saved.weightIndexList →
      (∀ c ∈ maya.weightIndexList, maya.weightSettable c = true) →
      ∀ c ∈ maya.weightIndexList, maya'.weight c = saved.weight c) := by
  obtain ⟨_, e1, e2, maya6, hw, hc⟩ := loadPosesShared_steps h
  obtain ⟨t1, t2⟩ := restore_tail_values bs' saved.weight maya.weightIndexList _ _ _ hw hc
  refine ⟨t1, e2, ?_⟩
  intro hil hset
  have hsame : SameDeformer maya (afterCapture maya.weightIndexList
      (captureEntry { bs0.load saved with m_target := .T_MESH } maya)) :=
    (captureEntry_spec _ maya).2.1.scene_trans (sameDeformer_afterCapture _ _)
  refine t2 (by intro c hc; rw [hsame.2.1]; exact hset c hc) ?_
  intro k w hk
  rw [e1]
  rw [hil] at hk
  exact load_saved_weights bs0 saved k w hk

/-- After `loadPosesSubmesh` the envelope is 0 and the channels that can be set hold the
weights saved by `load`. -/
theorem loadPosesSubmesh_restored {PRECISION : ℚ} {bs0 : BlendShape} {saved maya : Scene}
    {params : ParamList} {vertices : List vertex} {indices : List Int} {targetIndex : Int}
    {bs' : BlendShape} {maya' : Scene}
    (h : loadPosesSubmesh PRECISION (bs0.load saved) maya params vertices indices targetIndex
      = .ok (bs', maya')) :
    maya'.envelope = 0 ∧ bs'.m_origEnvelope = saved.envelope ∧
    (maya.weightIndexList = saved.weightIndexList →
      (∀ c ∈ maya.weightIndexList, maya.weightSettable c = true) →
      ∀ c ∈ maya.weightIndexList, maya'.weight c = saved.weight c) := by
  obtain ⟨_, e1, e2, maya6, hw, hc⟩ := loadPosesSubmesh_steps h
  obtain ⟨t1, t2⟩ := restore_tail_values bs' saved.weight maya.weightIndexList _ _ _ hw hc
  refine ⟨t1, e2, ?_⟩
  intro hil hset
  have hsame : SameDeformer maya (afterCapture maya.weightIndexList
      (captureEntry { bs0.load saved with m_target := .T_SUBMESH } maya)) :=
    (captureEntry_spec _ maya).2.1.scene_trans (sameDeformer_afterCapture _ _)
  refine t2 (by intro c hc; rw [hsame.2.1]; exact hset c hc) ?_
  intro k w hk
  rw [e1]
  rw [hil] at hk
  exact load_saved_weights bs0 saved k w hk

theorem posed_pointsInRange :
    ∀ (world : Bool) (e : ℚ) (w : Int → ℚ),
      pointsInRange (Scene.posed.getPoints world e w) demoVertices :=
  twoTargets_pointsInRange

/-- The call `loadPosesShared` on the posed scene, from a `BlendShape` loaded on it,
returns. -/
theorem posed_shared_returns :
    ∃ r, loadPosesShared (1 / 10000) (BlendShape.new.load Scene.posed) Scene.posed {}
      demoVertices 10 0 = .ok r :=
  loadPosesShared_total (1 / 10000) (BlendShape.new.load Scene.posed) Scene.posed {}
    demoVertices 10 0 ⟨_, new_group_zero⟩ (by decide) (by simp [demoVertices])
    (by
      intro world e w
      have h := posed_pointsInRange world e w
      simpa [demoVertices] using h)
    (by simp [BlendShape.load, Scene.posed, Scene.twoTargets, Scene.still])

/-! ## Claims on the capture of the poses (C11, C12, C13) -/

/-- C11: when every channel of the weight index list can be set, `loadPosesShared` and
`loadPosesSubmesh` call `loadPoseShared` and `loadPoseSubmesh` once per channel, in the
scenes `captureScenes` from the entry scene, and the scene of the capture of the channel at
position `i` has the envelope 1, the weight 1 on that channel and the weight 0 on every
other channel of the weight index list. -/
theorem loadPoses_capture_isolates_channel (PRECISION : ℚ) (bs : BlendShape) (maya : Scene)
    (params : ParamList) (vertices : List vertex)
    (hset : ∀ c ∈ maya.weightIndexList, maya.weightSettable c = true) :
    (∀ (numVertices offset : Int) (bs' : BlendShape) (maya' : Scene),
      loadPosesShared PRECISION bs maya params vertices numVertices offset = .ok (bs', maya') →
      captureShared PRECISION params vertices numVertices offset maya.aliasAttr
        (captureScenes maya.weightIndexList
          (captureEntry { bs with m_target := .T_MESH } maya))
        0 (BlendShape.breakConnections { bs with m_target := .T_MESH }
            (maya.setEnvelope 1)).1 = .ok bs') ∧
    (∀ (indices : List Int) (t : Int) (bs' : BlendShape) (maya' : Scene),
      loadPosesSubmesh PRECISION bs maya params vertices indices t = .ok (bs', maya') →
      captureSubmesh PRECISION params vertices indices t maya.aliasAttr
        (captureScenes maya.weightIndexList
          (captureEntry { bs with m_target := .T_SUBMESH } maya))
        0 ((BlendShape.breakConnections { bs with m_target := .T_SUBMESH }
            (maya.setEnvelope 1)).1.insertGroup t { targetIndex := t, poses := [] })
        = .ok bs') ∧
    ∀ (tgt : target),
      (captureScenes maya.weightIndexList
        (captureEntry { bs with m_target := tgt } maya)).length
        = maya.weightIndexList.length ∧
      ∀ (i : Nat) (w : Int) (s : Scene), maya.weightIndexList[i]? = some w →
        (captureScenes maya.weightIndexList
          (captureEntry { bs with m_target := tgt } maya))[i]? = some s →
        s.envelope = 1 ∧ s.weight w = 1 ∧
          ∀ c ∈ maya.weightIndexList, c ≠ w → s.weight c = 0 := by
  refine ⟨?_, ?_, ?_⟩
  · intro numVertices offset bs' maya' h
    exact (loadPosesShared_steps h).1
  · intro indices t bs' maya' h
    exact (loadPosesSubmesh_steps h).1
  · intro tgt
    refine ⟨captureScenes_length _ _, ?_⟩
    intro i w s hw hs
    obtain ⟨e1, e2, e3⟩ := captureEntry_spec ({ bs with m_target := tgt } : BlendShape) maya
    obtain ⟨r1, r2, r3⟩ := captureScenes_isolated maya.weightIndexList maya.weightIndexList
      (captureEntry { bs with m_target := tgt } maya) (fun _ hc => hc)
      (by intro c hc; rw [e2.2.1]; exact hset c hc) (e3 hset) i w s hw hs
    exact ⟨r1.trans e1, r2, r3⟩

/-- Witness of C11: the captures on the posed scene with two channels, for the shared
geometry. -/
theorem loadPoses_capture_isolates_channel_witness :
    (captureScenes Scene.posed.weightIndexList
      (captureEntry { BlendShape.new.load Scene.posed with m_target := .T_MESH }
        Scene.posed)).length = Scene.posed.weightIndexList.length ∧
    ∀ (i : Nat) (w : Int) (s : Scene), Scene.posed.weightIndexList[i]? = some w →
      (captureScenes Scene.posed.weightIndexList
        (captureEntry { BlendShape.new.load Scene.posed with m_target := .T_MESH }
          Scene.posed))[i]? = some s →
      s.envelope = 1 ∧ s.weight w = 1 ∧
        ∀ c ∈ Scene.posed.weightIndexList, c ≠ w → s.weight c = 0 :=
  (loadPoses_capture_isolates_channel (1 / 10000) (BlendShape.new.load Scene.posed)
    Scene.posed {} demoVertices (fun _ _ => rfl)).2.2 .T_MESH

/-- C12: for a `BlendShape` loaded on the scene `saved` and a scene with the same weight
index list, whatever its weights, every channel of the list holds after `loadPosesShared`
or `loadPosesSubmesh` the weight it had in `saved`, when the channels can be set. -/
theorem loadPoses_restore_weights (PRECISION : ℚ) (bs0 : BlendShape) (saved maya : Scene)
    (params : ParamList) (vertices : List vertex)
    (hil : maya.weightIndexList = saved.weightIndexList)
    (hset : ∀ c ∈ maya.weightIndexList, maya.weightSettable c = true) :
    (∀ (numVertices offset : Int) (bs' : BlendShape) (maya' : Scene),
      loadPosesShared PRECISION (bs0.load saved) maya params vertices numVertices offset
        = .ok (bs', maya') →
      ∀ c ∈ maya.weightIndexList, maya'.weight c = saved.weight c) ∧
    (∀ (indices : List Int) (t : Int) (bs' : BlendShape) (maya' : Scene),
      loadPosesSubmesh PRECISION (bs0.load saved) maya params vertices indices t
        = .ok (bs', maya') →
      ∀ c ∈ maya.weightIndexList, maya'.weight c = saved.weight c) :=
  ⟨fun _ _ _ _ h => (loadPosesShared_restored h).2.2 hil hset,
   fun _ _ _ _ h => (loadPosesSubmesh_restored h).2.2 hil hset⟩

/-- Witness of C12: the posed scene (weights 1/4 and 3/4) captured for the shared geometry:
the call returns and both channels hold their posed weights again. -/
theorem loadPoses_restore_weights_witness :
    ∃ bs' maya',
      loadPosesShared (1 / 10000) (BlendShape.new.load Scene.posed) Scene.posed {}
        demoVertices 10 0 = .ok (bs', maya') ∧
      ∀ c ∈ Scene.posed.weightIndexList, maya'.weight c = Scene.posed.weight c := by
  obtain ⟨⟨bs', maya'⟩, hr⟩ := posed_shared_returns
  exact ⟨bs', maya', hr,
    (loadPoses_restore_weights (1 / 10000) BlendShape.new Scene.posed Scene.posed {}
      demoVertices rfl (fun _ _ => rfl)).1 10 0 bs' maya' hr⟩

/-- C13, counterexample: on the posed scene, whose envelope is 1/2, `loadPosesShared`
returns with an envelope that is not the envelope saved by `load`. -/
theorem loadPosesShared_envelope_not_restored :
    ∃ bs' maya',
      loadPosesShared (1 / 10000) (BlendShape.new.load Scene.posed) Scene.posed {}
        demoVertices 10 0 = .ok (bs', maya') ∧
      maya'.envelope ≠ (BlendShape.new.load Scene.posed).m_origEnvelope := by
  obtain ⟨⟨bs', maya'⟩, hr⟩ := posed_shared_returns
  refine ⟨bs', maya', hr, ?_⟩
  rw [(loadPosesShared_restored hr).1]
  norm_num [BlendShape.load, Scene.posed]

/-- C13, amended: `loadPosesShared` and `loadPosesSubmesh` return with the envelope of the
deformer at 0, whatever it was; the envelope saved by `load` is kept in `m_origEnvelope`,
and `restoreEnvelope` called afterwards sets the deformer back to it. -/
theorem loadPoses_leave_envelope_zero (PRECISION : ℚ) (bs0 : BlendShape) (saved maya : Scene)
    (params : ParamList) (vertices : List vertex) :
    (∀ (numVertices offset : Int) (bs' : BlendShape) (maya' : Scene),
      loadPosesShared PRECISION (bs0.load saved) maya params vertices numVertices offset
        = .ok (bs', maya') →
      maya'.envelope = 0 ∧ (bs'.restoreEnvelope maya').envelope = saved.envelope) ∧
    (∀ (indices : List Int) (t : Int) (bs' : BlendShape) (maya' : Scene),
      loadPosesSubmesh PRECISION (bs0.load saved) maya params vertices indices t
        = .ok (bs', maya') →
      maya'.envelope = 0 ∧ (bs'.restoreEnvelope maya').envelope = saved.envelope) :=
  ⟨fun _ _ _ _ h => ⟨(loadPosesShared_restored h).1, (loadPosesShared_restored h).2.1⟩,
   fun _ _ _ _ h => ⟨(loadPosesSubmesh_restored h).1, (loadPosesSubmesh_restored h).2.1⟩⟩

/-- Witness of C13 amended: the posed scene captured for the shared geometry. -/
theorem loadPoses_leave_envelope_zero_witness :
    ∃ bs' maya',
      loadPosesShared (1 / 10000) (BlendShape.new.load Scene.posed) Scene.posed {}
        demoVertices 10 0 = .ok (bs', maya') ∧
      maya'.envelope = 0 ∧ (bs'.restoreEnvelope maya').envelope = Scene.posed.envelope := by
  obtain ⟨⟨bs', maya'⟩, hr⟩ := posed_shared_returns
  exact ⟨bs', maya', hr,
    (loadPoses_leave_envelope_zero (1 / 10000) BlendShape.new Scene.posed Scene.posed {}
      demoVertices).1 10 0 bs' maya' hr⟩

/-! ## A failed `setWeight` (C15) -/

theorem demo_entries_deformed :
    entriesFrom (1 / 10000) {} demoDeformed demoVertices 0 =
      [⟨2, 1, 0, 0⟩, ⟨5, 1, 0, 0⟩, ⟨7, 1, 0, 0⟩] := by
  rw [entriesFrom_eq_displaced (1 / 10000) {} demoDeformed demoVertices 0
    (fun v hv => demo_displacements_deformed v hv _ rfl)]
  exact demo_displaced_entries

theorem locked_entry (bs : BlendShape) :
    captureEntry bs Scene.locked = { Scene.locked with envelope := 1 } := rfl

theorem locked_scenes (bs : BlendShape) :
    captureScenes Scene.locked.weightIndexList (captureEntry bs Scene.locked)
      = [{ Scene.locked with envelope := 1 }] := rfl

theorem locked_pointsInRange :
    ∀ (world : Bool) (e : ℚ) (w : Int → ℚ),
      pointsInRange (Scene.locked.getPoints world e w) demoVertices := by
  intro world e w
  show pointsInRange (if w 0 = 1 then demoDeformed else demoNeutral) demoVertices
  split
  · exact demo_pointsInRange_deformed
  · exact demo_pointsInRange_neutral

theorem locked_shared_returns :
    ∃ r, loadPosesShared (1 / 10000) (BlendShape.new.load Scene.locked) Scene.locked {}
      demoVertices 10 0 = .ok r :=
  loadPosesShared_total (1 / 10000) (BlendShape.new.load Scene.locked) Scene.locked {}
    demoVertices 10 0 ⟨_, new_group_zero⟩ (by decide) (by simp [demoVertices])
    (by
      intro world e w
      have h := locked_pointsInRange world e w
      simpa [demoVertices] using h)
    (by simp [BlendShape.load, Scene.locked, Scene.still])

/-- C15, counterexample: the only channel of the scene `Scene.locked` cannot be set, so
the call `setWeight(indexList[0], 1)` fails; `loadPosesShared` returns all the same with
the pose of that channel (`blendShapeIndex = 0`) stored in group 0, captured from the mesh
as it stands. -/
theorem loadPosesShared_failed_setWeight_not_skipped :
    (Scene.locked.setWeight 0 1).2 = false ∧
    posesOf (BlendShape.new.load Scene.locked) 0 = [] ∧
    ∃ bs' maya',
      loadPosesShared (1 / 10000) (BlendShape.new.load Scene.locked) Scene.locked {}
        demoVertices 10 0 = .ok (bs', maya') ∧
      posesOf bs' 0 = [demoCaptured] ∧ demoCaptured.blendShapeIndex = 0 := by
  refine ⟨rfl, rfl, ?_⟩
  obtain ⟨⟨bs', maya'⟩, hr⟩ := locked_shared_returns
  refine ⟨bs', maya', hr, ?_, rfl⟩
  have hs := (loadPosesShared_steps hr).1
  rw [locked_scenes] at hs
  simp only [captureShared] at hs
  have hp := loadPoseShared_eq (1 / 10000)
    (BlendShape.breakConnections
      { BlendShape.new.load Scene.locked with m_target := .T_MESH }
      (Scene.locked.setEnvelope 1)).1
    { Scene.locked with envelope := 1 } {} demoVertices 10 0
    (poseNameShared { Scene.locked with envelope := 1 } Scene.locked.aliasAttr 0) (0 : Nat)
    { targetIndex := 0, poses := [] } new_group_zero (le_refl 0) (by simp [demoVertices])
    (by
      have h := locked_pointsInRange false 1 (fun _ => 1)
      simpa [demoVertices] using h)
  rw [hp, bind_ok_eq] at hs
  simp only [Except.ok.injEq] at hs
  rw [← hs, demo_block]
  have hpts : ({ Scene.locked with envelope := 1 } : Scene).getPoints
      ({} : ParamList).exportWorldCoords 1 (fun _ => 1) = demoDeformed := by
    simp [Scene.locked, Scene.still]
  have hpts' : ({ Scene.locked with envelope := 1 } : Scene).getPoints
      ({} : ParamList).exportWorldCoords
      ({ Scene.locked with envelope := 1 } : Scene).envelope
      ({ Scene.locked with envelope := 1 } : Scene).weight = demoDeformed := hpts
  rw [hpts', demo_entries_deformed]
  simp [storePose, posesOf, BlendShape.setGroup, demoCaptured, poseNameShared, findPoseName,
    defaultPoseName, Scene.locked, Scene.still, BlendShape.breakConnections,
    BlendShape.breakConnectionsLoop, BlendShape.load, BlendShape.new, BlendShape.clear]

theorem setWeight_failed_iff (m : Scene) (i : Int) (w : ℚ) :
    (m.setWeight i w).2 = false ↔ m.weightSettable i = false := by
  unfold Scene.setWeight
  cases h : m.weightSettable i <;> simp

/-- C15, amended: when the call `setWeight(indexList[i], 1)` fails, the capture loops of
`loadPosesShared` and `loadPosesSubmesh` still call `loadPoseShared` / `loadPoseSubmesh`
for that channel, on the scene as it stands (so the pose is stored when the mesh shows an
offset), and then go on with the remaining channels from the same scene; a failure of that
channel alone does not make the loop fail. -/
theorem posesLoop_failed_setWeight_still_captures (PRECISION : ℚ) (params : ParamList)
    (vertices : List vertex) (poseNames : List String) (w : Int) (rest : List Int) (i : Nat)
    (bs : BlendShape) (maya : Scene) (hfail : (maya.setWeight w 1).2 = false) :
    (∀ (numVertices offset : Int),
      posesSharedLoop PRECISION params vertices numVertices offset poseNames (w :: rest) i
          (bs, maya) =
        loadPoseShared PRECISION bs maya params vertices numVertices offset
            (poseNameShared maya poseNames i) i >>= fun bs1 =>
          posesSharedLoop PRECISION params vertices numVertices offset poseNames rest (i + 1)
            (bs1, maya)) ∧
    (∀ (indices : List Int) (t : Int),
      posesSubmeshLoop PRECISION params vertices indices t poseNames (w :: rest) i
          (bs, maya) =
        loadPoseSubmesh PRECISION bs maya params vertices indices
            (poseNameSubmesh maya poseNames t i) t i >>= fun bs1 =>
          posesSubmeshLoop PRECISION params vertices indices t poseNames rest (i + 1)
            (bs1, maya)) := by
  have hf : maya.weightSettable w = false := (setWeight_failed_iff maya w 1).mp hfail
  have h1 : maya.setWeight w 1 = (maya, false) := setWeight_failed maya w 1 hf
  have h0 : maya.setWeight w 0 = (maya, false) := setWeight_failed maya w 0 hf
  constructor
  · intro numVertices offset
    simp only [posesSharedLoop, h1, h0]
  · intro indices t
    simp only [posesSubmeshLoop, h1, h0]

/-- Witness of C15 amended: the locked channel of `Scene.locked`. -/
theorem posesLoop_failed_setWeight_still_captures_witness :
    (Scene.locked.setWeight 0 1).2 = false ∧
    posesSharedLoop (1 / 10000) {} demoVertices 10 0 [] [0] 0 (BlendShape.new, Scene.locked) =
      loadPoseShared (1 / 10000) BlendShape.new Scene.locked {} demoVertices 10 0
          (poseNameShared Scene.locked [] 0) (0 : Nat) >>= fun bs1 =>
        posesSharedLoop (1 / 10000) {} demoVertices 10 0 [] [] (0 + 1) (bs1, Scene.locked) :=
  ⟨rfl, (posesLoop_failed_setWeight_still_captures (1 / 10000) {} demoVertices [] 0 [] 0
    BlendShape.new Scene.locked rfl).1 10 0⟩

/-! ## The clip lengths (C19) -/

/-- With a rate that is not positive the loop over the sample times of `writeClipLengths`
never leaves a time below `stop`: it uses up any amount of fuel. -/
theorem timesLoop_diverges (stop rate : ℚ) (hrate : rate ≤ 0) :
    ∀ (fuel : Nat) (t : ℚ) (times : List ℚ), t < stop →
      OgreExporter.timesLoop stop rate fuel t times = .error .outOfFuel := by
  intro fuel
  induction fuel with
  | zero => intro t times ht; simp [OgreExporter.timesLoop, ht]
  | succ n ih =>
    intro t times ht
    simp only [OgreExporter.timesLoop, if_pos ht]
    exact ih (t + rate) _ (by linarith)

/-- The loop over the clips does not return when one of them has a rate that is not
positive and starts before it stops. -/
theorem clipLoop_never_returns (fuel : Nat) :
    ∀ (clips : List clipInfo) (i : Nat) (out : List AnimItem),
      (∃ c ∈ clips, c.rate ≤ 0 ∧ c.start < c.stop) →
      ∀ r, OgreExporter.clipLoop fuel clips i out ≠ .ok r := by
  intro clips
  induction clips with
  | nil => intro i out h; obtain ⟨c, hc, _⟩ := h; cases hc
  | cons c rest ih =>
    intro i out h r hr
    simp only [OgreExporter.clipLoop] at hr
    cases hl : OgreExporter.timesLoop c.stop c.rate fuel c.start [] with
    | error e => rw [hl] at hr; simp [bind_error_eq] at hr
    | ok looped =>
      rw [hl, bind_ok_eq] at hr
      have hrest : ∃ c' ∈ rest, c'.rate ≤ 0 ∧ c'.start < c'.stop := by
        obtain ⟨c', hc', h1, h2⟩ := h
        rcases List.mem_cons.mp hc' with heq | hin
        · subst heq
          rw [timesLoop_diverges _ _ h1 fuel _ _ h2] at hl
          cases hl
        · exact ⟨c', hin, h1, h2⟩
      cases h1 : vecGet (looped ++ [c.stop]) (((looped ++ [c.stop]).length : Int) - 1) with
      | error e => rw [h1] at hr; simp [bind_error_eq] at hr
      | ok last =>
        rw [h1, bind_ok_eq] at hr
        cases h2 : vecGet (looped ++ [c.stop]) 0 with
        | error e => rw [h2] at hr; simp [bind_error_eq] at hr
        | ok first =>
          rw [h2, bind_ok_eq] at hr
          exact ih _ _ hrest r hr

/-- C19 (the code on clips of rate `<= 0`): in a vertex-animation export (`exportMesh` and
`exportVertAnims`), when a clip of the list has a rate that is not positive and starts
before it stops, `writeClipLengths` does not return, whatever the fuel: the loop
`for (t=start; t<stop; t+=rate)` has no test of the rate and never ends. -/
theorem writeClipLengths_nonpositive_rate_never_returns (fuel : Nat) (e : OgreExporter)
    (hmesh : e.m_params.exportMesh = true) (hvert : e.m_params.exportVertAnims = true)
    (hclip : ∃ c ∈ e.m_params.vertClipList, c.rate ≤ 0 ∧ c.start < c.stop) :
    ∀ r, OgreExporter.writeClipLengths fuel e ≠ .ok r := by
  intro r hr
  unfold OgreExporter.writeClipLengths at hr
  simp only [hmesh, hvert, Bool.and_self, if_true] at hr
  have hlist : (if e.m_params.vertClipList.length = 0 then { e with stat := MStatus.kFailure }
      else e).m_params = e.m_params := by
    split <;> rfl
  rw [hlist] at hr
  cases hl : OgreExporter.clipLoop fuel e.m_params.vertClipList 0 e.m_params.outAnim with
  | error err => rw [hl] at hr; simp [bind_error_eq] at hr
  | ok out => exact clipLoop_never_returns fuel _ _ _ hclip out hl

/-- Witness of C19: the export `demoZeroRate`, whose first clip goes from 0 to 1 at rate 0;
the clip `walk` after it, of rate 1/2, is never reached. -/
theorem writeClipLengths_nonpositive_rate_never_returns_witness :
    ¬ ∃ (fuel : Nat) (r : OgreExporter × MStatus),
      OgreExporter.writeClipLengths fuel
        (OgreExporter.fresh demoZeroRate (World.demo 0 [] (DagNode.leaf 0))) = .ok r :=
  fun ⟨fuel, r, h⟩ =>
    writeClipLengths_nonpositive_rate_never_returns fuel
      (OgreExporter.fresh demoZeroRate (World.demo 0 [] (DagNode.leaf 0))) rfl rfl
      ⟨{ start := 0, stop := 1, rate := 0, name := "idle" },
        by simp [OgreExporter.fresh, demoZeroRate], by norm_num, by norm_num⟩ r h

/-! ## Frame of the export command -/

theorem Follows.run_refl (e : OgreExporter) : Follows e e :=
  ⟨rfl, rfl, ⟨e.m_params.outAnim, rfl⟩, ⟨[], by simp⟩⟩

theorem Follows.run_trans {a b c : OgreExporter} (h1 : Follows a b) (h2 : Follows b c) :
    Follows a c := by
  obtain ⟨a1, a2, ⟨out1, a3⟩, ⟨m1, a4⟩⟩ := h1
  obtain ⟨b1, b2, ⟨out2, b3⟩, ⟨m2, b4⟩⟩ := h2
  refine ⟨b1.trans a1, b2.trans a2, ⟨out2, ?_⟩, ⟨m1 ++ m2, ?_⟩⟩
  · rw [b3, a3]
  · rw [b4, a4, List.append_assoc]

theorem follows_stat (e : OgreExporter) (st : MStatus) : Follows e { e with stat := st } :=
  ⟨rfl, rfl, ⟨e.m_params.outAnim, rfl⟩, ⟨[], by simp⟩⟩

theorem follows_invoke (o : Oracle) (c : Call) (e : OgreExporter) :
    Follows e (OgreExporter.invoke o c e).1 :=
  ⟨rfl, rfl, ⟨e.m_params.outAnim, rfl⟩, ⟨_, rfl⟩⟩

theorem follows_writeAnim (o : Oracle) (c : Nat) (e : OgreExporter) :
    Follows e (OgreExporter.writeAnim o c e).1 :=
  ⟨rfl, rfl, ⟨_, rfl⟩, ⟨_, rfl⟩⟩

theorem follows_writeAnimCurves (o : Oracle) :
    ∀ (l : List Nat) (e : OgreExporter), Follows e (OgreExporter.writeAnimCurves o l e).1 := by
  intro l
  induction l with
  | nil => intro e; exact Follows.run_refl e
  | cons c rest ih =>
    intro e
    simp only [OgreExporter.writeAnimCurves]
    have h1 := follows_writeAnim o c e
    generalize OgreExporter.writeAnim o c e = r at h1
    obtain ⟨e1, st⟩ := r
    cases st with
    | kSuccess => exact h1.run_trans ((follows_stat e1 _).run_trans (ih _))
    | kFailure => exact h1.run_trans (follows_stat e1 _)

theorem follows_translateCurves (o : Oracle) (info : NodeInfo) (e : OgreExporter) :
    Follows e (OgreExporter.translateCurves o info e).1 := by
  unfold OgreExporter.translateCurves
  split
  · split
    · exact (follows_stat e _).run_trans (follows_writeAnimCurves o _ _)
    · exact follows_stat e _
  · exact Follows.run_refl e

theorem follows_translateShape (o : Oracle) (info : NodeInfo) (n : Nat) (e : OgreExporter) :
    Follows e (OgreExporter.translateShape o info n e).1 := by
  unfold OgreExporter.translateShape
  split
  · split
    · exact (follows_invoke o _ e).run_trans (follows_stat _ _)
    · exact Follows.run_refl e
  · split
    · split
      · exact (follows_invoke o _ e).run_trans (follows_stat _ _)
      · exact Follows.run_refl e
    · split
      · split
        · exact (follows_invoke o _ e).run_trans (follows_stat _ _)
        · exact Follows.run_refl e
      · exact Follows.run_refl e

mutual
theorem follows_translateNode (o : Oracle) :
    ∀ (n : DagNode) (e : OgreExporter), Follows e (OgreExporter.translateNode o n e).1
  | .mk info children, e => by
    simp only [OgreExporter.translateNode]
    have h1 := follows_translateCurves o info e
    generalize OgreExporter.translateCurves o info e = r1 at h1
    obtain ⟨e1, st1⟩ := r1
    cases st1 with
    | kFailure => exact h1
    | kSuccess =>
      dsimp only
      have h2 := follows_translateShape o info children.length e1
      generalize OgreExporter.translateShape o info children.length e1 = r2 at h2 ⊢
      obtain ⟨e2, st2⟩ := r2
      cases st2 with
      | kFailure => exact h1.run_trans h2
      | kSuccess => exact (h1.run_trans h2).run_trans (follows_translateChildren o children e2)
theorem follows_translateChildren (o : Oracle) :
    ∀ (l : List (Bool × DagNode)) (e : OgreExporter),
      Follows e (OgreExporter.translateChildren o l e).1
  | [], e => Follows.run_refl e
  | (pushed, child) :: rest, e => by
    simp only [OgreExporter.translateChildren]
    cases pushed with
    | false => exact follows_stat e _
    | true =>
      simp only [if_true]
      have h1 := follows_translateNode o child { e with stat := .kSuccess }
      generalize OgreExporter.translateNode o child { e with stat := .kSuccess } = r at h1
      obtain ⟨e1, st⟩ := r
      cases st with
      | kSuccess =>
        exact (follows_stat e _).run_trans
          (h1.run_trans ((follows_stat e1 _).run_trans (follows_translateChildren o rest _)))
      | kFailure => exact (follows_stat e _).run_trans (h1.run_trans (follows_stat e1 _))
end

theorem follows_translateSelection (o : Oracle) :
    ∀ (l : List DagNode) (e : OgreExporter),
      Follows e (OgreExporter.translateSelection o l e) := by
  intro l
  induction l with
  | nil => intro e; exact Follows.run_refl e
  | cons n rest ih =>
    intro e
    simp only [OgreExporter.translateSelection]
    exact (follows_translateNode o n e).run_trans ((follows_stat _ _).run_trans (ih _))

theorem follows_writeOgreData (o : Oracle) (e : OgreExporter) :
    Follows e (OgreExporter.writeOgreData o e).1 := by
  unfold OgreExporter.writeOgreData
  dsimp only
  have s1 : Follows e (if e.m_params.exportMesh then
      { (OgreExporter.invoke o .meshWriteOgreBinary e).1 with
        stat := (OgreExporter.invoke o .meshWriteOgreBinary e).2 } else e) := by
    split
    · exact (follows_invoke o _ e).run_trans (follows_stat _ _)
    · exact Follows.run_refl e
  generalize (if e.m_params.exportMesh then
      { (OgreExporter.invoke o .meshWriteOgreBinary e).1 with
        stat := (OgreExporter.invoke o .meshWriteOgreBinary e).2 } else e) = e1 at s1 ⊢
  have s2 : Follows e1 (if e1.m_params.exportSkeleton then
      if o.hasSkeleton e1.world then
        { (OgreExporter.invoke o .skeletonWriteOgreBinary e1).1 with
          stat := (OgreExporter.invoke o .skeletonWriteOgreBinary e1).2 }
      else e1 else e1) := by
    split
    · split
      · exact (follows_invoke o _ e1).run_trans (follows_stat _ _)
      · exact Follows.run_refl e1
    · exact Follows.run_refl e1
  generalize (if e1.m_params.exportSkeleton then
      if o.hasSkeleton e1.world then
        { (OgreExporter.invoke o .skeletonWriteOgreBinary e1).1 with
          stat := (OgreExporter.invoke o .skeletonWriteOgreBinary e1).2 }
      else e1 else e1) = e2 at s2 ⊢
  have s3 : Follows e2 (if e2.m_params.exportMaterial then
      { (OgreExporter.invoke o .writeOgreScript e2).1 with
        stat := (OgreExporter.invoke o .writeOgreScript e2).2 } else e2) := by
    split
    · exact (follows_invoke o _ e2).run_trans (follows_stat _ _)
    · exact Follows.run_refl e2
  exact (s1.run_trans s2).run_trans s3

theorem follows_writeClipLengths (fuel : Nat) (e e' : OgreExporter) (st : MStatus)
    (h : OgreExporter.writeClipLengths fuel e = .ok (e', st)) :
    Follows e e' ∧ e'.world = e.world := by
  unfold OgreExporter.writeClipLengths at h
  split at h
  · have hp : (if e.m_params.vertClipList.length = 0 then { e with stat := MStatus.kFailure }
        else e).m_params = e.m_params := by
      split <;> rfl
    have hf : Follows e (if e.m_params.vertClipList.length = 0 then
        { e with stat := MStatus.kFailure } else e) := by
      split
      · exact follows_stat e _
      · exact Follows.run_refl e
    have hw : (if e.m_params.vertClipList.length = 0 then { e with stat := MStatus.kFailure }
        else e).world = e.world := by
      split <;> rfl
    generalize (if e.m_params.vertClipList.length = 0 then { e with stat := MStatus.kFailure }
        else e) = e1 at h hp hf hw
    dsimp only at h
    cases hl : OgreExporter.clipLoop fuel e1.m_params.vertClipList 0 e1.m_params.outAnim with
    | error err => rw [hl] at h; simp [bind_error_eq] at h
    | ok out =>
      rw [hl, bind_ok_eq] at h
      have hf2 : Follows e1 { e1 with m_params := { e1.m_params with outAnim := out } } :=
        ⟨rfl, rfl, ⟨out, rfl⟩, ⟨[], by simp⟩⟩
      split at h
      · simp only [Except.ok.injEq, Prod.mk.injEq] at h
        rw [← h.1]
        exact ⟨hf.run_trans hf2, hw⟩
      · simp only [Except.ok.injEq, Prod.mk.injEq] at h
        rw [← h.1]
        exact ⟨hf.run_trans hf2, hw⟩
  · split at h
    · simp only [Except.ok.injEq, Prod.mk.injEq] at h
      rw [← h.1]
      exact ⟨⟨rfl, rfl, ⟨_, rfl⟩, ⟨[], by simp⟩⟩, rfl⟩
    · simp only [Except.ok.injEq, Prod.mk.injEq] at h
      rw [← h.1]
      exact ⟨Follows.run_refl e, rfl⟩

/-- What `exit()` leaves: the saved selection and the saved time. -/
theorem exit_restores (e : OgreExporter) :
    (OgreExporter.exit e).world.currentTime = e.m_curTime ∧
    (OgreExporter.exit e).world.activeSelection = e.m_selList ∧
    (OgreExporter.exit e).calls = e.calls ++ [(.closeFiles, .kSuccess)] :=
  ⟨rfl, rfl, rfl⟩

/-- The end of `doIt` returns `kSuccess` after `exit()`, when it returns. -/
theorem finishExport_ok (fuel : Nat) (o : Oracle) (e r : OgreExporter) (st : MStatus)
    (h : OgreExporter.finishExport fuel o e = .ok (r, st)) :
    st = .kSuccess ∧ ∃ e8, Follows e e8 ∧ r = OgreExporter.exit e8 := by
  unfold OgreExporter.finishExport at h
  dsimp only at h
  have s1 : Follows e (if e.m_params.exportVertAnims then
      (OgreExporter.invoke o .loadAnims e).1 else e) := by
    split
    · exact follows_invoke o _ e
    · exact Follows.run_refl e
  generalize (if e.m_params.exportVertAnims then
      (OgreExporter.invoke o .loadAnims e).1 else e) = e1 at h s1
  have s2 : Follows e1 (if e1.m_params.exportBlendShapes then
      (OgreExporter.invoke o .loadBlendShapes e1).1 else e1) := by
    split
    · exact follows_invoke o _ e1
    · exact Follows.run_refl e1
  generalize (if e1.m_params.exportBlendShapes then
      (OgreExporter.invoke o .loadBlendShapes e1).1 else e1) = e2 at h s2
  have s3 : Follows e2 (if o.hasSkeleton e2.world then
      (OgreExporter.invoke o .restorePose e2).1 else e2) := by
    split
    · exact follows_invoke o _ e2
    · exact Follows.run_refl e2
  generalize (if o.hasSkeleton e2.world then
      (OgreExporter.invoke o .restorePose e2).1 else e2) = e3 at h s3
  have s4 : Follows e3 (if (o.hasSkeleton e3.world && e3.m_params.exportSkelAnims) = true then
      (OgreExporter.invoke o .skeletonLoadAnims e3).1 else e3) := by
    split
    · exact follows_invoke o _ e3
    · exact Follows.run_refl e3
  generalize (if (o.hasSkeleton e3.world && e3.m_params.exportSkelAnims) = true then
      (OgreExporter.invoke o .skeletonLoadAnims e3).1 else e3) = e4 at h s4
  have s5 := follows_writeOgreData o e4
  generalize OgreExporter.writeOgreData o e4 = r5 at h s5
  obtain ⟨e5, st5⟩ := r5
  dsimp only at h s5
  cases hc : OgreExporter.writeClipLengths fuel { e5 with stat := st5 } with
  | error err => rw [hc] at h; simp [bind_error_eq] at h
  | ok r7 =>
    obtain ⟨e7, st7⟩ := r7
    rw [hc, bind_ok_eq] at h
    simp only [Except.ok.injEq, Prod.mk.injEq] at h
    obtain ⟨s7, _⟩ := follows_writeClipLengths fuel _ _ _ hc
    refine ⟨h.2.symm, { e7 with stat := st7 }, ?_, h.1.symm⟩
    exact ((((s1.run_trans s2).run_trans s3).run_trans s4).run_trans s5).run_trans
      ((follows_stat e5 st5).run_trans (s7.run_trans (follows_stat e7 st7)))

theorem follows_flags {e e' : OgreExporter} (h : Follows e e') :
    e'.m_params.exportMesh = e.m_params.exportMesh ∧
    e'.m_params.exportVertAnims = e.m_params.exportVertAnims ∧
    e'.m_params.exportMaterial = e.m_params.exportMaterial ∧
    e'.m_params.exportSkeleton = e.m_params.exportSkeleton ∧
    e'.m_params.exportAnimCurves = e.m_params.exportAnimCurves ∧
    e'.m_params.exportAnimCurvesXML = e.m_params.exportAnimCurvesXML ∧
    e'.m_params.exportCameras = e.m_params.exportCameras ∧
    e'.m_params.exportParticles = e.m_params.exportParticles := by
  obtain ⟨_, _, ⟨out, hp⟩, _⟩ := h
  rw [hp]
  exact ⟨rfl, rfl, rfl, rfl, rfl, rfl, rfl, rfl⟩

/-- Without vertex animation of a mesh, `writeClipLengths` returns `kSuccess` for any
fuel. -/
theorem writeClipLengths_no_clips (fuel : Nat) (e : OgreExporter)
    (h : (e.m_params.exportMesh && e.m_params.exportVertAnims) = false) :
    ∃ e', OgreExporter.writeClipLengths fuel e = .ok (e', .kSuccess) := by
  unfold OgreExporter.writeClipLengths
  rw [h]
  simp only [Bool.false_eq_true, if_false]
  split
  · exact ⟨_, rfl⟩
  · exact ⟨_, rfl⟩

/-- Without vertex animation of a mesh the end of `doIt` returns, for any fuel. -/
theorem finishExport_total (fuel : Nat) (o : Oracle) (e : OgreExporter)
    (h : (e.m_params.exportMesh && e.m_params.exportVertAnims) = false) :
    ∃ r, OgreExporter.finishExport fuel o e = .ok (r, .kSuccess) := by
  unfold OgreExporter.finishExport
  dsimp only
  have s1 : Follows e (if e.m_params.exportVertAnims then
      (OgreExporter.invoke o .loadAnims e).1 else e) := by
    split
    · exact follows_invoke o _ e
    · exact Follows.run_refl e
  generalize (if e.m_params.exportVertAnims then
      (OgreExporter.invoke o .loadAnims e).1 else e) = e1 at s1 ⊢
  have s2 : Follows e1 (if e1.m_params.exportBlendShapes then
      (OgreExporter.invoke o .loadBlendShapes e1).1 else e1) := by
    split
    · exact follows_invoke o _ e1
    · exact Follows.run_refl e1
  generalize (if e1.m_params.exportBlendShapes then
      (OgreExporter.invoke o .loadBlendShapes e1).1 else e1) = e2 at s2 ⊢
  have s3 : Follows e2 (if o.hasSkeleton e2.world then
      (OgreExporter.invoke o .restorePose e2).1 else e2) := by
    split
    · exact follows_invoke o _ e2
    · exact Follows.run_refl e2
  generalize (if o.hasSkeleton e2.world then
      (OgreExporter.invoke o .restorePose e2).1 else e2) = e3 at s3 ⊢
  have s4 : Follows e3 (if (o.hasSkeleton e3.world && e3.m_params.exportSkelAnims) = true then
      (OgreExporter.invoke o .skeletonLoadAnims e3).1 else e3) := by
    split
    · exact follows_invoke o _ e3
    · exact Follows.run_refl e3
  generalize (if (o.hasSkeleton e3.world && e3.m_params.exportSkelAnims) = true then
      (OgreExporter.invoke o .skeletonLoadAnims e3).1 else e3) = e4 at s4 ⊢
  have s5 := follows_writeOgreData o e4
  generalize OgreExporter.writeOgreData o e4 = r5 at s5 ⊢
  obtain ⟨e5, st5⟩ := r5
  dsimp only at s5 ⊢
  have hall : Follows e { e5 with stat := st5 } :=
    ((((s1.run_trans s2).run_trans s3).run_trans s4).run_trans s5).run_trans
      (follows_stat e5 st5)
  obtain ⟨f1, f2, _⟩ := follows_flags hall
  obtain ⟨e7, h7⟩ := writeClipLengths_no_clips fuel { e5 with stat := st5 }
    (by rw [f1, f2]; exact h)
  rw [h7, bind_ok_eq]
  exact ⟨_, rfl⟩

theorem exit_of_follows {a b : OgreExporter} (h : Follows a b) :
    (OgreExporter.exit b).world.currentTime = a.m_curTime ∧
    (OgreExporter.exit b).world.activeSelection = a.m_selList :=
  ⟨h.2.1, h.1⟩

/-- What `doIt` leaves when it returns: the time of the entry, the selection saved at the
entry; it returns `kFailure` only when the selection list cannot be read. -/
theorem doIt_ok (fuel : Nat) (o : Oracle) (params : ParamList) (e r : OgreExporter)
    (st : MStatus) (h : OgreExporter.doIt fuel o params e = .ok (r, st)) :
    r.world.currentTime = e.world.currentTime ∧
    r.world.activeSelection =
      (if o.selectionListStatus e.world then e.world.activeSelection else e.m_selList) ∧
    (st = .kFailure → params.exportAll = false ∧ o.selectionListStatus e.world = false) := by
  unfold OgreExporter.doIt at h
  dsimp only [OgreExporter.fileCall] at h
  cases hs : o.selectionListStatus e.world <;> cases ha : params.exportAll <;>
    simp only [hs, ha, if_true, if_false, Bool.false_eq_true] at h ⊢
  · simp only [Except.ok.injEq, Prod.mk.injEq] at h
    obtain ⟨rfl, rfl⟩ := h
    exact ⟨rfl, rfl, fun _ => ⟨trivial, trivial⟩⟩
  · obtain ⟨hst, e8, hf, rfl⟩ := finishExport_ok fuel o _ _ _ h
    have h5 := (follows_translateNode o e.world.root _).run_trans (follows_stat _ _) |>.run_trans hf
    obtain ⟨t1, t2⟩ := exit_of_follows h5
    exact ⟨t1, t2, fun hc => by rw [hst] at hc; cases hc⟩
  · obtain ⟨hst, e8, hf, rfl⟩ := finishExport_ok fuel o _ _ _ h
    have h5 := (follows_translateSelection o e.world.activeSelection _).run_trans hf
    obtain ⟨t1, t2⟩ := exit_of_follows h5
    exact ⟨t1, t2, fun hc => by rw [hst] at hc; cases hc⟩
  · obtain ⟨hst, e8, hf, rfl⟩ := finishExport_ok fuel o _ _ _ h
    have h5 := (follows_translateNode o e.world.root _).run_trans (follows_stat _ _) |>.run_trans hf
    obtain ⟨t1, t2⟩ := exit_of_follows h5
    exact ⟨t1, t2, fun hc => by rw [hst] at hc; cases hc⟩

theorem finishExport_total_of_follows (fuel : Nat) (o : Oracle) (e0 e1 : OgreExporter)
    (hf : Follows e0 e1)
    (hc : (e0.m_params.exportMesh && e0.m_params.exportVertAnims) = false) :
    ∃ r st, OgreExporter.finishExport fuel o e1 = .ok (r, st) := by
  obtain ⟨f1, f2, _⟩ := follows_flags hf
  obtain ⟨r, hr⟩ := finishExport_total fuel o e1 (by rw [f1, f2]; exact hc)
  exact ⟨r, _, hr⟩

/-- Without vertex animation of a mesh `doIt` returns, for any fuel. -/
theorem doIt_total (fuel : Nat) (o : Oracle) (params : ParamList) (e : OgreExporter)
    (hc : (params.exportMesh && params.exportVertAnims) = false) :
    ∃ r st, OgreExporter.doIt fuel o params e = .ok (r, st) := by
  unfold OgreExporter.doIt
  dsimp only [OgreExporter.fileCall]
  cases hs : o.selectionListStatus e.world <;> cases ha : params.exportAll <;>
    simp only [hs, ha, if_true, if_false, Bool.false_eq_true]
  · exact ⟨_, _, rfl⟩
  · exact finishExport_total_of_follows fuel o _ _
      ((follows_translateNode o e.world.root _).run_trans (follows_stat _ _)) hc
  · exact finishExport_total_of_follows fuel o _ _
      (follows_translateSelection o e.world.activeSelection _) hc
  · exact finishExport_total_of_follows fuel o _ _
      ((follows_translateNode o e.world.root _).run_trans (follows_stat _ _)) hc

/-! ## Claims on the export command (C16, C18) -/

/-- What `doIt` restores: whenever it returns, with `kSuccess` or with `kFailure` (the
selection list could not be read), the current time is the time of the entry and the active
selection is the member `m_selList`, that is the active selection of the entry when
`getActiveSelectionList` answered at the entry and the list the member held before when it
did not, whatever the calls made in between did to them; the failure path returns for any
fuel, and so does the success path of an export without vertex animation of a mesh. -/
theorem doIt_restores_time_and_selection (fuel : Nat) (o : Oracle) (params : ParamList)
    (e : OgreExporter) :
    (∀ (r : OgreExporter) (st : MStatus), OgreExporter.doIt fuel o params e = .ok (r, st) →
      r.world.currentTime = e.world.currentTime ∧
      r.world.activeSelection =
        (if o.selectionListStatus e.world then e.world.activeSelection else e.m_selList)) ∧
    (params.exportAll = false → o.selectionListStatus e.world = false →
      ∃ r, OgreExporter.doIt fuel o params e = .ok (r, .kFailure)) ∧
    ((params.exportMesh && params.exportVertAnims) = false →
      ∃ r st, OgreExporter.doIt fuel o params e = .ok (r, st)) := by
  refine ⟨?_, ?_, doIt_total fuel o params e⟩
  · intro r st h
    exact ⟨(doIt_ok fuel o params e r st h).1, (doIt_ok fuel o params e r st h).2.1⟩
  · intro ha hs
    unfold OgreExporter.doIt
    dsimp only [OgreExporter.fileCall]
    simp only [hs, ha, if_false, Bool.false_eq_true]
    exact ⟨_, rfl⟩

/-- The whole scene exported while every call moves the time to 99 and empties the
selection: `doIt` returns with the time 5 and the selection of the entry. -/
theorem doIt_restores_time_and_selection_witness :
    ∃ r st,
      OgreExporter.doIt 0 Oracle.scrubbing demoExportAll
        (OgreExporter.fresh {} (World.demo 5 [DagNode.leaf 7] DagNode.brokenChild))
        = .ok (r, st) ∧
      r.world.currentTime = 5 ∧ r.world.activeSelection = [DagNode.leaf 7] := by
  obtain ⟨r, st, h⟩ := (doIt_restores_time_and_selection 0 Oracle.scrubbing demoExportAll
    (OgreExporter.fresh {} (World.demo 5 [DagNode.leaf 7] DagNode.brokenChild))).2.2 rfl
  have hr := (doIt_restores_time_and_selection 0 Oracle.scrubbing demoExportAll
    (OgreExporter.fresh {} (World.demo 5 [DagNode.leaf 7] DagNode.brokenChild))).1 r st h
  exact ⟨r, st, h, hr.1, hr.2⟩

/-- C16 (the code at the failing input): in the DAG `DagNode.brokenChild` the path to the
child of the root cannot be built and `translateNode` returns `kFailure`; `doIt` stores
that status without testing it, goes on to load the vertex, blend-shape and skeleton
animations, to write the data and the clip lengths, and returns `kSuccess`. -/
theorem doIt_ignores_translateNode_failure (fuel : Nat) :
    (∀ e : OgreExporter,
      (OgreExporter.translateNode Oracle.withSkeleton DagNode.brokenChild e).2 = .kFailure) ∧
    Except.map (fun r => (r.2, r.1.calls.map Prod.fst, r.1.m_params.outAnim.length))
      (OgreExporter.doIt fuel Oracle.withSkeleton demoExportAll
        (OgreExporter.fresh {} (World.demo 0 [] DagNode.brokenChild)))
      = .ok (.kSuccess,
          [.openFiles, .loadAnims, .loadBlendShapes, .restorePose, .skeletonLoadAnims,
           .writeOgreScript, .closeFiles], 18) := by
  constructor
  · intro e
    simp [OgreExporter.translateNode, OgreExporter.translateChildren, DagNode.brokenChild,
      OgreExporter.translateCurves, OgreExporter.translateShape, OgreExporter.writeAnimCurves]
    split <;> rfl
  · simp [OgreExporter.doIt, OgreExporter.finishExport, OgreExporter.translateNode,
      OgreExporter.translateChildren, DagNode.brokenChild, OgreExporter.translateCurves,
      OgreExporter.translateShape, OgreExporter.writeAnimCurves, OgreExporter.fresh,
      World.demo, Oracle.withSkeleton, Oracle.quiet, demoExportAll, OgreExporter.fileCall,
      OgreExporter.invoke, OgreExporter.statusOf, OgreExporter.writeOgreData,
      OgreExporter.writeClipLengths, OgreExporter.exit, Except.map, bind_ok_eq]

/-! ## The traversal of the DAG (C17) -/

theorem follows_wanted {e e' : OgreExporter} (h : Follows e e') :
    meshWanted e'.m_params = meshWanted e.m_params := by
  obtain ⟨f1, _, f3, f4, _⟩ := follows_flags h
  simp only [meshWanted, f1, f3, f4]

/-- A step that makes no call. -/
theorem traversed_none (o : Oracle) (e e' : OgreExporter) (hc : e'.calls = e.calls) :
    Traversed o e (e', .kSuccess) [] false :=
  ⟨[], by simp [hc], (fun h => by cases h), fun _ _ => ⟨rfl, rfl⟩⟩

/-- Two parts of the traversal, one after the other. -/
theorem traversed_seq (o : Oracle) {e e1 e1' : OgreExporter} {r : OgreExporter × MStatus}
    {l1 l2 : List Nat} {b1 b2 : Bool}
    (h1 : Traversed o e (e1, .kSuccess) l1 b1) (hc : e1'.calls = e1.calls)
    (h2 : Traversed o e1' r l2 b2) : Traversed o e r (l1 ++ l2) (b1 || b2) := by
  obtain ⟨m1, c1, _, s1⟩ := h1
  obtain ⟨m2, c2, f2, s2⟩ := h2
  refine ⟨m1 ++ m2, ?_, ?_, ?_⟩
  · rw [c2, hc, c1, List.append_assoc]
  · intro hf
    rcases f2 hf with hb | ⟨c, hw, hm⟩
    · left; simp [hb]
    · right; exact ⟨c, hw, List.mem_append_right _ hm⟩
  · intro hw hb
    simp only [Bool.or_eq_false_iff] at hb
    obtain ⟨_, t1⟩ := s1 hw hb.1
    obtain ⟨t2, t3⟩ := s2 hw hb.2
    refine ⟨t2, ?_⟩
    rw [List.filterMap_append, t1, t3]

/-- A part of the traversal that stops on a failure. -/
theorem traversed_stop (o : Oracle) {e e1 e1' : OgreExporter} {l1 : List Nat} {b1 : Bool}
    (h1 : Traversed o e (e1, .kFailure) l1 b1) (hc : e1'.calls = e1.calls)
    (l2 : List Nat) (b2 : Bool) : Traversed o e (e1', .kFailure) (l1 ++ l2) (b1 || b2) := by
  obtain ⟨m1, c1, f1, s1⟩ := h1
  refine ⟨m1, by rw [hc, c1], ?_, ?_⟩
  · intro _
    rcases f1 rfl with hb | hw
    · left; simp [hb]
    · right; exact hw
  · intro hw hb
    simp only [Bool.or_eq_false_iff] at hb
    obtain ⟨t1, _⟩ := s1 hw hb.1
    cases t1

/-- A write call: it fails only as a failed write, and loads no mesh. -/
theorem traversed_write (o : Oracle) (c : Call) (hw : isWrite c = true) (e : OgreExporter) :
    Traversed o e (OgreExporter.invoke o c e) [] false := by
  refine ⟨[(c, OgreExporter.statusOf o c e.world)], rfl, ?_, ?_⟩
  · intro hf
    right
    refine ⟨c, hw, ?_⟩
    have : OgreExporter.statusOf o c e.world = .kFailure := hf
    rw [this]
    exact List.mem_singleton.mpr rfl
  · intro hall _
    have hs : OgreExporter.statusOf o c e.world = .kSuccess := by
      simp [OgreExporter.statusOf, hall c e.world hw]
    refine ⟨hs, ?_⟩
    cases c <;> simp [isWrite] at hw <;> simp [loadOf]

theorem traversed_writeAnim (o : Oracle) (c : Nat) (e : OgreExporter) :
    Traversed o e (OgreExporter.writeAnim o c e) [] false := by
  unfold OgreExporter.writeAnim
  exact traversed_write o (.writeAnim c) rfl _

theorem traversed_restat (o : Oracle) {e e1 : OgreExporter} {st : MStatus} {l : List Nat}
    {b : Bool} (h : Traversed o e (e1, st) l b) (s : MStatus) :
    Traversed o e ({ e1 with stat := s }, st) l b := h

theorem traversed_writeAnimCurves (o : Oracle) :
    ∀ (l : List Nat) (e : OgreExporter),
      Traversed o e (OgreExporter.writeAnimCurves o l e) [] false := by
  intro l
  induction l with
  | nil => intro e; exact traversed_none o e e rfl
  | cons c rest ih =>
    intro e
    simp only [OgreExporter.writeAnimCurves]
    have h1 := traversed_writeAnim o c e
    generalize OgreExporter.writeAnim o c e = r at h1
    obtain ⟨e1, st⟩ := r
    cases st with
    | kSuccess =>
      have := traversed_seq o h1 (rfl : ({ e1 with stat := MStatus.kSuccess } : OgreExporter).calls
        = e1.calls) (ih { e1 with stat := .kSuccess })
      simpa using this
    | kFailure =>
      have := traversed_stop o h1 (rfl : ({ e1 with stat := MStatus.kFailure } : OgreExporter).calls
        = e1.calls) [] false
      simpa using this

theorem traversed_translateCurves (o : Oracle) (info : NodeInfo) (e : OgreExporter) :
    Traversed o e (OgreExporter.translateCurves o info e) [] false := by
  unfold OgreExporter.translateCurves
  split
  · split
    · have := traversed_seq o (traversed_none o e e rfl)
        (rfl : ({ e with stat := MStatus.kSuccess } : OgreExporter).calls = e.calls)
        (traversed_writeAnimCurves o info.animCurves { e with stat := .kSuccess })
      simpa using this
    · exact traversed_none o e _ rfl
  · exact traversed_none o e e rfl

/-- The call of `Mesh::load`: whatever its status the traversal goes on with `kSuccess`. -/
theorem traversed_meshLoad (o : Oracle) (n : Nat) (e : OgreExporter) :
    Traversed o e
      ({ (OgreExporter.invoke o (.meshLoad n) e).1 with
          stat := (OgreExporter.invoke o (.meshLoad n) e).2 }, .kSuccess) [n] false :=
  ⟨[(.meshLoad n, OgreExporter.statusOf o (.meshLoad n) e.world)], rfl,
    (fun h => by cases h), fun _ _ => ⟨rfl, rfl⟩⟩

theorem traversed_translateShape (o : Oracle) (info : NodeInfo) (n : Nat) (e : OgreExporter) :
    Traversed o e (OgreExporter.translateShape o info n e)
      (if loadsMesh (meshWanted e.m_params) info n then [info.name] else []) false := by
  unfold OgreExporter.translateShape
  by_cases hm : (info.hasMesh &&
      (e.m_params.exportMesh || e.m_params.exportMaterial || e.m_params.exportSkeleton) &&
      n == 0) = true
  · rw [if_pos hm]
    by_cases hi : info.isIntermediateObject = true
    · have hl : loadsMesh (meshWanted e.m_params) info n = false := by
        simp [loadsMesh, hi]
      simp only [hi, Bool.not_true, Bool.false_eq_true, if_false, hl]
      exact traversed_none o e e rfl
    · have hi' : info.isIntermediateObject = false := by simpa using hi
      have hl : loadsMesh (meshWanted e.m_params) info n = true := by
        simp only [loadsMesh, meshWanted, hi', Bool.not_false, Bool.and_true]
        exact hm
      simp only [hi', Bool.not_false, if_true, hl]
      exact traversed_meshLoad o info.name e
  · rw [if_neg hm]
    have hl : loadsMesh (meshWanted e.m_params) info n = false := by
      have hm' : (info.hasMesh &&
          (e.m_params.exportMesh || e.m_params.exportMaterial || e.m_params.exportSkeleton) &&
          n == 0) = false := by simpa using hm
      simp only [loadsMesh, meshWanted, hm', Bool.false_and]
    simp only [hl, Bool.false_eq_true, if_false]
    split
    · split
      · exact traversed_restat o (traversed_write o (.writeCamera info.name) rfl e) _
      · exact traversed_none o e e rfl
    · split
      · split
        · exact traversed_restat o (traversed_write o (.particlesWriteToXML info.name) rfl e) _
        · exact traversed_none o e e rfl
      · exact traversed_none o e e rfl

mutual
theorem traversed_translateNode (o : Oracle) :
    ∀ (n : DagNode) (e : OgreExporter),
      Traversed o e (OgreExporter.translateNode o n e)
        (meshLeaves (meshWanted e.m_params) n) (pushFails n)
  | .mk info children, e => by
    simp only [OgreExporter.translateNode, meshLeaves, pushFails]
    have h1 := traversed_translateCurves o info e
    have f1 := follows_translateCurves o info e
    generalize OgreExporter.translateCurves o info e = r1 at h1 f1
    obtain ⟨e1, st1⟩ := r1
    cases st1 with
    | kFailure =>
      have := traversed_stop o h1 (rfl : e1.calls = e1.calls)
        ((if loadsMesh (meshWanted e.m_params) info children.length then [info.name] else []) ++
          meshLeavesOfChildren (meshWanted e.m_params) children) (pushFailsIn children)
      simpa using this
    | kSuccess =>
      dsimp only
      have h2 := traversed_translateShape o info children.length e1
      have f2 := follows_translateShape o info children.length e1
      rw [follows_wanted f1] at h2
      generalize OgreExporter.translateShape o info children.length e1 = r2 at h2 f2 ⊢
      obtain ⟨e2, st2⟩ := r2
      cases st2 with
      | kFailure =>
        have h12 := traversed_seq o h1 (rfl : e1.calls = e1.calls) h2
        have := traversed_stop o h12 (rfl : e2.calls = e2.calls)
          (meshLeavesOfChildren (meshWanted e.m_params) children) (pushFailsIn children)
        simpa using this
      | kSuccess =>
        have h12 := traversed_seq o h1 (rfl : e1.calls = e1.calls) h2
        have h3 := traversed_translateChildren o children e2
        rw [follows_wanted (f1.run_trans f2)] at h3
        have := traversed_seq o h12 (rfl : e2.calls = e2.calls) h3
        simpa using this
theorem traversed_translateChildren (o : Oracle) :
    ∀ (l : List (Bool × DagNode)) (e : OgreExporter),
      Traversed o e (OgreExporter.translateChildren o l e)
        (meshLeavesOfChildren (meshWanted e.m_params) l) (pushFailsIn l)
  | [], e => traversed_none o e e rfl
  | (pushed, child) :: rest, e => by
    simp only [OgreExporter.translateChildren, meshLeavesOfChildren, pushFailsIn]
    cases pushed with
    | false =>
      refine ⟨[], by simp, fun _ => Or.inl (by simp), ?_⟩
      intro _ hb
      simp at hb
    | true =>
      simp only [if_true, Bool.not_true, Bool.false_or]
      have h1 := traversed_translateNode o child { e with stat := .kSuccess }
      have f1 := follows_translateNode o child { e with stat := .kSuccess }
      generalize OgreExporter.translateNode o child { e with stat := .kSuccess } = r at h1 f1
      obtain ⟨e1, st⟩ := r
      have h1' : Traversed o e (e1, st) (meshLeaves (meshWanted e.m_params) child)
          (pushFails child) := h1
      cases st with
      | kSuccess =>
        have h2 := traversed_translateChildren o rest { e1 with stat := .kSuccess }
        have hw : meshWanted ({ e1 with stat := MStatus.kSuccess } : OgreExporter).m_params
            = meshWanted e.m_params := follows_wanted f1
        rw [hw] at h2
        exact traversed_seq o h1'
          (rfl : ({ e1 with stat := MStatus.kSuccess } : OgreExporter).calls = e1.calls) h2
      | kFailure =>
        exact traversed_stop o h1'
          (rfl : ({ e1 with stat := MStatus.kFailure } : OgreExporter).calls = e1.calls) _ _
end

/-- C17: `translateNode` returns `kFailure` only if the path to a child cannot be built
somewhere in the tree or a write of an animation curve, a camera or particles is recorded
as failed; when no child path is broken and these writes succeed it returns `kSuccess`
after calling `Mesh::load` on every mesh leaf of the tree, in order, whatever the calls of
`Mesh::load` answer; and on a mesh leaf without animation curves it calls `Mesh::load`
once and returns `kSuccess`, also when the load fails. -/
theorem translateNode_skips_failed_mesh (o : Oracle) (n : DagNode) (e : OgreExporter) :
    ((OgreExporter.translateNode o n e).2 = .kFailure →
      pushFails n = true ∨
      ∃ more, (OgreExporter.translateNode o n e).1.calls = e.calls ++ more ∧
        failedWrite more) ∧
    (writesSucceed o → pushFails n = false →
      (OgreExporter.translateNode o n e).2 = .kSuccess ∧
      ∃ more, (OgreExporter.translateNode o n e).1.calls = e.calls ++ more ∧
        more.filterMap loadOf = meshLeaves (meshWanted e.m_params) n) ∧
    (∀ info : NodeInfo, loadsMesh (meshWanted e.m_params) info 0 = true →
      info.animCurves = [] →
      (OgreExporter.translateNode o (.mk info []) e).2 = .kSuccess ∧
      (OgreExporter.translateNode o (.mk info []) e).1.calls =
        e.calls ++ [(.meshLoad info.name,
          OgreExporter.statusOf o (.meshLoad info.name) e.world)]) := by
  obtain ⟨more, hc, hf, hs⟩ := traversed_translateNode o n e
  refine ⟨?_, ?_, ?_⟩
  · intro h
    rcases hf h with hb | hw
    · exact Or.inl hb
    · exact Or.inr ⟨more, hc, hw⟩
  · intro hw hb
    obtain ⟨h1, h2⟩ := hs hw hb
    exact ⟨h1, more, hc, h2⟩
  · intro info hl hcurves
    simp only [loadsMesh, meshWanted, Bool.and_eq_true, Bool.or_eq_true, beq_self_eq_true,
      and_true, Bool.not_eq_true'] at hl
    obtain ⟨⟨hmesh, hwant⟩, hint⟩ := hl
    have hwant' : (e.m_params.exportMesh || e.m_params.exportMaterial ||
        e.m_params.exportSkeleton) = true := by
      simpa [Bool.or_eq_true] using hwant
    by_cases hx : (e.m_params.exportAnimCurves || e.m_params.exportAnimCurvesXML) = true
    · by_cases hit : info.animIterStatus = true
      · simp [OgreExporter.translateNode, OgreExporter.translateCurves,
          OgreExporter.translateShape, OgreExporter.translateChildren,
          OgreExporter.writeAnimCurves, OgreExporter.invoke, hx, hit, hcurves, hmesh, hwant',
          hint]
      · simp [OgreExporter.translateNode, OgreExporter.translateCurves,
          OgreExporter.translateShape, OgreExporter.translateChildren,
          OgreExporter.writeAnimCurves, OgreExporter.invoke, hx, hit, hcurves, hmesh, hwant',
          hint]
    · simp [OgreExporter.translateNode, OgreExporter.translateCurves,
        OgreExporter.translateShape, OgreExporter.translateChildren,
        OgreExporter.writeAnimCurves, OgreExporter.invoke, hx, hcurves, hmesh, hwant', hint]

theorem firstMeshFails_writes : writesSucceed Oracle.firstMeshFails := by
  intro c w hw
  cases c <;> simp [isWrite] at hw <;> simp [Oracle.firstMeshFails, Oracle.quiet]

/-- Witness of C17: two mesh shapes under a transform, `Mesh::load` failing on the first:
the traversal returns `kSuccess`, the failed load is recorded and the second mesh is
loaded after it. -/
theorem translateNode_skips_failed_mesh_witness :
    (OgreExporter.translateNode Oracle.firstMeshFails DagNode.twoMeshes
      (OgreExporter.fresh { exportMesh := true }
        (World.demo 0 [] DagNode.twoMeshes))).1.calls =
      [(.meshLoad 1, .kFailure), (.meshLoad 2, .kSuccess)] ∧
    (OgreExporter.translateNode Oracle.firstMeshFails DagNode.twoMeshes
      (OgreExporter.fresh { exportMesh := true }
        (World.demo 0 [] DagNode.twoMeshes))).2 = .kSuccess ∧
    ∃ more,
      (OgreExporter.translateNode Oracle.firstMeshFails DagNode.twoMeshes
        (OgreExporter.fresh { exportMesh := true }
          (World.demo 0 [] DagNode.twoMeshes))).1.calls =
        (OgreExporter.fresh { exportMesh := true }
          (World.demo 0 [] DagNode.twoMeshes)).calls ++ more ∧
      more.filterMap loadOf =
        meshLeaves (meshWanted (OgreExporter.fresh { exportMesh := true }
          (World.demo 0 [] DagNode.twoMeshes)).m_params) DagNode.twoMeshes :=
  ⟨by
    simp [OgreExporter.translateNode, OgreExporter.translateChildren, DagNode.twoMeshes,
      DagNode.mesh, OgreExporter.translateCurves, OgreExporter.translateShape,
      OgreExporter.invoke, OgreExporter.statusOf, OgreExporter.fresh, Oracle.firstMeshFails,
      Oracle.quiet],
   (translateNode_skips_failed_mesh Oracle.firstMeshFails DagNode.twoMeshes
      (OgreExporter.fresh { exportMesh := true } (World.demo 0 [] DagNode.twoMeshes))).2.1
      firstMeshFails_writes rfl⟩

/-! ## The vertex table (C20) -/

theorem closeTo_self (eps : ℚ) (heps : 0 < eps) (x : ℚ) : VertexTable.closeTo eps x x = true := by
  simp [VertexTable.closeTo, heps]

theorem closeList_self (eps : ℚ) (heps : 0 < eps) :
    ∀ l : List ℚ, VertexTable.closeList eps l l = true := by
  intro l
  induction l with
  | nil => rfl
  | cons x xs ih => simp [VertexTable.closeList, closeTo_self eps heps, ih]

/-- An entry is equal to a candidate with the same attributes, whatever their `next`. -/
theorem sameAttributes_self (eps : ℚ) (heps : 0 < eps) (c : vertexInfo) (n m : Int) :
    VertexTable.sameAttributes eps { c with next := n } { c with next := m } = true := by
  simp [VertexTable.sameAttributes, closeTo_self eps heps, closeList_self eps heps]

theorem firstOf_append (p : Int) (m : List vertexInfo) :
    ∀ (l : List vertexInfo) (i : Nat),
      VertexTable.firstOf p (l ++ m) i =
        match VertexTable.firstOf p l i with
        | some h => some h
        | none => VertexTable.firstOf p m (i + l.length) := by
  intro l
  induction l with
  | nil => intro i; simp [VertexTable.firstOf]
  | cons e rest ih =>
    intro i
    simp only [List.cons_append, VertexTable.firstOf]
    split
    · rfl
    · have := ih (i + 1)
      simp only [List.length_cons]
      rw [show i + (rest.length + 1) = i + 1 + rest.length by omega]
      exact this

theorem firstOf_set (p : Int) :
    ∀ (l : List vertexInfo) (i k : Nat) (e e' : vertexInfo), l[k]? = some e →
      e'.pointIdx = e.pointIdx →
      VertexTable.firstOf p (l.set k e') i = VertexTable.firstOf p l i := by
  intro l
  induction l with
  | nil => intro i k e e' h; simp at h
  | cons x rest ih =>
    intro i k e e' h hp
    cases k with
    | zero =>
      simp only [List.getElem?_cons_zero, Option.some.injEq] at h
      subst h
      simp only [List.set_cons_zero, VertexTable.firstOf, hp]
    | succ j =>
      simp only [List.getElem?_cons_succ] at h
      simp only [List.set_cons_succ, VertexTable.firstOf]
      rw [ih (i + 1) j e e' h hp]

theorem firstOf_bound (p : Int) :
    ∀ (l : List vertexInfo) (i h : Nat), VertexTable.firstOf p l i = some h →
      i ≤ h ∧ h < i + l.length := by
  intro l
  induction l with
  | nil => intro i h hh; simp [VertexTable.firstOf] at hh
  | cons x rest ih =>
    intro i h hh
    simp only [VertexTable.firstOf] at hh
    split at hh
    · simp only [Option.some.injEq] at hh
      subst hh
      simp
    · obtain ⟨h1, h2⟩ := ih (i + 1) h hh
      simp only [List.length_cons]
      omega

theorem vecGet_ok_iff {α : Type} {xs : List α} {k : Int} {a : α} (h : vecGet xs k = .ok a) :
    0 ≤ k ∧ xs[k.toNat]? = some a := by
  unfold vecGet at h
  split at h
  · rename_i hk
    split at h
    · rename_i b hb
      simp only [Except.ok.injEq] at h
      subst h
      exact ⟨hk, hb⟩
    · cases h
  · cases h

theorem lookup_old (table : List vertexInfo) (last : Nat) (x c1 : vertexInfo) (j : Nat)
    (hj : j < table.length) (hne : j ≠ last) :
    (table.set last x ++ [c1])[j]? = table[j]? := by
  rw [List.getElem?_append_left (by simpa using hj)]
  rw [List.getElem?_set_ne (Ne.symm hne)]

theorem lookup_last (table : List vertexInfo) (last : Nat) (x c1 : vertexInfo)
    (hl : last < table.length) :
    (table.set last x ++ [c1])[last]? = some x := by
  rw [List.getElem?_append_left (by simpa using hl)]
  simp [List.getElem?_set, hl]

theorem lookup_new (table : List vertexInfo) (last : Nat) (x c1 : vertexInfo) :
    (table.set last x ++ [c1])[table.length]? = some c1 := by
  rw [List.getElem?_append_right (by simp)]
  simp

theorem vecGet_nat {α : Type} {xs : List α} {j : Nat} {a : α} (h : xs[j]? = some a) :
    vecGet xs (j : Int) = .ok a := vecGet_of_getElem? h

theorem vecGet_int {α : Type} {xs : List α} {k : Int} {a : α} (hk : 0 ≤ k)
    (h : xs[k.toNat]? = some a) : vecGet xs k = .ok a := by
  unfold vecGet
  rw [if_pos hk, h]

/-- The walk along a chain does not read the `next` of the candidate. -/
theorem findInChain_next (eps : ℚ) (table : List vertexInfo) (cand : vertexInfo) (n : Int) :
    ∀ (fuel : Nat) (k : Int),
      VertexTable.findInChain eps table { cand with next := n } fuel k
        = VertexTable.findInChain eps table cand fuel k := by
  intro fuel
  induction fuel with
  | zero => intro k; rfl
  | succ f ih =>
    intro k
    simp only [VertexTable.findInChain]
    cases hg : vecGet table k with
    | error e => rfl
    | ok entry =>
      simp only [bind_ok_eq]
      have hs : VertexTable.sameAttributes eps entry { cand with next := n }
          = VertexTable.sameAttributes eps entry cand := rfl
      rw [hs, ih]

/-- A walk that ends on the last entry of the chain without a match: that entry has
`next = -1`, and once it is linked to a new entry equal to the candidate, appended to the
table, the same walk with one more unit of fuel ends on the new entry. -/
theorem findInChain_appended (eps : ℚ) (table : List vertexInfo) (cand c1 : vertexInfo)
    (hc1 : VertexTable.sameAttributes eps c1 cand = true) :
    ∀ (fuel : Nat) (k : Int) (last : Nat),
      VertexTable.findInChain eps table cand fuel k = .ok (.inr last) →
      ∃ e, table[last]? = some e ∧ e.next = -1 ∧
        VertexTable.findInChain eps
          (table.set last { e with next := table.length } ++ [c1]) cand (fuel + 1) k
          = .ok (.inl table.length) := by
  intro fuel
  induction fuel with
  | zero => intro k last h; simp [VertexTable.findInChain] at h
  | succ f ih =>
    intro k last h
    simp only [VertexTable.findInChain] at h
    cases hg : vecGet table k with
    | error e => rw [hg] at h; simp [bind_error_eq] at h
    | ok entry =>
      rw [hg, bind_ok_eq] at h
      obtain ⟨hk, hget⟩ := vecGet_ok_iff hg
      have hlt : k.toNat < table.length := getElem?_lt_length hget
      by_cases hs : VertexTable.sameAttributes eps entry cand = true
      · rw [if_pos hs] at h; simp at h
      · rw [if_neg hs] at h
        by_cases hn : entry.next = -1
        · rw [if_pos hn] at h
          simp only [Except.ok.injEq, Sum.inr.injEq] at h
          subst h
          refine ⟨entry, hget, hn, ?_⟩
          have hlook : vecGet (table.set k.toNat { entry with next := table.length } ++ [c1]) k
              = .ok { entry with next := table.length } :=
            vecGet_int hk (lookup_last table k.toNat _ c1 hlt)
          have hsame : VertexTable.sameAttributes eps
              ({ entry with next := (table.length : Int) } : vertexInfo) cand
              = VertexTable.sameAttributes eps entry cand := rfl
          have hnew : vecGet (table.set k.toNat { entry with next := table.length } ++ [c1])
              ((table.length : Nat) : Int) = .ok c1 :=
            vecGet_nat (lookup_new table k.toNat _ c1)
          have hne : ((table.length : Nat) : Int) ≠ -1 := by omega
          simp only [VertexTable.findInChain, hlook, bind_ok_eq, hsame, hs, hne, hnew, hc1,
            if_true, if_false, Bool.false_eq_true, Int.toNat_ofNat]
        · rw [if_neg hn] at h
          obtain ⟨e, hlast, hen, hwalk⟩ := ih entry.next last h
          refine ⟨e, hlast, hen, ?_⟩
          have hkl : k.toNat ≠ last := by
            intro heq
            rw [heq, hlast] at hget
            simp only [Option.some.injEq] at hget
            rw [hget] at hen
            exact hn hen
          have hlook : vecGet (table.set last { e with next := table.length } ++ [c1]) k
              = .ok entry :=
            vecGet_int hk (by rw [lookup_old table last _ c1 k.toNat hlt hkl]; exact hget)
          rw [VertexTable.findInChain, hlook, bind_ok_eq, if_neg hs, if_neg hn]
          exact hwalk

theorem findInChain_inl (eps : ℚ) (table : List vertexInfo) (cand : vertexInfo) :
    ∀ (fuel : Nat) (k : Int) (i : Nat),
      VertexTable.findInChain eps table cand fuel k = .ok (.inl i) →
      ∃ e, table[i]? = some e ∧ VertexTable.sameAttributes eps e cand = true := by
  intro fuel
  induction fuel with
  | zero => intro k i h; simp [VertexTable.findInChain] at h
  | succ f ih =>
    intro k i h
    simp only [VertexTable.findInChain] at h
    cases hg : vecGet table k with
    | error e => rw [hg] at h; simp [bind_error_eq] at h
    | ok entry =>
      rw [hg, bind_ok_eq] at h
      obtain ⟨_, hget⟩ := vecGet_ok_iff hg
      by_cases hs : VertexTable.sameAttributes eps entry cand = true
      · rw [if_pos hs] at h
        simp only [Except.ok.injEq, Sum.inl.injEq] at h
        subst h
        exact ⟨entry, hget, hs⟩
      · rw [if_neg hs] at h
        by_cases hn : entry.next = -1
        · rw [if_pos hn] at h; simp at h
        · rw [if_neg hn] at h
          exact ih _ _ h

/-- The second insert of a candidate: whenever `addOrReuse` has returned the table `t1`
and the index `k1` for a candidate, it returns the same index and leaves `t1` as it is
for a candidate with the same attributes; the entry at `k1` is equal to the candidate. -/
theorem addOrReuse_again (eps : ℚ) (heps : 0 < eps) (table : List vertexInfo)
    (cand : vertexInfo) (n : Int) (t1 : List vertexInfo) (k1 : Nat)
    (h : VertexTable.addOrReuse eps table cand = .ok (t1, k1)) :
    VertexTable.addOrReuse eps t1 { cand with next := n } = .ok (t1, k1) ∧
    ∃ e, t1[k1]? = some e ∧ VertexTable.sameAttributes eps e cand = true := by
  have hself : VertexTable.sameAttributes eps { cand with next := -1 } cand = true :=
    sameAttributes_self eps heps cand (-1) cand.next
  unfold VertexTable.addOrReuse at h
  cases hf : VertexTable.firstOf cand.pointIdx table 0 with
  | none =>
    rw [hf] at h
    simp only [Except.ok.injEq, Prod.mk.injEq] at h
    obtain ⟨rfl, rfl⟩ := h
    have hfirst : VertexTable.firstOf cand.pointIdx (table ++ [{ cand with next := -1 }]) 0
        = some table.length := by
      rw [firstOf_append, hf]
      simp [VertexTable.firstOf]
    have hget : (table ++ [({ cand with next := -1 } : vertexInfo)])[table.length]?
        = some { cand with next := -1 } := by
      rw [List.getElem?_append_right (le_refl _)]
      simp
    refine ⟨?_, _, hget, hself⟩
    unfold VertexTable.addOrReuse
    show (match VertexTable.firstOf cand.pointIdx (table ++ [{ cand with next := -1 }]) 0 with
      | none => _
      | some head => _) = _
    rw [hfirst]
    simp only [List.length_append, List.length_singleton]
    rw [findInChain_next]
    simp only [VertexTable.findInChain, vecGet_nat hget, bind_ok_eq, hself, if_true,
      Int.toNat_ofNat]
  | some head =>
    rw [hf] at h
    simp only at h
    cases hw : VertexTable.findInChain eps table cand table.length head with
    | error err => rw [hw] at h; simp [bind_error_eq] at h
    | ok found =>
      rw [hw, bind_ok_eq] at h
      cases found with
      | inl k =>
        simp only [Except.ok.injEq, Prod.mk.injEq] at h
        obtain ⟨rfl, rfl⟩ := h
        refine ⟨?_, findInChain_inl eps table cand _ _ _ hw⟩
        unfold VertexTable.addOrReuse
        show (match VertexTable.firstOf cand.pointIdx table 0 with
          | none => _
          | some head => _) = _
        rw [hf]
        simp only
        rw [findInChain_next, hw, bind_ok_eq]
      | inr last =>
        simp only at h
        obtain ⟨e, hlast, hen, hwalk⟩ :=
          findInChain_appended eps table cand { cand with next := -1 } hself _ _ _ hw
        rw [vecGet_nat hlast, bind_ok_eq] at h
        simp only [Except.ok.injEq, Prod.mk.injEq] at h
        obtain ⟨rfl, rfl⟩ := h
        have hfirst : VertexTable.firstOf cand.pointIdx
            (table.set last { e with next := table.length } ++ [{ cand with next := -1 }]) 0
            = some head := by
          rw [firstOf_append,
            firstOf_set cand.pointIdx table 0 last e { e with next := table.length } hlast rfl,
            hf]
        refine ⟨?_, _, lookup_new table last _ _, hself⟩
        unfold VertexTable.addOrReuse
        show (match VertexTable.firstOf cand.pointIdx
            (table.set last { e with next := table.length } ++ [{ cand with next := -1 }]) 0 with
          | none => _
          | some head => _) = _
        rw [hfirst]
        simp only [List.length_append, List.length_singleton, List.length_set]
        rw [findInChain_next, hwalk, bind_ok_eq]

/-- In a well-linked table the walk along a chain returns, with an index of the table,
when the fuel covers the entries from `k` to the end of the table. -/
theorem findInChain_total (eps : ℚ) (table : List vertexInfo) (cand : vertexInfo)
    (hwl : WellLinked table) :
    ∀ (fuel : Nat) (k : Nat), k < table.length → table.length - k ≤ fuel →
      ∃ r, VertexTable.findInChain eps table cand fuel (k : Int) = .ok r ∧
        ((∃ i, r = .inl i ∧ i < table.length) ∨ (∃ i, r = .inr i ∧ i < table.length)) := by
  intro fuel
  induction fuel with
  | zero => intro k hk hf; omega
  | succ f ih =>
    intro k hk hf
    have hget : table[k]? = some table[k] := List.getElem?_eq_getElem hk
    simp only [VertexTable.findInChain, vecGet_nat hget, bind_ok_eq, Int.toNat_ofNat]
    by_cases hs : VertexTable.sameAttributes eps table[k] cand = true
    · rw [if_pos hs]
      exact ⟨_, rfl, Or.inl ⟨k, rfl, hk⟩⟩
    · rw [if_neg hs]
      by_cases hn : table[k].next = -1
      · rw [if_pos hn]
        exact ⟨_, rfl, Or.inr ⟨k, rfl, hk⟩⟩
      · rw [if_neg hn]
        rcases hwl k _ hget with h1 | ⟨h1, h2⟩
        · exact absurd h1 hn
        · have hnext : table[k].next = ((table[k].next.toNat : Nat) : Int) := by
            rw [Int.toNat_of_nonneg (by omega)]
          rw [hnext]
          exact ih _ (by omega) (by omega)

/-- In a well-linked table `addOrReuse` returns, and the table it returns is well
linked. -/
theorem addOrReuse_total (eps : ℚ) (table : List vertexInfo) (cand : vertexInfo)
    (hwl : WellLinked table) :
    ∃ t1 k1, VertexTable.addOrReuse eps table cand = .ok (t1, k1) ∧ WellLinked t1 := by
  unfold VertexTable.addOrReuse
  cases hf : VertexTable.firstOf cand.pointIdx table 0 with
  | none =>
    refine ⟨_, _, rfl, ?_⟩
    intro k e hk
    by_cases hlt : k < table.length
    · rw [List.getElem?_append_left hlt] at hk
      rcases hwl k e hk with h1 | ⟨h1, h2⟩
      · exact Or.inl h1
      · right
        simp only [List.length_append, List.length_singleton]
        exact ⟨h1, by push_cast; omega⟩
    · rw [List.getElem?_append_right (by omega)] at hk
      have hk0 : k - table.length = 0 := by
        by_contra hne
        rw [List.getElem?_eq_none (by simp; omega)] at hk
        cases hk
      rw [hk0] at hk
      simp only [List.getElem?_cons_zero, Option.some.injEq] at hk
      left; rw [← hk]
  | some head =>
    obtain ⟨_, hh⟩ := firstOf_bound cand.pointIdx table 0 head hf
    obtain ⟨r, hr, hcase⟩ := findInChain_total eps table cand hwl table.length head
      (by omega) (by omega)
    simp only [hr, bind_ok_eq]
    rcases hcase with ⟨i, rfl, hi⟩ | ⟨i, rfl, hi⟩
    · exact ⟨_, _, rfl, hwl⟩
    · have hget : table[i]? = some table[i] := List.getElem?_eq_getElem hi
      simp only [vecGet_nat hget, bind_ok_eq]
      refine ⟨_, _, rfl, ?_⟩
      intro k e hk
      simp only [List.length_append, List.length_singleton, List.length_set]
      by_cases hlt : k < table.length
      · by_cases hki : k = i
        · subst hki
          rw [lookup_last table k _ _ hlt] at hk
          simp only [Option.some.injEq] at hk
          right; rw [← hk]
          exact ⟨by simpa using hlt, by push_cast; omega⟩
        · rw [lookup_old table i _ _ k hlt hki] at hk
          rcases hwl k e hk with h1 | ⟨h1, h2⟩
          · exact Or.inl h1
          · exact Or.inr ⟨h1, by push_cast; omega⟩
      · rw [List.getElem?_append_right (by simp; omega)] at hk
        simp only [List.length_set] at hk
        have hk0 : k - table.length = 0 := by
          by_contra hne
          rw [List.getElem?_eq_none (by simp; omega)] at hk
          cases hk
        rw [hk0] at hk
        simp only [List.getElem?_cons_zero, Option.some.injEq] at hk
        left; rw [← hk]

theorem wellLinked_nil : WellLinked [] := by
  intro k e hk
  simp at hk

/-! ## Termination of `loadTrack` (C25) -/

/-- The optimisation pass over a non-empty list of sample times never returns when the
pose group of the target holds no pose: the first keyframe has no pose reference, and the
loop `while (k==0)` then has an empty body. -/
theorem optimizeLoop_empty_group (fuel : Nat) (params : ParamList) (ti sp : Int) (t0 : ℚ)
    (bs : BlendShape) (maya : Scene) (pg : poseGroup) (hpg : bs.m_poseGroups ti = some pg)
    (hposes : pg.poses = []) (time : ℚ) (rest : List ℚ) :
    optimizeLoop fuel params ti sp t0 (time :: rest) (bs, maya, 0) = .error .outOfFuel := by
  have hkey : loadKeyframe ({ bs with poseOptArray := bs.poseOptArray.clear } : BlendShape)
      (maya.setCurrentTime time) (time - t0) params ti sp
      = .ok { time := time - t0, positions := [], poserefs := [] } := by
    have := loadKeyframe_total ({ bs with poseOptArray := bs.poseOptArray.clear } : BlendShape)
      (maya.setCurrentTime time) (time - t0) params sp hpg
      (by rw [hposes]; intro p hp; cases hp) (Or.inl rfl)
    rw [this, hposes]
    rfl
  simp only [optimizeLoop, hkey, bind_ok_eq, List.length_nil]
  rw [initFlags_empty_diverges]
  rfl

/-- C25 (the code on an empty pose group): with a positive rate and
`optimizePoseAnimation` enabled, `loadTrack` does not return, whatever the fuel, when the
pose group of the target holds no pose (as after `clear()`): at the first sample time
`key.poserefs` is empty, the `for` inside `while (k==0)` has no iteration and `k` stays 0. -/
theorem loadTrack_optimize_empty_group_never_returns (fuel : Nat) (bs : BlendShape) (maya : Scene)
    (start stop rate : ℚ) (params : ParamList) (ti sp : Int) (pg : poseGroup)
    (hrate : 0 < rate) (hopt : params.optimizePoseAnimation = true)
    (hpg : bs.m_poseGroups ti = some pg) (hposes : pg.poses = []) :
    ∀ r, loadTrack fuel bs maya start stop rate params ti sp ≠ .ok r := by
  intro r h
  unfold loadTrack at h
  simp only [not_le.mpr hrate, if_false] at h
  cases hts : sampleTimes fuel start stop rate with
  | error e => rw [hts] at h; simp [bind_error_eq] at h
  | ok times =>
    rw [hts, bind_ok_eq] at h
    obtain ⟨n, hform, hlow, _⟩ := sampleTimes_ok_form hrate hts
    obtain ⟨h1, h2, h3⟩ := times_reads n hform hlow
    rw [h1, bind_ok_eq, h2, bind_ok_eq] at h
    simp only [not_lt.mpr (sub_nonneg.mpr h3), if_false, hopt, if_true] at h
    have hne : ∃ time rest, times = time :: rest := by
      cases times with
      | nil => simp at hform
      | cons a b => exact ⟨a, b, rfl⟩
    obtain ⟨time, rest, htimes⟩ := hne
    rw [htimes] at h
    rw [optimizeLoop_empty_group fuel params ti sp _ bs maya pg hpg hposes time rest] at h
    simp [bind_error_eq] at h

/-- Witness of C25: a `BlendShape` just constructed (`clear()` leaves group 0 without
poses), the clip from 0 to 1 sampled at rate 1/2 with the optimisation enabled. -/
theorem loadTrack_optimize_empty_group_never_returns_witness :
    ¬ ∃ (fuel : Nat) (r : Track × BlendShape × Scene),
      loadTrack fuel BlendShape.new Scene.ramp 0 1 (1 / 2) { optimizePoseAnimation := true }
        0 0 = .ok r :=
  fun ⟨fuel, r, h⟩ =>
    loadTrack_optimize_empty_group_never_returns fuel BlendShape.new Scene.ramp 0 1 (1 / 2)
      { optimizePoseAnimation := true } 0 0 { targetIndex := 0, poses := [] }
      (by norm_num) rfl new_group_zero rfl r h

/-! ## The poses stored by the captures (C21, C26, C27, C28) -/

theorem snapped_snap (PRECISION c : ℚ) : snapped PRECISION (snap PRECISION c) := by
  unfold snap snapped
  split
  · exact Or.inl rfl
  · rename_i h; exact Or.inr (not_lt.mp h)

theorem computeOffset_ok {PRECISION : ℚ} {params : ParamList} {points : List MFloatPoint}
    {v : vertex} {index : Int} {vo : vertexOffset}
    (h : computeOffset PRECISION params points v index = .ok vo) :
    snapped PRECISION vo.x ∧ snapped PRECISION vo.y ∧ snapped PRECISION vo.z := by
  unfold computeOffset at h
  cases hg : vecGet points v.index with
  | error e => rw [hg] at h; simp [bind_error_eq] at h
  | ok pt =>
    rw [hg, bind_ok_eq] at h
    simp only [Except.ok.injEq] at h
    rw [← h]
    exact ⟨snapped_snap _ _, snapped_snap _ _, snapped_snap _ _⟩

/-- The loop of `loadPoseShared` only appends stored offsets. -/
theorem offsetsShared_ok (PRECISION : ℚ) (params : ParamList) (vertices : List vertex)
    (points : List MFloatPoint) (offset : Int) :
    ∀ (n : Nat) (i : Int) (acc out : List vertexOffset),
      offsetsShared PRECISION params vertices points offset n i acc = .ok out →
      ∃ new, out = acc ++ new ∧ ∀ vo ∈ new, storedOffset PRECISION vo := by
  intro n
  induction n with
  | zero =>
    intro i acc out h
    simp only [offsetsShared, Except.ok.injEq] at h
    exact ⟨[], by simp [h], fun vo hvo => by cases hvo⟩
  | succ m ih =>
    intro i acc out h
    simp only [offsetsShared] at h
    cases hv : vecGet vertices (offset + i) with
    | error e => rw [hv] at h; simp [bind_error_eq] at h
    | ok v =>
      rw [hv, bind_ok_eq] at h
      cases hc : computeOffset PRECISION params points v (offset + i) with
      | error e => rw [hc] at h; simp [bind_error_eq] at h
      | ok vo =>
        rw [hc, bind_ok_eq] at h
        obtain ⟨new, hout, hnew⟩ := ih _ _ _ h
        by_cases hz : offsetNonZero vo = true
        · rw [if_pos hz] at hout
          refine ⟨vo :: new, by rw [hout]; simp, ?_⟩
          intro x hx
          rcases List.mem_cons.mp hx with rfl | hx
          · exact ⟨hz, computeOffset_ok hc⟩
          · exact hnew x hx
        · rw [if_neg hz] at hout
          exact ⟨new, hout, hnew⟩

/-- The loop of `loadPoseSubmesh` only appends stored offsets. -/
theorem offsetsSubmesh_ok (PRECISION : ℚ) (params : ParamList) (vertices : List vertex)
    (indices : List Int) (points : List MFloatPoint) :
    ∀ (n : Nat) (i : Int) (acc out : List vertexOffset),
      offsetsSubmesh PRECISION params vertices indices points n i acc = .ok out →
      ∃ new, out = acc ++ new ∧ ∀ vo ∈ new, storedOffset PRECISION vo := by
  intro n
  induction n with
  | zero =>
    intro i acc out h
    simp only [offsetsSubmesh, Except.ok.injEq] at h
    exact ⟨[], by simp [h], fun vo hvo => by cases hvo⟩
  | succ m ih =>
    intro i acc out h
    simp only [offsetsSubmesh] at h
    cases hx : vecGet indices i with
    | error e => rw [hx] at h; simp [bind_error_eq] at h
    | ok idx =>
      rw [hx, bind_ok_eq] at h
      cases hv : vecGet vertices i with
      | error e => rw [hv] at h; simp [bind_error_eq] at h
      | ok v =>
        rw [hv, bind_ok_eq] at h
        cases hc : computeOffset PRECISION params points v i with
        | error e => rw [hc] at h; simp [bind_error_eq] at h
        | ok vo =>
          rw [hc, bind_ok_eq] at h
          obtain ⟨new, hout, hnew⟩ := ih _ _ _ h
          by_cases hz : offsetNonZero vo = true
          · rw [if_pos hz] at hout
            refine ⟨vo :: new, by rw [hout]; simp, ?_⟩
            intro x hx
            rcases List.mem_cons.mp hx with rfl | hx
            · exact ⟨hz, computeOffset_ok hc⟩
            · exact hnew x hx
          · rw [if_neg hz] at hout
            exact ⟨new, hout, hnew⟩

theorem sharedOffsets_stored {PRECISION : ℚ} {params : ParamList} {vertices : List vertex}
    {numVertices offset : Int} {s : Scene} {offs : List vertexOffset}
    (h : sharedOffsets PRECISION params vertices numVertices offset s = .ok offs) :
    ∀ vo ∈ offs, storedOffset PRECISION vo := by
  obtain ⟨new, hout, hnew⟩ := offsetsShared_ok _ _ _ _ _ _ _ _ _ h
  rw [hout]
  simpa using hnew

theorem submeshOffsets_stored {PRECISION : ℚ} {params : ParamList} {vertices : List vertex}
    {indices : List Int} {s : Scene} {offs : List vertexOffset}
    (h : submeshOffsets PRECISION params vertices indices s = .ok offs) :
    ∀ vo ∈ offs, storedOffset PRECISION vo := by
  obtain ⟨new, hout, hnew⟩ := offsetsSubmesh_ok _ _ _ _ _ _ _ _ _ h
  rw [hout]
  simpa using hnew

/-- The call of `loadPoseShared` that returns: group 0 exists, the offsets are those of the
scene, and the pose built from them is stored. -/
theorem loadPoseShared_store {PRECISION : ℚ} {bs : BlendShape} {s : Scene}
    {params : ParamList} {vertices : List vertex} {numVertices offset : Int}
    {poseName : String} {idx : Int} {bs1 : BlendShape}
    (h : loadPoseShared PRECISION bs s params vertices numVertices offset poseName idx
      = .ok bs1) :
    ∃ pg offs, bs.m_poseGroups 0 = some pg ∧
      sharedOffsets PRECISION params vertices numVertices offset s = .ok offs ∧
      bs1 = storePose bs 0 pg
        { poseTarget := bs.m_target, index := 0, blendShapeIndex := idx, name := poseName,
          offsets := offs } := by
  unfold loadPoseShared at h
  rcases findGroup_error_or bs 0 with ⟨pg, hpg, hf⟩ | ⟨_, hf⟩
  · rw [hf, bind_ok_eq] at h
    dsimp only at h
    cases ho : offsetsShared PRECISION params vertices
        (s.getPoints params.exportWorldCoords s.envelope s.weight) offset
        numVertices.toNat 0 [] with
    | error e => rw [ho] at h; simp [bind_error_eq] at h
    | ok offs =>
      rw [ho, bind_ok_eq] at h
      refine ⟨pg, offs, hpg, ho, ?_⟩
      unfold storePose
      split at h
      · rename_i hc
        simp only [Except.ok.injEq] at h
        rw [← h, if_pos hc]
      · rename_i hc
        simp only [Except.ok.injEq] at h
        rw [← h, if_neg hc]
  · rw [hf] at h; simp [bind_error_eq] at h

/-- The call of `loadPoseSubmesh` that returns: the group of the target exists, the
offsets are those of the scene, and the pose built from them is stored. -/
theorem loadPoseSubmesh_store {PRECISION : ℚ} {bs : BlendShape} {s : Scene}
    {params : ParamList} {vertices : List vertex} {indices : List Int}
    {poseName : String} {t idx : Int} {bs1 : BlendShape}
    (h : loadPoseSubmesh PRECISION bs s params vertices indices poseName t idx = .ok bs1) :
    ∃ pg offs, bs.m_poseGroups t = some pg ∧
      submeshOffsets PRECISION params vertices indices s = .ok offs ∧
      bs1 = storePose bs t pg
        { poseTarget := bs.m_target, index := t, blendShapeIndex := idx, name := poseName,
          offsets := offs } := by
  unfold loadPoseSubmesh at h
  rcases findGroup_error_or bs t with ⟨pg, hpg, hf⟩ | ⟨_, hf⟩
  · rw [hf, bind_ok_eq] at h
    dsimp only at h
    cases ho : offsetsSubmesh PRECISION params vertices indices
        (s.getPoints params.exportWorldCoords s.envelope s.weight) vertices.length 0 [] with
    | error e => rw [ho] at h; simp [bind_error_eq] at h
    | ok offs =>
      rw [ho, bind_ok_eq] at h
      refine ⟨pg, offs, hpg, ho, ?_⟩
      unfold storePose
      split at h
      · rename_i hc
        simp only [Except.ok.injEq] at h
        rw [← h, if_pos hc]
      · rename_i hc
        simp only [Except.ok.injEq] at h
        rw [← h, if_neg hc]
  · rw [hf] at h; simp [bind_error_eq] at h

/-- The group keyed `k` after `storePose`. -/
theorem storePose_poses (bs : BlendShape) (k : Int) (pg : poseGroup) (p : pose)
    (hpg : bs.m_poseGroups k = some pg) :
    (storePose bs k pg p).m_poseGroups k =
      some { pg with poses := pg.poses ++ (if p.offsets.length > 0 then [p] else []) } ∧
    (storePose bs k pg p).m_target = bs.m_target ∧
    ∀ j, j ≠ k → (storePose bs k pg p).m_poseGroups j = bs.m_poseGroups j := by
  unfold storePose
  split
  · refine ⟨by simp [BlendShape.setGroup], rfl, ?_⟩
    intro j hj; simp [BlendShape.setGroup, hj]
  · exact ⟨by simp [hpg], rfl, fun _ _ => rfl⟩

/-- The captures of `loadPosesShared` append to group 0 the poses `capturedPoses`. -/
theorem captureShared_poses (PRECISION : ℚ) (params : ParamList) (vertices : List vertex)
    (numVertices offset : Int) (poseNames : List String) :
    ∀ (ss : List Scene) (i : Nat) (bs bs' : BlendShape) (pg : poseGroup),
      bs.m_poseGroups 0 = some pg →
      captureShared PRECISION params vertices numVertices offset poseNames ss i bs = .ok bs' →
      ∃ added,
        capturedPoses bs.m_target 0 (fun s j => poseNameShared s poseNames j)
          (sharedOffsets PRECISION params vertices numVertices offset) ss i = .ok added ∧
        bs'.m_poseGroups 0 = some { pg with poses := pg.poses ++ added } ∧
        ∀ j, j ≠ 0 → bs'.m_poseGroups j = bs.m_poseGroups j := by
  intro ss
  induction ss with
  | nil =>
    intro i bs bs' pg hpg h
    simp only [captureShared, Except.ok.injEq] at h
    subst h
    exact ⟨[], rfl, by simp [hpg], fun _ _ => rfl⟩
  | cons s rest ih =>
    intro i bs bs' pg hpg h
    simp only [captureShared] at h
    cases hp : loadPoseShared PRECISION bs s params vertices numVertices offset
        (poseNameShared s poseNames i) (i : Int) with
    | error e => rw [hp] at h; simp [bind_error_eq] at h
    | ok bs1 =>
      rw [hp, bind_ok_eq] at h
      obtain ⟨pg0, offs, hpg0, hoffs, hbs1⟩ := loadPoseShared_store hp
      rw [hpg] at hpg0
      cases hpg0
      obtain ⟨g1, g2, g3⟩ := storePose_poses bs 0 pg
        { poseTarget := bs.m_target, index := 0, blendShapeIndex := (i : Int),
          name := poseNameShared s poseNames i, offsets := offs } hpg
      rw [← hbs1] at g1 g2 g3
      obtain ⟨more, hmore, hgroup, hother⟩ := ih (i + 1) bs1 bs' _ g1 h
      rw [g2] at hmore
      refine ⟨(if offs.length > 0 then
          [{ poseTarget := bs.m_target, index := 0, blendShapeIndex := (i : Int),
             name := poseNameShared s poseNames i, offsets := offs }]
        else []) ++ more, ?_, ?_, ?_⟩
      · simp only [capturedPoses, hoffs, bind_ok_eq, hmore]
      · rw [hgroup]; simp
      · intro j hj; rw [hother j hj, g3 j hj]

/-- The captures of `loadPosesSubmesh` append to the group of the target the poses
`capturedPoses`. -/
theorem captureSubmesh_poses (PRECISION : ℚ) (params : ParamList) (vertices : List vertex)
    (indices : List Int) (t : Int) (poseNames : List String) :
    ∀ (ss : List Scene) (i : Nat) (bs bs' : BlendShape) (pg : poseGroup),
      bs.m_poseGroups t = some pg →
      captureSubmesh PRECISION params vertices indices t poseNames ss i bs = .ok bs' →
      ∃ added,
        capturedPoses bs.m_target t (fun s j => poseNameSubmesh s poseNames t j)
          (submeshOffsets PRECISION params vertices indices) ss i = .ok added ∧
        bs'.m_poseGroups t = some { pg with poses := pg.poses ++ added } ∧
        ∀ j, j ≠ t → bs'.m_poseGroups j = bs.m_poseGroups j := by
  intro ss
  induction ss with
  | nil =>
    intro i bs bs' pg hpg h
    simp only [captureSubmesh, Except.ok.injEq] at h
    subst h
    exact ⟨[], rfl, by simp [hpg], fun _ _ => rfl⟩
  | cons s rest ih =>
    intro i bs bs' pg hpg h
    simp only [captureSubmesh] at h
    cases hp : loadPoseSubmesh PRECISION bs s params vertices indices
        (poseNameSubmesh s poseNames t i) t (i : Int) with
    | error e => rw [hp] at h; simp [bind_error_eq] at h
    | ok bs1 =>
      rw [hp, bind_ok_eq] at h
      obtain ⟨pg0, offs, hpg0, hoffs, hbs1⟩ := loadPoseSubmesh_store hp
      rw [hpg] at hpg0
      cases hpg0
      obtain ⟨g1, g2, g3⟩ := storePose_poses bs t pg
        { poseTarget := bs.m_target, index := t, blendShapeIndex := (i : Int),
          name := poseNameSubmesh s poseNames t i, offsets := offs } hpg
      rw [← hbs1] at g1 g2 g3
      obtain ⟨more, hmore, hgroup, hother⟩ := ih (i + 1) bs1 bs' _ g1 h
      rw [g2] at hmore
      refine ⟨(if offs.length > 0 then
          [{ poseTarget := bs.m_target, index := t, blendShapeIndex := (i : Int),
             name := poseNameSubmesh s poseNames t i, offsets := offs }]
        else []) ++ more, ?_, ?_, ?_⟩
      · simp only [capturedPoses, hoffs, bind_ok_eq, hmore]
      · rw [hgroup]; simp
      · intro j hj; rw [hother j hj, g3 j hj]

/-- Each pose of `capturedPoses` is the pose of one scene of the list: its
`blendShapeIndex` is the channel position of that scene, its name and offsets are those of
that scene, and it has at least one offset. -/
theorem mem_capturedPoses (tgt : target) (k : Int) (nameOf : Scene → Nat → String)
    (offsetsOf : Scene → Exec (List vertexOffset)) :
    ∀ (ss : List Scene) (i : Nat) (added : List pose),
      capturedPoses tgt k nameOf offsetsOf ss i = .ok added →
      ∀ p ∈ added, ∃ (j : Nat) (s : Scene), ss[j]? = some s ∧
        p.poseTarget = tgt ∧ p.index = k ∧ p.blendShapeIndex = ((i + j : Nat) : Int) ∧
        p.name = nameOf s (i + j) ∧ offsetsOf s = .ok p.offsets ∧ p.offsets ≠ [] := by
  intro ss
  induction ss with
  | nil =>
    intro i added h p hp
    simp only [capturedPoses, Except.ok.injEq] at h
    rw [← h] at hp; cases hp
  | cons s rest ih =>
    intro i added h p hp
    simp only [capturedPoses] at h
    cases ho : offsetsOf s with
    | error e => rw [ho] at h; simp [bind_error_eq] at h
    | ok offs =>
      rw [ho, bind_ok_eq] at h
      cases hm : capturedPoses tgt k nameOf offsetsOf rest (i + 1) with
      | error e => rw [hm] at h; simp [bind_error_eq] at h
      | ok more =>
        rw [hm, bind_ok_eq] at h
        simp only [Except.ok.injEq] at h
        rw [← h] at hp
        rcases List.mem_append.mp hp with h1 | h1
        · split at h1
          · rename_i hlen
            simp only [List.mem_singleton] at h1
            subst h1
            refine ⟨0, s, by simp, rfl, rfl, rfl, rfl, ho, ?_⟩
            intro hnil
            simp only at hnil
            rw [hnil] at hlen
            simp at hlen
          · cases h1
        · obtain ⟨j, s', hs', a1, a2, a3, a4, a5, a6⟩ := ih (i + 1) more hm p h1
          refine ⟨j + 1, s', by simpa using hs', a1, a2, ?_, ?_, a5, a6⟩
          · rw [a3]; congr 1; omega
          · rw [a4]; congr 1; omega

/-- The group the captures of `loadPosesSubmesh` start from: the group keyed `t`, or the
empty group inserted for the target. -/
theorem insertGroup_start (bs : BlendShape) (t : Int) :
    ∃ pg0, (bs.insertGroup t { targetIndex := t, poses := [] }).m_poseGroups t = some pg0 ∧
      pg0.poses = posesOf bs t ∧
      (∀ pg, bs.m_poseGroups t = some pg → pg0 = pg) := by
  obtain ⟨_, _, h3, h4, _, _⟩ := insertGroup_spec bs t { targetIndex := t, poses := [] }
  cases hk : bs.m_poseGroups t with
  | none =>
    exact ⟨_, h3 hk, by simp [posesOf, hk], fun pg h => by cases h⟩
  | some pg =>
    refine ⟨pg, h4 pg hk, by simp [posesOf, hk], ?_⟩
    intro pg' h
    simp only [Option.some.injEq] at h
    exact h

/-- The poses `loadPosesShared` stores: those of `capturedPoses` over the capture scenes,
appended to group 0; the other groups are unchanged. -/
theorem loadPosesShared_captured {PRECISION : ℚ} {bs : BlendShape} {maya : Scene}
    {params : ParamList} {vertices : List vertex} {numVertices offset : Int}
    {bs' : BlendShape} {maya' : Scene} {pg : poseGroup}
    (hpg : bs.m_poseGroups 0 = some pg)
    (h : loadPosesShared PRECISION bs maya params vertices numVertices offset
      = .ok (bs', maya')) :
    ∃ added,
      capturedPoses .T_MESH 0 (fun s j => poseNameShared s maya.aliasAttr j)
        (sharedOffsets PRECISION params vertices numVertices offset)
        (captureScenes maya.weightIndexList
          (captureEntry { bs with m_target := .T_MESH } maya)) 0 = .ok added ∧
      bs'.m_poseGroups 0 = some { pg with poses := pg.poses ++ added } ∧
      ∀ j, j ≠ 0 → bs'.m_poseGroups j = bs.m_poseGroups j := by
  obtain ⟨hcap, _, _, _⟩ := loadPosesShared_steps h
  obtain ⟨b1, b2, _, _, _⟩ := breakConnections_frame
    ({ bs with m_target := .T_MESH } : BlendShape) (maya.setEnvelope 1)
  obtain ⟨added, h1, h2, h3⟩ := captureShared_poses PRECISION params vertices numVertices
    offset maya.aliasAttr _ 0 _ bs' pg (by rw [b1]; exact hpg) hcap
  rw [b2] at h1
  refine ⟨added, h1, h2, ?_⟩
  intro j hj
  rw [h3 j hj, b1]

/-- The poses `loadPosesSubmesh` stores: those of `capturedPoses` over the capture scenes,
appended to the group of the target (created empty when absent); the other groups are
unchanged. -/
theorem loadPosesSubmesh_captured {PRECISION : ℚ} {bs : BlendShape} {maya : Scene}
    {params : ParamList} {vertices : List vertex} {indices : List Int} {t : Int}
    {bs' : BlendShape} {maya' : Scene}
    (h : loadPosesSubmesh PRECISION bs maya params vertices indices t = .ok (bs', maya')) :
    ∃ added pg',
      capturedPoses .T_SUBMESH t (fun s j => poseNameSubmesh s maya.aliasAttr t j)
        (submeshOffsets PRECISION params vertices indices)
        (captureScenes maya.weightIndexList
          (captureEntry { bs with m_target := .T_SUBMESH } maya)) 0 = .ok added ∧
      bs'.m_poseGroups t = some pg' ∧ pg'.poses = posesOf bs t ++ added ∧
      ∀ j, j ≠ t → bs'.m_poseGroups j = bs.m_poseGroups j := by
  obtain ⟨hcap, _, _, _⟩ := loadPosesSubmesh_steps h
  obtain ⟨b1, b2, _, _, _⟩ := breakConnections_frame
    ({ bs with m_target := .T_SUBMESH } : BlendShape) (maya.setEnvelope 1)
  obtain ⟨i1, i2, _, _, _, _⟩ := insertGroup_spec
    (BlendShape.breakConnections { bs with m_target := .T_SUBMESH } (maya.setEnvelope 1)).1 t
    { targetIndex := t, poses := [] }
  obtain ⟨pg0, hstart, hposes, _⟩ := insertGroup_start
    (BlendShape.breakConnections { bs with m_target := .T_SUBMESH } (maya.setEnvelope 1)).1 t
  obtain ⟨added, h1, h2, h3⟩ := captureSubmesh_poses PRECISION params vertices indices t
    maya.aliasAttr _ 0 _ bs' pg0 hstart hcap
  rw [i1, b2] at h1
  refine ⟨added, _, h1, h2, ?_, ?_⟩
  · simp only
    rw [hposes]
    simp only [posesOf, b1]
  · intro j hj
    rw [h3 j hj, i2 j hj, b1]

theorem sharedOffsets_demo (s : Scene) (pts : List MFloatPoint)
    (hpts : s.getPoints false s.envelope s.weight = pts)
    (hin : pointsInRange pts demoVertices) :
    sharedOffsets (1 / 10000) {} demoVertices 10 0 s
      = .ok (entriesFrom (1 / 10000) {} pts demoVertices 0) := by
  unfold sharedOffsets
  have hp : s.getPoints ({} : ParamList).exportWorldCoords s.envelope s.weight = pts := hpts
  rw [hp]
  have := offsetsShared_eq (1 / 10000) {} demoVertices pts 0 10 0 [] 0 (by simp)
    (by simp [demoVertices]) (by simpa [demoVertices] using hin)
  simpa [demoVertices] using this

/-- The two captures on the scene `Scene.secondTarget`: channel 0 moves nothing and stores
no pose; the pose of channel 1 is stored with `blendShapeIndex = 1` and the name given to
the position 1 without alias. -/
theorem secondTarget_captured (bs : BlendShape) :
    capturedPoses .T_MESH 0 (fun s j => poseNameShared s Scene.secondTarget.aliasAttr j)
      (sharedOffsets (1 / 10000) {} demoVertices 10 0)
      (captureScenes Scene.secondTarget.weightIndexList
        (captureEntry bs Scene.secondTarget)) 0
      = .ok [{ poseTarget := .T_MESH, index := 0, blendShapeIndex := 1, name := "ose",
               offsets := [⟨2, 1, 0, 0⟩, ⟨5, 1, 0, 0⟩, ⟨7, 1, 0, 0⟩] }] := by
  have hlist : Scene.secondTarget.weightIndexList = [0, 1] := rfl
  rw [hlist]
  simp only [captureScenes, capturedPoses]
  have e0 := sharedOffsets_demo (((captureEntry bs Scene.secondTarget).setWeight 0 1).1)
    demoNeutral
    (by
      simp [captureEntry, BlendShape.breakConnections, BlendShape.breakConnectionsLoop,
        zeroWeights, Scene.setWeight, Scene.setEnvelope, Scene.secondTarget, Scene.still])
    demo_pointsInRange_neutral
  have e1 := sharedOffsets_demo
    ((((((captureEntry bs Scene.secondTarget).setWeight 0 1).1.setWeight 0 0).1).setWeight
      1 1).1)
    demoDeformed
    (by
      simp [captureEntry, BlendShape.breakConnections, BlendShape.breakConnectionsLoop,
        zeroWeights, Scene.setWeight, Scene.setEnvelope, Scene.secondTarget, Scene.still])
    demo_pointsInRange_deformed
  rw [e0, e1, demo_entries_neutral, demo_entries_deformed]
  simp [bind_ok_eq, poseNameShared, findPoseName, defaultPoseName, Scene.secondTarget,
    Scene.still]

theorem secondTarget_pointsInRange :
    ∀ (world : Bool) (e : ℚ) (w : Int → ℚ),
      pointsInRange (Scene.secondTarget.getPoints world e w) demoVertices := by
  intro world e w
  show pointsInRange (if w 1 = 1 then demoDeformed else demoNeutral) demoVertices
  split
  · exact demo_pointsInRange_deformed
  · exact demo_pointsInRange_neutral

theorem secondTarget_shared_returns :
    ∃ r, loadPosesShared (1 / 10000) (BlendShape.new.load Scene.secondTarget)
      Scene.secondTarget {} demoVertices 10 0 = .ok r :=
  loadPosesShared_total (1 / 10000) (BlendShape.new.load Scene.secondTarget)
    Scene.secondTarget {} demoVertices 10 0 ⟨_, new_group_zero⟩ (by decide)
    (by simp [demoVertices])
    (by
      intro world e w
      have h := secondTarget_pointsInRange world e w
      simpa [demoVertices] using h)
    (by simp [BlendShape.load, Scene.secondTarget, Scene.still])

/-- The capture of the scene `Scene.secondTarget` from a fresh `BlendShape`: the call
returns and group 0 holds one pose, that of the channel position 1. -/
theorem secondTarget_poses :
    ∃ bs' maya',
      loadPosesShared (1 / 10000) (BlendShape.new.load Scene.secondTarget)
        Scene.secondTarget {} demoVertices 10 0 = .ok (bs', maya') ∧
      posesOf bs' 0 =
        [{ poseTarget := .T_MESH, index := 0, blendShapeIndex := 1, name := "ose",
           offsets := [⟨2, 1, 0, 0⟩, ⟨5, 1, 0, 0⟩, ⟨7, 1, 0, 0⟩] }] := by
  obtain ⟨⟨bs', maya'⟩, hr⟩ := secondTarget_shared_returns
  refine ⟨bs', maya', hr, ?_⟩
  have hg : (BlendShape.new.load Scene.secondTarget).m_poseGroups 0
      = some { targetIndex := 0, poses := [] } := new_group_zero
  obtain ⟨added, h1, h2, _⟩ := loadPosesShared_captured hg hr
  rw [secondTarget_captured] at h1
  simp only [Except.ok.injEq] at h1
  rw [← h1] at h2
  simp [posesOf, h2]

theorem posesWellFormed_of_groups {PRECISION : ℚ} {bs bs' : BlendShape}
    (h : bs'.m_poseGroups = bs.m_poseGroups) (hw : posesWellFormed PRECISION bs) :
    posesWellFormed PRECISION bs' := by
  intro k pg hk
  rw [h] at hk
  exact hw k pg hk

/-- The poses of `capturedPoses` are well formed when the offsets computed in a scene are
stored offsets. -/
theorem capturedPoses_wellFormed (PRECISION : ℚ) (tgt : target) (k : Int)
    (nameOf : Scene → Nat → String) (offsetsOf : Scene → Exec (List vertexOffset))
    (hoff : ∀ s offs, offsetsOf s = .ok offs → ∀ vo ∈ offs, storedOffset PRECISION vo)
    (ss : List Scene) (i : Nat) (added : List pose)
    (h : capturedPoses tgt k nameOf offsetsOf ss i = .ok added) :
    ∀ p ∈ added, p.offsets ≠ [] ∧ ∀ vo ∈ p.offsets, storedOffset PRECISION vo := by
  intro p hp
  obtain ⟨j, s, _, _, _, _, _, ho, hne⟩ := mem_capturedPoses tgt k nameOf offsetsOf ss i added h p hp
  exact ⟨hne, hoff s p.offsets ho⟩

/-- C26: the property that every pose of every pose group has at least one offset, that
every stored offset has a component that is not 0 and that every component of a stored
offset is 0 or of magnitude at least `PRECISION`, holds after `clear()` and is kept by
`load` and by every call of `loadPosesShared` and of `loadPosesSubmesh` that returns. -/
theorem poseGroups_wellFormed_invariant (PRECISION : ℚ) :
    (∀ bs : BlendShape, posesWellFormed PRECISION bs.clear) ∧
    (∀ (bs : BlendShape) (maya : Scene), posesWellFormed PRECISION bs →
      posesWellFormed PRECISION (bs.load maya)) ∧
    (∀ (bs : BlendShape) (maya : Scene) (params : ParamList) (vertices : List vertex)
      (numVertices offset : Int) (bs' : BlendShape) (maya' : Scene),
      posesWellFormed PRECISION bs →
      loadPosesShared PRECISION bs maya params vertices numVertices offset = .ok (bs', maya') →
      posesWellFormed PRECISION bs') ∧
    (∀ (bs : BlendShape) (maya : Scene) (params : ParamList) (vertices : List vertex)
      (indices : List Int) (t : Int) (bs' : BlendShape) (maya' : Scene),
      posesWellFormed PRECISION bs →
      loadPosesSubmesh PRECISION bs maya params vertices indices t = .ok (bs', maya') →
      posesWellFormed PRECISION bs') := by
  refine ⟨?_, ?_, ?_, ?_⟩
  · intro bs k pg hk p hp
    simp only [BlendShape.clear] at hk
    split at hk
    · simp only [Option.some.injEq] at hk
      rw [← hk] at hp
      cases hp
    · cases hk
  · intro bs maya hw
    exact posesWellFormed_of_groups rfl hw
  · intro bs maya params vertices numVertices offset bs' maya' hw h
    intro k pg' hk p hp
    by_cases hk0 : k = 0
    · subst hk0
      cases hg : bs.m_poseGroups 0 with
      | none =>
        have := (loadPosesShared_ok h).2.1 hg
        rw [this] at hk
        cases hk
      | some pg =>
        obtain ⟨added, h1, h2, _⟩ := loadPosesShared_captured hg h
        rw [h2] at hk
        simp only [Option.some.injEq] at hk
        rw [← hk] at hp
        rcases List.mem_append.mp hp with hin | hin
        · exact hw 0 pg hg p hin
        · exact capturedPoses_wellFormed PRECISION _ _ _ _
            (fun s offs ho => sharedOffsets_stored ho) _ _ _ h1 p hin
    · rw [(loadPosesShared_ok h).1 k hk0] at hk
      exact hw k pg' hk p hp
  · intro bs maya params vertices indices t bs' maya' hw h
    intro k pg' hk p hp
    obtain ⟨added, pg1, h1, h2, h3, h4⟩ := loadPosesSubmesh_captured h
    by_cases hkt : k = t
    · subst hkt
      rw [h2] at hk
      simp only [Option.some.injEq] at hk
      rw [← hk, h3] at hp
      rcases List.mem_append.mp hp with hin | hin
      · unfold posesOf at hin
        cases hg : bs.m_poseGroups k with
        | none => rw [hg] at hin; cases hin
        | some pg => rw [hg] at hin; exact hw k pg hg p hin
      · exact capturedPoses_wellFormed PRECISION _ _ _ _
          (fun s offs ho => submeshOffsets_stored ho) _ _ _ h1 p hin
    · rw [h4 k hkt] at hk
      exact hw k pg' hk p hp

/-- Witness of C26: the scene `Scene.secondTarget` has two channels and the first moves no
vertex: from a fresh `BlendShape` the capture returns with one pose in group 0, and the
pose groups are well formed. -/
theorem poseGroups_wellFormed_invariant_witness :
    ∃ bs' maya',
      loadPosesShared (1 / 10000) (BlendShape.new.load Scene.secondTarget)
        Scene.secondTarget {} demoVertices 10 0 = .ok (bs', maya') ∧
      (posesOf bs' 0).length = 1 ∧ Scene.secondTarget.weightIndexList.length = 2 ∧
      posesWellFormed (1 / 10000) bs' := by
  obtain ⟨bs', maya', hr, hposes⟩ := secondTarget_poses
  refine ⟨bs', maya', hr, by rw [hposes]; rfl, rfl, ?_⟩
  exact (poseGroups_wellFormed_invariant (1 / 10000)).2.2.1 _ _ _ _ _ _ bs' maya'
    ((poseGroups_wellFormed_invariant (1 / 10000)).2.1 _ _
      ((poseGroups_wellFormed_invariant (1 / 10000)).1 _)) hr

/-! ## The names of the poses (C27, C28) -/

theorem sparse_aliases :
    sscanfWeight "weight[0]" = 0 ∧ sscanfWeight "weight[2]" = 2 ∧
    findPoseName 0 Scene.sparse.aliasAttr = some "smile" ∧
    findPoseName 1 Scene.sparse.aliasAttr = none ∧
    findPoseName 2 Scene.sparse.aliasAttr = some "frown" := by
  refine ⟨by decide, by decide, by decide, by decide, by decide⟩


theorem sparse_pointsInRange :
    ∀ (world : Bool) (e : ℚ) (w : Int → ℚ),
      pointsInRange (Scene.sparse.getPoints world e w) demoVertices := by
  intro world e w
  show pointsInRange (if w 2 = 1 then demoDeformed else demoNeutral) demoVertices
  split
  · exact demo_pointsInRange_deformed
  · exact demo_pointsInRange_neutral

theorem sparse_shared_returns :
    ∃ r, loadPosesShared (1 / 10000) (BlendShape.new.load Scene.sparse)
      Scene.sparse {} demoVertices 10 0 = .ok r :=
  loadPosesShared_total (1 / 10000) (BlendShape.new.load Scene.sparse)
    Scene.sparse {} demoVertices 10 0 ⟨_, new_group_zero⟩ (by decide)
    (by simp [demoVertices])
    (by
      intro world e w
      have h := sparse_pointsInRange world e w
      simpa [demoVertices] using h)
    (by simp [BlendShape.load, Scene.sparse, Scene.still])

theorem sparse_captured (bs : BlendShape) :
    capturedPoses .T_MESH 0 (fun s j => poseNameShared s Scene.sparse.aliasAttr j)
      (sharedOffsets (1 / 10000) {} demoVertices 10 0)
      (captureScenes Scene.sparse.weightIndexList (captureEntry bs Scene.sparse)) 0
      = .ok [{ poseTarget := .T_MESH, index := 0, blendShapeIndex := 1, name := "ose",
               offsets := [⟨2, 1, 0, 0⟩, ⟨5, 1, 0, 0⟩, ⟨7, 1, 0, 0⟩] }] := by
  have hlist : Scene.sparse.weightIndexList = [0, 2] := rfl
  rw [hlist]
  simp only [captureScenes, capturedPoses]
  have e0 := sharedOffsets_demo (((captureEntry bs Scene.sparse).setWeight 0 1).1)
    demoNeutral
    (by
      simp [captureEntry, BlendShape.breakConnections, BlendShape.breakConnectionsLoop,
        zeroWeights, Scene.setWeight, Scene.setEnvelope, Scene.sparse, Scene.still])
    demo_pointsInRange_neutral
  have e1 := sharedOffsets_demo
    ((((((captureEntry bs Scene.sparse).setWeight 0 1).1.setWeight 0 0).1).setWeight
      2 1).1)
    demoDeformed
    (by
      simp [captureEntry, BlendShape.breakConnections, BlendShape.breakConnectionsLoop,
        zeroWeights, Scene.setWeight, Scene.setEnvelope, Scene.sparse, Scene.still])
    demo_pointsInRange_deformed
  rw [e0, e1, demo_entries_neutral, demo_entries_deformed]
  have hname : ∀ s : Scene, poseNameShared s Scene.sparse.aliasAttr 1 = "ose" := by
    intro s
    have h : findPoseName ((1 : Nat) : Int) Scene.sparse.aliasAttr = none := by decide
    have h4 : (1 : Nat) ≤ 4 := by decide
    simp only [poseNameShared, h, defaultPoseName, if_pos h4]
    decide
  simp [bind_ok_eq, hname]

/-- The capture of the scene `Scene.sparse` from a fresh `BlendShape`: the call returns and
group 0 holds one pose, that of the channel position 1 (logical index 2). -/
theorem sparse_poses :
    ∃ bs' maya',
      loadPosesShared (1 / 10000) (BlendShape.new.load Scene.sparse)
        Scene.sparse {} demoVertices 10 0 = .ok (bs', maya') ∧
      posesOf bs' 0 =
        [{ poseTarget := .T_MESH, index := 0, blendShapeIndex := 1, name := "ose",
           offsets := [⟨2, 1, 0, 0⟩, ⟨5, 1, 0, 0⟩, ⟨7, 1, 0, 0⟩] }] := by
  obtain ⟨⟨bs', maya'⟩, hr⟩ := sparse_shared_returns
  refine ⟨bs', maya', hr, ?_⟩
  have hg : (BlendShape.new.load Scene.sparse).m_poseGroups 0
      = some { targetIndex := 0, poses := [] } := new_group_zero
  obtain ⟨added, h1, h2, _⟩ := loadPosesShared_captured hg hr
  rw [sparse_captured] at h1
  simp only [Except.ok.injEq] at h1
  rw [← h1] at h2
  simp [posesOf, h2]

/-- C27 (the code at the failing input): the deformer of `Scene.sparse` has the weight
index list [0, 2] and the alias `frown` on `weight[2]`; the pose captured from the channel
of logical index 2 (the channel position 1, the one set to 1 for the capture) is stored
with the name `ose`, not `frown`: the alias is looked up with the position 1 of the loop,
and no alias is attached to `weight[1]`. -/
theorem loadPosesShared_alias_by_position :
    Scene.sparse.weightIndexList[1]? = some 2 ∧
    sscanfWeight "weight[2]" = 2 ∧
    findPoseName 2 Scene.sparse.aliasAttr = some "frown" ∧
    findPoseName 1 Scene.sparse.aliasAttr = none ∧
    ∃ bs' maya',
      loadPosesShared (1 / 10000) (BlendShape.new.load Scene.sparse)
        Scene.sparse {} demoVertices 10 0 = .ok (bs', maya') ∧
      (posesOf bs' 0).map (fun p => (p.blendShapeIndex, p.name)) = [(1, "ose")] := by
  refine ⟨rfl, sparse_aliases.2.1, sparse_aliases.2.2.2.2, sparse_aliases.2.2.2.1, ?_⟩
  obtain ⟨bs', maya', hr, hposes⟩ := sparse_poses
  exact ⟨bs', maya', hr, by rw [hposes]; rfl⟩

/-- C28 (the code at the failing input): the name of a channel position without alias is
the literal `pose` with its first `i` characters dropped (`"pose" + i` adds to the
pointer), so `ose` for the position 1, the empty string for the position 4 and whatever
lies behind the literal for a position above 4; the pose captured from the position 1 of
`Scene.secondTarget` is stored with the name `ose`. -/
theorem loadPosesShared_default_name_drops_characters :
    (∀ maya : Scene, defaultPoseName maya 0 = "pose" ∧ defaultPoseName maya 1 = "ose" ∧
      defaultPoseName maya 2 = "se" ∧ defaultPoseName maya 3 = "e" ∧
      defaultPoseName maya 4 = "") ∧
    (∀ (maya : Scene) (i : Nat), 4 < i → defaultPoseName maya i = maya.strayString i) ∧
    ∃ bs' maya',
      loadPosesShared (1 / 10000) (BlendShape.new.load Scene.secondTarget)
        Scene.secondTarget {} demoVertices 10 0 = .ok (bs', maya') ∧
      (posesOf bs' 0).map (fun p => (p.blendShapeIndex, p.name)) = [(1, "ose")] := by
  refine ⟨?_, ?_, ?_⟩
  · intro maya
    refine ⟨?_, ?_, ?_, ?_, ?_⟩ <;> simp [defaultPoseName]
  · intro maya i hi
    simp [defaultPoseName, not_le.mpr hi]
  · obtain ⟨bs', maya', hr, hposes⟩ := secondTarget_poses
    exact ⟨bs', maya', hr, by rw [hposes]; rfl⟩

/-! ## The channel of a stored pose (C21) -/

theorem breakConnectionsLoop_flags :
    ∀ (plugs : List Plug) (bs : BlendShape) (maya : Scene),
      (breakConnectionsLoop plugs (bs, maya)).1.poseOptArray = bs.poseOptArray := by
  intro plugs
  induction plugs with
  | nil => intro bs maya; rfl
  | cons p rest ih =>
    intro bs maya
    simp only [breakConnectionsLoop]
    rw [ih]

theorem breakConnections_flags (bs : BlendShape) (maya : Scene) :
    (bs.breakConnections maya).1.poseOptArray = bs.poseOptArray := by
  unfold BlendShape.breakConnections
  rw [breakConnectionsLoop_flags]

theorem storePose_flags (bs : BlendShape) (k : Int) (pg : poseGroup) (p : pose) :
    (storePose bs k pg p).poseOptArray = bs.poseOptArray := by
  unfold storePose
  split <;> rfl

theorem insertGroup_flags (bs : BlendShape) (k : Int) (pg : poseGroup) :
    (bs.insertGroup k pg).poseOptArray = bs.poseOptArray := by
  unfold BlendShape.insertGroup
  split <;> rfl

theorem captureShared_flags (PRECISION : ℚ) (params : ParamList) (vertices : List vertex)
    (numVertices offset : Int) (poseNames : List String) :
    ∀ (ss : List Scene) (i : Nat) (bs bs' : BlendShape),
      captureShared PRECISION params vertices numVertices offset poseNames ss i bs = .ok bs' →
      bs'.poseOptArray = bs.poseOptArray := by
  intro ss
  induction ss with
  | nil =>
    intro i bs bs' h
    simp only [captureShared, Except.ok.injEq] at h
    rw [h]
  | cons s rest ih =>
    intro i bs bs' h
    simp only [captureShared] at h
    cases h1 : loadPoseShared PRECISION bs s params vertices numVertices offset
        (poseNameShared s poseNames i) i with
    | error e => rw [h1] at h; simp [bind_error_eq] at h
    | ok bs1 =>
      rw [h1, bind_ok_eq] at h
      obtain ⟨pg, offs, _, _, hst⟩ := loadPoseShared_store h1
      rw [ih _ _ _ h, hst, storePose_flags]

theorem captureSubmesh_flags (PRECISION : ℚ) (params : ParamList) (vertices : List vertex)
    (indices : List Int) (t : Int) (poseNames : List String) :
    ∀ (ss : List Scene) (i : Nat) (bs bs' : BlendShape),
      captureSubmesh PRECISION params vertices indices t poseNames ss i bs = .ok bs' →
      bs'.poseOptArray = bs.poseOptArray := by
  intro ss
  induction ss with
  | nil =>
    intro i bs bs' h
    simp only [captureSubmesh, Except.ok.injEq] at h
    rw [h]
  | cons s rest ih =>
    intro i bs bs' h
    simp only [captureSubmesh] at h
    cases h1 : loadPoseSubmesh PRECISION bs s params vertices indices
        (poseNameSubmesh s poseNames t i) t i with
    | error e => rw [h1] at h; simp [bind_error_eq] at h
    | ok bs1 =>
      rw [h1, bind_ok_eq] at h
      obtain ⟨pg, offs, _, _, hst⟩ := loadPoseSubmesh_store h1
      rw [ih _ _ _ h, hst, storePose_flags]

theorem loadPosesShared_flags {PRECISION : ℚ} {bs : BlendShape} {maya : Scene}
    {params : ParamList} {vertices : List vertex} {numVertices offset : Int}
    {bs' : BlendShape} {maya' : Scene}
    (h : loadPosesShared PRECISION bs maya params vertices numVertices offset
      = .ok (bs', maya')) :
    bs'.poseOptArray = bs.poseOptArray := by
  obtain ⟨hcap, _, _, _⟩ := loadPosesShared_steps h
  rw [captureShared_flags _ _ _ _ _ _ _ _ _ _ hcap, breakConnections_flags]

theorem loadPosesSubmesh_flags {PRECISION : ℚ} {bs : BlendShape} {maya : Scene}
    {params : ParamList} {vertices : List vertex} {indices : List Int} {t : Int}
    {bs' : BlendShape} {maya' : Scene}
    (h : loadPosesSubmesh PRECISION bs maya params vertices indices t = .ok (bs', maya')) :
    bs'.poseOptArray = bs.poseOptArray := by
  obtain ⟨hcap, _, _, _⟩ := loadPosesSubmesh_steps h
  rw [captureSubmesh_flags _ _ _ _ _ _ _ _ _ _ hcap, insertGroup_flags,
    breakConnections_flags]

/-- Every pose of `capturedPoses` over the capture scenes of `maya` was captured from the
channel at its `blendShapeIndex`, when the channels of the weight index list can be
set. -/
theorem capturedPoses_capturedAt (tgt : target) (k : Int) (nameOf : Scene → Nat → String)
    (offsetsOf : Scene → Exec (List vertexOffset)) (bs : BlendShape) (maya : Scene)
    (hset : ∀ c ∈ maya.weightIndexList, maya.weightSettable c = true)
    {added : List pose}
    (h : capturedPoses tgt k nameOf offsetsOf
      (captureScenes maya.weightIndexList (captureEntry bs maya)) 0 = .ok added) :
    ∀ p ∈ added, CapturedAt maya (captureEntry bs maya) offsetsOf p ∧
      p.blendShapeIndex.toNat < maya.weightIndexList.length := by
  intro p hp
  obtain ⟨j, s, hs, _, _, hidx, _, hoffs, _⟩ :=
    mem_capturedPoses tgt k nameOf offsetsOf _ 0 added h p hp
  obtain ⟨henv, hsame, hzero⟩ := captureEntry_spec bs maya
  have hj : j < maya.weightIndexList.length := by
    have := (List.getElem?_eq_some_iff.mp hs).1
    rwa [captureScenes_length] at this
  have hnat : p.blendShapeIndex.toNat = j := by rw [hidx]; simp
  have hw : maya.weightIndexList[j]? = some (maya.weightIndexList[j]) :=
    List.getElem?_eq_getElem hj
  obtain ⟨e1, e2, e3⟩ := captureScenes_isolated maya.weightIndexList maya.weightIndexList
    (captureEntry bs maya) (fun c hc => hc)
    (by intro c hc; rw [hsame.2.1]; exact hset c hc) (hzero hset) j _ s hw hs
  refine ⟨⟨maya.weightIndexList[j], s, by rw [hidx]; exact Int.natCast_nonneg _, ?_, ?_,
    e1.trans henv, e2, e3, hoffs⟩, ?_⟩
  · rw [hnat]; exact hw
  · rw [hnat]; exact hs
  · rw [hnat]; exact hj

/-- C21: every pose added by `loadPosesShared` (to group 0) and by `loadPosesSubmesh` (to
the group of the target) was captured with the channel `indexList[p.blendShapeIndex]` at 1
and the other channels of the list at 0; and in any later scene of the same deformer
`loadKeyframe` returns, the weight it stores for a pose `p` of the group being the envelope
times the weight of the channel `indexList[p.blendShapeIndex]`, wherever `p` stands in the
group. -/
theorem loadKeyframe_weight_of_captured_channel (PRECISION : ℚ) :
    (∀ (bs : BlendShape) (maya : Scene) (params : ParamList) (vertices : List vertex)
       (numVertices offset : Int) (bs' : BlendShape) (maya' : Scene) (pg : poseGroup),
      bs.m_poseGroups 0 = some pg →
      (∀ c ∈ maya.weightIndexList, maya.weightSettable c = true) →
      loadPosesShared PRECISION bs maya params vertices numVertices offset
        = .ok (bs', maya') →
      ∃ added, bs'.m_poseGroups 0 = some { pg with poses := pg.poses ++ added } ∧
        (∀ p ∈ added, CapturedAt maya (captureEntry { bs with m_target := .T_MESH } maya)
          (sharedOffsets PRECISION params vertices numVertices offset) p) ∧
        ∀ (later : Scene) (time : ℚ) (sp : Int),
          later.weightIndexList = maya.weightIndexList → channelsInRange maya pg.poses →
          (bs.poseOptArray.length = 0 ∨
            (pg.poses ++ added).length ≤ bs.poseOptArray.length) →
          loadKeyframe bs' later time params 0 sp =
            .ok { time := time, positions := [],
                  poserefs := refsFrom bs' (fun p => later.envelope *
                    later.weight (maya.weightIndexList.getD p.blendShapeIndex.toNat 0))
                    sp (pg.poses ++ added) 0 }) ∧
    (∀ (bs : BlendShape) (maya : Scene) (params : ParamList) (vertices : List vertex)
       (indices : List Int) (t : Int) (bs' : BlendShape) (maya' : Scene),
      (∀ c ∈ maya.weightIndexList, maya.weightSettable c = true) →
      loadPosesSubmesh PRECISION bs maya params vertices indices t = .ok (bs', maya') →
      ∃ added pg', bs'.m_poseGroups t = some pg' ∧ pg'.poses = posesOf bs t ++ added ∧
        (∀ p ∈ added, CapturedAt maya (captureEntry { bs with m_target := .T_SUBMESH } maya)
          (submeshOffsets PRECISION params vertices indices) p) ∧
        ∀ (later : Scene) (time : ℚ) (sp : Int),
          later.weightIndexList = maya.weightIndexList →
          channelsInRange maya (posesOf bs t) →
          (bs.poseOptArray.length = 0 ∨
            (posesOf bs t ++ added).length ≤ bs.poseOptArray.length) →
          loadKeyframe bs' later time params t sp =
            .ok { time := time, positions := [],
                  poserefs := refsFrom bs' (fun p => later.envelope *
                    later.weight (maya.weightIndexList.getD p.blendShapeIndex.toNat 0))
                    sp (posesOf bs t ++ added) 0 }) := by
  constructor
  · intro bs maya params vertices numVertices offset bs' maya' pg hpg hset h
    obtain ⟨added, hcap, hgroup, _⟩ := loadPosesShared_captured hpg h
    have hat := capturedPoses_capturedAt _ _ _ _ _ maya hset hcap
    refine ⟨added, hgroup, fun p hp => (hat p hp).1, ?_⟩
    intro later time sp hlist hin hlen
    have hflags := loadPosesShared_flags h
    have hrange : channelsInRange later (pg.poses ++ added) := by
      intro p hp
      rw [hlist]
      rcases List.mem_append.mp hp with hp | hp
      · exact hin p hp
      · obtain ⟨⟨w, s, h0, _⟩, hlt⟩ := hat p hp
        exact ⟨h0, hlt⟩
    have := loadKeyframe_total bs' later time params sp hgroup hrange
      (by rw [hflags]; exact hlen)
    rw [this, hlist]
  · intro bs maya params vertices indices t bs' maya' hset h
    obtain ⟨added, pg', hcap, hgroup, hposes, _⟩ := loadPosesSubmesh_captured h
    have hat := capturedPoses_capturedAt _ _ _ _ _ maya hset hcap
    refine ⟨added, pg', hgroup, hposes, fun p hp => (hat p hp).1, ?_⟩
    intro later time sp hlist hin hlen
    have hflags := loadPosesSubmesh_flags h
    have hrange : channelsInRange later pg'.poses := by
      intro p hp
      rw [hlist]
      rw [hposes] at hp
      rcases List.mem_append.mp hp with hp | hp
      · exact hin p hp
      · obtain ⟨⟨w, s, h0, _⟩, hlt⟩ := hat p hp
        exact ⟨h0, hlt⟩
    have := loadKeyframe_total bs' later time params sp hgroup hrange
      (by rw [hflags, hposes]; exact hlen)
    rw [this, hlist, hposes]

/-- On `Scene.secondTarget` the channel 0 stores no pose, so the pose of the channel
position 1 stands first in group 0; the weight `loadKeyframe` stores for it in a later
scene is the envelope times the weight of channel 1. -/
theorem loadKeyframe_weight_of_captured_channel_witness :
    ∃ bs' maya',
      loadPosesShared (1 / 10000) (BlendShape.new.load Scene.secondTarget)
        Scene.secondTarget {} demoVertices 10 0 = .ok (bs', maya') ∧
      (posesOf bs' 0).map (fun p => p.blendShapeIndex) = [1] ∧
      ∀ (later : Scene) (time : ℚ) (sp : Int), later.weightIndexList = [0, 1] →
        loadKeyframe bs' later time {} 0 sp =
          .ok { time := time, positions := [],
                poserefs := [{ poseIndex := sp + 0,
                               poseWeight := later.envelope * later.weight 1 }] } := by
  obtain ⟨bs', maya', hr, hposes⟩ := secondTarget_poses
  have hg : (BlendShape.new.load Scene.secondTarget).m_poseGroups 0
      = some { targetIndex := 0, poses := [] } := new_group_zero
  obtain ⟨added, hgroup, _, hkey⟩ :=
    (loadKeyframe_weight_of_captured_channel (1 / 10000)).1 _ _ _ _ _ _ _ _ _ hg
      (by decide) hr
  have hadd : posesOf bs' 0 = added := by simp [posesOf, hgroup]
  rw [hposes] at hadd
  refine ⟨bs', maya', hr, by rw [hposes]; rfl, ?_⟩
  intro later time sp hlist
  have hflags : bs'.poseOptArray.length = 0 := by
    rw [loadPosesShared_flags hr]; rfl
  rw [hkey later time sp hlist (by intro p hp; cases hp) (Or.inl rfl), ← hadd]
  simp [refsFrom, keeps, hflags, Scene.secondTarget, Scene.still]

/-! ## The key tracks of the particles (C30) -/

/-- The search loop is not entered when `nLeft - nRight ≤ 1`. -/
theorem searchLoop_skipped (keys : List TKey) (nTime : Int) (fuel : Nat) (nLeft nRight : Int)
    (h : nLeft - nRight ≤ 1) :
    TKeyTrack.searchLoop keys nTime fuel (nLeft, nRight) = .ok (nLeft, nRight) := by
  cases fuel with
  | zero => simp [TKeyTrack.searchLoop, not_lt.mpr h]
  | succ n => simp [TKeyTrack.searchLoop, not_lt.mpr h]

/-- The search of `GetValueBinSearch` never moves: the keys it interpolates are the first
and the last of the track. -/
theorem GetValueBinSearch_ends (fuel : Nat) (keys : List TKey) (fTime : ℚ)
    (first last : TKey) (hfirst : keys[0]? = some first)
    (hlast : keys[keys.length - 1]? = some last) (hne : last.nTime ≠ first.nTime) :
    TKeyTrack.GetValueBinSearch fuel keys fTime =
      .ok (Interpolate first.value last.value
        ((fTime - first.nTime) / ((last.nTime - first.nTime : Int) : ℚ))) := by
  have hpos : 0 < keys.length := by
    cases keys with
    | nil => simp at hfirst
    | cons a l => simp
  unfold TKeyTrack.GetValueBinSearch
  dsimp only
  rw [searchLoop_skipped _ _ _ _ _ (by omega)]
  simp only [bind_ok_eq]
  have h1 : vecGet keys ((keys.length : Int) - 1) = .ok last := by
    unfold vecGet
    have : ((keys.length : Int) - 1).toNat = keys.length - 1 := by omega
    rw [if_pos (by omega), this, hlast]
  have h0 : vecGet keys 0 = .ok first := by
    unfold vecGet
    simp [hfirst]
  rw [h1, bind_ok_eq, h0, bind_ok_eq]
  have : ¬ (last.nTime - first.nTime = 0) := by
    intro h; exact hne (by omega)
  rw [if_neg this]

/-- A track with one key: `GetValue` returns the value of the key. -/
theorem GetValue_single (fuel : Nat) (k : TKey) (fTime : ℚ) :
    TKeyTrack.GetValue fuel [k] fTime = .ok k.value := by
  simp [TKeyTrack.GetValue, vecGet, bind_ok_eq]

/-- A track without key: `GetValue` reads `keys[-1]`. -/
theorem GetValue_empty (fuel : Nat) (fTime : ℚ) :
    TKeyTrack.GetValue fuel [] fTime = .error .undefinedBehaviour := by
  unfold TKeyTrack.GetValue TKeyTrack.GetValueBinSearch
  rw [if_neg (by simp)]
  dsimp only
  rw [searchLoop_skipped _ _ _ _ _ (by simp)]
  simp [bind_ok_eq, vecGet, bind_error_eq]

/-- C30 (the code): on a track of two keys or more whose first and last keys have
different times, `GetValue` returns, for every `fTime` and with any fuel, the
interpolation between the first and the last key of the track, wherever `fTime` lies: the
loop condition `nLeft - nRight > 1` is false on entry and no key is searched. -/
theorem GetValue_interpolates_first_and_last (fuel : Nat) (keys : List TKey) (fTime : ℚ)
    (first last : TKey) (hlen : 2 ≤ keys.length) (hfirst : keys[0]? = some first)
    (hlast : keys[keys.length - 1]? = some last) (hne : last.nTime ≠ first.nTime) :
    TKeyTrack.GetValue fuel keys fTime =
      .ok (Interpolate first.value last.value
        ((fTime - first.nTime) / ((last.nTime - first.nTime : Int) : ℚ))) := by
  unfold TKeyTrack.GetValue
  rw [if_neg (by omega)]
  exact GetValueBinSearch_ends fuel keys fTime first last hfirst hlast hne

/-- On `demoTrack` the time 5 lies between the keys of the times 0 and 10, whose values
are 0 and 10: the interpolation between them is 5, and `GetValue` returns 0, the
interpolation between the keys of the times 0 and 20. -/
theorem GetValue_interpolates_first_and_last_witness :
    TKeyTrack.GetValue 0 demoTrack 5 = .ok 0 ∧ bracketInterpolation demoTrack 0 5 = some 5 := by
  constructor
  · have h := GetValue_interpolates_first_and_last 0 demoTrack 5
      { value := 0, nTime := 0 } { value := 0, nTime := 20 } (by decide) rfl rfl (by decide)
    rw [h]
    simp [Interpolate]
  · simp [bracketInterpolation, demoTrack]
    norm_num

/-! ## The curves skipped by `writeAnim` (C22) -/

theorem zeroPretest_true (anim : MFnAnimCurve) :
    ∀ (n i : Nat), OgreExporter.zeroPretest anim n i true = true := by
  intro n
  induction n with
  | zero => intro i; rfl
  | succ n ih => intro i; simp [OgreExporter.zeroPretest, ih]

/-- The pretest leaves `zeroValue` false exactly when no key has a value above 0. -/
theorem zeroPretest_false_iff (anim : MFnAnimCurve) :
    ∀ (n i : Nat), OgreExporter.zeroPretest anim n i false = false ↔
      ∀ k, i ≤ k → k < i + n → anim.value k ≤ 0 := by
  intro n
  induction n with
  | zero =>
    intro i
    simp only [OgreExporter.zeroPretest, true_iff]
    intro k h1 h2; omega
  | succ n ih =>
    intro i
    simp only [OgreExporter.zeroPretest]
    by_cases hv : anim.value i > 0
    · rw [if_pos hv, zeroPretest_true]
      constructor
      · intro h; cases h
      · intro h
        have := h i (le_refl _) (by omega)
        exact absurd hv (not_lt.mpr this)
    · rw [if_neg hv, ih]
      constructor
      · intro h k h1 h2
        rcases Nat.eq_or_lt_of_le h1 with rfl | hlt
        · exact not_lt.mp hv
        · exact h k hlt (by omega)
      · intro h k h1 h2
        exact h k (by omega) (by omega)

theorem writeKeys_outAnim_length (anim : MFnAnimCurve) :
    ∀ (n i : Nat) (e : OgreExporter),
      e.m_params.outAnim.length ≤ (OgreExporter.writeKeys anim n i e).m_params.outAnim.length := by
  intro n
  induction n with
  | zero => intro i e; exact le_refl _
  | succ n ih =>
    intro i e
    simp only [OgreExporter.writeKeys]
    refine le_trans ?_ (ih _ _)
    by_cases h1 : anim.time i < e.firstStart <;> by_cases h2 : anim.time i > e.lastStop <;>
      simp [h1, h2]

/-- The export branch of `writeAnim` makes `outAnim` longer. -/
theorem writeAnimCurve_export_longer (nm : CurveName) (anim : MFnAnimCurve) (e : OgreExporter)
    (h : (!(if e.m_params.animSkipZeroValues then
            OgreExporter.zeroPretest anim anim.numKeys 0 false else false)
          && e.m_params.animSkipZeroValues) = false) :
    e.m_params.outAnim.length <
      (OgreExporter.writeAnimCurve nm anim e).1.m_params.outAnim.length := by
  unfold OgreExporter.writeAnimCurve
  dsimp only
  rw [h]
  simp only [Bool.false_eq_true, if_false]
  have hk := writeKeys_outAnim_length anim anim.numKeys 0
    ({ e with m_params := { e.m_params with
        outAnim := e.m_params.outAnim ++
          [.text "anim ", .text nm.outString, .text "\n", .text "\x7b\n",
           .text "\t//Time   /    Value\n"],
        outAnimXML := e.m_params.outAnimXML ++
          [.text "\t<animation name=\"", .text nm.outString,
           .text "\" type=\"float\" start=\"", .number (anim.time 0), .text "\" end=\"",
           .number (anim.time ((anim.numKeys + 4294967295) % 4294967296)),
           .text "\">\n"] } } : OgreExporter)
  simp only [List.length_append, List.length_cons, List.length_nil] at hk
  split
  · simp only [List.length_append, List.length_cons, List.length_nil]
    omega
  · simp only [List.length_append, List.length_cons, List.length_nil]
    omega

/-- With `animSkipZeroValues` unset `writeAnim` skips no curve. -/
theorem writeAnimCurve_disabled (nm : CurveName) (anim : MFnAnimCurve) (e : OgreExporter)
    (hskip : e.m_params.animSkipZeroValues = false) :
    e.m_params.outAnim.length <
      (OgreExporter.writeAnimCurve nm anim e).1.m_params.outAnim.length :=
  writeAnimCurve_export_longer nm anim e (by simp [hskip])

/-- C22 (the code): with `animSkipZeroValues` set, `writeAnim` returns `MS::kSuccess` and
leaves the exporter as it was (nothing is written for the curve) exactly when no key of
the curve has a value above 0: the pretest is `anim.value(i) > 0`, so a curve is skipped
also when its values are negative. -/
theorem writeAnim_skips_curves_without_positive_value (nm : CurveName)
    (anim : MFnAnimCurve) (e : OgreExporter)
    (hskip : e.m_params.animSkipZeroValues = true) :
    (OgreExporter.writeAnimCurve nm anim e).2 = .kSuccess ∧
    ((OgreExporter.writeAnimCurve nm anim e).1 = e ↔
      ∀ k, k < anim.numKeys → anim.value k ≤ 0) := by
  have hz := zeroPretest_false_iff anim anim.numKeys 0
  constructor
  · unfold OgreExporter.writeAnimCurve
    dsimp only
    split_ifs <;> rfl
  · cases hp : OgreExporter.zeroPretest anim anim.numKeys 0 false with
    | false =>
      have hall := hz.mp hp
      constructor
      · intro _ k hk
        exact hall k (Nat.zero_le _) (by omega)
      · intro _
        unfold OgreExporter.writeAnimCurve
        dsimp only
        simp [hskip, hp]
    | true =>
      have hlong := writeAnimCurve_export_longer nm anim e (by simp [hskip, hp])
      constructor
      · intro heq
        rw [heq] at hlong
        exact absurd hlong (lt_irrefl _)
      · intro hall
        have := hz.mpr (fun k _ h2 => hall k (by omega))
        rw [hp] at this
        cases this

/-- The curve `MFnAnimCurve.falling` has the key values -1 and -2, none of them zero, and
with `animSkipZeroValues` set `writeAnim` writes nothing for it. -/
theorem writeAnim_skips_curves_without_positive_value_witness :
    (∀ k, k < MFnAnimCurve.falling.numKeys → MFnAnimCurve.falling.value k ≠ 0) ∧
    (OgreExporter.writeAnimCurve CurveName.plain MFnAnimCurve.falling
      OgreExporter.skipping).1 = OgreExporter.skipping := by
  constructor
  · intro k hk
    have hk2 : k < 2 := hk
    show (-1 - (k : ℚ)) ≠ 0
    have : (0 : ℚ) ≤ k := Nat.cast_nonneg k
    linarith
  · refine (writeAnim_skips_curves_without_positive_value CurveName.plain
      MFnAnimCurve.falling OgreExporter.skipping rfl).2.mpr ?_
    intro k hk
    show (-1 - (k : ℚ)) ≤ 0
    have : (0 : ℚ) ≤ k := Nat.cast_nonneg k
    linarith

/-! ## The command line (C23, C24, C29) -/

theorem isOption_iff (env : ArgEnv) (args : List MArg) (i : Nat) (name : String) :
    isOption env args i name = true ↔
      (argAt env args i).asString = name ∧ (argAt env args i).isString = true := by
  unfold isOption
  rw [Bool.and_eq_true, beq_iff_eq]
  constructor
  · intro h; exact ⟨h.1.symm, h.2⟩
  · intro h; exact ⟨h.1.symm, h.2⟩

/-- An argument is at most one option. -/
theorem isOption_other (env : ArgEnv) (args : List MArg) (i : Nat) {a b : String}
    (ha : isOption env args i a = true) (hne : b ≠ a) : isOption env args i b = false := by
  cases hb : isOption env args i b with
  | false => rfl
  | true =>
    have h1 := ((isOption_iff env args i a).mp ha).1
    have h2 := ((isOption_iff env args i b).mp hb).1
    exact absurd (h2.symm.trans h1) hne

/-- The names tested by the chain are different from one another. -/
theorem optionTable_names : (optionTable.map Prod.fst).Nodup := by
  decide

/-- What holds of the parameters left alone and of the result of every body of the chain
holds of a pass of the loop. -/
theorem runChain_cases (env : ArgEnv) (args : List MArg) (i : Nat) (p : ParamList)
    (P : Nat × ParamList → Prop) (h0 : P (i, p)) :
    ∀ (table : List (String × OptionBody)),
      (∀ nb ∈ table, isOption env args i nb.1 = true → P (nb.2 env args i p)) →
      P (runChain env args i p table) := by
  intro table
  induction table with
  | nil => intro _; exact h0
  | cons nb rest ih =>
    intro h
    obtain ⟨name, body⟩ := nb
    simp only [runChain]
    by_cases hc : isOption env args i name = true
    · rw [if_pos hc]
      exact h (name, body) (List.mem_cons_self _ _) hc
    · rw [if_neg hc]
      exact ih (fun nb hnb => h nb (List.mem_cons_of_mem _ hnb))

/-- The branch taken for an option of the chain is the one of its name. -/
theorem runChain_of_mem (env : ArgEnv) (args : List MArg) (i : Nat) (p : ParamList)
    (name : String) (body : OptionBody) (hopt : isOption env args i name = true) :
    ∀ (table : List (String × OptionBody)), (table.map Prod.fst).Nodup →
      (name, body) ∈ table → runChain env args i p table = body env args i p := by
  intro table
  induction table with
  | nil => intro _ h; cases h
  | cons nb rest ih =>
    intro hnd hmem
    obtain ⟨n1, b1⟩ := nb
    simp only [List.map_cons, List.nodup_cons] at hnd
    simp only [runChain]
    rcases List.mem_cons.mp hmem with heq | hin
    · simp only [Prod.mk.injEq] at heq
      obtain ⟨rfl, rfl⟩ := heq
      rw [if_pos hopt]
    · have hne : n1 ≠ name := by
        intro h
        apply hnd.1
        rw [h]
        exact List.mem_map_of_mem Prod.fst hin
      rw [isOption_other env args i hopt hne]
      simp only [Bool.false_eq_true, if_false]
      exact ih hnd.2 hin

/-- No branch is taken for an argument that is none of the options. -/
theorem runChain_none (env : ArgEnv) (args : List MArg) (i : Nat) (p : ParamList) :
    ∀ (table : List (String × OptionBody)),
      (∀ nb ∈ table, isOption env args i nb.1 = false) →
      runChain env args i p table = (i, p) := by
  intro table
  induction table with
  | nil => intro _; rfl
  | cons nb rest ih =>
    intro h
    obtain ⟨n1, b1⟩ := nb
    simp only [runChain]
    rw [h (n1, b1) (List.mem_cons_self _ _)]
    simp only [Bool.false_eq_true, if_false]
    exact ih (fun nb hnb => h nb (List.mem_cons_of_mem _ hnb))

theorem parseClip_index (env : ArgEnv) (args : List MArg) (i : Nat) (list : List clipInfo) :
    i ≤ (parseClip env args i list).1 := by
  unfold parseClip
  dsimp only
  split_ifs <;> dsimp only <;> omega

/-- What holds of the parameters left alone and of the result of every body of
`optionTable` holds of a pass of the loop of `parseArgs`. -/
theorem parseOption_cases (env : ArgEnv) (args : List MArg) (i : Nat) (p : ParamList)
    (P : Nat × ParamList → Prop) (h0 : P (i, p))
    (h : ∀ nb ∈ optionTable, isOption env args i nb.1 = true → P (nb.2 env args i p)) :
    P (parseOption env args i p) :=
  runChain_cases env args i p P h0 optionTable h

/-- Every pass of the loop of `parseArgs` leaves `i` where it was or moves it forward. -/
theorem parseOption_index (env : ArgEnv) (args : List MArg) (i : Nat) (p : ParamList) :
    i ≤ (parseOption env args i p).1 := by
  refine parseOption_cases env args i p (fun r => i ≤ r.1) (le_refl _) ?_
  intro nb hnb _
  simp only [optionTable, List.mem_cons, List.mem_singleton, List.not_mem_nil, or_false] at hnb
  rcases hnb with rfl | rfl | rfl | rfl | rfl | rfl | rfl | rfl | rfl | rfl | rfl | rfl | rfl | rfl | rfl | rfl | rfl | rfl | rfl | rfl | rfl | rfl | rfl | rfl | rfl | rfl | rfl | rfl | rfl | rfl | rfl | rfl | rfl | rfl | rfl | rfl | rfl | rfl | rfl | rfl | rfl
  all_goals first
    | exact le_refl _
    | exact Nat.le_succ _
    | exact parseClip_index _ _ _ _
    | (dsimp only; split <;> exact Nat.le_succ _)

/-- The members a body of the chain leaves as they were: `lum` is written by `-lu` and
`-scale` only, each clip list by its own option only, the mesh version by `-version`
only. -/
theorem optionTable_frame (env : ArgEnv) (args : List MArg) (i : Nat) (p : ParamList) :
    ∀ nb ∈ optionTable,
      (nb.1 ≠ "-lu" → nb.1 ≠ "-scale" → (nb.2 env args i p).2.lum = p.lum) ∧
      (nb.1 ≠ "-skeletonClip" → (nb.2 env args i p).2.skelClipList = p.skelClipList) ∧
      (nb.1 ≠ "-BSClip" → (nb.2 env args i p).2.BSClipList = p.BSClipList) ∧
      (nb.1 ≠ "-vertexClip" → (nb.2 env args i p).2.vertClipList = p.vertClipList) ∧
      (nb.1 ≠ "-version" →
        (nb.2 env args i p).2.targetMeshVersion = p.targetMeshVersion) := by
  intro nb hnb
  simp only [optionTable, List.mem_cons, List.mem_singleton, List.not_mem_nil, or_false] at hnb
  rcases hnb with rfl | rfl | rfl | rfl | rfl | rfl | rfl | rfl | rfl | rfl | rfl | rfl | rfl | rfl | rfl | rfl | rfl | rfl | rfl | rfl | rfl | rfl | rfl | rfl | rfl | rfl | rfl | rfl | rfl | rfl | rfl | rfl | rfl | rfl | rfl | rfl | rfl | rfl | rfl | rfl | rfl
  all_goals
    refine ⟨fun h1 h2 => ?_, fun h1 => ?_, fun h1 => ?_, fun h1 => ?_, fun h1 => ?_⟩
  all_goals first
    | rfl
    | exact absurd rfl h1
    | exact absurd rfl h2
    | (dsimp only; split <;> rfl)
    | (dsimp only; split_ifs <;> rfl)

theorem mem_optionTable_lu :
    (("-lu", fun env args i p =>
      match unitMultiplier (lengthUnitAt env args i) with
      | some m => (i + 1, { p with lum := m })
      | none => (i + 1, p)) : String × OptionBody) ∈ optionTable := by
  simp [optionTable]

theorem mem_optionTable_scale :
    (("-scale", fun env args i p =>
      (i + 1, { p with lum := p.lum * (argAt env args (i + 1)).asDouble })) :
        String × OptionBody) ∈ optionTable := by
  simp [optionTable]

theorem mem_optionTable_skeletonClip :
    (("-skeletonClip", fun env args i p =>
      ((parseClip env args i p.skelClipList).1,
        { p with skelClipList := (parseClip env args i p.skelClipList).2 })) :
        String × OptionBody) ∈ optionTable := by
  simp [optionTable]

theorem mem_optionTable_BSClip :
    (("-BSClip", fun env args i p =>
      ((parseClip env args i p.BSClipList).1,
        { p with BSClipList := (parseClip env args i p.BSClipList).2 })) :
        String × OptionBody) ∈ optionTable := by
  simp [optionTable]

theorem mem_optionTable_vertexClip :
    (("-vertexClip", fun env args i p =>
      ((parseClip env args i p.vertClipList).1,
        { p with vertClipList := (parseClip env args i p.vertClipList).2 })) :
        String × OptionBody) ∈ optionTable := by
  simp [optionTable]

theorem mem_optionTable_version :
    (("-version", fun env args i p =>
      match versionNamed (argAt env args (i + 1)).asString with
      | some v => (i + 1, { p with targetMeshVersion := v })
      | none => (i + 1, p)) : String × OptionBody) ∈ optionTable := by
  simp [optionTable]

/-- The pass of the option `-lu` (paramlist.cpp 77-97). -/
theorem parseOption_lu (env : ArgEnv) (args : List MArg) (i : Nat) (p : ParamList)
    (h : isOption env args i "-lu" = true) :
    parseOption env args i p =
      match unitMultiplier (lengthUnitAt env args i) with
      | some m => (i + 1, { p with lum := m })
      | none => (i + 1, p) :=
  runChain_of_mem env args i p _ _ h optionTable optionTable_names mem_optionTable_lu

/-- The pass of the option `-scale` (paramlist.cpp 98-102). -/
theorem parseOption_scale (env : ArgEnv) (args : List MArg) (i : Nat) (p : ParamList)
    (h : isOption env args i "-scale" = true) :
    parseOption env args i p =
      (i + 1, { p with lum := p.lum * (argAt env args (i + 1)).asDouble }) :=
  runChain_of_mem env args i p _ _ h optionTable optionTable_names mem_optionTable_scale

/-- The pass of the option `-skeletonClip` (paramlist.cpp 252-325). -/
theorem parseOption_skeletonClip (env : ArgEnv) (args : List MArg) (i : Nat) (p : ParamList)
    (h : isOption env args i "-skeletonClip" = true) :
    parseOption env args i p =
      ((parseClip env args i p.skelClipList).1,
        { p with skelClipList := (parseClip env args i p.skelClipList).2 }) :=
  runChain_of_mem env args i p _ _ h optionTable optionTable_names
    mem_optionTable_skeletonClip

/-- The pass of the option `-BSClip` (paramlist.cpp 326-399). -/
theorem parseOption_BSClip (env : ArgEnv) (args : List MArg) (i : Nat) (p : ParamList)
    (h : isOption env args i "-BSClip" = true) :
    parseOption env args i p =
      ((parseClip env args i p.BSClipList).1,
        { p with BSClipList := (parseClip env args i p.BSClipList).2 }) :=
  runChain_of_mem env args i p _ _ h optionTable optionTable_names mem_optionTable_BSClip

/-- The pass of the option `-vertexClip` (paramlist.cpp 400-473). -/
theorem parseOption_vertexClip (env : ArgEnv) (args : List MArg) (i : Nat) (p : ParamList)
    (h : isOption env args i "-vertexClip" = true) :
    parseOption env args i p =
      ((parseClip env args i p.vertClipList).1,
        { p with vertClipList := (parseClip env args i p.vertClipList).2 }) :=
  runChain_of_mem env args i p _ _ h optionTable optionTable_names
    mem_optionTable_vertexClip

/-- The pass of the option `-version` (paramlist.cpp 474-512). -/
theorem parseOption_version (env : ArgEnv) (args : List MArg) (i : Nat) (p : ParamList)
    (h : isOption env args i "-version" = true) :
    parseOption env args i p =
      match versionNamed (argAt env args (i + 1)).asString with
      | some v => (i + 1, { p with targetMeshVersion := v })
      | none => (i + 1, p) :=
  runChain_of_mem env args i p _ _ h optionTable optionTable_names mem_optionTable_version

/-- A pass that is not that of the named option leaves the member of that option as it
was. -/
theorem parseOption_frame (env : ArgEnv) (args : List MArg) (i : Nat) (p : ParamList) :
    (isOption env args i "-lu" = false → isOption env args i "-scale" = false →
      (parseOption env args i p).2.lum = p.lum) ∧
    (isOption env args i "-skeletonClip" = false →
      (parseOption env args i p).2.skelClipList = p.skelClipList) ∧
    (isOption env args i "-BSClip" = false →
      (parseOption env args i p).2.BSClipList = p.BSClipList) ∧
    (isOption env args i "-vertexClip" = false →
      (parseOption env args i p).2.vertClipList = p.vertClipList) ∧
    (isOption env args i "-version" = false →
      (parseOption env args i p).2.targetMeshVersion = p.targetMeshVersion) := by
  refine parseOption_cases env args i p
    (fun r =>
      (isOption env args i "-lu" = false → isOption env args i "-scale" = false →
        r.2.lum = p.lum) ∧
      (isOption env args i "-skeletonClip" = false → r.2.skelClipList = p.skelClipList) ∧
      (isOption env args i "-BSClip" = false → r.2.BSClipList = p.BSClipList) ∧
      (isOption env args i "-vertexClip" = false → r.2.vertClipList = p.vertClipList) ∧
      (isOption env args i "-version" = false →
        r.2.targetMeshVersion = p.targetMeshVersion))
    ⟨fun _ _ => rfl, fun _ => rfl, fun _ => rfl, fun _ => rfl, fun _ => rfl⟩ ?_
  intro nb hnb hopt
  obtain ⟨f1, f2, f3, f4, f5⟩ := optionTable_frame env args i p nb hnb
  have hne : ∀ name : String, isOption env args i name = false → nb.1 ≠ name := by
    intro name hf heq
    rw [heq, hf] at hopt
    cases hopt
  exact ⟨fun h1 h2 => f1 (hne _ h1) (hne _ h2), fun h => f2 (hne _ h), fun h => f3 (hne _ h),
    fun h => f4 (hne _ h), fun h => f5 (hne _ h)⟩

/-- The loop of `parseArgs` returns when the fuel covers the arguments left. -/
theorem parseLoop_total (env : ArgEnv) (args : List MArg) :
    ∀ (fuel i : Nat) (p : ParamList), args.length ≤ i + fuel →
      ∃ p', parseLoop env args fuel i p = .ok p' := by
  intro fuel
  induction fuel with
  | zero =>
    intro i p h
    exact ⟨p, by simp only [parseLoop]; rw [if_neg (by omega)]⟩
  | succ n ih =>
    intro i p h
    simp only [parseLoop]
    by_cases hi : i < args.length
    · rw [if_pos hi]
      have := parseOption_index env args i p
      exact ih _ _ (by omega)
    · rw [if_neg hi]
      exact ⟨p, rfl⟩

/-- The function `parseArgs` returns for every argument list. -/
theorem parseArgs_total (env : ArgEnv) (args : List MArg) (p : ParamList) :
    ∃ p', parseArgs env args p = .ok p' :=
  parseLoop_total env args args.length 0 p (by omega)

/-- A relation between parameters that every pass of the loop establishes, and that is
reflexive and transitive, holds between the parameters before and after `parseArgs`. -/
theorem parseLoop_rel (env : ArgEnv) (args : List MArg) (R : ParamList → ParamList → Prop)
    (hrefl : ∀ p, R p p) (htrans : ∀ a b c, R a b → R b c → R a c)
    (hstep : ∀ i p, R p (parseOption env args i p).2) :
    ∀ (fuel i : Nat) (p p' : ParamList), parseLoop env args fuel i p = .ok p' → R p p' := by
  intro fuel
  induction fuel with
  | zero =>
    intro i p p' h
    simp only [parseLoop] at h
    split at h
    · cases h
    · simp only [Except.ok.injEq] at h
      rw [← h]; exact hrefl p
  | succ n ih =>
    intro i p p' h
    simp only [parseLoop] at h
    split at h
    · exact htrans _ _ _ (hstep i p) (ih _ _ _ h)
    · simp only [Except.ok.injEq] at h
      rw [← h]; exact hrefl p

theorem clipsKept_refl (list : List clipInfo) : ClipsKept list list :=
  ⟨List.prefix_refl _, fun h => h⟩

theorem clipsKept_trans {a b c : List clipInfo} (h1 : ClipsKept a b) (h2 : ClipsKept b c) :
    ClipsKept a c :=
  ⟨h1.1.trans h2.1, fun h => h2.2 (h1.2 h)⟩

theorem all_ne_iff (name : String) (list : List clipInfo) :
    list.all (fun c => !(name == c.name)) = true ↔ name ∉ clipNames list := by
  simp [clipNames, List.all_eq_true]
  constructor
  · intro h c hc heq; exact h c hc heq.symm
  · intro h c hc heq; exact h c hc heq.symm

/-- A clip definition whose name is in the list: nothing is added, and only the option and
the name are consumed. -/
theorem parseClip_duplicate (env : ArgEnv) (args : List MArg) (i : Nat) (list : List clipInfo)
    (h : (argAt env args (i + 1)).asString ∈ clipNames list) :
    parseClip env args i list = (i + 1, list) := by
  unfold parseClip
  dsimp only
  rw [if_neg]
  rw [all_ne_iff]
  exact fun hn => hn h

/-- A clip definition whose name is not in the list: one clip of that name is added at the
end. -/
theorem parseClip_unique (env : ArgEnv) (args : List MArg) (i : Nat) (list : List clipInfo)
    (h : (argAt env args (i + 1)).asString ∉ clipNames list) :
    ∃ c, c.name = (argAt env args (i + 1)).asString ∧
      (parseClip env args i list).2 = list ++ [c] := by
  unfold parseClip
  dsimp only
  rw [if_pos ((all_ne_iff _ _).mpr h)]
  exact ⟨_, rfl, rfl⟩

theorem parseClip_kept (env : ArgEnv) (args : List MArg) (i : Nat) (list : List clipInfo) :
    ClipsKept list (parseClip env args i list).2 := by
  by_cases h : (argAt env args (i + 1)).asString ∈ clipNames list
  · rw [parseClip_duplicate env args i list h]
    exact clipsKept_refl _
  · obtain ⟨c, hc, heq⟩ := parseClip_unique env args i list h
    rw [heq]
    refine ⟨List.prefix_append _ _, ?_⟩
    intro hnd
    simp only [clipNames, List.map_append, List.map_cons, List.map_nil]
    rw [List.nodup_append]
    refine ⟨hnd, List.nodup_singleton _, ?_⟩
    intro a ha hb
    simp only [List.mem_singleton] at hb
    rw [hb, hc] at ha
    exact h ha

/-- Every pass of the loop of `parseArgs` keeps the three clip lists. -/
theorem parseOption_kept (env : ArgEnv) (args : List MArg) (i : Nat) (p : ParamList) :
    ClipsKept p.skelClipList (parseOption env args i p).2.skelClipList ∧
    ClipsKept p.BSClipList (parseOption env args i p).2.BSClipList ∧
    ClipsKept p.vertClipList (parseOption env args i p).2.vertClipList := by
  obtain ⟨_, f2, f3, f4, _⟩ := parseOption_frame env args i p
  refine ⟨?_, ?_, ?_⟩
  · cases h : isOption env args i "-skeletonClip" with
    | false => rw [f2 h]; exact clipsKept_refl _
    | true => rw [parseOption_skeletonClip env args i p h]; exact parseClip_kept _ _ _ _
  · cases h : isOption env args i "-BSClip" with
    | false => rw [f3 h]; exact clipsKept_refl _
    | true => rw [parseOption_BSClip env args i p h]; exact parseClip_kept _ _ _ _
  · cases h : isOption env args i "-vertexClip" with
    | false => rw [f4 h]; exact clipsKept_refl _
    | true => rw [parseOption_vertexClip env args i p h]; exact parseClip_kept _ _ _ _

/-- C23: for every argument list and all initial parameters `parseArgs` returns, and each
of the lists `skelClipList`, `BSClipList`, `vertClipList` still begins with the clips it
had, unchanged, and has clip names different from one another if it had before; a
`-skeletonClip`, `-BSClip` or `-vertexClip` option followed by a name that is already in
its list changes no parameter at all (no clip is added, none is changed) and moves on past
the name. -/
theorem parseArgs_keeps_clip_names_unique (env : ArgEnv) (args : List MArg) :
    (∀ p : ParamList, ∃ p', parseArgs env args p = .ok p' ∧
      ClipsKept p.skelClipList p'.skelClipList ∧ ClipsKept p.BSClipList p'.BSClipList ∧
      ClipsKept p.vertClipList p'.vertClipList) ∧
    (∀ (i : Nat) (p : ParamList), isOption env args i "-skeletonClip" = true →
      (argAt env args (i + 1)).asString ∈ clipNames p.skelClipList →
      parseOption env args i p = (i + 1, p)) ∧
    (∀ (i : Nat) (p : ParamList), isOption env args i "-BSClip" = true →
      (argAt env args (i + 1)).asString ∈ clipNames p.BSClipList →
      parseOption env args i p = (i + 1, p)) ∧
    (∀ (i : Nat) (p : ParamList), isOption env args i "-vertexClip" = true →
      (argAt env args (i + 1)).asString ∈ clipNames p.vertClipList →
      parseOption env args i p = (i + 1, p)) := by
  refine ⟨?_, ?_, ?_, ?_⟩
  · intro p
    obtain ⟨p', hp'⟩ := parseArgs_total env args p
    refine ⟨p', hp', ?_⟩
    exact parseLoop_rel env args
      (fun a b => ClipsKept a.skelClipList b.skelClipList ∧
        ClipsKept a.BSClipList b.BSClipList ∧ ClipsKept a.vertClipList b.vertClipList)
      (fun a => ⟨clipsKept_refl _, clipsKept_refl _, clipsKept_refl _⟩)
      (fun a b c h1 h2 => ⟨clipsKept_trans h1.1 h2.1, clipsKept_trans h1.2.1 h2.2.1,
        clipsKept_trans h1.2.2 h2.2.2⟩)
      (fun i a => parseOption_kept env args i a) args.length 0 p p' hp'
  · intro i p hopt hdup
    rw [parseOption_skeletonClip env args i p hopt, parseClip_duplicate env args i _ hdup]
  · intro i p hopt hdup
    rw [parseOption_BSClip env args i p hopt, parseClip_duplicate env args i _ hdup]
  · intro i p hopt hdup
    rw [parseOption_vertexClip env args i p hopt, parseClip_duplicate env args i _ hdup]

theorem versionNamed_none_iff (name : String) :
    versionNamed name = none ↔ name ∉ ["latest", "1.10", "1.8", "1.7", "1.4", "1.0"] := by
  unfold versionNamed
  simp only [List.mem_cons, List.mem_singleton, List.not_mem_nil, or_false, not_or,
    beq_iff_eq]
  constructor
  · intro h
    split_ifs at h with h1 h2 h3 h4 h5 h6
    exact ⟨h1, h2, h3, h4, h5, h6⟩
  · rintro ⟨h1, h2, h3, h4, h5, h6⟩
    rw [if_neg h1, if_neg h2, if_neg h3, if_neg h4, if_neg h5, if_neg h6]

/-- C24 (the code): the pass of a `-version` option followed by a name that is none of
`latest`, `1.10`, `1.8`, `1.7`, `1.4`, `1.0` changes no parameter and moves on past the
name; the target mesh version stays what it was, for instance the version an earlier
`-version` option selected, and is not set to the latest version. -/
theorem parseOption_unknown_version_keeps_version (env : ArgEnv) (args : List MArg) (i : Nat)
    (p : ParamList) (hopt : isOption env args i "-version" = true)
    (hname : (argAt env args (i + 1)).asString ∉
      ["latest", "1.10", "1.8", "1.7", "1.4", "1.0"]) :
    parseOption env args i p = (i + 1, p) := by
  rw [parseOption_version env args i p hopt, (versionNamed_none_iff _).mpr hname]

/-- The arguments `-version 1.4 -version bogus`: `parseArgs` returns with the target mesh
version 1.4, not the latest. -/
theorem parseOption_unknown_version_keeps_version_witness :
    ∃ p', parseArgs ArgEnv.demo (argsOf ["-version", "1.4", "-version", "bogus"]) {} = .ok p' ∧
      p'.targetMeshVersion = .MESH_VERSION_1_4 ∧
      p'.targetMeshVersion ≠ .MESH_VERSION_LATEST := by
  refine ⟨{ targetMeshVersion := .MESH_VERSION_1_4 }, ?_, rfl, by decide⟩
  have hlen : (argsOf ["-version", "1.4", "-version", "bogus"]).length = 4 := rfl
  have h0 : parseOption ArgEnv.demo (argsOf ["-version", "1.4", "-version", "bogus"]) 0 {}
      = (1, { targetMeshVersion := .MESH_VERSION_1_4 }) := by
    rw [parseOption_version _ _ _ _ (by decide)]
    have : versionNamed (argAt ArgEnv.demo
        (argsOf ["-version", "1.4", "-version", "bogus"]) (0 + 1)).asString
        = some .MESH_VERSION_1_4 := by decide
    rw [this]
  have h2 := parseOption_unknown_version_keeps_version ArgEnv.demo
    (argsOf ["-version", "1.4", "-version", "bogus"]) 2
    { targetMeshVersion := .MESH_VERSION_1_4 } (by decide) (by decide)
  unfold parseArgs
  rw [hlen]
  simp only [parseLoop, hlen, h0, h2]
  simp

/-- The pass of an argument that is none of the options changes nothing. -/
theorem parseOption_none (env : ArgEnv) (args : List MArg) (i : Nat) (p : ParamList)
    (h : ∀ nb ∈ optionTable, isOption env args i nb.1 = false) :
    parseOption env args i p = (i, p) :=
  runChain_none env args i p optionTable h

/-- On `demoClipArgs` the second definition of the clip `walk` is dropped: `parseArgs`
returns with the clip of the first definition alone. -/
theorem parseArgs_keeps_clip_names_unique_witness :
    ∃ p', parseArgs ArgEnv.demo demoClipArgs {} = .ok p' ∧
      p'.skelClipList = [{ name := "walk", start := 0, stop := 10, rate := 1 }] := by
  refine ⟨{ skelClipList := [{ name := "walk", start := 0, stop := 10, rate := 1 }] }, ?_,
    rfl⟩
  have hlen : demoClipArgs.length = 10 := rfl
  have h0 : parseOption ArgEnv.demo demoClipArgs 0 {}
      = (4, { skelClipList := [{ name := "walk", start := 0, stop := 10, rate := 1 }] }) := by
    rw [parseOption_skeletonClip _ _ _ _ (by decide)]
    simp [parseClip, argAt, demoClipArgs, argsOf, ArgEnv.demo]
  have h5 := (parseArgs_keeps_clip_names_unique ArgEnv.demo demoClipArgs).2.1 5
    { skelClipList := [{ name := "walk", start := 0, stop := 10, rate := 1 }] }
    (by decide) (by decide)
  have h7 := parseOption_none ArgEnv.demo demoClipArgs 7
    { skelClipList := [{ name := "walk", start := 0, stop := 10, rate := 1 }] } (by decide)
  have h8 := parseOption_none ArgEnv.demo demoClipArgs 8
    { skelClipList := [{ name := "walk", start := 0, stop := 10, rate := 1 }] } (by decide)
  have h9 := parseOption_none ArgEnv.demo demoClipArgs 9
    { skelClipList := [{ name := "walk", start := 0, stop := 10, rate := 1 }] } (by decide)
  unfold parseArgs
  rw [hlen]
  simp only [parseLoop, hlen, h0, h5, h7, h8, h9]
  simp

/-! ### The length unit multiplier (C29) -/

/-- What a pass of the loop of `parseArgs` does to `lum`. -/
theorem parseOption_lum (env : ArgEnv) (args : List MArg) (i : Nat) (p : ParamList) :
    (parseOption env args i p).2.lum =
      match lumOptionAt env args i with
      | some (.unit m) => m
      | some (.scale s) => p.lum * s
      | none => p.lum := by
  unfold lumOptionAt
  cases hlu : isOption env args i "-lu" with
  | true =>
    rw [parseOption_lu env args i p hlu]
    simp only [if_true]
    cases unitMultiplier (lengthUnitAt env args i) with
    | none => rfl
    | some m => rfl
  | false =>
    simp only [Bool.false_eq_true, if_false]
    cases hsc : isOption env args i "-scale" with
    | true =>
      rw [parseOption_scale env args i p hsc]
      simp only [if_true]
    | false =>
      simp only [Bool.false_eq_true, if_false]
      exact (parseOption_frame env args i p).1 hlu hsc

/-- The multiplier after a list of options, when it is `lum0` before: the code, option
after option, gives what the words of the specification say. -/
theorem foldl_lum_eq_lumBySpec :
    ∀ (opts : List LumOption) (lum0 : ℚ),
      opts.foldl (fun lum o =>
        match o with
        | .unit m => m
        | .scale s => lum * s) lum0 = lumBySpec lum0 opts := by
  intro opts
  induction opts with
  | nil => intro lum0; simp [lumBySpec, lastUnit, scalesAfterLastUnit]
  | cons o rest ih =>
    intro lum0
    rw [List.foldl_cons, ih]
    cases o with
    | unit m =>
      simp only [lumBySpec, lastUnit, scalesAfterLastUnit]
      cases lastUnit rest with
      | none => rfl
      | some m' => rfl
    | scale s =>
      simp only [lumBySpec, lastUnit, scalesAfterLastUnit]
      cases lastUnit rest with
      | none => simp [mul_assoc]
      | some m' => simp

/-- The multiplier after the loop of `parseArgs`. -/
theorem parseLoop_lum (env : ArgEnv) (args : List MArg) :
    ∀ (fuel i : Nat) (p p' : ParamList), parseLoop env args fuel i p = .ok p' →
      p'.lum = lumBySpec p.lum
        ((optionPositions env args fuel i p).filterMap (lumOptionAt env args)) := by
  intro fuel
  induction fuel with
  | zero =>
    intro i p p' h
    simp only [parseLoop] at h
    split at h
    · cases h
    · simp only [Except.ok.injEq] at h
      rw [← h]
      simp [optionPositions, lumBySpec, lastUnit, scalesAfterLastUnit]
  | succ n ih =>
    intro i p p' h
    simp only [parseLoop] at h
    simp only [optionPositions]
    split at h
    · rename_i hi
      rw [if_pos hi, ih _ _ _ h, parseOption_lum]
      simp only [List.filterMap_cons]
      cases hopt : lumOptionAt env args i with
      | none => rfl
      | some o =>
        rw [← foldl_lum_eq_lumBySpec, ← foldl_lum_eq_lumBySpec]
        cases o <;> rfl
    · rename_i hi
      simp only [Except.ok.injEq] at h
      rw [← h, if_neg hi]
      simp [lumBySpec, lastUnit, scalesAfterLastUnit]

theorem lastUnit_append_unit (before after : List LumOption) (m : ℚ) :
    lastUnit (before ++ .unit m :: after) = some ((lastUnit after).getD m) := by
  induction before with
  | nil =>
    simp only [List.nil_append, lastUnit]
    cases lastUnit after <;> rfl
  | cons o rest ih =>
    cases o with
    | unit m1 =>
      rw [List.cons_append]
      simp only [lastUnit]
      rw [ih]
    | scale s =>
      rw [List.cons_append]
      simp only [lastUnit]
      rw [ih]

theorem scalesAfterLastUnit_append_unit (before after : List LumOption) (m : ℚ) :
    scalesAfterLastUnit (before ++ .unit m :: after) = scalesAfterLastUnit after := by
  induction before with
  | nil => rfl
  | cons o rest ih =>
    cases o with
    | unit m1 =>
      rw [List.cons_append]
      simp only [scalesAfterLastUnit]
      rw [ih]
    | scale s =>
      rw [List.cons_append]
      simp only [scalesAfterLastUnit]
      rw [lastUnit_append_unit, ih]

/-- C29: for every argument list and all initial parameters `parseArgs` returns, and `lum`
is then `m` times the product of the `-scale` factors after the last recognised `-lu`
among the options of the run, `m` being the multiplier of that `-lu` or the initial `lum`
when there is none; the pass of a `-lu` whose unit is not recognised changes no
parameter, and what comes before a recognised `-lu` (the `-scale` options, the initial
`lum`) is without effect on the result. -/
theorem parseArgs_lum_is_last_unit_times_scales (env : ArgEnv) (args : List MArg) :
    (∀ p : ParamList, ∃ p', parseArgs env args p = .ok p' ∧
      p'.lum = lumBySpec p.lum (lumOptions env args p)) ∧
    (∀ (i : Nat) (p : ParamList), isOption env args i "-lu" = true →
      unitMultiplier (lengthUnitAt env args i) = none →
      parseOption env args i p = (i + 1, p)) ∧
    (∀ (lum0 lum1 m : ℚ) (before before1 after : List LumOption),
      lumBySpec lum0 (before ++ .unit m :: after) =
        lumBySpec lum1 (before1 ++ .unit m :: after)) := by
  refine ⟨?_, ?_, ?_⟩
  · intro p
    obtain ⟨p', hp'⟩ := parseArgs_total env args p
    exact ⟨p', hp', parseLoop_lum env args args.length 0 p p' hp'⟩
  · intro i p hopt hunit
    rw [parseOption_lu env args i p hopt, hunit]
  · intro lum0 lum1 m before before1 after
    simp only [lumBySpec, lastUnit_append_unit, scalesAfterLastUnit_append_unit,
      Option.getD_some]

/-- On the arguments `-scale 3 -lu mm -scale 2 -lu furlong` the options about the
multiplier are the `-scale 3`, the `-lu mm` and the `-scale 2`, and `lum` is 20 after
`parseArgs`: 10 for the millimetres times the 2 of the second `-scale`. -/
theorem parseArgs_lum_is_last_unit_times_scales_witness :
    ∃ p', parseArgs ArgEnv.demo demoUnitArgs {} = .ok p' ∧
      lumOptions ArgEnv.demo demoUnitArgs {} = [.scale 3, .unit 10, .scale 2] ∧
      p'.lum = 20 := by
  obtain ⟨p', hp', hlum⟩ :=
    (parseArgs_lum_is_last_unit_times_scales ArgEnv.demo demoUnitArgs).1 {}
  have hlen : demoUnitArgs.length = 8 := rfl
  have hmm : unitMultiplier (lengthUnitAt ArgEnv.demo demoUnitArgs 2) = some 10 := by
    simp [unitMultiplier, lengthUnitAt, argAt, demoUnitArgs]
  have hfur : unitMultiplier (lengthUnitAt ArgEnv.demo demoUnitArgs 6) = none := by
    simp [unitMultiplier, lengthUnitAt, argAt, demoUnitArgs]
  have h0 : ∀ p, parseOption ArgEnv.demo demoUnitArgs 0 p = (1, { p with lum := p.lum * 3 }) := by
    intro p
    rw [parseOption_scale _ _ _ _ (by decide)]
    simp [argAt, demoUnitArgs]
  have h2 : ∀ p, parseOption ArgEnv.demo demoUnitArgs 2 p = (3, { p with lum := 10 }) := by
    intro p
    rw [parseOption_lu _ _ _ _ (by decide), hmm]
  have h4 : ∀ p, parseOption ArgEnv.demo demoUnitArgs 4 p = (5, { p with lum := p.lum * 2 }) := by
    intro p
    rw [parseOption_scale _ _ _ _ (by decide)]
    simp [argAt, demoUnitArgs]
  have h6 : ∀ p, parseOption ArgEnv.demo demoUnitArgs 6 p = (7, p) := by
    intro p
    rw [parseOption_lu _ _ _ _ (by decide), hfur]
  have hopts : lumOptions ArgEnv.demo demoUnitArgs {} = [.scale 3, .unit 10, .scale 2] := by
    have l0 : lumOptionAt ArgEnv.demo demoUnitArgs 0 = some (.scale 3) := by
      unfold lumOptionAt
      rw [if_neg (by decide), if_pos (by decide)]
      simp [argAt, demoUnitArgs]
    have l2 : lumOptionAt ArgEnv.demo demoUnitArgs 2 = some (.unit 10) := by
      unfold lumOptionAt
      rw [if_pos (by decide), hmm]
      rfl
    have l4 : lumOptionAt ArgEnv.demo demoUnitArgs 4 = some (.scale 2) := by
      unfold lumOptionAt
      rw [if_neg (by decide), if_pos (by decide)]
      simp [argAt, demoUnitArgs]
    have l6 : lumOptionAt ArgEnv.demo demoUnitArgs 6 = none := by
      unfold lumOptionAt
      rw [if_pos (by decide), hfur]
      rfl
    have hpos : optionPositions ArgEnv.demo demoUnitArgs 8 0 {} = [0, 2, 4, 6] := by
      simp only [hlen, optionPositions, h0, h2, h4, h6]
      simp
    simp only [lumOptions, hlen, hpos, List.filterMap_cons, l0, l2, l4, l6,
      List.filterMap_nil]
  refine ⟨p', hp', hopts, ?_⟩
  rw [hlum, hopts]
  simp [lumBySpec, lastUnit, scalesAfterLastUnit]
  norm_num

/-! ## The selection on the failure path of `doIt` (C18) -/

/-- C18 (the code): on the failure path of `doIt` (a selection is exported and the
selection list cannot be read) `doIt` returns `kFailure` with the current time of the entry,
and with the active selection set to what the member `m_selList` held before the call:
the read at the entry, whose status is not tested, saved nothing, so the selection of the
entry is not what `exit()` sets back. -/
theorem doIt_failure_path_sets_stale_selection (fuel : Nat) (o : Oracle) (params : ParamList)
    (e : OgreExporter) (hall : params.exportAll = false)
    (hsel : o.selectionListStatus e.world = false) :
    ∃ r, OgreExporter.doIt fuel o params e = .ok (r, .kFailure) ∧
      r.world.currentTime = e.world.currentTime ∧
      r.world.activeSelection = e.m_selList := by
  unfold OgreExporter.doIt
  dsimp only [OgreExporter.fileCall]
  simp only [hsel, hall, if_false, Bool.false_eq_true]
  exact ⟨_, rfl, rfl, rfl⟩

/-- An exporter that has made no export yet (its `m_selList` is empty) runs `doIt` on a
selection, the node 7 being selected at the time 5, and the selection list cannot be read:
`doIt` returns `kFailure` with the time 5 and an empty selection; the node 7 is no longer
selected. -/
theorem doIt_failure_path_sets_stale_selection_witness :
    (OgreExporter.fresh {} (World.demo 5 [DagNode.leaf 7] (DagNode.leaf 0))).world.activeSelection
      = [DagNode.leaf 7] ∧
    ∃ r, OgreExporter.doIt 0 Oracle.unreadable {}
        (OgreExporter.fresh {} (World.demo 5 [DagNode.leaf 7] (DagNode.leaf 0)))
        = .ok (r, .kFailure) ∧
      r.world.currentTime = 5 ∧ r.world.activeSelection = [] := by
  refine ⟨rfl, ?_⟩
  obtain ⟨r, h, ht, hs⟩ := doIt_failure_path_sets_stale_selection 0 Oracle.unreadable {}
    (OgreExporter.fresh {} (World.demo 5 [DagNode.leaf 7] (DagNode.leaf 0))) rfl rfl
  exact ⟨r, h, ht, hs⟩

/-! ## The vertex table across other inserts and along the chain (C20) -/

theorem tableGrows_refl (t : List vertexInfo) : TableGrows t t := by
  intro j e h
  exact ⟨e.next, h, fun _ => rfl⟩

theorem tableGrows_trans {a b c : List vertexInfo} (h1 : TableGrows a b)
    (h2 : TableGrows b c) : TableGrows a c := by
  intro j e h
  obtain ⟨m, hb, hm⟩ := h1 j e h
  obtain ⟨m', hc, hm'⟩ := h2 j _ hb
  refine ⟨m', hc, ?_⟩
  intro hne
  have h3 : m = e.next := hm hne
  have h4 : m' = m := hm' (by show m ≠ -1; rw [h3]; exact hne)
  rw [h4, h3]

theorem tableGrows_length {t t' : List vertexInfo} (h : TableGrows t t') :
    t.length ≤ t'.length := by
  by_contra hlt
  have hpos : t'.length < t.length := by omega
  obtain ⟨m, hm, _⟩ := h t'.length (t[t'.length]) (List.getElem?_eq_getElem hpos)
  rw [List.getElem?_eq_none (le_refl _)] at hm
  cases hm

/-- A walk that ends without a match ends on an entry whose `next` is -1. -/
theorem findInChain_inr (eps : ℚ) (table : List vertexInfo) (cand : vertexInfo) :
    ∀ (fuel : Nat) (k : Int) (last : Nat),
      VertexTable.findInChain eps table cand fuel k = .ok (.inr last) →
      ∃ e, table[last]? = some e ∧ e.next = -1 := by
  intro fuel
  induction fuel with
  | zero => intro k last h; simp [VertexTable.findInChain] at h
  | succ f ih =>
    intro k last h
    simp only [VertexTable.findInChain] at h
    cases hg : vecGet table k with
    | error e => rw [hg] at h; simp [bind_error_eq] at h
    | ok entry =>
      rw [hg, bind_ok_eq] at h
      obtain ⟨_, hget⟩ := vecGet_ok_iff hg
      by_cases hs : VertexTable.sameAttributes eps entry cand = true
      · rw [if_pos hs] at h; simp at h
      · rw [if_neg hs] at h
        by_cases hn : entry.next = -1
        · rw [if_pos hn] at h
          simp only [Except.ok.injEq, Sum.inr.injEq] at h
          subst h
          exact ⟨entry, hget, hn⟩
        · rw [if_neg hn] at h
          exact ih _ _ h

/-- The table returned by `addOrReuse` is a later state of the table it was given. -/
theorem addOrReuse_grows (eps : ℚ) (table : List vertexInfo) (cand : vertexInfo)
    (t1 : List vertexInfo) (k1 : Nat)
    (h : VertexTable.addOrReuse eps table cand = .ok (t1, k1)) : TableGrows table t1 := by
  unfold VertexTable.addOrReuse at h
  cases hf : VertexTable.firstOf cand.pointIdx table 0 with
  | none =>
    rw [hf] at h
    simp only [Except.ok.injEq, Prod.mk.injEq] at h
    obtain ⟨rfl, rfl⟩ := h
    intro j e hj
    refine ⟨e.next, ?_, fun _ => rfl⟩
    rw [List.getElem?_append_left (getElem?_lt_length hj)]
    exact hj
  | some head =>
    rw [hf] at h
    simp only at h
    cases hw : VertexTable.findInChain eps table cand table.length head with
    | error err => rw [hw] at h; simp [bind_error_eq] at h
    | ok found =>
      rw [hw, bind_ok_eq] at h
      cases found with
      | inl k =>
        simp only [Except.ok.injEq, Prod.mk.injEq] at h
        obtain ⟨rfl, rfl⟩ := h
        exact tableGrows_refl _
      | inr last =>
        simp only at h
        obtain ⟨e0, hlast, hen⟩ := findInChain_inr eps table cand _ _ _ hw
        rw [vecGet_nat hlast, bind_ok_eq] at h
        simp only [Except.ok.injEq, Prod.mk.injEq] at h
        obtain ⟨rfl, rfl⟩ := h
        intro j e hj
        have hlt : j < table.length := getElem?_lt_length hj
        by_cases hjl : j = last
        · subst hjl
          rw [hlast] at hj
          simp only [Option.some.injEq] at hj
          subst hj
          refine ⟨(table.length : Int), lookup_last table j _ _ hlt, ?_⟩
          intro hne
          exact absurd hen hne
        · refine ⟨e.next, ?_, fun _ => rfl⟩
          rw [lookup_old table last _ _ j hlt hjl]
          exact hj

theorem addAll_grows (eps : ℚ) :
    ∀ (others : List vertexInfo) (t t' : List vertexInfo),
      VertexTable.addAll eps others t = .ok t' → TableGrows t t' := by
  intro others
  induction others with
  | nil =>
    intro t t' h
    simp only [VertexTable.addAll, Except.ok.injEq] at h
    rw [← h]
    exact tableGrows_refl _
  | cons c rest ih =>
    intro t t' h
    simp only [VertexTable.addAll] at h
    cases hr : VertexTable.addOrReuse eps t c with
    | error e => rw [hr] at h; simp [bind_error_eq] at h
    | ok r =>
      rw [hr, bind_ok_eq] at h
      obtain ⟨t1, k1⟩ := r
      exact tableGrows_trans (addOrReuse_grows eps t c t1 k1 hr) (ih _ _ h)

theorem tableGrows_tail {e : vertexInfo} {rest t' : List vertexInfo}
    (h : TableGrows (e :: rest) t') :
    ∃ e' rest', t' = e' :: rest' ∧ e'.pointIdx = e.pointIdx ∧ TableGrows rest rest' := by
  obtain ⟨m, hm, _⟩ := h 0 e (by simp)
  cases t' with
  | nil => simp at hm
  | cons e' rest' =>
    simp only [List.getElem?_cons_zero, Option.some.injEq] at hm
    refine ⟨e', rest', rfl, by rw [hm], ?_⟩
    intro j x hj
    have := h (j + 1) x (by simpa using hj)
    simpa using this

/-- The head of the chain of a source point is the same in a later state of the table. -/
theorem firstOf_grows (p : Int) :
    ∀ (t t' : List vertexInfo) (i h : Nat), TableGrows t t' →
      VertexTable.firstOf p t i = some h → VertexTable.firstOf p t' i = some h := by
  intro t
  induction t with
  | nil => intro t' i h _ hf; simp [VertexTable.firstOf] at hf
  | cons e rest ih =>
    intro t' i h hg hf
    obtain ⟨e', rest', rfl, hp, hrest⟩ := tableGrows_tail hg
    simp only [VertexTable.firstOf] at hf ⊢
    rw [hp]
    split at hf
    · rename_i hc
      rw [if_pos hc]; exact hf
    · rename_i hc
      rw [if_neg hc]
      exact ih rest' (i + 1) h hrest hf

/-- A walk that ends on a match ends on the same match in a later state of the table. -/
theorem findInChain_grows (eps : ℚ) (t t' : List vertexInfo) (cand : vertexInfo)
    (hg : TableGrows t t') :
    ∀ (fuel : Nat) (k : Int) (i : Nat),
      VertexTable.findInChain eps t cand fuel k = .ok (.inl i) →
      VertexTable.findInChain eps t' cand fuel k = .ok (.inl i) := by
  intro fuel
  induction fuel with
  | zero => intro k i h; simp [VertexTable.findInChain] at h
  | succ f ih =>
    intro k i h
    simp only [VertexTable.findInChain] at h ⊢
    cases hv : vecGet t k with
    | error e => rw [hv] at h; simp [bind_error_eq] at h
    | ok entry =>
      rw [hv, bind_ok_eq] at h
      obtain ⟨hk, hget⟩ := vecGet_ok_iff hv
      obtain ⟨m, hm, hnext⟩ := hg _ _ hget
      rw [vecGet_int hk hm, bind_ok_eq]
      have hsame : VertexTable.sameAttributes eps ({ entry with next := m } : vertexInfo) cand
          = VertexTable.sameAttributes eps entry cand := rfl
      rw [hsame]
      by_cases hs : VertexTable.sameAttributes eps entry cand = true
      · rw [if_pos hs] at h ⊢
        exact h
      · rw [if_neg hs] at h ⊢
        by_cases hn : entry.next = -1
        · rw [if_pos hn] at h; simp at h
        · rw [if_neg hn] at h
          have hm' : m = entry.next := hnext hn
          show (if m = -1 then _ else VertexTable.findInChain eps t' cand f m) = _
          rw [hm', if_neg hn]
          exact ih _ _ h

/-- A walk that returns gives the same result with more fuel. -/
theorem findInChain_fuel (eps : ℚ) (t : List vertexInfo) (cand : vertexInfo) :
    ∀ (fuel : Nat) (k : Int) (r : Nat ⊕ Nat) (more : Nat),
      VertexTable.findInChain eps t cand fuel k = .ok r →
      VertexTable.findInChain eps t cand (fuel + more) k = .ok r := by
  intro fuel
  induction fuel with
  | zero => intro k r more h; simp [VertexTable.findInChain] at h
  | succ f ih =>
    intro k r more h
    rw [show f + 1 + more = (f + more) + 1 by omega]
    simp only [VertexTable.findInChain] at h ⊢
    cases hv : vecGet t k with
    | error e => rw [hv] at h; simp [bind_error_eq] at h
    | ok entry =>
      rw [hv] at h
      rw [bind_ok_eq] at h ⊢
      by_cases hs : VertexTable.sameAttributes eps entry cand = true
      · rw [if_pos hs] at h ⊢; exact h
      · rw [if_neg hs] at h ⊢
        by_cases hn : entry.next = -1
        · rw [if_pos hn] at h ⊢; exact h
        · rw [if_neg hn] at h ⊢
          exact ih _ _ _ h

/-- An insert that returns the table it was given has found the index on the chain. -/
theorem addOrReuse_reused (eps : ℚ) (t : List vertexInfo) (cand : vertexInfo) (i : Nat)
    (h : VertexTable.addOrReuse eps t cand = .ok (t, i)) :
    ∃ head, VertexTable.firstOf cand.pointIdx t 0 = some head ∧
      VertexTable.findInChain eps t cand t.length head = .ok (.inl i) := by
  unfold VertexTable.addOrReuse at h
  cases hf : VertexTable.firstOf cand.pointIdx t 0 with
  | none =>
    rw [hf] at h
    simp only [Except.ok.injEq, Prod.mk.injEq] at h
    have := congrArg List.length h.1
    simp at this
  | some head =>
    rw [hf] at h
    simp only at h
    cases hw : VertexTable.findInChain eps t cand t.length head with
    | error err => rw [hw] at h; simp [bind_error_eq] at h
    | ok found =>
      rw [hw, bind_ok_eq] at h
      cases found with
      | inl k =>
        simp only [Except.ok.injEq, Prod.mk.injEq] at h
        rw [← h.2]
        exact ⟨head, rfl, hw⟩
      | inr last =>
        simp only at h
        obtain ⟨e0, hlast, _⟩ := findInChain_inr eps t cand _ _ _ hw
        rw [vecGet_nat hlast, bind_ok_eq] at h
        simp only [Except.ok.injEq, Prod.mk.injEq] at h
        have := congrArg List.length h.1
        simp at this

theorem addOrReuse_of_walk (eps : ℚ) (t : List vertexInfo) (cand : vertexInfo)
    (head i : Nat) (hf : VertexTable.firstOf cand.pointIdx t 0 = some head)
    (hw : VertexTable.findInChain eps t cand t.length head = .ok (.inl i)) :
    VertexTable.addOrReuse eps t cand = .ok (t, i) := by
  unfold VertexTable.addOrReuse
  rw [hf]
  simp only
  rw [hw, bind_ok_eq]

/-- A candidate that is found in a table is found at the same index in every later state
of the table, which the insert leaves as it is. -/
theorem addOrReuse_stable (eps : ℚ) (t t' : List vertexInfo) (cand : vertexInfo) (i : Nat)
    (h : VertexTable.addOrReuse eps t cand = .ok (t, i)) (hg : TableGrows t t') :
    VertexTable.addOrReuse eps t' cand = .ok (t', i) := by
  obtain ⟨head, hf, hw⟩ := addOrReuse_reused eps t cand i h
  have hw' := findInChain_grows eps t t' cand hg _ _ _ hw
  have hlen := tableGrows_length hg
  have hw'' := findInChain_fuel eps t' cand _ _ _ (t'.length - t.length) hw'
  rw [show t.length + (t'.length - t.length) = t'.length by omega] at hw''
  exact addOrReuse_of_walk eps t' cand head i (firstOf_grows _ t t' 0 head hg hf) hw''

/-- The walk along a chain returns the first index of the chain whose entry is equal to
the candidate, and ends without a match when the chain has none. -/
theorem findInChain_chain (eps : ℚ) (table : List vertexInfo) (cand : vertexInfo) :
    ∀ (fuel : Nat) (k : Int) (r : Nat ⊕ Nat),
      VertexTable.findInChain eps table cand fuel k = .ok r →
      (chainFrom table fuel k).find? (matchesAt eps table cand) =
        (match r with
         | .inl i => some i
         | .inr _ => none) := by
  intro fuel
  induction fuel with
  | zero => intro k r h; simp [VertexTable.findInChain] at h
  | succ f ih =>
    intro k r h
    simp only [VertexTable.findInChain] at h
    simp only [chainFrom]
    cases hv : vecGet table k with
    | error e => rw [hv] at h; simp [bind_error_eq] at h
    | ok entry =>
      rw [hv, bind_ok_eq] at h
      obtain ⟨_, hget⟩ := vecGet_ok_iff hv
      have hm : matchesAt eps table cand k.toNat = VertexTable.sameAttributes eps entry cand := by
        simp only [matchesAt, hget]
      simp only [List.find?_cons, hm]
      by_cases hs : VertexTable.sameAttributes eps entry cand = true
      · rw [if_pos hs] at h
        simp only [Except.ok.injEq] at h
        rw [← h, hs]
      · rw [if_neg hs] at h
        have hs' : VertexTable.sameAttributes eps entry cand = false := by
          simpa using hs
        rw [hs']
        by_cases hn : entry.next = -1
        · rw [if_pos hn] at h ⊢
          simp only [Except.ok.injEq] at h
          rw [← h]
          rfl
        · rw [if_neg hn] at h ⊢
          exact ih _ _ h

/-- The index `addOrReuse` returns: the first index of the chain of the source point whose
entry is equal to the candidate, the table being left as it is; or, when the chain has no
such entry, the length of the table, which gets one more entry. -/
theorem addOrReuse_along_chain (eps : ℚ) (table : List vertexInfo) (cand : vertexInfo)
    (t1 : List vertexInfo) (k1 : Nat)
    (h : VertexTable.addOrReuse eps table cand = .ok (t1, k1)) :
    k1 = ((chainOf table cand.pointIdx).find? (matchesAt eps table cand)).getD table.length ∧
    (k1 < table.length → t1 = table) ∧
    (k1 = table.length → t1.length = table.length + 1) := by
  unfold VertexTable.addOrReuse at h
  unfold chainOf
  cases hf : VertexTable.firstOf cand.pointIdx table 0 with
  | none =>
    rw [hf] at h
    simp only [Except.ok.injEq, Prod.mk.injEq] at h
    obtain ⟨rfl, rfl⟩ := h
    refine ⟨by simp, fun hlt => absurd hlt (lt_irrefl _), fun _ => by simp⟩
  | some head =>
    rw [hf] at h
    simp only at h ⊢
    cases hw : VertexTable.findInChain eps table cand table.length head with
    | error err => rw [hw] at h; simp [bind_error_eq] at h
    | ok found =>
      rw [hw, bind_ok_eq] at h
      have hc := findInChain_chain eps table cand _ _ _ hw
      rw [hc]
      cases found with
      | inl k =>
        simp only [Except.ok.injEq, Prod.mk.injEq] at h
        obtain ⟨rfl, rfl⟩ := h
        obtain ⟨e, he, _⟩ := findInChain_inl eps _ cand _ _ _ hw
        have hlt := getElem?_lt_length he
        exact ⟨by simp, fun _ => rfl, fun heq => by omega⟩
      | inr last =>
        simp only at h
        obtain ⟨e0, hlast, _⟩ := findInChain_inr eps table cand _ _ _ hw
        rw [vecGet_nat hlast, bind_ok_eq] at h
        simp only [Except.ok.injEq, Prod.mk.injEq] at h
        obtain ⟨rfl, rfl⟩ := h
        refine ⟨by simp, fun hlt => absurd hlt (lt_irrefl _), fun _ => by simp⟩

/-- On a well-linked table the inserts of a list of candidates return, with a well-linked
table. -/
theorem addAll_total (eps : ℚ) :
    ∀ (others : List vertexInfo) (t : List vertexInfo), WellLinked t →
      ∃ t', VertexTable.addAll eps others t = .ok t' ∧ WellLinked t' := by
  intro others
  induction others with
  | nil => intro t h; exact ⟨t, rfl, h⟩
  | cons c rest ih =>
    intro t h
    obtain ⟨t1, k1, h1, hw1⟩ := addOrReuse_total eps t c h
    obtain ⟨t', h2, hw2⟩ := ih t1 hw1
    refine ⟨t', ?_, hw2⟩
    simp only [VertexTable.addAll, h1, bind_ok_eq]
    exact h2

/-- C20: with a positive epsilon, for every table and every candidate, when `addOrReuse`
has returned the table `t1` and the index `k1`: the entry at `k1` is equal to the
candidate; after the inserts of any other candidates into `t1`, the insert of a vertex
with the same attributes and the same source point returns `k1` again and leaves the table
as it is (no second entry); and `k1` is the first index of the `next` chain of the source
point whose entry is equal to the candidate, the table being unchanged, or the length of
the table when the chain holds no such entry, the table getting one entry more (no entry
off the chain is compared). On a well-linked table (the empty table, and every table
returned by `addOrReuse` on a well-linked one) all these inserts do return, with a
well-linked table. -/
theorem addOrReuse_idempotent (eps : ℚ) (heps : 0 < eps) (table : List vertexInfo)
    (cand : vertexInfo) (n : Int) :
    (∀ (t1 : List vertexInfo) (k1 : Nat),
      VertexTable.addOrReuse eps table cand = .ok (t1, k1) →
      (∃ e, t1[k1]? = some e ∧ VertexTable.sameAttributes eps e cand = true) ∧
      (∀ (others t2 : List vertexInfo), VertexTable.addAll eps others t1 = .ok t2 →
        VertexTable.addOrReuse eps t2 { cand with next := n } = .ok (t2, k1)) ∧
      k1 = ((chainOf table cand.pointIdx).find? (matchesAt eps table cand)).getD
        table.length ∧
      (k1 < table.length → t1 = table) ∧
      (k1 = table.length → t1.length = table.length + 1)) ∧
    (WellLinked table → ∀ others : List vertexInfo, ∃ t1 k1 t2,
      VertexTable.addOrReuse eps table cand = .ok (t1, k1) ∧
      VertexTable.addAll eps others t1 = .ok t2 ∧ WellLinked t2) := by
  constructor
  · intro t1 k1 h
    obtain ⟨hagain, hentry⟩ := addOrReuse_again eps heps table cand n t1 k1 h
    obtain ⟨c1, c2, c3⟩ := addOrReuse_along_chain eps table cand t1 k1 h
    refine ⟨hentry, ?_, c1, c2, c3⟩
    intro others t2 h2
    exact addOrReuse_stable eps t1 t2 _ k1 hagain (addAll_grows eps others t1 t2 h2)
  · intro hwl others
    obtain ⟨t1, k1, h1, hw1⟩ := addOrReuse_total eps table cand hwl
    obtain ⟨t2, h2, hw2⟩ := addAll_total eps others t1 hw1
    exact ⟨t1, k1, t2, h1, h2, hw2⟩

/-- The vertex `demoSplit` is inserted into the table that holds `demoCorner`, of the same
source point: it is linked after `demoCorner`, at the index 1. After the inserts of
`demoFar` (another source point, a new entry) and of `demoCorner` (found at the index 0),
`demoSplit` is found again at the index 1, along the chain [0, 1] of the source point 4,
and the table keeps its three entries. -/
theorem addOrReuse_idempotent_witness :
    ∃ t1 t2,
      VertexTable.addOrReuse (1 / 10000) [demoCorner] demoSplit = .ok (t1, 1) ∧
      VertexTable.addAll (1 / 10000) [demoFar, demoCorner] t1 = .ok t2 ∧
      VertexTable.addOrReuse (1 / 10000) t2 { demoSplit with next := -1 } = .ok (t2, 1) ∧
      t2.length = 3 ∧ chainOf t2 4 = [0, 1] := by
  have h1 : VertexTable.addOrReuse (1 / 10000) [demoCorner] demoSplit
      = .ok ([{ demoCorner with next := 1 }, demoSplit], 1) := by
    simp [VertexTable.addOrReuse, VertexTable.firstOf, VertexTable.findInChain, vecGet,
      VertexTable.sameAttributes, demoCorner, demoSplit, bind_ok_eq]
  have h2 : VertexTable.addAll (1 / 10000) [demoFar, demoCorner]
      [{ demoCorner with next := 1 }, demoSplit]
      = .ok [{ demoCorner with next := 1 }, demoSplit, demoFar] := by
    simp [VertexTable.addAll, VertexTable.addOrReuse, VertexTable.firstOf,
      VertexTable.findInChain, vecGet, VertexTable.sameAttributes, VertexTable.closeTo,
      VertexTable.closeList, demoCorner, demoSplit, demoFar, bind_ok_eq]
  refine ⟨_, _, h1, h2,
    ((addOrReuse_idempotent (1 / 10000) (by norm_num) [demoCorner] demoSplit (-1)).1
      _ _ h1).2.1 _ _ h2, rfl, ?_⟩
  simp [chainOf, chainFrom, VertexTable.firstOf, vecGet, demoCorner, demoSplit, demoFar]

/-! ## binary32 rounding -/

theorem roundHalfEven_bounds (q : ℚ) : ⌊q⌋ ≤ roundHalfEven q ∧ roundHalfEven q ≤ ⌊q⌋ + 1 := by
  unfold roundHalfEven
  split_ifs <;> constructor <;> omega

theorem roundHalfEven_intCast (n : Int) : roundHalfEven (n : ℚ) = n := by
  unfold roundHalfEven
  simp

/-- Rounding to the nearest integer keeps the order. -/
theorem roundHalfEven_mono {a b : ℚ} (h : a ≤ b) : roundHalfEven a ≤ roundHalfEven b := by
  have hf : ⌊a⌋ ≤ ⌊b⌋ := Int.floor_mono h
  rcases lt_or_eq_of_le hf with hlt | heq
  · have h1 := (roundHalfEven_bounds a).2
    have h2 := (roundHalfEven_bounds b).1
    omega
  · have hfr : a - ⌊a⌋ ≤ b - ⌊b⌋ := by rw [heq]; linarith
    unfold roundHalfEven
    rw [heq]
    by_cases ha1 : a - (⌊b⌋ : ℚ) < 1 / 2
    · rw [heq] at hfr
      rw [if_pos ha1]
      split_ifs <;> omega
    · rw [heq] at hfr
      rw [if_neg ha1]
      have hb1 : ¬ (b - (⌊b⌋ : ℚ) < 1 / 2) := by
        intro hb; exact ha1 (lt_of_le_of_lt hfr hb)
      rw [if_neg hb1]
      by_cases ha2 : 1 / 2 < a - (⌊b⌋ : ℚ)
      · rw [if_pos ha2, if_pos (lt_of_lt_of_le ha2 hfr)]
      · rw [if_neg ha2]
        split_ifs <;> omega

theorem roundHalfEven_nonneg {q : ℚ} (h : 0 ≤ q) : 0 ≤ roundHalfEven q := by
  have := roundHalfEven_mono h
  have h0 : roundHalfEven (0 : ℚ) = 0 := by
    have := roundHalfEven_intCast 0
    simpa using this
  rw [h0] at this
  exact this

/-- A rational at less than a half from an integer rounds to it. -/
theorem roundHalfEven_near (q : ℚ) (n : Int) (h1 : (n : ℚ) - 1 / 2 < q)
    (h2 : q < (n : ℚ) + 1 / 2) : roundHalfEven q = n := by
  unfold roundHalfEven
  by_cases hq : (n : ℚ) ≤ q
  · have hfl : ⌊q⌋ = n := by
      rw [Int.floor_eq_iff]
      exact ⟨hq, by linarith⟩
    rw [hfl, if_pos (by linarith)]
  · have hq' : q < n := not_le.mp hq
    have hfl : ⌊q⌋ = n - 1 := by
      rw [Int.floor_eq_iff]
      push_cast
      exact ⟨by linarith, by linarith⟩
    rw [hfl]
    push_cast
    rw [if_neg (by linarith), if_pos (by linarith)]
    omega

theorem ulp32_pos (a : ℚ) : 0 < ulp32 a := by
  unfold ulp32
  positivity

theorem two_zpow_int (z : Int) (hz : 0 ≤ z) : ∃ N : Int, (N : ℚ) = (2 : ℚ) ^ z := by
  refine ⟨2 ^ z.toNat, ?_⟩
  push_cast
  rw [← zpow_natCast, Int.toNat_of_nonneg hz]

theorem log_le_self {a : ℚ} (ha : 0 < a) : (2 : ℚ) ^ Int.log 2 a ≤ a := by
  have := @Int.zpow_log_le_self ℚ _ _ 2 a (by norm_num) ha
  simpa using this

theorem self_lt_log_succ (a : ℚ) : a < (2 : ℚ) ^ (Int.log 2 a + 1) := by
  have := @Int.lt_zpow_succ_log_self ℚ _ _ 2 (by norm_num) a
  simpa using this

/-- The binade of a positive rational. -/
theorem log_eq_of_bounds {a : ℚ} {e : Int} (h1 : (2 : ℚ) ^ e ≤ a) (h2 : a < (2 : ℚ) ^ (e + 1)) :
    Int.log 2 a = e := by
  have ha : 0 < a := lt_of_lt_of_le (by positivity) h1
  have hle : e ≤ Int.log 2 a := by
    rw [← @Int.zpow_le_iff_le_log ℚ _ _ 2 (by norm_num) e a ha]
    simpa using h1
  have hlt : Int.log 2 a < e + 1 := by
    rw [← @Int.lt_zpow_iff_log_lt ℚ _ _ 2 (by norm_num) (e + 1) a ha]
    simpa using h2
  omega

theorem roundMag32_zero : roundMag32 0 = 0 := by
  unfold roundMag32
  have h0 : roundHalfEven ((0 : ℚ) / ulp32 0) = 0 := by
    rw [zero_div]
    have := roundHalfEven_intCast 0
    simpa using this
  rw [h0]
  simp

theorem roundMag32_nonneg {a : ℚ} (ha : 0 ≤ a) : 0 ≤ roundMag32 a := by
  unfold roundMag32
  have h1 : 0 ≤ a / ulp32 a := div_nonneg ha (le_of_lt (ulp32_pos a))
  have h2 := roundHalfEven_nonneg h1
  have h3 : (0 : ℚ) ≤ (roundHalfEven (a / ulp32 a) : ℚ) := by exact_mod_cast h2
  exact mul_nonneg h3 (le_of_lt (ulp32_pos a))

/-- A positive magnitude rounds to at most the end of its binade. -/
theorem roundMag32_le {a : ℚ} (ha : 0 < a) :
    roundMag32 a ≤ (2 : ℚ) ^ (max (Int.log 2 a + 1) (-149)) := by
  have hlt := self_lt_log_succ a
  unfold roundMag32 ulp32
  by_cases he : -149 ≤ Int.log 2 a + 1
  · rw [max_eq_left he]
    have hk : max (Int.log 2 a - 23) (-149) ≤ Int.log 2 a + 1 := by
      apply max_le <;> omega
    obtain ⟨N, hN⟩ := two_zpow_int (Int.log 2 a + 1 - max (Int.log 2 a - 23) (-149)) (by omega)
    have hu : (0 : ℚ) < (2 : ℚ) ^ max (Int.log 2 a - 23) (-149) := by positivity
    have hq : a / (2 : ℚ) ^ max (Int.log 2 a - 23) (-149) ≤ (N : ℚ) := by
      rw [hN, zpow_sub₀ (by norm_num : (2 : ℚ) ≠ 0)]
      exact div_le_div_of_nonneg_right (le_of_lt hlt) (le_of_lt hu)
    have hr := roundHalfEven_mono hq
    rw [roundHalfEven_intCast] at hr
    have hr' : (roundHalfEven (a / (2 : ℚ) ^ max (Int.log 2 a - 23) (-149)) : ℚ) ≤ (N : ℚ) := by
      exact_mod_cast hr
    calc (roundHalfEven (a / (2 : ℚ) ^ max (Int.log 2 a - 23) (-149)) : ℚ)
          * (2 : ℚ) ^ max (Int.log 2 a - 23) (-149)
        ≤ (N : ℚ) * (2 : ℚ) ^ max (Int.log 2 a - 23) (-149) :=
          mul_le_mul_of_nonneg_right hr' (le_of_lt hu)
      _ = (2 : ℚ) ^ (Int.log 2 a + 1) := by
          rw [hN, ← zpow_add₀ (by norm_num : (2 : ℚ) ≠ 0)]
          congr 1
          omega
  · have he' : Int.log 2 a + 1 < -149 := not_le.mp he
    rw [max_eq_right (le_of_lt he'), max_eq_right (by omega)]
    have hsmall : a < (2 : ℚ) ^ (-150 : Int) :=
      lt_of_lt_of_le hlt (zpow_le_zpow_right₀ (by norm_num) (by omega))
    have hq : a / (2 : ℚ) ^ (-149 : Int) < 1 / 2 := by
      rw [div_lt_iff₀ (by positivity)]
      have : (1 / 2 : ℚ) * (2 : ℚ) ^ (-149 : Int) = (2 : ℚ) ^ (-150 : Int) := by
        rw [show (-149 : Int) = -150 + 1 by norm_num, zpow_add_one₀ (by norm_num : (2 : ℚ) ≠ 0)]
        ring
      rw [this]
      exact hsmall
    have hq0 : 0 ≤ a / (2 : ℚ) ^ (-149 : Int) := div_nonneg (le_of_lt ha) (by positivity)
    have hr : roundHalfEven (a / (2 : ℚ) ^ (-149 : Int)) = 0 :=
      roundHalfEven_near _ 0 (by simp; linarith) (by simpa using hq)
    rw [hr]
    simp
    positivity

/-- A positive magnitude of a binade at or above `2^-149` rounds to at least the start of
its binade. -/
theorem le_roundMag32 {a : ℚ} (ha : 0 < a) (he : -149 ≤ Int.log 2 a) :
    (2 : ℚ) ^ Int.log 2 a ≤ roundMag32 a := by
  have hle := log_le_self ha
  unfold roundMag32 ulp32
  have hk : max (Int.log 2 a - 23) (-149) ≤ Int.log 2 a := by
    apply max_le <;> omega
  obtain ⟨N, hN⟩ := two_zpow_int (Int.log 2 a - max (Int.log 2 a - 23) (-149)) (by omega)
  have hu : (0 : ℚ) < (2 : ℚ) ^ max (Int.log 2 a - 23) (-149) := by positivity
  have hq : (N : ℚ) ≤ a / (2 : ℚ) ^ max (Int.log 2 a - 23) (-149) := by
    rw [hN, zpow_sub₀ (by norm_num : (2 : ℚ) ≠ 0)]
    exact div_le_div_of_nonneg_right hle (le_of_lt hu)
  have hr := roundHalfEven_mono hq
  rw [roundHalfEven_intCast] at hr
  have hr' : (N : ℚ) ≤ (roundHalfEven (a / (2 : ℚ) ^ max (Int.log 2 a - 23) (-149)) : ℚ) := by
    exact_mod_cast hr
  calc (2 : ℚ) ^ Int.log 2 a
      = (N : ℚ) * (2 : ℚ) ^ max (Int.log 2 a - 23) (-149) := by
        rw [hN, ← zpow_add₀ (by norm_num : (2 : ℚ) ≠ 0)]
        congr 1
        omega
    _ ≤ _ := mul_le_mul_of_nonneg_right hr' (le_of_lt hu)

/-- The rounding of magnitudes keeps the order. -/
theorem roundMag32_mono {a b : ℚ} (ha : 0 ≤ a) (hab : a ≤ b) :
    roundMag32 a ≤ roundMag32 b := by
  rcases eq_or_lt_of_le ha with h0 | hpos
  · rw [← h0, roundMag32_zero]
    exact roundMag32_nonneg (le_trans ha hab)
  · have hb : 0 < b := lt_of_lt_of_le hpos hab
    have hlog : Int.log 2 a ≤ Int.log 2 b := Int.log_mono_right hpos hab
    by_cases hk : max (Int.log 2 a - 23) (-149) = max (Int.log 2 b - 23) (-149)
    · have hu : ulp32 a = ulp32 b := by unfold ulp32; rw [hk]
      unfold roundMag32
      rw [hu]
      have hq : a / ulp32 b ≤ b / ulp32 b :=
        div_le_div_of_nonneg_right hab (le_of_lt (ulp32_pos b))
      have hr := roundHalfEven_mono hq
      have hr' : (roundHalfEven (a / ulp32 b) : ℚ) ≤ (roundHalfEven (b / ulp32 b) : ℚ) := by
        exact_mod_cast hr
      exact mul_le_mul_of_nonneg_right hr' (le_of_lt (ulp32_pos b))
    · have hlt : max (Int.log 2 a - 23) (-149) < max (Int.log 2 b - 23) (-149) := by
        rcases lt_or_eq_of_le (max_le_max (sub_le_sub_right hlog 23) (le_refl (-149 : Int)))
          with h | h
        · exact h
        · exact absurd h hk
      have hb149 : -149 < Int.log 2 b - 23 := by
        by_contra hcon
        rw [max_eq_right (not_lt.mp hcon)] at hlt
        exact absurd (le_max_right (Int.log 2 a - 23) (-149)) (not_le.mpr hlt)
      have hab_log : Int.log 2 a + 1 ≤ Int.log 2 b := by
        have h1 : Int.log 2 a - 23 ≤ max (Int.log 2 a - 23) (-149) := le_max_left _ _
        rw [max_eq_left (le_of_lt hb149)] at hlt
        omega
      calc roundMag32 a ≤ (2 : ℚ) ^ (max (Int.log 2 a + 1) (-149)) := roundMag32_le hpos
        _ ≤ (2 : ℚ) ^ Int.log 2 b :=
            zpow_le_zpow_right₀ (by norm_num) (max_le hab_log (by omega))
        _ ≤ roundMag32 b := le_roundMag32 hb (by omega)

/-- A binary32 magnitude rounds to itself. -/
theorem roundMag32_idem {a : ℚ} (ha : 0 ≤ a) : roundMag32 (roundMag32 a) = roundMag32 a := by
  rcases eq_or_lt_of_le ha with h0 | hpos
  · rw [← h0, roundMag32_zero, roundMag32_zero]
  · rcases eq_or_lt_of_le (roundMag32_nonneg ha) with hm0 | hmpos
    · rw [← hm0, roundMag32_zero]
    · -- m = n * 2^k with n an integer
      have hmdef : roundMag32 a = (roundHalfEven (a / ulp32 a) : ℚ) * ulp32 a := rfl
      -- it is enough that m / ulp32 m is an integer
      have key : ∃ N : Int, roundMag32 a / ulp32 (roundMag32 a) = (N : ℚ) := by
        by_cases hk : max (Int.log 2 (roundMag32 a) - 23) (-149)
            ≤ max (Int.log 2 a - 23) (-149)
        · obtain ⟨P, hP⟩ := two_zpow_int
            (max (Int.log 2 a - 23) (-149) - max (Int.log 2 (roundMag32 a) - 23) (-149))
            (by omega)
          refine ⟨roundHalfEven (a / ulp32 a) * P, ?_⟩
          push_cast
          rw [hP, hmdef]
          unfold ulp32
          rw [zpow_sub₀ (by norm_num : (2 : ℚ) ≠ 0)]
          field_simp
        · have hgt : max (Int.log 2 a - 23) (-149)
              < max (Int.log 2 (roundMag32 a) - 23) (-149) := not_le.mp hk
          have hm149 : -149 < Int.log 2 (roundMag32 a) - 23 := by
            by_contra hcon
            rw [max_eq_right (not_lt.mp hcon)] at hgt
            exact absurd (le_max_right (Int.log 2 a - 23) (-149)) (not_le.mpr hgt)
          have hlogs : Int.log 2 a + 1 ≤ Int.log 2 (roundMag32 a) := by
            have h1 : Int.log 2 a - 23 ≤ max (Int.log 2 a - 23) (-149) := le_max_left _ _
            rw [max_eq_left (le_of_lt hm149)] at hgt
            omega
          have hup := roundMag32_le hpos
          have hlow := log_le_self hmpos
          have hmax : max (Int.log 2 a + 1) (-149) ≤ Int.log 2 (roundMag32 a) :=
            max_le hlogs (by omega)
          have hpow : (2 : ℚ) ^ (max (Int.log 2 a + 1) (-149))
              ≤ (2 : ℚ) ^ Int.log 2 (roundMag32 a) :=
            zpow_le_zpow_right₀ (by norm_num) hmax
          have hmeq : roundMag32 a = (2 : ℚ) ^ Int.log 2 (roundMag32 a) :=
            le_antisymm (le_trans hup hpow) hlow
          obtain ⟨P, hP⟩ := two_zpow_int
            (Int.log 2 (roundMag32 a) - max (Int.log 2 (roundMag32 a) - 23) (-149))
            (by rw [max_eq_left (le_of_lt hm149)]; omega)
          refine ⟨P, ?_⟩
          rw [hP]
          unfold ulp32
          rw [zpow_sub₀ (by norm_num : (2 : ℚ) ≠ 0)]
          congr 1
      obtain ⟨N, hN⟩ := key
      have hstep : roundMag32 (roundMag32 a)
          = (roundHalfEven (roundMag32 a / ulp32 (roundMag32 a)) : ℚ) * ulp32 (roundMag32 a) :=
        rfl
      rw [hstep, hN, roundHalfEven_intCast, ← hN]
      exact div_mul_cancel₀ _ (ne_of_gt (ulp32_pos _))

theorem roundF32_zero : roundF32 0 = 0 := by
  unfold roundF32
  rw [if_pos (le_refl _), roundMag32_zero]

theorem roundF32_mono {x y : ℚ} (h : x ≤ y) : roundF32 x ≤ roundF32 y := by
  unfold roundF32
  by_cases hx : 0 ≤ x
  · rw [if_pos hx, if_pos (le_trans hx h)]
    exact roundMag32_mono hx h
  · rw [if_neg hx]
    have hx' : 0 ≤ -x := by linarith
    by_cases hy : 0 ≤ y
    · rw [if_pos hy]
      have h1 := roundMag32_nonneg hx'
      have h2 := roundMag32_nonneg hy
      linarith
    · rw [if_neg hy]
      have hy' : 0 ≤ -y := by linarith
      have := roundMag32_mono hy' (by linarith : -y ≤ -x)
      linarith

theorem roundF32_idem (x : ℚ) : roundF32 (roundF32 x) = roundF32 x := by
  by_cases hx : 0 ≤ x
  · have h1 : roundF32 x = roundMag32 x := by unfold roundF32; rw [if_pos hx]
    rw [h1]
    unfold roundF32
    rw [if_pos (roundMag32_nonneg hx)]
    exact roundMag32_idem hx
  · have hx' : 0 ≤ -x := by linarith
    have h1 : roundF32 x = -roundMag32 (-x) := by unfold roundF32; rw [if_neg hx]
    rw [h1]
    rcases eq_or_lt_of_le (roundMag32_nonneg hx') with h0 | hpos
    · rw [← h0]
      simp [roundF32_zero]
    · unfold roundF32
      rw [if_neg (by linarith)]
      rw [neg_neg, roundMag32_idem hx']

/-- The rounding to binary32 keeps the order, leaves 0 and leaves the binary32 numbers as
they are. -/
theorem isRounding_roundF32 : IsRounding roundF32 :=
  ⟨fun _ _ h => roundF32_mono h, roundF32_zero, roundF32_idem⟩

/-- No rounding at all: the exact arithmetic. -/
theorem isRounding_id : IsRounding id :=
  ⟨fun _ _ h => h, rfl, fun _ => rfl⟩

/-- The value of the rounding of a positive rational of a known binade above the
subnormal ones. -/
theorem roundF32_of_binade {x : ℚ} (e : Int) (n : Int) (he : -126 ≤ e)
    (h1 : (2 : ℚ) ^ e ≤ x) (h2 : x < (2 : ℚ) ^ (e + 1))
    (h3 : (n : ℚ) - 1 / 2 < x / (2 : ℚ) ^ (e - 23))
    (h4 : x / (2 : ℚ) ^ (e - 23) < (n : ℚ) + 1 / 2) :
    roundF32 x = (n : ℚ) * (2 : ℚ) ^ (e - 23) := by
  have hx : 0 < x := lt_of_lt_of_le (by positivity) h1
  unfold roundF32
  rw [if_pos (le_of_lt hx)]
  unfold roundMag32 ulp32
  rw [log_eq_of_bounds h1 h2, max_eq_left (by omega), roundHalfEven_near _ n h3 h4]

/-! ## `loadTrack` with rounding (C4) -/

/-- The time given to `loadKeyframe` is only stored in the keyframe. -/
theorem keyframeLoop_time (bs : BlendShape) (maya : Scene) (il : MIntArray) (env : ℚ)
    (sp : Int) (τ : ℚ) :
    ∀ (poses : List pose) (i : Nat) (key : vertexKeyframe),
      keyframeLoop bs maya il env sp poses i { key with time := τ } =
        Except.map (fun r : vertexKeyframe => { r with time := τ })
          (keyframeLoop bs maya il env sp poses i key) := by
  intro poses
  induction poses with
  | nil => intro i key; rfl
  | cons p rest ih =>
    intro i key
    simp only [keyframeLoop]
    cases hw : il.get p.blendShapeIndex with
    | error e => rfl
    | ok w =>
      simp only [bind_ok_eq]
      by_cases h0 : bs.poseOptArray.length = 0
      · rw [if_pos h0, if_pos h0]
        exact ih (i + 1)
          ⟨key.time, key.positions, key.poserefs ++ [⟨sp + i, env * maya.weight w⟩]⟩
      · rw [if_neg h0, if_neg h0]
        cases hf : bs.poseOptArray.get (i : Int) with
        | error e => rfl
        | ok flag =>
          simp only [bind_ok_eq]
          by_cases h1 : flag = 1
          · rw [if_pos h1, if_pos h1]
            exact ih (i + 1)
              ⟨key.time, key.positions, key.poserefs ++ [⟨sp + i, env * maya.weight w⟩]⟩
          · rw [if_neg h1, if_neg h1]
            exact ih (i + 1) key

theorem loadKeyframe_time (bs : BlendShape) (maya : Scene) (τ τ' : ℚ) (params : ParamList)
    (ti sp : Int) :
    loadKeyframe bs maya τ params ti sp =
      Except.map (fun r : vertexKeyframe => { r with time := τ })
        (loadKeyframe bs maya τ' params ti sp) := by
  unfold loadKeyframe
  cases hg : bs.findGroup ti with
  | error e => rfl
  | ok pg =>
    simp only [bind_ok_eq]
    exact keyframeLoop_time bs maya _ _ sp τ pg.poses 0
      { time := τ', positions := [], poserefs := [] }

/-- The loop with rounding gives the track of the loop without rounding, with the time of
every keyframe rounded. -/
theorem evaluateLoopF_eq (fl : ℚ → ℚ) (bs : BlendShape) (params : ParamList) (ti sp : Int)
    (t0 : ℚ) :
    ∀ (times : List ℚ) (t : Track) (maya : Scene),
      evaluateLoopF fl bs params ti sp t0 times (retimeTrack fl t, maya) =
        Except.map (fun r : Track × Scene => (retimeTrack fl r.1, r.2))
          (evaluateLoop bs params ti sp t0 times (t, maya)) := by
  intro times
  induction times with
  | nil => intro t maya; rfl
  | cons time rest ih =>
    intro t maya
    simp only [evaluateLoopF, evaluateLoop]
    rw [loadKeyframe_time bs (maya.setCurrentTime time) (fl (time - t0)) (time - t0)]
    cases hk : loadKeyframe bs (maya.setCurrentTime time) (time - t0) params ti sp with
    | error e => rfl
    | ok key =>
      simp only [Except.map, bind_ok_eq]
      obtain ⟨pg, _, hkey⟩ := loadKeyframe_ok hk
      have htime : key.time = time - t0 := by rw [hkey]
      have hstep : (if key.poserefs.length > 0 then
            (retimeTrack fl t).addVertexKeyframe { key with time := fl (time - t0) }
          else retimeTrack fl t)
          = retimeTrack fl (if key.poserefs.length > 0 then t.addVertexKeyframe key else t) := by
        split
        · simp [retimeTrack, Track.addVertexKeyframe, htime]
        · rfl
      show evaluateLoopF fl bs params ti sp t0 rest
          ((if key.poserefs.length > 0 then
            (retimeTrack fl t).addVertexKeyframe { key with time := fl (time - t0) }
          else retimeTrack fl t), maya.setCurrentTime time) = _
      rw [hstep, ih]
      rfl

theorem sampleTimesLoopF_id (stop rate : ℚ) :
    ∀ (fuel : Nat) (time : ℚ) (acc : List ℚ),
      sampleTimesLoopF id stop rate fuel time acc = sampleTimesLoop stop rate fuel time acc := by
  intro fuel
  induction fuel with
  | zero => intro time acc; rfl
  | succ f ih =>
    intro time acc
    simp only [sampleTimesLoopF, sampleTimesLoop, id]
    rw [ih]

theorem retimeTrack_id (t : Track) : retimeTrack id t = t := by
  simp [retimeTrack]

theorem evaluateLoopF_id (bs : BlendShape) (params : ParamList) (ti sp : Int) (t0 : ℚ)
    (times : List ℚ) (t : Track) (maya : Scene) :
    evaluateLoopF id bs params ti sp t0 times (t, maya) =
      evaluateLoop bs params ti sp t0 times (t, maya) := by
  have h := evaluateLoopF_eq id bs params ti sp t0 times t maya
  rw [retimeTrack_id] at h
  rw [h]
  cases evaluateLoop bs params ti sp t0 times (t, maya) with
  | error e => rfl
  | ok r => simp [Except.map, retimeTrack_id]

/-- Without rounding, `loadTrackF` is `loadTrack`. -/
theorem loadTrackF_id (fuel : Nat) (bs : BlendShape) (maya : Scene) (start stop rate : ℚ)
    (params : ParamList) (ti sp : Int) :
    loadTrackF id fuel bs maya start stop rate params ti sp =
      loadTrack fuel bs maya start stop rate params ti sp := by
  unfold loadTrackF loadTrack sampleTimesF sampleTimes
  simp only [sampleTimesLoopF_id, evaluateLoopF_id, id]

theorem sampleTimesLoopF_fuel (fl : ℚ → ℚ) (stop rate : ℚ) :
    ∀ (fuel : ℕ) (time : ℚ) (acc r : List ℚ),
      sampleTimesLoopF fl stop rate fuel time acc = .ok r →
      ∀ extra, sampleTimesLoopF fl stop rate (fuel + extra) time acc = .ok r := by
  intro fuel
  induction fuel with
  | zero =>
    intro time acc r h extra
    by_cases hlt : time < stop
    · simp [sampleTimesLoopF, hlt] at h
    · cases extra <;> simpa [sampleTimesLoopF, hlt] using h
  | succ f ih =>
    intro time acc r h extra
    by_cases hlt : time < stop
    · simp only [sampleTimesLoopF, hlt, if_true] at h
      have := ih _ _ _ h extra
      rw [Nat.add_right_comm]
      simpa [sampleTimesLoopF, hlt] using this
    · rw [Nat.add_right_comm]
      simpa [sampleTimesLoopF, hlt] using h

theorem sampleTimesF_fuel {fl : ℚ → ℚ} {n0 fuel : Nat} {start stop rate : ℚ} {ts : List ℚ}
    (h : sampleTimesF fl n0 start stop rate = .ok ts) (hle : n0 ≤ fuel) :
    sampleTimesF fl fuel start stop rate = .ok ts := by
  unfold sampleTimesF at h ⊢
  cases hl : sampleTimesLoopF fl stop rate n0 start [] with
  | error e => rw [hl] at h; simp [bind_error_eq] at h
  | ok r =>
    rw [hl, bind_ok_eq] at h
    obtain ⟨extra, rfl⟩ : ∃ extra, fuel = n0 + extra := ⟨fuel - n0, by omega⟩
    rw [sampleTimesLoopF_fuel fl stop rate n0 start [] r hl extra, bind_ok_eq]
    exact h

/-- The times pushed by the loop: with a rounding that keeps the order and its own
results, from a time that is a result of the rounding, they never decrease and are below
`stop`. -/
theorem sampleTimesLoopF_sorted (fl : ℚ → ℚ) (hfl : IsRounding fl) (stop rate : ℚ)
    (hrate : 0 < rate) :
    ∀ (fuel : ℕ) (time : ℚ) (acc r : List ℚ),
      sampleTimesLoopF fl stop rate fuel time acc = .ok r →
      fl time = time → acc.Pairwise (· ≤ ·) → (∀ x ∈ acc, x ≤ time ∧ x < stop) →
      r.Pairwise (· ≤ ·) ∧ ∀ x ∈ r, x < stop := by
  obtain ⟨hmono, _, hidem⟩ := hfl
  intro fuel
  induction fuel with
  | zero =>
    intro time acc r h _ hp hacc
    by_cases hlt : time < stop
    · simp [sampleTimesLoopF, hlt] at h
    · simp only [sampleTimesLoopF, hlt, if_false, Except.ok.injEq] at h
      rw [← h]
      exact ⟨hp, fun x hx => (hacc x hx).2⟩
  | succ f ih =>
    intro time acc r h hrep hp hacc
    by_cases hlt : time < stop
    · simp only [sampleTimesLoopF, hlt, if_true] at h
      have hnext : time ≤ fl (time + rate) := by
        have := hmono time (time + rate) (by linarith)
        rw [hrep] at this
        exact this
      refine ih _ _ _ h (hidem _) ?_ ?_
      · rw [List.pairwise_append]
        refine ⟨hp, List.pairwise_singleton _ _, ?_⟩
        intro a ha b hb
        simp only [List.mem_singleton] at hb
        rw [hb]
        exact (hacc a ha).1
      · intro x hx
        rcases List.mem_append.mp hx with hx | hx
        · exact ⟨le_trans (hacc x hx).1 hnext, (hacc x hx).2⟩
        · simp only [List.mem_singleton] at hx
          rw [hx]
          exact ⟨hnext, hlt⟩
    · simp only [sampleTimesLoopF, hlt, if_false, Except.ok.injEq] at h
      rw [← h]
      exact ⟨hp, fun x hx => (hacc x hx).2⟩

/-- The sample times of a clip, with rounding: `stop` comes last, after times that never
decrease and are below it. -/
theorem sampleTimesF_sorted {fl : ℚ → ℚ} (hfl : IsRounding fl) {fuel : Nat}
    {start stop rate : ℚ} {ts : List ℚ} (hrate : 0 < rate) (hstart : fl start = start)
    (h : sampleTimesF fl fuel start stop rate = .ok ts) :
    ∃ r, ts = r ++ [stop] ∧ ts.Pairwise (· ≤ ·) := by
  unfold sampleTimesF at h
  cases hl : sampleTimesLoopF fl stop rate fuel start [] with
  | error e => rw [hl] at h; simp [bind_error_eq] at h
  | ok r =>
    rw [hl, bind_ok_eq] at h
    simp only [Except.ok.injEq] at h
    obtain ⟨hp, hlt⟩ := sampleTimesLoopF_sorted fl hfl stop rate hrate fuel start [] r hl hstart
      List.Pairwise.nil (fun x hx => by cases hx)
    refine ⟨r, h.symm, ?_⟩
    rw [← h, List.pairwise_append]
    refine ⟨hp, List.pairwise_singleton _ _, ?_⟩
    intro a ha b hb
    simp only [List.mem_singleton] at hb
    rw [hb]
    exact le_of_lt (hlt a ha)

theorem sampleTimesF_ends {fl : ℚ → ℚ} {fuel : Nat} {start stop rate : ℚ} {ts : List ℚ}
    (h : sampleTimesF fl fuel start stop rate = .ok ts) : ∃ r, ts = r ++ [stop] := by
  unfold sampleTimesF at h
  cases hl : sampleTimesLoopF fl stop rate fuel start [] with
  | error e => rw [hl] at h; simp [bind_error_eq] at h
  | ok r =>
    rw [hl, bind_ok_eq] at h
    simp only [Except.ok.injEq] at h
    exact ⟨r, h.symm⟩

theorem reads_concat (r : List ℚ) (stop : ℚ) :
    vecGet (r ++ [stop]) (((r ++ [stop]).length : Int) - 1) = .ok stop ∧
    vecGet (r ++ [stop]) 0 = .ok ((r ++ [stop]).headD 0) := by
  refine ⟨vecGet_last_concat _ _, ?_⟩
  cases r with
  | nil => simp [vecGet]
  | cons a l => simp [vecGet]

theorem evaluateLoopF_fresh (fl : ℚ → ℚ) (bs : BlendShape) (params : ParamList) (ti sp : Int)
    (t0 : ℚ) (times : List ℚ) (t : Track) (maya : Scene) (ht : t.m_vertexKeyframes = []) :
    evaluateLoopF fl bs params ti sp t0 times (t, maya) =
      Except.map (fun r : Track × Scene => (retimeTrack fl r.1, r.2))
        (evaluateLoop bs params ti sp t0 times (t, maya)) := by
  have hret : retimeTrack fl t = t := by
    cases t
    simp only at ht
    simp [retimeTrack, ht]
  have := evaluateLoopF_eq fl bs params ti sp t0 times t maya
  rw [hret] at this
  exact this

/-- The keyframe times of a track returned by `loadTrackF`: none, or the rounded
differences between the sample times and the first of them. -/
theorem loadTrackF_times_form {fl : ℚ → ℚ} {fuel : Nat} {bs : BlendShape} {maya : Scene}
    {start stop rate : ℚ} {params : ParamList} {ti sp : Int} {t : Track} {bs' : BlendShape}
    {maya' : Scene} (hrate : 0 < rate)
    (h : loadTrackF fl fuel bs maya start stop rate params ti sp = .ok (t, bs', maya')) :
    ∃ times, sampleTimesF fl fuel start stop rate = .ok times ∧
      (t.m_vertexKeyframes = [] ∨
        t.m_vertexKeyframes.map (fun k => k.time)
          = times.map (fun time => fl (time - times.headD 0))) ∧
      (params.optimizePoseAnimation = false → bs' = bs) ∧
      (¬ fl (stop - times.headD 0) < 0 → ∃ pg, bs'.m_poseGroups ti = some pg ∧
        (keptPositions bs' pg.poses.length ≠ [] →
          t.m_vertexKeyframes.map (fun k => k.time)
            = times.map (fun time => fl (time - times.headD 0)))) := by
  unfold loadTrackF at h
  simp only [not_le.mpr hrate, if_false] at h
  cases hts : sampleTimesF fl fuel start stop rate with
  | error e => rw [hts] at h; simp [bind_error_eq] at h
  | ok times =>
    rw [hts, bind_ok_eq] at h
    refine ⟨times, rfl, ?_⟩
    obtain ⟨r, rfl⟩ := sampleTimesF_ends hts
    obtain ⟨hlast, hfirst⟩ := reads_concat r stop
    rw [hlast, bind_ok_eq, hfirst, bind_ok_eq] at h
    by_cases hlen : fl (stop - (r ++ [stop]).headD 0) < 0
    · simp only [hlen, if_true, Except.ok.injEq, Prod.mk.injEq] at h
      refine ⟨Or.inl (by rw [← h.1]), fun _ => h.2.1.symm, fun hc => absurd hlen hc⟩
    · simp only [hlen, if_false] at h
      -- the state in which the evaluation loop is entered
      have hev : ∃ (b : BlendShape) (m : Scene) (t1 : Track) (maya2 : Scene),
          evaluateLoopF fl b params ti sp ((r ++ [stop]).headD 0) (r ++ [stop])
            (({ m_type := trackType.TT_POSE, m_target := bs.m_target, m_index := ti,
                m_bone := Track.clear.m_bone, m_vertexKeyframes := [],
                m_skeletonKeyframes := Track.clear.m_skeletonKeyframes } : Track), m)
            = .ok (t1, maya2) ∧ t = t1 ∧ bs' = b ∧
          (params.optimizePoseAnimation = false → b = bs) := by
        cases hopt : params.optimizePoseAnimation with
        | false =>
          simp only [hopt, Bool.false_eq_true, if_false, pure, Except.pure, bind_ok_eq] at h
          cases hev : evaluateLoopF fl bs params ti sp ((r ++ [stop]).headD 0) (r ++ [stop])
              (({ m_type := trackType.TT_POSE, m_target := bs.m_target, m_index := ti,
                  m_bone := Track.clear.m_bone, m_vertexKeyframes := [],
                  m_skeletonKeyframes := Track.clear.m_skeletonKeyframes } : Track), maya) with
          | error e => rw [hev] at h; simp [bind_error_eq] at h
          | ok res =>
            obtain ⟨t1, maya2⟩ := res
            rw [hev, bind_ok_eq] at h
            simp only [Except.ok.injEq, Prod.mk.injEq] at h
            exact ⟨bs, maya, t1, maya2, hev, h.1.symm, h.2.1.symm, fun _ => rfl⟩
        | true =>
          simp only [hopt, if_true] at h
          cases hop : optimizeLoop fuel params ti sp ((r ++ [stop]).headD 0) (r ++ [stop])
              (bs, maya, 0) with
          | error e => rw [hop] at h; simp [bind_error_eq] at h
          | ok res =>
            obtain ⟨b, m, k⟩ := res
            simp only [hop, bind_ok_eq, pure, Except.pure] at h
            cases hev : evaluateLoopF fl b params ti sp ((r ++ [stop]).headD 0) (r ++ [stop])
                (({ m_type := trackType.TT_POSE, m_target := bs.m_target, m_index := ti,
                    m_bone := Track.clear.m_bone, m_vertexKeyframes := [],
                    m_skeletonKeyframes := Track.clear.m_skeletonKeyframes } : Track), m) with
            | error e => rw [hev] at h; simp [bind_error_eq] at h
            | ok res2 =>
              obtain ⟨t1, maya2⟩ := res2
              rw [hev, bind_ok_eq] at h
              simp only [Except.ok.injEq, Prod.mk.injEq] at h
              exact ⟨b, m, t1, maya2, hev, h.1.symm, h.2.1.symm, fun hc => by cases hc⟩
      obtain ⟨b, m, t1, maya2, hev, rfl, rfl, hsame⟩ := hev
      rw [evaluateLoopF_fresh fl bs' params ti sp _ _ _ m rfl] at hev
      cases hex : evaluateLoop bs' params ti sp ((r ++ [stop]).headD 0) (r ++ [stop])
          (({ m_type := trackType.TT_POSE, m_target := bs.m_target, m_index := ti,
              m_bone := Track.clear.m_bone, m_vertexKeyframes := [],
              m_skeletonKeyframes := Track.clear.m_skeletonKeyframes } : Track), m) with
      | error e => rw [hex] at hev; simp [Except.map] at hev
      | ok res =>
        obtain ⟨te, me⟩ := res
        rw [hex] at hev
        simp only [Except.map, Except.ok.injEq, Prod.mk.injEq] at hev
        obtain ⟨ht1, _⟩ := hev
        -- the group exists, since the first keyframe was loaded
        obtain ⟨a, rest, hcons⟩ : ∃ a rest, r ++ [stop] = a :: rest := by
          cases r with
          | nil => exact ⟨stop, [], rfl⟩
          | cons a l => exact ⟨a, l ++ [stop], rfl⟩
        have hpg : ∃ pg, bs'.m_poseGroups ti = some pg := by
          rw [hcons] at hex
          simp only [evaluateLoop] at hex
          cases hk : loadKeyframe bs' (m.setCurrentTime a) (a - (a :: rest).headD 0) params
              ti sp with
          | error e => rw [hk] at hex; simp [bind_error_eq] at hex
          | ok key =>
            obtain ⟨pg, hpg, _⟩ := loadKeyframe_ok hk
            exact ⟨pg, hpg⟩
        obtain ⟨pg, hpg⟩ := hpg
        obtain ⟨hte, _⟩ := evaluateLoop_ok bs' params ti sp _ hpg _ _ _ _ _ hex
        have hkept : keptPositions bs' pg.poses.length ≠ [] →
            (retimeTrack fl te).m_vertexKeyframes.map (fun k => k.time)
              = (r ++ [stop]).map (fun time => fl (time - (r ++ [stop]).headD 0)) := by
          intro hnil
          rw [hte]
          simp only [retimeTrack, hnil, if_false, List.nil_append, List.map_map]
          apply List.map_congr_left
          intro τ _
          rfl
        rw [← ht1]
        refine ⟨?_, hsame, fun _ => ⟨pg, hpg, hkept⟩⟩
        by_cases hnil : keptPositions bs' pg.poses.length = []
        · left; rw [hte]; simp [retimeTrack, hnil]
        · right; exact hkept hnil

theorem evaluateLoopF_total (fl : ℚ → ℚ) (bs : BlendShape) (params : ParamList) (ti sp : Int)
    (t0 : ℚ) {pg : poseGroup} (hpg : bs.m_poseGroups ti = some pg)
    (hlen : bs.poseOptArray.length = 0 ∨ pg.poses.length ≤ bs.poseOptArray.length)
    (times : List ℚ) (t : Track) (maya : Scene) (ht : t.m_vertexKeyframes = [])
    (hin : channelsInRange maya pg.poses) :
    ∃ t' maya', evaluateLoopF fl bs params ti sp t0 times (t, maya) = .ok (t', maya') := by
  obtain ⟨t', maya', hev⟩ := evaluateLoop_total bs params ti sp t0 hpg hlen times t maya hin
  rw [evaluateLoopF_fresh fl bs params ti sp t0 times t maya ht, hev]
  exact ⟨_, _, rfl⟩

theorem head_le_last (r : List ℚ) (stop : ℚ) (h : (r ++ [stop]).Pairwise (· ≤ ·)) :
    (r ++ [stop]).headD 0 ≤ stop := by
  cases r with
  | nil => simp
  | cons a l =>
    simp only [List.cons_append, List.headD_cons]
    rw [List.cons_append, List.pairwise_cons] at h
    exact h.1 stop (by simp)

/-- Whenever the sampling loop returns, `loadTrackF` returns, with enough fuel, on a
well-formed state. -/
theorem loadTrackF_returns {fl : ℚ → ℚ} (hfl : IsRounding fl) (bs : BlendShape)
    (maya : Scene) (start stop rate : ℚ) (params : ParamList) (ti sp : Int) {pg : poseGroup}
    (hrate : 0 < rate) (hstart : fl start = start)
    (hpg : bs.m_poseGroups ti = some pg) (hin : channelsInRange maya pg.poses)
    (hopt : params.optimizePoseAnimation = true → 0 < pg.poses.length)
    (hnon : params.optimizePoseAnimation = false →
      bs.poseOptArray.length = 0 ∨ pg.poses.length ≤ bs.poseOptArray.length)
    {n0 : Nat} {times : List ℚ} (hts0 : sampleTimesF fl n0 start stop rate = .ok times) :
    ∀ fuel, max n0 1 ≤ fuel → ∃ t bs' maya',
      loadTrackF fl fuel bs maya start stop rate params ti sp = .ok (t, bs', maya') := by
  intro fuel hfuel
  have hts := sampleTimesF_fuel hts0 (le_trans (le_max_left _ _) hfuel)
  obtain ⟨r, rfl, hsorted⟩ := sampleTimesF_sorted hfl hrate hstart hts
  obtain ⟨hlast, hfirst⟩ := reads_concat r stop
  have hle := head_le_last r stop hsorted
  have hnot : ¬ (fl (stop - (r ++ [stop]).headD 0) < 0) := by
    have := hfl.1 0 (stop - (r ++ [stop]).headD 0) (by linarith)
    rw [hfl.2.1] at this
    exact not_lt.mpr this
  unfold loadTrackF
  simp only [not_le.mpr hrate, if_false, hts, bind_ok_eq, hlast, hfirst, hnot]
  cases hop : params.optimizePoseAnimation with
  | false =>
    simp only [Bool.false_eq_true, if_false, pure, Except.pure, bind_ok_eq]
    obtain ⟨t', maya', hev⟩ := evaluateLoopF_total fl bs params ti sp
      ((r ++ [stop]).headD 0) hpg (hnon hop) (r ++ [stop])
      ({ m_type := trackType.TT_POSE, m_target := bs.m_target, m_index := ti,
         m_bone := Track.clear.m_bone, m_vertexKeyframes := [],
         m_skeletonKeyframes := Track.clear.m_skeletonKeyframes } : Track) maya rfl hin
    rw [hev]
    exact ⟨t', bs, maya', rfl⟩
  | true =>
    simp only [if_true]
    obtain ⟨b, m, k, hrunop, hk, hk0, hk1⟩ := optimizeLoop_total fuel params ti sp
      ((r ++ [stop]).headD 0) pg (hopt hop)
      (le_trans (le_max_right _ _) hfuel)
      (r ++ [stop]) bs maya 0 [] hpg hin
      (Or.inl rfl) (fun _ => rfl) (fun hc => by cases hc)
    have hkone : k = 1 := by
      rcases hk with h | h
      · have := hk0 h
        simp at this
      · exact h
    obtain ⟨hlenb, _⟩ := hk1 hkone
    obtain ⟨hgroups, _, hm⟩ := optimizeLoop_frame _ _ _ _ _ _ _ _ _ _ _ _ hrunop
    have hpgb : b.m_poseGroups ti = some pg := by rw [hgroups]; exact hpg
    have hinm : channelsInRange m pg.poses := by
      rw [hm, channelsInRange_foldl]; exact hin
    obtain ⟨t', maya', hev⟩ := evaluateLoopF_total fl b params ti sp
      ((r ++ [stop]).headD 0) hpgb (Or.inr (le_of_eq hlenb.symm)) (r ++ [stop])
      ({ m_type := trackType.TT_POSE, m_target := bs.m_target, m_index := ti,
         m_bone := Track.clear.m_bone, m_vertexKeyframes := [],
         m_skeletonKeyframes := Track.clear.m_skeletonKeyframes } : Track) m rfl hinm
    simp only [hrunop, bind_ok_eq, pure, Except.pure, hev]
    exact ⟨t', b, maya', rfl⟩

/-- The times of the keyframes of a track returned by `loadTrackF`, for a rounding: they
never decrease and the first is 0. -/
theorem loadTrackF_times_sorted {fl : ℚ → ℚ} (hfl : IsRounding fl) {fuel : Nat}
    {bs : BlendShape} {maya : Scene} {start stop rate : ℚ} {params : ParamList}
    {ti sp : Int} {t : Track} {bs' : BlendShape} {maya' : Scene} (hrate : 0 < rate)
    (hstart : fl start = start)
    (h : loadTrackF fl fuel bs maya start stop rate params ti sp = .ok (t, bs', maya')) :
    (t.m_vertexKeyframes.map (fun k => k.time)).Pairwise (· ≤ ·) ∧
    (∀ key rest, t.m_vertexKeyframes = key :: rest → key.time = 0) ∧
    ∃ times, sampleTimesF fl fuel start stop rate = .ok times ∧ times.Pairwise (· ≤ ·) ∧
      (t.m_vertexKeyframes = [] ∨
        t.m_vertexKeyframes.map (fun k => k.time)
          = times.map (fun time => fl (time - times.headD 0))) := by
  obtain ⟨times, hts, hform, _, _⟩ := loadTrackF_times_form hrate h
  obtain ⟨r, hr, hsorted⟩ := sampleTimesF_sorted hfl hrate hstart hts
  have hmap : (times.map (fun time => fl (time - times.headD 0))).Pairwise (· ≤ ·) := by
    rw [List.pairwise_map]
    exact hsorted.imp (fun hab => hfl.1 _ _ (by linarith))
  refine ⟨?_, ?_, times, hts, hsorted, hform⟩
  · rcases hform with h0 | h1
    · rw [h0]; simp
    · rw [h1]; exact hmap
  · intro key rest hk
    rcases hform with h0 | h1
    · rw [h0] at hk; cases hk
    · rw [hk] at h1
      cases times with
      | nil => simp at hr
      | cons a as =>
        simp only [List.map_cons, List.headD_cons, sub_self, List.cons.injEq] at h1
        rw [h1.1, hfl.2.1]

/-! ### A clip whose last two keyframes get the same time -/

theorem roundF32_thousand : roundF32 1000 = 1000 := by
  rw [roundF32_of_binade 9 16384000 (by norm_num) (by norm_num) (by norm_num)
    (by norm_num) (by norm_num)]
  norm_num

/-- In binary32 the numbers next to 1000 are 2^-14 apart: 1000 + 2^-16 rounds to 1000. -/
theorem roundF32_thousand_and_bit : roundF32 (1000 + 1 / 65536) = 1000 := by
  rw [roundF32_of_binade 9 16384000 (by norm_num) (by norm_num) (by norm_num)
    (by norm_num) (by norm_num)]
  norm_num

theorem roundF32_neg_thousand : roundF32 (-1000) = -1000 := by
  unfold roundF32
  rw [if_neg (by norm_num)]
  have h := roundF32_thousand
  unfold roundF32 at h
  rw [if_pos (by norm_num)] at h
  rw [neg_neg, h]

/-- The sample times of the clip from -1000 to 2^-16 sampled every 1000 seconds, in
binary32: -1000, 0 and the stop time. -/
theorem demo_sampleTimes :
    sampleTimesF roundF32 2 (-1000) (1 / 65536) 1000 = .ok [-1000, 0, 1 / 65536] := by
  have h1 : roundF32 (-1000 + 1000) = 0 := by
    rw [show (-1000 : ℚ) + 1000 = 0 by norm_num]; exact roundF32_zero
  have h2 : roundF32 (0 + 1000) = 1000 := by
    rw [show (0 : ℚ) + 1000 = 1000 by norm_num]; exact roundF32_thousand
  have c1 : (-1000 : ℚ) < 1 / 65536 := by norm_num
  have c2 : (0 : ℚ) < 1 / 65536 := by norm_num
  have c3 : ¬ ((1000 : ℚ) < 1 / 65536) := by norm_num
  simp only [sampleTimesF, sampleTimesLoopF, c1, c2, c3, h1, h2, if_true, if_false,
    bind_ok_eq, List.nil_append, List.cons_append]

/-- The run of `loadTrackF` in binary32 on that clip, for a deformer with one pose: it
returns, and the times of the three keyframes are 0, 1000 and 1000. -/
theorem demo_equal_times :
    ∃ t bs' maya',
      loadTrackF roundF32 2 (BlendShape.withPoses [demoPose 0]) Scene.ramp (-1000) (1 / 65536)
        1000 {} 0 7 = .ok (t, bs', maya') ∧
      t.m_vertexKeyframes.map (fun k => k.time) = [0, 1000, 1000] := by
  have hpg : (BlendShape.withPoses [demoPose 0]).m_poseGroups 0
      = some { targetIndex := 0, poses := [demoPose 0] } := by
    simp [BlendShape.withPoses, BlendShape.setGroup]
  obtain ⟨t, bs', maya', h⟩ := loadTrackF_returns isRounding_roundF32
    (BlendShape.withPoses [demoPose 0]) Scene.ramp (-1000) (1 / 65536) 1000 {} 0 7
    (by norm_num) roundF32_neg_thousand hpg
    (by simp [channelsInRange, demoPose, Scene.ramp, Scene.still])
    (by intro hc; cases hc) (by intro _; left; rfl) demo_sampleTimes 2 (by decide)
  refine ⟨t, bs', maya', h, ?_⟩
  obtain ⟨times, hts, _, hsame, hkept⟩ := loadTrackF_times_form (by norm_num) h
  rw [demo_sampleTimes] at hts
  simp only [Except.ok.injEq] at hts
  subst hts
  have hbs : bs' = BlendShape.withPoses [demoPose 0] := hsame rfl
  have h0 : roundF32 (-1000 - -1000) = 0 := by
    rw [show (-1000 : ℚ) - -1000 = 0 by norm_num]; exact roundF32_zero
  have h1 : roundF32 (0 - -1000) = 1000 := by
    rw [show (0 : ℚ) - -1000 = 1000 by norm_num]; exact roundF32_thousand
  have h2 : roundF32 (1 / 65536 - -1000) = 1000 := by
    rw [show (1 / 65536 : ℚ) - -1000 = 1000 + 1 / 65536 by norm_num]
    exact roundF32_thousand_and_bit
  have hlen : ¬ roundF32 (1 / 65536 - ([-1000, 0, 1 / 65536] : List ℚ).headD 0) < 0 := by
    simp only [List.headD_cons, h2]
    norm_num
  obtain ⟨pg, hpg', hk⟩ := hkept hlen
  rw [hbs, hpg] at hpg'
  simp only [Option.some.injEq] at hpg'
  subst hpg'
  have hne : keptPositions bs' ({ targetIndex := 0, poses := [demoPose 0] } : poseGroup).poses.length
      ≠ [] := by
    rw [hbs, keptPositions_all _ _ rfl]
    simp
  rw [hk hne]
  simp only [List.map_cons, List.map_nil, List.headD_cons, h0, h1, h2]

/-- The stop time 2^-16 of the clip is a binary32 number. -/
theorem roundF32_small : roundF32 (1 / 65536) = 1 / 65536 := by
  rw [roundF32_of_binade (-16) 8388608 (by norm_num) (by norm_num) (by norm_num) (by norm_num)
    (by norm_num)]
  norm_num

/-- C4 (counterexample): the start -1000, the stop 2^-16 and the rate 1000 are binary32
numbers; the clip from -1000 to 2^-16 sampled every 1000 seconds has the sample times
-1000, 0 and 2^-16; in binary32 the differences with the first of them are 0, 1000 and
1000 (1000 + 2^-16 is not a binary32 number and rounds to 1000), so the returned track has
two keyframes of the same time: the keyframe times are not strictly increasing. -/
theorem loadTrackF_equal_keyframe_times :
    roundF32 (-1000) = -1000 ∧ roundF32 (1 / 65536) = 1 / 65536 ∧ roundF32 1000 = 1000 ∧
    sampleTimesF roundF32 2 (-1000) (1 / 65536) 1000 = .ok [-1000, 0, 1 / 65536] ∧
    ∃ t bs' maya',
      loadTrackF roundF32 2 (BlendShape.withPoses [demoPose 0]) Scene.ramp (-1000) (1 / 65536)
        1000 {} 0 7 = .ok (t, bs', maya') ∧
      t.m_vertexKeyframes.map (fun k => k.time) = [0, 1000, 1000] ∧
      ¬ (t.m_vertexKeyframes.map (fun k => k.time)).Pairwise (· < ·) := by
  obtain ⟨t, bs', maya', h, htimes⟩ := demo_equal_times
  refine ⟨roundF32_neg_thousand, roundF32_small, roundF32_thousand, demo_sampleTimes,
    t, bs', maya', h, htimes, ?_⟩
  rw [htimes]
  simp

/-- C4, amended: for every `start`, `stop` and `rate > 0`, `start` being a result of the
rounding `fl` of the floats (a rounding that keeps the order, 0 and its own results, as
the rounding to binary32 does), in every track returned by `loadTrackF` the time of a
keyframe is the rounded difference between its sample time and the first sample time (or
there is no keyframe): the first keyframe, if there is one, has the time 0 and the
keyframe times never decrease, the sample times never decreasing either. The track is
indeed returned, with enough fuel, whenever the sampling loop returns, the pose group of
the target exists, its poses name channels of the deformer, the optimisation array is
empty or covers the group when the optimisation is disabled, and the group is not empty
when it is enabled. Without rounding (exact arithmetic) the keyframe times are strictly
increasing. -/
theorem loadTrackF_keyframe_times (fl : ℚ → ℚ) (hfl : IsRounding fl) (bs : BlendShape)
    (maya : Scene) (start stop rate : ℚ) (params : ParamList) (targetIndex startPoseId : Int)
    (hrate : 0 < rate) (hstart : fl start = start) :
    (∀ fuel t bs' maya',
      loadTrackF fl fuel bs maya start stop rate params targetIndex startPoseId
          = .ok (t, bs', maya') →
        (t.m_vertexKeyframes.map (fun k => k.time)).Pairwise (· ≤ ·) ∧
        (∀ key rest, t.m_vertexKeyframes = key :: rest → key.time = 0) ∧
        ∃ times, sampleTimesF fl fuel start stop rate = .ok times ∧
          times.Pairwise (· ≤ ·) ∧
          (t.m_vertexKeyframes = [] ∨
            t.m_vertexKeyframes.map (fun k => k.time)
              = times.map (fun time => fl (time - times.headD 0)))) ∧
    (∀ (pg : poseGroup) (n0 : Nat) (times : List ℚ),
      bs.m_poseGroups targetIndex = some pg → channelsInRange maya pg.poses →
      (params.optimizePoseAnimation = true → pg.poses ≠ []) →
      (params.optimizePoseAnimation = false →
        bs.poseOptArray.length = 0 ∨ pg.poses.length ≤ bs.poseOptArray.length) →
      sampleTimesF fl n0 start stop rate = .ok times →
      ∀ fuel, max n0 1 ≤ fuel → ∃ t bs' maya',
        loadTrackF fl fuel bs maya start stop rate params targetIndex startPoseId
          = .ok (t, bs', maya')) ∧
    (∀ fuel t bs' maya',
      loadTrackF id fuel bs maya start stop rate params targetIndex startPoseId
          = .ok (t, bs', maya') →
        (t.m_vertexKeyframes.map (fun k => k.time)).Pairwise (· < ·)) := by
  refine ⟨?_, ?_, ?_⟩
  · intro fuel t bs' maya' h
    exact loadTrackF_times_sorted hfl hrate hstart h
  · intro pg n0 times hpg hin hopt hnon hts fuel hfuel
    exact loadTrackF_returns hfl bs maya start stop rate params targetIndex startPoseId
      hrate hstart hpg hin (fun h => List.length_pos.mpr (hopt h)) hnon hts fuel hfuel
  · intro fuel t bs' maya' h
    rw [loadTrackF_id] at h
    obtain ⟨times, _, hpw, _, hform⟩ := loadTrack_times_form hrate h
    rcases hform with h0 | h1
    · rw [h0]; simp
    · rw [h1, List.pairwise_map]
      exact hpw.imp (fun hab => by linarith)

/-- The clip from -1000 to 2^-16 sampled every 1000 seconds in binary32: the rounding to
binary32 is a rounding, -1000 is a binary32 number, `loadTrackF` returns, and the times of
its keyframes, 0, 1000 and 1000, never decrease and start at 0. -/
theorem loadTrackF_keyframe_times_witness :
    IsRounding roundF32 ∧ (0 : ℚ) < 1000 ∧ roundF32 (-1000) = -1000 ∧
    ∃ t bs' maya',
      loadTrackF roundF32 2 (BlendShape.withPoses [demoPose 0]) Scene.ramp (-1000) (1 / 65536)
        1000 {} 0 7 = .ok (t, bs', maya') ∧
      (t.m_vertexKeyframes.map (fun k => k.time)).Pairwise (· ≤ ·) ∧
      (∀ key rest, t.m_vertexKeyframes = key :: rest → key.time = 0) := by
  refine ⟨isRounding_roundF32, by norm_num, roundF32_neg_thousand, ?_⟩
  have hthm := loadTrackF_keyframe_times roundF32 isRounding_roundF32
    (BlendShape.withPoses [demoPose 0]) Scene.ramp (-1000) (1 / 65536) 1000 {} 0 7
    (by norm_num) roundF32_neg_thousand
  obtain ⟨t, bs', maya', h⟩ := hthm.2.1 { targetIndex := 0, poses := [demoPose 0] } 2
    [-1000, 0, 1 / 65536]
    (by simp [BlendShape.withPoses, BlendShape.setGroup])
    (by simp [channelsInRange, demoPose, Scene.ramp, Scene.still])
    (by simp) (by intro _; left; rfl) demo_sampleTimes 2 (by decide)
  obtain ⟨h1, h2, _⟩ := hthm.1 2 t bs' maya' h
  exact ⟨t, bs', maya', h, h1, h2⟩

/-! ### A clip whose sampling never ends in binary32 -/

/-- Between 2^25 and 2^26 the binary32 numbers are the multiples of 4: 2^25 + 1 rounds
to 2^25. -/
theorem roundF32_stall : roundF32 (33554432 + 1) = 33554432 := by
  rw [roundF32_of_binade 25 8388608 (by norm_num) (by norm_num) (by norm_num) (by norm_num)
    (by norm_num)]
  norm_num

/-- When the rounded sum `time + rate` is `time` again and `time < stop`, the sampling loop
uses up every fuel. -/
theorem sampleTimesLoopF_stalls (fl : ℚ → ℚ) (stop rate time : ℚ)
    (hfix : fl (time + rate) = time) (hlt : time < stop) :
    ∀ (fuel : Nat) (times : List ℚ),
      sampleTimesLoopF fl stop rate fuel time times = .error .outOfFuel := by
  intro fuel
  induction fuel with
  | zero => intro times; simp only [sampleTimesLoopF, if_pos hlt]
  | succ n ih => intro times; simp only [sampleTimesLoopF, if_pos hlt, hfix]; exact ih _

/-- In binary32 the clip from 2^25 to 2^26 sampled every second is never loaded: the sample
time stays 2^25, so `loadTrackF` uses up every fuel, whatever the deformer. -/
theorem loadTrackF_binary32_stalls (fuel : Nat) (bs : BlendShape) (maya : Scene)
    (params : ParamList) (targetIndex startPoseId : Int) :
    loadTrackF roundF32 fuel bs maya 33554432 67108864 1 params targetIndex startPoseId
      = .error .outOfFuel := by
  have h := sampleTimesLoopF_stalls roundF32 67108864 1 33554432 roundF32_stall (by norm_num)
    fuel []
  have hr : ¬ ((1 : ℚ) ≤ 0) := by norm_num
  simp only [loadTrackF, sampleTimesF, h, if_neg hr, bind_error_eq]

end OgreMayaExporter
